import Mathlib

/-!
# lifo: a shallow embedding of `lifo.c`

The interpreter keeps all of its data in three-word blocks that are linked
into chains through a `next` field.  The embedding keeps the following view
of that memory.

* A chain of cells (the stack, the dictionary, the hold list, the payload of
  a list, the cells of a chunk) is a `List` of cells, head first.
* A cell (`struct lf_obj`) is a constructor of `lf_obj`: the constructor is
  the cell's `type` tag, `ref` identifies the reference record the cell
  points at, and the remaining arguments are the payload stored in that
  record.  The source never changes the payload of a record that more than
  one cell points at (only its count changes), so every cell carries the
  payload of its record with it.
* The count `ref->cnt` of every record lives in the table `lf_ctx.cnt`,
  indexed by record.  `lf_ctx.brk` is the next unused record identifier.
* The free list is its length `lf_ctx.free`: `make_block` takes one block
  from it and `free_block` gives one back.
* `lf_num` (a C `float`) and its arithmetic are a parameter, the class
  `LfNum`.  Nothing is assumed about it; in particular `LfNum.eq` (the C
  operator `==`) is not assumed reflexive, as it is not for a NaN.
* Signal handlers are the default ones (`lf_dfl_hdl` returns the signal it
  is given), so `lf_raise` always releases the hold list and escapes; the
  text a handler writes is not modelled.  An escape is the result
  `Res.sig`, which carries the context as the escape leaves it.
* A dereference of `NULL` (possible only when `size` disagrees with the
  stack chain, or the dictionary is not made of name/value pairs) is the
  result `Res.fault`.
* Loops that the source does not bound (`execute`, `apply`, the reader) take
  a fuel argument; running out of it is the result `Res.nofuel`.
* `lf_eval_hdl` is `lf_eval` with the handler of `LF_SUNFCHK` as a parameter
  (a handler that returns a signal and leaves the context alone).
* The jump buffer `ctx->sbuf` appears only where the target of an escape
  matters (`lf_sbuf`, `longjmp`, `lf_raise_sbuf`, `lf_reset`): a `longjmp`
  into a function that has returned is the outcome `lf_jump.undefined`.
* What `lf_trace` hands to the write callback is a list of bytes; the
  conversions of `sprintf` are the parameter `lf_fmt`.
* A text is a list of bytes that the read callback hands out one by one,
  followed by NUL.  The reader is also described token by token
  (`tokens`, `act`, `run_toks`), and `read_text_tokens` shows that this is
  what `read_text` does.
-/

namespace Lifo

/-! ## Constants of `lifo.h` -/

/-- The size of a pointer, `sizeof(void*)`, on an LP64 target. -/
def SIZEOF_PTR : Nat := 8

/-- The constant `LF_STRBUF_SIZE` of lifo.h, `sizeof(void*) * 2`. -/
def LF_STRBUF_SIZE : Nat := SIZEOF_PTR * 2

/-- The constant `LF_SYM_MAX_LEN` of lifo.h. -/
def LF_SYM_MAX_LEN : Nat := 64

/-- The type tags, `enum lf_type`. -/
inductive lf_type where
  | LF_TLST
  | LF_TSYM
  | LF_TSTR
  | LF_TNTV
  | LF_TNUM
  | LF_TUSR
  deriving DecidableEq, Repr

/-- The signals, `enum lf_sig`. -/
inductive lf_sig where
  | LF_SOK
  | LF_SUNFCHK
  | LF_SPRSERR
  | LF_SRUNERR
  | LF_SENOMEM
  | LF_SOVRFLW
  | LF_SUNDFLW
  | LF_SINIERR
  | LF_SERR
  deriving DecidableEq, Repr

/-- The native functions a cell of type `LF_TNTV` can point at: the entries of
`builtin_val`. -/
inductive lf_ntv where
  | lf_rol | lf_cpy | lf_drp | lf_wrp | lf_pul | lf_apl | lf_reg | lf_rem
  | lf_fnd | lf_eq | lf_is | lf_rf | lf_sz | lf_add | lf_sub | lf_mul
  | lf_div | lf_mod | lf_sgn
  deriving DecidableEq, Repr

/-- The scalar `lf_num` with the operations the source applies to it: the C
operators `+ - * /`, `fmod`, `==`, `<`, the conversions from and to `lf_int`,
and `strtod` (`some v` when the whole token is consumed). -/
class LfNum (N : Type) where
  add : N → N → N
  sub : N → N → N
  mul : N → N → N
  div : N → N → N
  fmod : N → N → N
  eq : N → N → Bool
  lt : N → N → Bool
  ofInt : Int → N
  toInt : N → Int
  strtod : List Char → Option N

/-- A string segment chain (`lf_str`): the text of each segment, without its
terminating NUL, in chain order. -/
abbrev lf_str := List (List Char)

/-- A cell together with the record it points at: the constructor is the
`type` tag, `ref` names the record, the rest is the record's payload. -/
inductive lf_obj (N : Type) where
  | lst (ref : Nat) (val : List (lf_obj N))
  | sym (ref : Nat) (val : lf_str)
  | str (ref : Nat) (val : lf_str)
  | ntv (ref : Nat) (val : lf_ntv)
  | num (ref : Nat) (val : N)
  | usr (ref : Nat) (dat : Nat) (fin : Nat)

/-- The `type` field of a cell. -/
def lf_obj.type {N : Type} : lf_obj N → lf_type
  | .lst _ _ => .LF_TLST
  | .sym _ _ => .LF_TSYM
  | .str _ _ => .LF_TSTR
  | .ntv _ _ => .LF_TNTV
  | .num _ _ => .LF_TNUM
  | .usr _ _ _ => .LF_TUSR

/-- The `ref` field of a cell: the record it points at. -/
def lf_obj.ref {N : Type} : lf_obj N → Nat
  | .lst r _ => r
  | .sym r _ => r
  | .str r _ => r
  | .ntv r _ => r
  | .num r _ => r
  | .usr r _ _ => r

mutual
/-- Equality of two cells (tag, record and payload) is decidable. -/
def lf_obj.decEq {N : Type} [DecidableEq N] : (a b : lf_obj N) → Decidable (a = b)
  | .lst r x, .lst s y =>
    match Nat.decEq r s, lf_obj.decEqChain x y with
    | isTrue h1, isTrue h2 => isTrue (by rw [h1, h2])
    | isFalse h1, _ => isFalse (fun h => h1 (by cases h; rfl))
    | _, isFalse h2 => isFalse (fun h => h2 (by cases h; rfl))
  | .lst _ _, .sym _ _ => isFalse (fun h => by cases h)
  | .lst _ _, .str _ _ => isFalse (fun h => by cases h)
  | .lst _ _, .ntv _ _ => isFalse (fun h => by cases h)
  | .lst _ _, .num _ _ => isFalse (fun h => by cases h)
  | .lst _ _, .usr _ _ _ => isFalse (fun h => by cases h)
  | .sym _ _, .lst _ _ => isFalse (fun h => by cases h)
  | .sym r x, .sym s y =>
    if h : r = s ∧ x = y then isTrue (by rw [h.1, h.2])
    else isFalse (fun e => h (by cases e; exact ⟨rfl, rfl⟩))
  | .sym _ _, .str _ _ => isFalse (fun h => by cases h)
  | .sym _ _, .ntv _ _ => isFalse (fun h => by cases h)
  | .sym _ _, .num _ _ => isFalse (fun h => by cases h)
  | .sym _ _, .usr _ _ _ => isFalse (fun h => by cases h)
  | .str _ _, .lst _ _ => isFalse (fun h => by cases h)
  | .str _ _, .sym _ _ => isFalse (fun h => by cases h)
  | .str r x, .str s y =>
    if h : r = s ∧ x = y then isTrue (by rw [h.1, h.2])
    else isFalse (fun e => h (by cases e; exact ⟨rfl, rfl⟩))
  | .str _ _, .ntv _ _ => isFalse (fun h => by cases h)
  | .str _ _, .num _ _ => isFalse (fun h => by cases h)
  | .str _ _, .usr _ _ _ => isFalse (fun h => by cases h)
  | .ntv _ _, .lst _ _ => isFalse (fun h => by cases h)
  | .ntv _ _, .sym _ _ => isFalse (fun h => by cases h)
  | .ntv _ _, .str _ _ => isFalse (fun h => by cases h)
  | .ntv r x, .ntv s y =>
    if h : r = s ∧ x = y then isTrue (by rw [h.1, h.2])
    else isFalse (fun e => h (by cases e; exact ⟨rfl, rfl⟩))
  | .ntv _ _, .num _ _ => isFalse (fun h => by cases h)
  | .ntv _ _, .usr _ _ _ => isFalse (fun h => by cases h)
  | .num _ _, .lst _ _ => isFalse (fun h => by cases h)
  | .num _ _, .sym _ _ => isFalse (fun h => by cases h)
  | .num _ _, .str _ _ => isFalse (fun h => by cases h)
  | .num _ _, .ntv _ _ => isFalse (fun h => by cases h)
  | .num r x, .num s y =>
    if h : r = s ∧ x = y then isTrue (by rw [h.1, h.2])
    else isFalse (fun e => h (by cases e; exact ⟨rfl, rfl⟩))
  | .num _ _, .usr _ _ _ => isFalse (fun h => by cases h)
  | .usr _ _ _, .lst _ _ => isFalse (fun h => by cases h)
  | .usr _ _ _, .sym _ _ => isFalse (fun h => by cases h)
  | .usr _ _ _, .str _ _ => isFalse (fun h => by cases h)
  | .usr _ _ _, .ntv _ _ => isFalse (fun h => by cases h)
  | .usr _ _ _, .num _ _ => isFalse (fun h => by cases h)
  | .usr r x f, .usr s y g =>
    if h : r = s ∧ x = y ∧ f = g then isTrue (by rw [h.1, h.2.1, h.2.2])
    else isFalse (fun e => h (by cases e; exact ⟨rfl, rfl, rfl⟩))
/-- Equality of two chains of cells is decidable. -/
def lf_obj.decEqChain {N : Type} [DecidableEq N] : (a b : List (lf_obj N)) → Decidable (a = b)
  | [], [] => isTrue rfl
  | [], _ :: _ => isFalse (fun h => by cases h)
  | _ :: _, [] => isFalse (fun h => by cases h)
  | a :: as, b :: bs =>
    match lf_obj.decEq a b, lf_obj.decEqChain as bs with
    | isTrue h1, isTrue h2 => isTrue (by rw [h1, h2])
    | isFalse h1, _ => isFalse (fun h => h1 (by cases h; rfl))
    | _, isFalse h2 => isFalse (fun h => h2 (by cases h; rfl))
end

instance {N : Type} [DecidableEq N] : DecidableEq (lf_obj N) := lf_obj.decEq

/-- The context `struct lf_ctx`: `stck`, `dict` and `hold` are the three
chains, `free` is the length of the free list, `cnt` holds the count of every
record and `brk` is the next unused record.  `chk` is the chunk pointer that
the host hands to `lf_read` and `lf_wipe` by reference (the open chunks,
innermost first, each the chain of its cells; `[]` is `NULL`). -/
structure lf_ctx (N : Type) where
  size : Int
  stck : List (lf_obj N)
  dict : List (lf_obj N)
  free : Nat
  hold : List (lf_obj N)
  cnt : Nat → Nat
  brk : Nat
  chk : List (List (lf_obj N))

/-- The outcome of running a piece of the interpreter: it returns `a`, or
escapes with a signal (`longjmp`), or dereferences `NULL`, or needs more
fuel. -/
inductive Res (N α : Type) where
  | ok (a : α) (c : lf_ctx N)
  | sig (s : lf_sig) (c : lf_ctx N)
  | fault
  | nofuel

/-- A piece of the interpreter: a function of the context. -/
def LF (N α : Type) : Type := lf_ctx N → Res N α

/-- Sequencing: the second part runs only when the first one returns. -/
def LF.bind {N α β : Type} (m : LF N α) (f : α → LF N β) : LF N β := fun c =>
  match m c with
  | .ok a c1 => f a c1
  | .sig s c1 => .sig s c1
  | .fault => .fault
  | .nofuel => .nofuel

instance {N : Type} : Monad (LF N) where
  pure a := fun c => .ok a c
  bind := LF.bind

/-- Read the context. -/
def getCtx {N : Type} : LF N (lf_ctx N) := fun c => .ok c c

/-- Change the context. -/
def modifyCtx {N : Type} (f : lf_ctx N → lf_ctx N) : LF N Unit := fun c => .ok () (f c)

/-- A dereference of `NULL`. -/
def fault {N α : Type} : LF N α := fun _ => .fault

/-! ## Reference counts and release -/

/-- The constant `UINT_MAX` of a 32-bit `unsigned`. -/
def UINT_MAX : Nat := 4294967295

/-- The C statement `++cnt` on an `unsigned` (which wraps around). -/
def cnt_inc (n : Nat) : Nat := if n = UINT_MAX then 0 else n + 1

/-- The C statement `--cnt` on an `unsigned` (which wraps around). -/
def cnt_dec (n : Nat) : Nat := if n = 0 then UINT_MAX else n - 1

/-- Store `v` as the count of record `r`. -/
def set_cnt (f : Nat → Nat) (r v : Nat) : Nat → Nat := fun i => if i = r then v else f i

/-- The macro `free_block`: one more block on the free list. -/
def free_block {N : Type} (c : lf_ctx N) : lf_ctx N := { c with free := c.free + 1 }

mutual
/-- The function `free_ref`: drop one reference; at zero release the payload
and the record.  The finalizer of a `LF_TUSR` record is the host's and is not
modelled. -/
def free_ref {N : Type} : lf_obj N → lf_ctx N → lf_ctx N
  | .lst r val, c =>
    let c1 := { c with cnt := set_cnt c.cnt r (cnt_dec (c.cnt r)) }
    if cnt_dec (c.cnt r) = 0 then free_block (free_list val c1) else c1
  | .sym r s, c =>
    let c1 := { c with cnt := set_cnt c.cnt r (cnt_dec (c.cnt r)) }
    if cnt_dec (c.cnt r) = 0 then free_block { c1 with free := c1.free + s.length } else c1
  | .str r s, c =>
    let c1 := { c with cnt := set_cnt c.cnt r (cnt_dec (c.cnt r)) }
    if cnt_dec (c.cnt r) = 0 then free_block { c1 with free := c1.free + s.length } else c1
  | .ntv r _, c =>
    let c1 := { c with cnt := set_cnt c.cnt r (cnt_dec (c.cnt r)) }
    if cnt_dec (c.cnt r) = 0 then free_block c1 else c1
  | .num r _, c =>
    let c1 := { c with cnt := set_cnt c.cnt r (cnt_dec (c.cnt r)) }
    if cnt_dec (c.cnt r) = 0 then free_block c1 else c1
  | .usr r _ _, c =>
    let c1 := { c with cnt := set_cnt c.cnt r (cnt_dec (c.cnt r)) }
    if cnt_dec (c.cnt r) = 0 then free_block c1 else c1
/-- The function `free_list`: release every cell of a chain. -/
def free_list {N : Type} : List (lf_obj N) → lf_ctx N → lf_ctx N
  | [], c => c
  | o :: rest, c => free_list rest (free_block (free_ref o c))
end

/-- The function `free_obj`: release the cell's reference and its block (the
caller keeps the rest of the chain). -/
def free_obj {N : Type} (o : lf_obj N) (c : lf_ctx N) : lf_ctx N := free_block (free_ref o c)

/-- The macro `free_hold`. -/
def free_hold {N : Type} (c : lf_ctx N) : lf_ctx N := { free_list c.hold c with hold := [] }

/-- The function `lf_raise` with a handler that returns its signal: release the
hold list and escape. -/
def lf_raise {N α : Type} (s : lf_sig) : LF N α := fun c => .sig s (free_hold c)

/-! ## Allocation -/

/-- The function `make_block`: take a block from the free list; raise
`LF_SENOMEM` when it is empty. -/
def make_block {N : Type} : LF N Unit := fun c =>
  if c.free = 0 then lf_raise .LF_SENOMEM c else .ok () { c with free := c.free - 1 }

/-- A block taken for a reference record, its count set to 1; returns the
record. -/
def make_rec {N : Type} : LF N Nat := do
  make_block
  let c ← getCtx
  modifyCtx fun c => { c with cnt := set_cnt c.cnt c.brk 1, brk := c.brk + 1 }
  pure c.brk

/-- The function `make_obj`: a block for the cell, then a record of count 1. -/
def make_obj {N : Type} : LF N Nat := do
  make_block
  make_rec

/-- The function `make_ref`: a new cell that points at the record of `obj`. -/
def make_ref {N : Type} (obj : lf_obj N) : LF N (lf_obj N) := do
  make_block
  modifyCtx fun c => { c with cnt := set_cnt c.cnt obj.ref (cnt_inc (c.cnt obj.ref)) }
  pure obj

/-! ## Strings, equality, copies -/

/-- The NUL byte. -/
def NUL : Char := Char.ofNat 0

/-- The `for` loop of `build_string`: copy at most `n` bytes of `txt`, stopping
at its end (a NUL); the bytes copied and the text after them. -/
def copy_seg : Nat → List Char → List Char × List Char
  | 0, txt => ([], txt)
  | _ + 1, [] => ([], [])
  | n + 1, ch :: rest =>
    if ch = NUL then ([], ch :: rest)
    else
      match copy_seg n rest with
      | (seg, txt1) => (ch :: seg, txt1)

/-- The `while` loop of `build_string`: every round takes a block for a new
segment and fills it with at most `LF_STRBUF_SIZE - 1` bytes, so `fuel` rounds
are enough when the free list holds fewer blocks. -/
def build_string_loop {N : Type} : Nat → List Char → Nat → LF N lf_str
  | 0, _, _ => fun _ => .nofuel
  | fuel + 1, txt, len =>
    if len = 0 then pure []
    else do
      make_block
      match copy_seg (if len < LF_STRBUF_SIZE - 1 then len else LF_STRBUF_SIZE - 1) txt with
      | (seg, txt1) => do
        let rest ← build_string_loop fuel txt1 (len - seg.length)
        pure (seg :: rest)

/-- The function `build_string`. -/
def build_string {N : Type} (txt : List Char) (len : Nat) : LF N lf_str := fun c =>
  build_string_loop (c.free + 1) txt len c

/-- The function `streq`: the segments are compared pairwise with `strcmp`, and
both chains must end together. -/
def streq : lf_str → lf_str → Bool
  | a :: as, b :: bs => if a != b then false else streq as bs
  | [], [] => true
  | _, _ => false

mutual
/-- The function `objeq`.  Two `LF_TLST` cells that point at the same record
have the same cells as payload, which the test `a == b` of the source accepts
one by one; cells of different chains are never the same cell. -/
def objeq {N : Type} [LfNum N] : lf_obj N → lf_obj N → Bool
  | .lst r a, .lst s b => if r = s then true else objeq_chain a b
  | .sym _ a, .sym _ b => streq a b
  | .str _ a, .str _ b => streq a b
  | .ntv _ f, .ntv _ g => f == g
  | .num _ x, .num _ y => LfNum.eq x y
  | .usr _ d _, .usr _ e _ => d == e
  | _, _ => false
/-- The loop of `objeq` over two payload chains. -/
def objeq_chain {N : Type} [LfNum N] : List (lf_obj N) → List (lf_obj N) → Bool
  | a :: as, b :: bs => if objeq a b then objeq_chain as bs else false
  | [], [] => true
  | _, _ => false
end

mutual
/-- The function `make_cpy`.  For `LF_TNTV` and `LF_TNUM` the assignment
`cpy->ref->usr = obj->ref->usr` copies the whole record, its count
included. -/
def make_cpy {N : Type} : lf_obj N → LF N (lf_obj N)
  | .lst _ val => do
    let r ← make_obj
    let val1 ← make_cpy_chain val
    pure (.lst r val1)
  | .str r s => make_ref (.str r s)
  | .sym r s => make_ref (.sym r s)
  | .usr r d f => make_ref (.usr r d f)
  | .ntv r f => do
    let r1 ← make_obj
    modifyCtx fun c => { c with cnt := set_cnt c.cnt r1 (c.cnt r) }
    pure (.ntv r1 f)
  | .num r v => do
    let r1 ← make_obj
    modifyCtx fun c => { c with cnt := set_cnt c.cnt r1 (c.cnt r) }
    pure (.num r1 v)
/-- The loop of `make_cpy` over the payload of a list. -/
def make_cpy_chain {N : Type} : List (lf_obj N) → LF N (List (lf_obj N))
  | [] => pure []
  | it :: rest => do
    let cpy ← make_cpy it
    let rest1 ← make_cpy_chain rest
    pure (cpy :: rest1)
end

/-- The function `push_obj`. -/
def push_obj {N : Type} (obj : lf_obj N) : LF N Unit :=
  modifyCtx fun c => { c with stck := obj :: c.stck, size := c.size + 1 }

/-! ## The stack interface -/

/-- The function `lf_peek`: the cell `i` links below the top. -/
def lf_peek {N : Type} (i : Int) : LF N (lf_obj N) := fun c =>
  if i ≥ c.size ∨ c.size = 0 then lf_raise .LF_SUNDFLW c
  else if i < 0 then lf_raise .LF_SOVRFLW c
  else match c.stck[i.toNat]? with
    | some obj => .ok obj c
    | none => .fault

/-- The function `lf_take`: unlink the cell `i` links below the top and put it
at the head of the hold list. -/
def lf_take {N : Type} (i : Int) : LF N (lf_obj N) := fun c =>
  if i ≥ c.size ∨ c.size = 0 then lf_raise .LF_SUNDFLW c
  else if i < 0 then lf_raise .LF_SOVRFLW c
  else match c.stck[i.toNat]? with
    | some res =>
      .ok res { c with stck := c.stck.eraseIdx i.toNat, hold := res :: c.hold, size := c.size - 1 }
    | none => .fault

/-- The function `lf_to_num` (`check_type(LF_TNUM)`). -/
def lf_to_num {N : Type} : lf_obj N → LF N N
  | .num _ v => pure v
  | _ => lf_raise .LF_SRUNERR

/-- The function `lf_to_str` (`check_type(LF_TSTR)`). -/
def lf_to_str {N : Type} : lf_obj N → LF N lf_str
  | .str _ s => pure s
  | _ => lf_raise .LF_SRUNERR

/-- The function `lf_push_num`. -/
def lf_push_num {N : Type} (num : N) : LF N Unit := do
  let r ← make_obj
  push_obj (.num r num)

/-- The function `lf_push_str` (`len == 0` stands for `strlen(str)`). -/
def lf_push_str {N : Type} (s : List Char) (len : Nat) : LF N Unit := do
  let r ← make_obj
  let val ← build_string s (if len = 0 then (s.takeWhile (fun ch => ch != NUL)).length else len)
  push_obj (.str r val)

/-- The table `lf_typenames`. -/
def lf_typenames : lf_type → List Char
  | .LF_TLST => "lst".toList
  | .LF_TSYM => "sym".toList
  | .LF_TSTR => "str".toList
  | .LF_TNTV => "ntv".toList
  | .LF_TNUM => "num".toList
  | .LF_TUSR => "usr".toList

/-! ## Generic stack operations -/

/-- The function `lf_rol`, branch `step < 0`: the first cell is unlinked and
linked in again after the cell `last`, which is `k` links below it. -/
def rol_down {N : Type} (k : Nat) : List (lf_obj N) → Option (List (lf_obj N))
  | [] => none
  | first :: rest =>
    match k, rest with
    | 0, _ => some (first :: rest)
    | _ + 1, [] => none
    | 1, last :: rest1 => some (last :: first :: rest1)
    | j + 2, x :: rest1 => (rol_down (j + 1) (first :: rest1)).map (fun l => x :: l)

/-- The function `lf_rol`, branch `step > 0`: the cell after `prev` (`prev` is
`k` links below the top) is unlinked; the result is that cell and the chain
without it, or `none` when `prev` is the last cell. -/
def rol_unlink {N : Type} : Nat → List (lf_obj N) → Option (lf_obj N × List (lf_obj N))
  | _, [] => none
  | 0, _ :: [] => none
  | 0, prev :: last :: rest => some (last, prev :: rest)
  | k + 1, x :: rest => (rol_unlink k rest).map (fun p => (p.1, x :: p.2))

/-- The function `lf_rol` once `step` has been read. -/
def rol_step {N : Type} (step : Int) : LF N Unit :=
  if step < 0 then do
    let _ ← lf_peek (-step)
    let c ← getCtx
    match rol_down (-step).toNat c.stck with
    | some l => modifyCtx fun c => { c with stck := l }
    | none => fault
  else if step > 0 then do
    let _ ← lf_peek (step - 1)
    let c ← getCtx
    match rol_unlink (step - 1).toNat c.stck with
    | some (last, l) => modifyCtx fun c => { c with stck := last :: l }
    | none => lf_raise .LF_SUNDFLW
  else pure ()

/-- The function `lf_rol`. -/
def lf_rol {N : Type} [LfNum N] : LF N Unit := do
  let o ← lf_take 0
  let n ← lf_to_num o
  rol_step (LfNum.toInt n)

/-- The function `lf_cpy`. -/
def lf_cpy {N : Type} [LfNum N] : LF N Unit := do
  let o ← lf_take 0
  let n ← lf_to_num o
  let idx : Int := LfNum.toInt n
  let x ← lf_peek idx
  let cpy ← make_cpy x
  push_obj cpy

/-- The function `lf_drp`. -/
def lf_drp {N : Type} [LfNum N] : LF N Unit := do
  let o ← lf_take 0
  let n ← lf_to_num o
  let _ ← lf_take (LfNum.toInt n)
  pure ()

/-- The function `lf_wrp`: the chain from the top down to the cell `idx` links
below it is cut off the stack and becomes the payload of a new list. -/
def lf_wrp {N : Type} [LfNum N] : LF N Unit := do
  let o ← lf_take 0
  let n ← lf_to_num o
  let idx : Int := LfNum.toInt n
  let _ ← lf_peek idx
  let r ← make_obj
  let c ← getCtx
  modifyCtx fun c => { c with stck := c.stck.drop (idx.toNat + 1) }
  push_obj (.lst r (c.stck.take (idx.toNat + 1)))
  modifyCtx fun c => { c with size := c.size - (idx + 1) }

/-- The loop of `lf_pul`: push a reference to every cell of the payload and
count them. -/
def pul_loop {N : Type} : List (lf_obj N) → Int → LF N Int
  | [], cnt => pure cnt
  | obj :: next, cnt => do
    let a ← make_ref obj
    push_obj a
    pul_loop next (cnt + 1)

/-- The function `lf_pul`. -/
def lf_pul {N : Type} [LfNum N] : LF N Unit := do
  let obj ← lf_take 0
  match obj with
  | .lst _ val => do
    let cnt ← pul_loop val 0
    lf_push_num (LfNum.ofInt cnt)
  | _ => lf_raise .LF_SRUNERR

/-! ## Dictionary -/

/-- The payload `str(obj)` of a cell whose record holds a segment chain. -/
def str_of {N : Type} : lf_obj N → Option lf_str
  | .str _ s => some s
  | .sym _ s => some s
  | _ => none

/-- The loop of `find` over the dictionary chain, which is made of name/value
pairs; `unknown_symbol` raises `LF_SRUNERR`. -/
def find_in {N : Type} (key : lf_str) : List (lf_obj N) → LF N (lf_obj N)
  | [] => lf_raise .LF_SRUNERR
  | [_] => fault
  | name :: value :: rest =>
    match str_of name with
    | some s => if streq s key then pure value else find_in key rest
    | none => fault

/-- The function `find`. -/
def find {N : Type} (key : lf_str) : LF N (lf_obj N) := fun c => find_in key c.dict c

/-- The function `lf_reg`. -/
def lf_reg {N : Type} : LF N Unit := do
  let _ ← lf_peek 1
  let c ← getCtx
  match c.stck with
  | name :: value :: rest => do
    let _ ← lf_to_str name
    modifyCtx fun c => { c with stck := rest, dict := name :: value :: c.dict, size := c.size - 2 }
  | _ => fault

/-- The loop of `lf_rem`: unlink and release the first pair whose name is
`key`. -/
def rem_loop {N : Type} (key : lf_str) : List (lf_obj N) → LF N (List (lf_obj N))
  | [] => pure []
  | [_] => fault
  | name :: value :: rest =>
    match str_of name with
    | some s =>
      if streq s key then do
        modifyCtx (free_obj name)
        modifyCtx (free_obj value)
        pure rest
      else do
        let rest1 ← rem_loop key rest
        pure (name :: value :: rest1)
    | none => fault

/-- The function `lf_rem`. -/
def lf_rem {N : Type} : LF N Unit := do
  let obj ← lf_take 0
  match obj with
  | .str _ key => do
    let c ← getCtx
    let d ← rem_loop key c.dict
    modifyCtx fun c => { c with dict := d }
  | _ => lf_raise .LF_SRUNERR

/-- The function `lf_fnd`. -/
def lf_fnd {N : Type} : LF N Unit := do
  let obj ← lf_take 0
  let key ← lf_to_str obj
  let v ← find key
  let cpy ← make_cpy v
  push_obj cpy

/-! ## Special and math operations -/

/-- The function `lf_is`. -/
def lf_is {N : Type} : LF N Unit := do
  let obj ← lf_take 0
  lf_push_str (lf_typenames obj.type) 3

/-- The function `lf_rf`. -/
def lf_rf {N : Type} [LfNum N] : LF N Unit := do
  let o ← lf_take 0
  let n ← lf_to_num o
  let x ← lf_peek (LfNum.toInt n)
  let a ← make_ref x
  push_obj a

/-- The function `lf_sz`. -/
def lf_sz {N : Type} [LfNum N] : LF N Unit := do
  let c ← getCtx
  lf_push_num (LfNum.ofInt c.size)

/-- The macro `mathop` (and `lf_mod`, with `fmod` as the operation): the cell
below the top is the left operand. -/
def mathop {N : Type} (op : N → N → N) : LF N Unit := do
  let _ ← lf_peek 1
  let c ← getCtx
  match c.stck with
  | top :: below :: rest => do
    let a ← lf_to_num below
    let b ← lf_to_num top
    let n := op a b
    modifyCtx fun c => { c with size := c.size - 2 }
    modifyCtx (free_obj top)
    modifyCtx (free_obj below)
    modifyCtx fun c => { c with stck := rest }
    lf_push_num n
  | _ => fault

/-- The function `lf_sgn`. -/
def lf_sgn {N : Type} [LfNum N] : LF N Unit := do
  let o ← lf_take 0
  let n ← lf_to_num o
  lf_push_num
    (if LfNum.lt n (LfNum.ofInt 0) then (LfNum.ofInt (-1) : N)
     else if LfNum.lt (LfNum.ofInt 0) n then LfNum.ofInt 1 else LfNum.ofInt 0)

/-! ## `apply`, `execute`, evaluation -/

/-- The first part of `lf_eq` and of the `lf_eq` case of `native_tail_call`,
which are the same text: compare the third and fourth cell, release both, take
the two branches off the stack, release the one not selected and return the
other. -/
def eq_select {N : Type} [LfNum N] : LF N (lf_obj N) := do
  let a ← lf_peek 3
  let c ← getCtx
  match c.stck with
  | e :: t :: b :: _ :: rest => do
    let res := objeq a b
    modifyCtx (free_obj b)
    modifyCtx (free_obj a)
    modifyCtx fun c => { c with stck := rest }
    modifyCtx fun c => { c with size := c.size - 4 }
    if res then do
      modifyCtx (free_obj e)
      pure t
    else do
      modifyCtx (free_obj t)
      pure e
  | _ => fault

/-- The first part of `lf_apl` and of the `lf_apl` case of `native_tail_call`:
take the top cell off the stack. -/
def apl_pop {N : Type} : LF N (lf_obj N) := do
  let obj ← lf_peek 0
  modifyCtx fun c => { c with stck := c.stck.tail, size := c.size - 1 }
  pure obj

/-- The function `lf_apl`, given `apply`. -/
def lf_apl {N : Type} (ap : lf_obj N → LF N Unit) : LF N Unit := do
  let obj ← apl_pop
  ap obj

/-- The function `lf_eq`, given `apply`. -/
def lf_eq {N : Type} [LfNum N] (ap : lf_obj N → LF N Unit) : LF N Unit := do
  let obj ← eq_select
  ap obj

/-- The call `fn(ctx)` of a native function, given `apply`. -/
def call_ntv {N : Type} [LfNum N] (ap : lf_obj N → LF N Unit) : lf_ntv → LF N Unit
  | .lf_rol => lf_rol
  | .lf_cpy => lf_cpy
  | .lf_drp => lf_drp
  | .lf_wrp => lf_wrp
  | .lf_pul => lf_pul
  | .lf_apl => lf_apl ap
  | .lf_reg => lf_reg
  | .lf_rem => lf_rem
  | .lf_fnd => lf_fnd
  | .lf_eq => lf_eq ap
  | .lf_is => lf_is
  | .lf_rf => lf_rf
  | .lf_sz => lf_sz
  | .lf_add => mathop LfNum.add
  | .lf_sub => mathop LfNum.sub
  | .lf_mul => mathop LfNum.mul
  | .lf_div => mathop LfNum.div
  | .lf_mod => mathop LfNum.fmod
  | .lf_sgn => lf_sgn

/-- The function `native_call`. -/
def native_call {N : Type} [LfNum N] (ap : lf_obj N → LF N Unit) (fn : lf_ntv) : LF N Unit := do
  call_ntv ap fn
  modifyCtx free_hold

/-- The macro `native_tail_call`, given `apply` for its `goto begin`. -/
def native_tail_call {N : Type} [LfNum N] (ap : lf_obj N → LF N Unit) (fn : lf_ntv) :
    LF N Unit :=
  if fn = .lf_apl then do
    let obj ← apl_pop
    ap obj
  else if fn = .lf_eq then do
    let obj ← eq_select
    ap obj
  else native_call ap fn

/-- The body of `apply` for a list that had no other reference: the cells
before the last are consumed one by one ("apply without tail return"), then the
last one ("apply with tail return"). -/
def apply_unique {N : Type} [LfNum N] (ap : lf_obj N → LF N Unit) : List (lf_obj N) → LF N Unit
  | [] => pure ()
  | [tmp] =>
    match tmp with
    | .sym _ s => do
      let obj ← find s
      modifyCtx (free_obj tmp)
      let obj ← make_ref obj
      ap obj
    | .ntv _ fn => do
      modifyCtx (free_obj tmp)
      native_tail_call ap fn
    | _ => push_obj tmp
  | tmp :: next :: rest => do
    match tmp with
    | .sym _ s => do
      let obj ← find s
      modifyCtx (free_obj tmp)
      let obj ← make_ref obj
      ap obj
    | .ntv _ fn => do
      modifyCtx (free_obj tmp)
      native_call ap fn
    | _ => push_obj tmp
    apply_unique ap (next :: rest)

/-- The body of `apply` for a list that other cells still point at: its cells
stay where they are and references to them are used. -/
def apply_shared {N : Type} [LfNum N] (ap : lf_obj N → LF N Unit) : List (lf_obj N) → LF N Unit
  | [] => pure ()
  | [tmp] =>
    match tmp with
    | .sym _ s => do
      let obj ← find s
      let obj ← make_ref obj
      ap obj
    | .ntv _ fn => native_tail_call ap fn
    | _ => do
      let obj ← make_ref tmp
      push_obj obj
  | tmp :: next :: rest => do
    match tmp with
    | .sym _ s => do
      let obj ← find s
      let obj ← make_ref obj
      ap obj
    | .ntv _ fn => native_call ap fn
    | _ => do
      let obj ← make_ref tmp
      push_obj obj
    apply_shared ap (next :: rest)

/-- The function `apply`; every `goto begin` and every nested call uses one
unit of fuel. -/
def apply {N : Type} [LfNum N] : Nat → lf_obj N → LF N Unit
  | 0, _ => fun _ => .nofuel
  | fuel + 1, .lst r tmp => do
    let c ← getCtx
    modifyCtx fun c => { c with cnt := set_cnt c.cnt r (cnt_dec (c.cnt r)) }
    if cnt_dec (c.cnt r) = 0 then do
      modifyCtx free_block
      modifyCtx free_block
      apply_unique (apply fuel) tmp
    else do
      modifyCtx free_block
      apply_shared (apply fuel) tmp
  | fuel + 1, .sym r s => do
    let tmp ← find s
    modifyCtx (free_obj (.sym r s))
    let obj ← make_ref tmp
    apply fuel obj
  | fuel + 1, .ntv r fn => do
    modifyCtx (free_obj (.ntv r fn))
    native_tail_call (apply fuel) fn
  | _ + 1, obj => push_obj obj

/-- The loop `while (obj->next != NULL)` of `execute` over the payload of a
list, then the `goto begin` on its last cell. -/
def execute_chain {N : Type} (ex : lf_obj N → LF N Unit) : List (lf_obj N) → LF N Unit
  | [] => pure ()
  | [obj] => ex obj
  | obj :: next :: rest => do
    ex obj
    execute_chain ex (next :: rest)

/-- The function `execute`; the payload of a list bound in the dictionary is
walked as it is when the walk begins. -/
def execute {N : Type} [LfNum N] : Nat → lf_obj N → LF N Unit
  | 0, _ => fun _ => .nofuel
  | fuel + 1, .sym _ s => do
    let obj ← find s
    match obj with
    | .lst _ val => execute_chain (execute fuel) val
    | _ => execute fuel obj
  | fuel + 1, .ntv _ fn => native_call (apply fuel) fn
  | _ + 1, obj => do
    let cpy ← make_cpy obj
    push_obj cpy

/-- The loop of `lf_eval` over the cells of the chunk. -/
def eval_chain {N : Type} (ex : lf_obj N → LF N Unit) : List (lf_obj N) → LF N Unit
  | [] => pure ()
  | obj :: next => do
    ex obj
    eval_chain ex next

/-- The function `lf_eval`; the chunk pointer is the chunk stack, innermost
first. -/
def lf_eval {N : Type} [LfNum N] (fuel : Nat) : List (List (lf_obj N)) → LF N Unit
  | [] => fault
  | [head] => eval_chain (execute fuel) head
  | _ :: _ :: _ => lf_raise .LF_SUNFCHK

/-- The loop of `lf_wipe`. -/
def wipe_loop {N : Type} : List (List (lf_obj N)) → lf_ctx N → lf_ctx N
  | [], c => c
  | head :: next, c => wipe_loop next (free_block (free_list head c))

/-- The function `lf_wipe`. -/
def lf_wipe {N : Type} (c : lf_ctx N) : lf_ctx N := { wipe_loop c.chk c with chk := [] }

/-! ## The reader -/

/-- The read callback `ctx->rdfn` on the text that is left: the next byte, NUL
once the text is used up. -/
def rdfn : List Char → Char × List Char
  | [] => (NUL, [])
  | ch :: rest => (ch, rest)

/-- The macro `isspace`. -/
def isspace (ch : Char) : Bool :=
  ch = ' ' || ch = '\t' || ch = '\n' || ch = '\r'

/-- The macro `isdelim`. -/
def isdelim (ch : Char) : Bool :=
  isspace ch || ch = '[' || ch = ']' || ch = Char.ofNat 34

/-- The tables `builtin_key` and `builtin_val`. -/
def builtins : List (List Char × lf_ntv) :=
  [("rol".toList, .lf_rol), ("cpy".toList, .lf_cpy), ("drp".toList, .lf_drp),
   ("wrp".toList, .lf_wrp), ("pul".toList, .lf_pul), ("apl".toList, .lf_apl),
   (";".toList, .lf_reg), ("~".toList, .lf_rem), ("?".toList, .lf_fnd),
   ("eq".toList, .lf_eq), ("is".toList, .lf_is), ("rf".toList, .lf_rf),
   ("sz".toList, .lf_sz), ("+".toList, .lf_add), ("-".toList, .lf_sub),
   ("*".toList, .lf_mul), ("/".toList, .lf_div), ("mod".toList, .lf_mod),
   ("sgn".toList, .lf_sgn)]

/-- The function `find_builtin`. -/
def find_builtin (s : List Char) : Option lf_ntv :=
  (builtins.find? (fun p => p.1 == s)).map (fun p => p.2)

/-- The loop of `search_entry` over the cells of one chunk. -/
def search_chain {N : Type} [LfNum N] (obj : lf_obj N) : List (lf_obj N) → Option (lf_obj N)
  | [] => none
  | it :: rest => if objeq it obj then some it else search_chain obj rest

/-- The function `search_entry`: the first cell of the open chunks, innermost
chunk first, that `objeq` accepts. -/
def search_entry {N : Type} [LfNum N] (obj : lf_obj N) : List (List (lf_obj N)) → Option (lf_obj N)
  | [] => none
  | head :: next =>
    match search_chain obj head with
    | some it => some it
    | none => search_entry obj next

/-- The function `make_chk`: a block for a new, empty chunk in front of the
open ones. -/
def make_chk {N : Type} : LF N Unit := do
  make_block
  modifyCtx fun c => { c with chk := [] :: c.chk }

/-- The function `finish_chk`: the block of the innermost chunk becomes a list
cell, with a new record that holds the chunk's cells, at the end of the
enclosing chunk. -/
def finish_chk {N : Type} : LF N Unit := do
  let c ← getCtx
  match c.chk with
  | head :: next :: rest => do
    let r ← make_rec
    modifyCtx fun c => { c with chk := (next ++ [.lst r head]) :: rest }
  | _ => fault

/-- How the `for` loop that fills one segment of a string literal ends. -/
inductive seg_end where
  | quote
  | eof
  | full
  deriving DecidableEq

/-- The `for` loop that fills one segment of a string literal with at most `n`
bytes: the bytes stored, how the loop ended, and the text that is left. -/
def read_strbuf : Nat → List Char → List Char × seg_end × List Char
  | 0, inp => ([], .full, inp)
  | n + 1, inp =>
    match rdfn inp with
    | (ch, inp1) =>
      if ch = Char.ofNat 34 then ([], .quote, inp1)
      else if ch = NUL then ([], .eof, inp1)
      else
        match read_strbuf n inp1 with
        | (seg, e, inp2) => (ch :: seg, e, inp2)

/-- The `do ... while` loop of the string literal case: a block for every
segment, taken before the segment is filled; `LF_SPRSERR` when the text ends
inside the literal. -/
def read_str_segs {N : Type} : Nat → List Char → LF N (lf_str × List Char)
  | 0, _ => fun _ => .nofuel
  | fuel + 1, inp => do
    make_block
    match read_strbuf (LF_STRBUF_SIZE - 1) inp with
    | (seg, .quote, rest) => pure ([seg], rest)
    | (_, .eof, _) => lf_raise .LF_SPRSERR
    | (seg, .full, rest) => do
      let p ← read_str_segs fuel rest
      match p with
      | (segs, rest1) => pure (seg :: segs, rest1)

/-- The `for` loop of the default case: the bytes of the token that starts with
`ch`, the delimiter (or NUL) after it and the text left; `none` when the
token does not fit in `k` more bytes. -/
def read_token_buf : Nat → Char → List Char → Option (List Char × Char × List Char)
  | k, ch, inp =>
    if isdelim ch || ch = NUL then some ([], ch, inp)
    else
      match k with
      | 0 => none
      | k1 + 1 =>
        match rdfn inp with
        | (ch1, inp1) =>
          match read_token_buf k1 ch1 inp1 with
          | some (buf, ch2, inp2) => some (ch :: buf, ch2, inp2)
          | none => none

/-- The loop `while (isspace(c))`. -/
def skip_space : Char → List Char → Char × List Char
  | ch, [] => if isspace ch then (NUL, []) else (ch, [])
  | ch, d :: rest => if isspace ch then skip_space d rest else (ch, d :: rest)

/-- The loop of the comment case: read up to and including the end of the line
(or NUL). -/
def skip_comment : List Char → Char × List Char
  | [] => (NUL, [])
  | d :: rest => if d = '\n' || d = NUL then (d, rest) else skip_comment rest

/-- The end of `read_text`: intern the new cell and append it to the innermost
chunk.  When `search_entry` finds a cell, the new record is released and the
new cell points at the record found; `objeq` held, so both cells have the same
tag and the new cell is the cell found. -/
def append_obj {N : Type} [LfNum N] (obj : lf_obj N) : LF N Unit := do
  let c ← getCtx
  let obj1 ← match search_entry obj c.chk with
    | some it => do
      modifyCtx (free_ref obj)
      modifyCtx fun c => { c with cnt := set_cnt c.cnt it.ref (cnt_inc (c.cnt it.ref)) }
      pure it
    | none => pure obj
  match c.chk with
  | head :: next => modifyCtx fun c => { c with chk := (head ++ [obj1]) :: next }
  | [] => fault

/-- The function `read_text`: `ch0` is the byte read last, `inp0` the text after
it.  Every round of the label `next` reads at least one byte. -/
def read_text {N : Type} [LfNum N] : Nat → Char → List Char → LF N Unit
  | 0, _, _ => fun _ => .nofuel
  | fuel + 1, ch0, inp0 =>
    match skip_space ch0 inp0 with
    | (ch, inp) =>
      if ch = NUL then pure ()
      else if ch = '#' then
        match skip_comment inp with
        | (ch1, inp1) => read_text fuel ch1 inp1
      else if ch = '[' then do
        make_chk
        match rdfn inp with
        | (ch1, inp1) => read_text fuel ch1 inp1
      else if ch = ']' then do
        let c ← getCtx
        match c.chk with
        | _ :: _ :: _ => finish_chk
        | [_] => lf_raise .LF_SPRSERR
        | [] => fault
        match rdfn inp with
        | (ch1, inp1) => read_text fuel ch1 inp1
      else if ch = Char.ofNat 34 then do
        let r ← make_obj
        let p ← read_str_segs (inp.length + 1) inp
        match p with
        | (s, inp1) => do
          append_obj (.str r s)
          match rdfn inp1 with
          | (ch2, inp2) => read_text fuel ch2 inp2
      else do
        let r ← make_obj
        match read_token_buf (LF_SYM_MAX_LEN - 1) ch inp with
        | none => lf_raise .LF_SPRSERR
        | some (buf, ch1, inp1) =>
          match find_builtin buf with
          | some fn => do
            append_obj (.ntv r fn)
            read_text fuel ch1 inp1
          | none =>
            match (LfNum.strtod buf : Option N) with
            | some num => do
              append_obj (.num r num)
              read_text fuel ch1 inp1
            | none => do
              let s ← build_string buf buf.length
              append_obj (.sym r s)
              read_text fuel ch1 inp1

/-- The function `lf_read` on the text `inp`. -/
def lf_read {N : Type} [LfNum N] (inp : List Char) : LF N Unit := do
  let c ← getCtx
  match c.chk with
  | [] => make_chk
  | _ :: _ => pure ()
  match rdfn inp with
  | (ch, inp1) => read_text (inp.length + 1) ch inp1

/-! ## A scalar to run programs with -/

/-- The scalar `lf_num` without rounding: a fraction `num / den`, an infinity or
NaN, with the arithmetic of IEEE 754 on them (the sign of a zero is not
kept). -/
inductive Sc where
  | fin (num : Int) (den : Nat)
  | inf (neg : Bool)
  | nan
  deriving DecidableEq, Repr

/-- The sum of two scalars. -/
def Sc.add : Sc → Sc → Sc
  | .fin a b, .fin c d => .fin (a * d + c * b) (b * d)
  | .fin _ _, .inf s => .inf s
  | .inf s, .fin _ _ => .inf s
  | .inf s, .inf t => if s = t then .inf s else .nan
  | _, _ => .nan

/-- The opposite of a scalar. -/
def Sc.neg : Sc → Sc
  | .fin a b => .fin (-a) b
  | .inf s => .inf (!s)
  | .nan => .nan

/-- The product of two scalars. -/
def Sc.mul : Sc → Sc → Sc
  | .fin a b, .fin c d => .fin (a * c) (b * d)
  | .fin a _, .inf s => if a = 0 then .nan else .inf (if a < 0 then !s else s)
  | .inf s, .fin a _ => if a = 0 then .nan else .inf (if a < 0 then !s else s)
  | .inf s, .inf t => .inf (s != t)
  | _, _ => .nan

/-- The quotient of two scalars. -/
def Sc.div : Sc → Sc → Sc
  | .fin a b, .fin c d =>
    if c = 0 then (if a = 0 then .nan else .inf (decide (a < 0)))
    else .fin (a * d * c.sign) (b * c.natAbs)
  | .fin _ _, .inf _ => .fin 0 1
  | .inf s, .fin c _ => .inf (if c < 0 then !s else s)
  | _, _ => .nan

/-- The conversion of a scalar to `lf_int`: the fraction is cut off. -/
def Sc.toInt : Sc → Int
  | .fin a b => Int.tdiv a b
  | _ => 0

/-- The C function `fmod`. -/
def Sc.fmod : Sc → Sc → Sc
  | .fin a b, .fin c d =>
    if c = 0 then .nan
    else Sc.add (.fin a b) (Sc.neg (Sc.mul (.fin (Sc.toInt (Sc.div (.fin a b) (.fin c d))) 1) (.fin c d)))
  | .fin a b, .inf _ => .fin a b
  | _, _ => .nan

/-- The C operator `==`: false whenever an operand is NaN (a fraction with
denominator 0 stands for no number and counts as NaN). -/
def Sc.eq : Sc → Sc → Bool
  | .fin a b, .fin c d => b != 0 && d != 0 && a * d == c * b
  | .inf s, .inf t => s == t
  | _, _ => false

/-- The C operator `<`. -/
def Sc.lt : Sc → Sc → Bool
  | .fin a b, .fin c d => decide (a * d < c * b)
  | .fin _ _, .inf s => !s
  | .inf s, .fin _ _ => s
  | .inf s, .inf t => s && !t
  | _, _ => false

/-- The value of a run of decimal digits that follows the value `acc`; `none`
when a byte is not a digit. -/
def Sc.digits : List Char → Nat → Option Nat
  | [], acc => some acc
  | ch :: rest, acc => if ch.isDigit then Sc.digits rest (acc * 10 + (ch.toNat - 48)) else none

/-- An unsigned decimal literal `ddd` or `ddd.ddd` (at least one digit), and
the words `nan` and `inf`. -/
def Sc.unsigned (s : List Char) : Option Sc :=
  if s = "nan".toList then some .nan
  else if s = "inf".toList then some (.inf false)
  else
    let ip := s.takeWhile (fun ch => ch != '.')
    let fp := (s.dropWhile (fun ch => ch != '.')).drop 1
    if ip.length + fp.length = 0 then none
    else
      match Sc.digits ip 0, Sc.digits fp 0 with
      | some i, some f => some (.fin (i * 10 ^ fp.length + f) (10 ^ fp.length))
      | _, _ => none

/-- The C function `strtod` for the literals this scalar can hold: an optional
sign and an unsigned literal. -/
def Sc.strtod : List Char → Option Sc
  | '-' :: rest => (Sc.unsigned rest).map Sc.neg
  | '+' :: rest => Sc.unsigned rest
  | s => Sc.unsigned s

instance : LfNum Sc where
  add := Sc.add
  sub := fun a b => Sc.add a (Sc.neg b)
  mul := Sc.mul
  div := Sc.div
  fmod := Sc.fmod
  eq := Sc.eq
  lt := Sc.lt
  ofInt := fun i => .fin i 1
  toInt := Sc.toInt
  strtod := Sc.strtod

/-- The context after `lf_init` and `lf_map_mem` with room for `blocks`
blocks. -/
def ctx0 (N : Type) (blocks : Nat) : lf_ctx N :=
  { size := 0, stck := [], dict := [], free := blocks, hold := [],
    cnt := fun _ => 0, brk := 0, chk := [] }

/-- Read the program text `s` into a new chunk, then evaluate the chunk: what
the host does with a file. -/
def run {N : Type} [LfNum N] (fuel : Nat) (s : String) : LF N Unit := do
  lf_read s.toList
  let c ← getCtx
  lf_eval fuel c.chk

/-- The stack a result leaves, when the run returned. -/
def Res.stck {N α : Type} : Res N α → Option (List (lf_obj N))
  | .ok _ c => some c.stck
  | _ => none

/-- The signal a result reports: `LF_SOK` when the run returned. -/
def Res.signal {N α : Type} : Res N α → Option lf_sig
  | .ok _ _ => some .LF_SOK
  | .sig s _ => some s
  | _ => none


/-! ## Notions used to state the properties -/

mutual
/-- Holds when `==` relates every NUMBER of the value to itself, that is, when
no NUMBER in it is a NaN. -/
def num_refl {N : Type} [LfNum N] : lf_obj N → Bool
  | .lst _ val => num_refl_chain val
  | .num _ v => LfNum.eq v v
  | _ => true
/-- Holds when `num_refl` holds for every cell of the chain. -/
def num_refl_chain {N : Type} [LfNum N] : List (lf_obj N) → Bool
  | [] => true
  | o :: rest => num_refl o && num_refl_chain rest
end

mutual
/-- The number of blocks a copy of the value takes: a cell for every cell, and
a record for every list, native and number. -/
def cpy_blocks {N : Type} : lf_obj N → Nat
  | .lst _ val => 2 + cpy_blocks_chain val
  | .ntv _ _ => 2
  | .num _ _ => 2
  | _ => 1
/-- The number of blocks the copies of the cells of a chain take. -/
def cpy_blocks_chain {N : Type} : List (lf_obj N) → Nat
  | [] => 0
  | o :: rest => cpy_blocks o + cpy_blocks_chain rest
end

/-- The outcome of an arithmetic primitive on a stack whose two top cells lie
on `rest`: it returns, the stack is one NUMBER cell with value `v` on `rest`,
the size is one less, and the other chains are as before. -/
def arith_post {N : Type} (c : lf_ctx N) (rest : List (lf_obj N)) (v : N) (r : Res N Unit) :
    Prop :=
  ∃ c1 id, r = .ok () c1 ∧ c1.stck = .num id v :: rest ∧ c1.size = c.size - 1 ∧
    c1.dict = c.dict ∧ c1.hold = c.hold ∧ c1.chk = c.chk


/-- The context `c1` has the chains of `c`: only the free list, the counts and
the supply of records may differ. -/
structure same_chains {N : Type} (c c1 : lf_ctx N) : Prop where
  stck : c1.stck = c.stck
  size : c1.size = c.size
  dict : c1.dict = c.dict
  hold : c1.hold = c.hold
  chk : c1.chk = c.chk

/-! ## Concrete contexts -/

/-- A stack with the NUMBER 2 on top of the NUMBER 7. -/
def c1_ctx : lf_ctx Sc :=
  { ctx0 Sc 10 with stck := [.num 1 (.fin 2 1), .num 0 (.fin 7 1)], size := 2 }

/-- The context in which `lf_eq` applies the branch it selected: the cells `b`
and `a` released, `rest` as the stack, the size four less, and the branch
`disc` that was not selected released. -/
def eq_ctx {N : Type} (c : lf_ctx N) (a b disc : lf_obj N) (rest : List (lf_obj N)) : lf_ctx N :=
  free_obj disc
    { free_obj a (free_obj b c) with stck := rest, size := (free_obj a (free_obj b c)).size - 4 }

/-- A stack `"a" "a" [42] [0]` (the last on top). -/
def c2_ctx : lf_ctx Sc :=
  { ctx0 Sc 10 with
    stck := [.lst 3 [.num 4 (.fin 0 1)], .lst 1 [.num 2 (.fin 42 1)], .str 0 [['a']], .str 0 [['a']]],
    size := 4,
    cnt := fun i => if i = 0 then 2 else 1,
    brk := 5 }

/-- What a result that returned leaves in the part `f` of the context. -/
def Res.get {N α β : Type} (f : lf_ctx N → β) : Res N α → Option β
  | .ok _ c => some (f c)
  | _ => none

/-- A stack on which `;` `;` registers first 1 and then 2 under the name
`n` (the name of the first pair on top). -/
def c3_ctx : lf_ctx Sc :=
  { ctx0 Sc 10 with
    stck := [.str 1 [['n']], .num 0 (.fin 1 1), .str 3 [['n']], .num 2 (.fin 2 1)],
    size := 4,
    cnt := fun _ => 1,
    brk := 4 }

/-- What a result that escaped with a signal leaves in the part `f` of the
context, with the signal. -/
def Res.escaped {N α β : Type} (f : lf_ctx N → β) : Res N α → Option (lf_sig × β)
  | .sig s c => some (s, f c)
  | _ => none

/-- The value a result returned. -/
def Res.val {N α : Type} : Res N α → Option α
  | .ok a _ => some a
  | _ => none

/-- A stack `[1 2] "a" 1` (the index 1 on top): `cpy` copies the list. -/
def c6_ctx : lf_ctx Sc :=
  { ctx0 Sc 10 with
    stck := [.num 4 (.fin 1 1), .str 3 [['a']], .lst 0 [.num 1 (.fin 1 1), .num 2 (.fin 2 1)]],
    size := 3,
    cnt := fun _ => 1,
    brk := 5 }

/-- A stack with the index 0 on top of a NUMBER that is a NaN. -/
def c6_nan_ctx : lf_ctx Sc :=
  { ctx0 Sc 10 with
    stck := [.num 1 (.fin 0 1), .num 0 .nan],
    size := 2,
    cnt := fun _ => 1,
    brk := 2 }

/-- A stack `"c" "b" "a" 1` (the index 1 on top, then `"a"`). -/
def c8_ctx : lf_ctx Sc :=
  { ctx0 Sc 10 with
    stck := [.num 3 (.fin 1 1), .str 2 [['a']], .str 1 [['b']], .str 0 [['c']]],
    size := 4,
    cnt := fun _ => 1,
    brk := 4 }

/-- The counts after `make_ref` on every cell of the chain, first cell first:
the count of the record of each cell is one more (`++cnt`). -/
def alias_counts {N : Type} : List (lf_obj N) → (Nat → Nat) → Nat → Nat
  | [], f => f
  | e :: rest, f => alias_counts rest (set_cnt f e.ref (cnt_inc (f e.ref)))

/-- A stack with the list `["a" "b"]` on top of the NUMBER 7. -/
def c9_ctx : lf_ctx Sc :=
  { ctx0 Sc 10 with
    stck := [.lst 3 [.str 1 [['a']], .str 2 [['b']]], .num 0 (.fin 7 1)],
    size := 2,
    cnt := fun _ => 1,
    brk := 4 }

/-- A stack `"d" "c" "b" "a" 2` (the NUMBER 2 on top, then `"a"`). -/
def c10_ctx : lf_ctx Sc :=
  { ctx0 Sc 10 with
    stck := [.num 4 (.fin 2 1), .str 3 [['a']], .str 2 [['b']], .str 1 [['c']], .str 0 [['d']]],
    size := 5,
    cnt := fun _ => 1,
    brk := 5 }

/-- A stack that holds the NUMBER 0 and nothing else. -/
def c10_zero_ctx : lf_ctx Sc :=
  { ctx0 Sc 10 with stck := [.num 0 (.fin 0 1)], size := 1, cnt := fun _ => 1, brk := 1 }

/-- The function `lf_raise` for a handler `hdl` that reports and returns a
signal without touching the context (as `lf_dfl_hdl` and the handler of the
interactive host do): if the handler returns `LF_SOK` the raise returns to its
caller, else the hold list is released and the escape carries the value the
handler returned. -/
def lf_raise_hdl {N : Type} (hdl : lf_sig → lf_sig) (s : lf_sig) : LF N Unit := fun c =>
  if hdl s = .LF_SOK then .ok () c else .sig (hdl s) (free_hold c)

/-- The function `lf_eval` with the handler installed for `LF_SUNFCHK` as a
parameter.  The result `.ok` stands for the return value `LF_SOK`, `.sig s` for
the return value `s`. -/
def lf_eval_hdl {N : Type} [LfNum N] (hdl : lf_sig → lf_sig) (fuel : Nat) :
    List (List (lf_obj N)) → LF N Unit
  | [] => fault
  | [head] => eval_chain (execute fuel) head
  | _ :: _ :: _ => lf_raise_hdl hdl .LF_SUNFCHK

/-- A context in which `lf_read` has read the text `1 [ 2 drp`: the chunk `2 drp`
is open inside the chunk that holds `1`. -/
def c17_ctx : lf_ctx Sc :=
  { ctx0 Sc 100 with
    chk := [[.num 1 (.fin 2 1), .ntv 2 .lf_drp], [.num 0 (.fin 1 1)]],
    free := 92,
    cnt := fun r => if r < 3 then 1 else 0,
    brk := 3 }

/-! ## Tracing -/

/-- What `sprintf` writes for the payloads that `trace_obj` formats: `num` is
the conversion `%.5g` of a number, `ntv` and `usr` the conversion `%p` of the
data pointer of a native and of a userdata cell. -/
structure lf_fmt (N : Type) where
  num : N → List Char
  ntv : lf_ntv → List Char
  usr : Nat → List Char

/-- The function `writestr`: the bytes of a buffer up to its NUL. -/
def writestr (s : List Char) : List Char := s.takeWhile (fun ch => ch != NUL)

/-- The segments of a string, written one after the other. -/
def write_segs : lf_str → List Char
  | [] => []
  | seg :: next => writestr seg ++ write_segs next

mutual
/-- One round of the label `next` of `trace_obj`: the bytes written for one
cell. -/
def trace_cell {N : Type} (f : lf_fmt N) : lf_obj N → List Char
  | .lst _ val => '[' :: (trace_obj f val ++ [']'])
  | .sym _ s => write_segs s
  | .str _ s => Char.ofNat 34 :: (write_segs s ++ [Char.ofNat 34])
  | .num _ v => writestr (f.num v)
  | .ntv _ fn => writestr ("(ntv: ".toList ++ f.ntv fn ++ [')'])
  | .usr _ d _ => writestr ("(usr: ".toList ++ f.usr d ++ [')'])
/-- The function `trace_obj` on a chain: every cell from the head on, and a
space before every cell that has a predecessor. -/
def trace_obj {N : Type} (f : lf_fmt N) : List (lf_obj N) → List Char
  | [] => []
  | obj :: next => trace_cell f obj ++ (if next.isEmpty then [] else ' ' :: trace_obj f next)
end

/-- The function `lf_trace`: the bytes handed to the write callback. -/
def lf_trace {N : Type} (f : lf_fmt N) (c : lf_ctx N) : List Char :=
  match c.stck with
  | [] => "-empty-".toList ++ ['\n']
  | obj :: next => trace_obj f (obj :: next) ++ ['\n']

/-- The number of decimal digits of `q` minus one (0 for `q < 10`). -/
def Sc.ilog : Nat → Nat → Nat
  | 0, _ => 0
  | fuel + 1, q => if q < 10 then 0 else Sc.ilog fuel (q / 10) + 1

/-- The decimal exponent of the positive fraction `n / d`: the `e` with
`10 ^ e <= n / d < 10 ^ (e + 1)`. -/
def Sc.exp10 (n d : Nat) : Int :=
  if d ≤ n then (Sc.ilog (n / d) (n / d) : Int)
  else
    let t := Sc.ilog (d / n) (d / n)
    if d ≤ n * 10 ^ t then -(t : Int) else -(t : Int) - 1

/-- The fraction `n / d` rounded to the nearest integer, ties to even. -/
def Sc.round (n d : Nat) : Nat :=
  let q := n / d
  let r := n % d
  if 2 * r < d then q else if d < 2 * r then q + 1 else if q % 2 = 0 then q else q + 1

/-- The five significant digits of the positive fraction `n / d` and its
decimal exponent after rounding. -/
def Sc.mant (n d : Nat) : Nat × Int :=
  let e := Sc.exp10 n d
  let m := if e ≤ 4 then Sc.round (n * 10 ^ (4 - e).toNat) d
    else Sc.round n (d * 10 ^ (e - 4).toNat)
  if m = 100000 then (10000, e + 1) else (m, e)

/-- The decimal digit `k` as a byte. -/
def Sc.digit (k : Nat) : Char := Char.ofNat (48 + k % 10)

/-- A run of digits without its trailing zeros. -/
def Sc.strip (ds : List Char) : List Char :=
  (ds.reverse.dropWhile (fun ch => ch = '0')).reverse

/-- A fraction part: nothing when all its digits are zero, else a point and
the digits without trailing zeros. -/
def Sc.frac (ds : List Char) : List Char :=
  match Sc.strip ds with
  | [] => []
  | d :: rest => '.' :: d :: rest

/-- The conversion `%.5g` of the positive fraction `n / d`. -/
def Sc.g5pos (n d : Nat) : List Char :=
  match Sc.mant n d with
  | (m, e) =>
    let ds := [Sc.digit (m / 10000), Sc.digit (m / 1000), Sc.digit (m / 100),
      Sc.digit (m / 10), Sc.digit m]
    if e < -4 ∨ 5 ≤ e then
      ds.take 1 ++ Sc.frac (ds.drop 1) ++
        ['e', if e < 0 then '-' else '+', Sc.digit (e.natAbs / 10), Sc.digit e.natAbs]
    else if 0 ≤ e then ds.take (e.toNat + 1) ++ Sc.frac (ds.drop (e.toNat + 1))
    else '0' :: Sc.frac (List.replicate ((-e).toNat - 1) '0' ++ ds)

/-- The conversion `%.5g` of a scalar. -/
def Sc.g5 : Sc → List Char
  | .nan => "nan".toList
  | .inf s => if s then "-inf".toList else "inf".toList
  | .fin a b =>
    if b = 0 then "nan".toList
    else if a = 0 then ['0']
    else if a < 0 then '-' :: Sc.g5pos a.natAbs b
    else Sc.g5pos a.natAbs b

/-- A formatter for the scalar `Sc`; natives are written by the place of
their entry in `builtin_val`, userdata by its number. -/
def Sc.fmt : lf_fmt Sc where
  num := Sc.g5
  ntv := fun fn => "0x".toList ++ Nat.toDigits 16 (builtins.findIdx (fun p => p.2 == fn) + 1)
  usr := fun d => "0x".toList ++ Nat.toDigits 16 d

/-- The stack after the program `"a" "b"`: `"b"` on top of `"a"`. -/
def c18_ctx : lf_ctx Sc :=
  { ctx0 Sc 94 with
    stck := [.str 1 [['b']], .str 0 [['a']]],
    size := 2,
    cnt := fun r => if r < 2 then 2 else 0,
    brk := 2 }

/-! ## Counting the blocks in use -/

mutual
/-- The blocks reachable from one cell when the records `seen` are already
counted: the cell itself and, if its record is new, the record, its string
segments or the cells of its list payload. -/
def blocks_obj {N : Type} (seen : List Nat) : lf_obj N → Nat × List Nat
  | .lst r val =>
    if r ∈ seen then (1, seen)
    else
      match blocks_chain (r :: seen) val with
      | (n, seen1) => (n + 2, seen1)
  | .sym r s => if r ∈ seen then (1, seen) else (s.length + 2, r :: seen)
  | .str r s => if r ∈ seen then (1, seen) else (s.length + 2, r :: seen)
  | .ntv r _ => if r ∈ seen then (1, seen) else (2, r :: seen)
  | .num r _ => if r ∈ seen then (1, seen) else (2, r :: seen)
  | .usr r _ _ => if r ∈ seen then (1, seen) else (2, r :: seen)
/-- The blocks reachable from the cells of a chain. -/
def blocks_chain {N : Type} (seen : List Nat) : List (lf_obj N) → Nat × List Nat
  | [] => (0, seen)
  | obj :: next =>
    match blocks_obj seen obj with
    | (n, seen1) =>
      match blocks_chain seen1 next with
      | (m, seen2) => (n + m, seen2)
end

/-- The blocks reachable from the stack, the dictionary and the open chunks:
cells, records (each counted once), string segments, list payloads, and one
block for every open chunk. -/
def blocks_used {N : Type} (c : lf_ctx N) : Nat :=
  (blocks_chain [] (c.stck ++ c.dict ++ c.chk.flatten)).1 + c.chk.length

/-- Read the program text `s` into a new chunk, evaluate the chunk and wipe
it. -/
def run_wipe {N : Type} [LfNum N] (fuel : Nat) (s : String) : LF N Unit := do
  run fuel s
  modifyCtx lf_wipe

/-! ## The text as a sequence of tokens -/

/-- What the reader meets in a text: the two brackets, a string literal with
the bytes between its quotes, a word (a run of bytes that are no delimiters),
a string literal that the end of the text cuts off, a word of
`LF_SYM_MAX_LEN` bytes or more, and `more` when the rounds allowed are used
up. -/
inductive tok where
  | lst_begin
  | lst_end
  | str (bytes : List Char)
  | word (bytes : List Char)
  | bad_str (bytes : List Char)
  | bad_word
  | more
  deriving DecidableEq

/-- The tokens of a text, in at most `fuel` rounds of the label `next`:
white space is skipped, `#` starts a comment that lasts to the end of the
line, a quote starts a string literal that lasts to the next quote, and any
other byte starts a word that lasts to the next delimiter. -/
def tokens_from : Nat → List Char → List tok
  | 0, _ => [.more]
  | fuel + 1, txt =>
    match txt.dropWhile isspace with
    | [] => []
    | ch :: rest =>
      if ch = '#' then tokens_from fuel (rest.dropWhile (fun d => d != '\n'))
      else if ch = '[' then .lst_begin :: tokens_from fuel rest
      else if ch = ']' then .lst_end :: tokens_from fuel rest
      else if ch = Char.ofNat 34 then
        if Char.ofNat 34 ∈ rest then
          .str (rest.takeWhile (fun d => d != Char.ofNat 34)) ::
            tokens_from fuel ((rest.dropWhile (fun d => d != Char.ofNat 34)).drop 1)
        else [.bad_str rest]
      else
        if ((ch :: rest).takeWhile (fun d => !isdelim d)).length ≤ LF_SYM_MAX_LEN - 1 then
          .word ((ch :: rest).takeWhile (fun d => !isdelim d)) ::
            tokens_from fuel ((ch :: rest).dropWhile (fun d => !isdelim d))
        else [.bad_word]

/-- The tokens of a text. -/
def tokens (txt : List Char) : List tok := tokens_from (txt.length + 1) txt

/-- Take `n` blocks from the free list, one after the other. -/
def take_blocks {N : Type} : Nat → LF N Unit
  | 0 => pure ()
  | n + 1 => do
    make_block
    take_blocks n

/-- The first `n` segments of `LF_STRBUF_SIZE - 1` bytes of a run of bytes. -/
def cut_segs : Nat → List Char → lf_str
  | 0, _ => []
  | n + 1, bytes =>
    bytes.take (LF_STRBUF_SIZE - 1) :: cut_segs n (bytes.drop (LF_STRBUF_SIZE - 1))

/-- The segments the reader fills for a string literal: one more than the
bytes fill completely. -/
def lit_segs (bytes : List Char) : lf_str :=
  cut_segs (bytes.length / (LF_STRBUF_SIZE - 1) + 1) bytes

/-- The case `]` of `read_text`. -/
def read_end {N : Type} : LF N Unit := do
  let c ← getCtx
  match c.chk with
  | _ :: _ :: _ => finish_chk
  | [_] => lf_raise .LF_SPRSERR
  | [] => fault

/-- What `read_text` does for a word once its bytes are in the buffer. -/
def read_word {N : Type} [LfNum N] (buf : List Char) : LF N Unit := do
  let r ← make_obj
  match find_builtin buf with
  | some fn => append_obj (.ntv r fn)
  | none =>
    match (LfNum.strtod buf : Option N) with
    | some num => append_obj (.num r num)
    | none => do
      let s ← build_string buf buf.length
      append_obj (.sym r s)

/-- What `read_text` does with the context for one token. -/
def act {N : Type} [LfNum N] : tok → LF N Unit
  | .lst_begin => make_chk
  | .lst_end => read_end
  | .str bytes => do
    let r ← make_obj
    take_blocks (lit_segs bytes).length
    append_obj (.str r (lit_segs bytes))
  | .word buf => read_word buf
  | .bad_str bytes => do
    let _ ← make_obj
    take_blocks (lit_segs bytes).length
    lf_raise .LF_SPRSERR
  | .bad_word => do
    let _ ← make_obj
    lf_raise .LF_SPRSERR
  | .more => fun _ => .nofuel

/-- The tokens of a text acted on in order. -/
def run_toks {N : Type} [LfNum N] : List tok → LF N Unit
  | [] => pure ()
  | t :: ts => do
    act t
    run_toks ts

/-! ## What a text stands for -/

/-- The tree a text describes: a string literal with its bytes, a word with
its bytes, or a bracket pair with the items between the brackets. -/
inductive item where
  | str (bytes : List Char)
  | word (bytes : List Char)
  | lst (items : List item)

/-- One token added to the open lists of a text, innermost first: `[` opens an
empty list, `]` closes the innermost list and puts it at the end of the list
around it, a string literal or a word goes to the end of the innermost
list. -/
def parse_tok : tok → List (List item) → Option (List (List item))
  | .lst_begin, st => some ([] :: st)
  | .lst_end, head :: next :: rest => some ((next ++ [.lst head]) :: rest)
  | .str b, head :: next => some ((head ++ [.str b]) :: next)
  | .word b, head :: next => some ((head ++ [.word b]) :: next)
  | _, _ => none

/-- The tokens of a text added in order to the open lists `st`. -/
def parse_toks : List tok → List (List item) → Option (List (List item))
  | [], st => some st
  | t :: ts, st =>
    match parse_tok t st with
    | some st1 => parse_toks ts st1
    | none => none

mutual
/-- A cell stands for an item: a LIST cell for a bracket pair whose items its
payload cells stand for, in order; a STRING cell for a string literal whose
bytes fill its segments in order, with one more segment than the bytes fill
completely; a NATIVE cell for a word that is the key of its built-in; a NUMBER
cell for a word that `strtod` reads completely, as the payload or as a number
equal (`==`) to the payload; a SYMBOL cell for any other word whose bytes
fill its segments in order. -/
def mirrors {N : Type} [LfNum N] [DecidableEq N] : lf_obj N → item → Bool
  | .lst _ val, .lst items => mirrors_chain val items
  | .str _ s, .str bytes => s == lit_segs bytes
  | .sym _ s, .word bytes =>
    (find_builtin bytes).isNone && (LfNum.strtod bytes : Option N).isNone &&
      s == cut_segs ((bytes.length + 14) / 15) bytes
  | .ntv _ fn, .word bytes => find_builtin bytes == some fn
  | .num _ v, .word bytes =>
    (find_builtin bytes).isNone &&
      match (LfNum.strtod bytes : Option N) with
      | some w => decide (v = w) || LfNum.eq v w
      | none => false
  | _, _ => false
/-- The cells of a chain stand for the items of a list, one by one. -/
def mirrors_chain {N : Type} [LfNum N] [DecidableEq N] : List (lf_obj N) → List item → Bool
  | [], [] => true
  | x :: xs, t :: ts => mirrors x t && mirrors_chain xs ts
  | _, _ => false
end

/-- The open chunks stand for the open lists of a text, one by one. -/
def mirrors_stack {N : Type} [LfNum N] [DecidableEq N] : List (List (lf_obj N)) → List (List item) → Bool
  | [], [] => true
  | h :: next, p :: rest => mirrors_chain h p && mirrors_stack next rest
  | _, _ => false

/-- The bytes of a token. -/
def tok.bytes : tok → List Char
  | .str b => b
  | .word b => b
  | .bad_str b => b
  | _ => []

/-- The item a string literal or a word stands for. -/
def tok.item : tok → Option item
  | .str b => some (.str b)
  | .word b => some (.word b)
  | _ => none

/-- Whether a run of tokens never closes a list it did not open, when read at
bracket depth `d`: what follows the run is then in the innermost list open
before the run, or in a list inside it. -/
def keeps : Nat → List tok → Bool
  | _, [] => true
  | d, .lst_begin :: ts => keeps (d + 1) ts
  | 0, .lst_end :: _ => false
  | d + 1, .lst_end :: ts => keeps d ts
  | d, _ :: ts => keeps d ts

/-- Any two cells at the top level of the open chunks that `objeq` takes for
equal point at the same record, when the second is not a list. -/
def shared {N : Type} [LfNum N] (chk : List (List (lf_obj N))) : Prop :=
  ∀ y ∈ chk.flatten, ∀ z ∈ chk.flatten, z.type ≠ .LF_TLST → objeq y z = true → y.ref = z.ref

/-! ## Writing a value and reading it back -/

/-- A run of bytes that the reader takes for one word: not empty, no
delimiter and no NUL in it, no `#` in front, fewer than `LF_SYM_MAX_LEN`
bytes. -/
def word_ok (b : List Char) : Bool :=
  !b.isEmpty && b.all (fun ch => !isdelim ch && ch != NUL) && b.head? != some '#' &&
    decide (b.length ≤ LF_SYM_MAX_LEN - 1)

/-- A cell that comes back from its trace: a NUMBER whose `%.5g` form is a
word that `strtod` reads as an equal number, a STRING without quote and NUL
whose segments are laid out as the reader lays them out, a SYMBOL whose bytes
are a word that is neither the key of a built-in nor a number, with segments
as `build_string` makes them. -/
def readable {N : Type} [LfNum N] (f : lf_fmt N) : lf_obj N → Bool
  | .num _ x =>
    word_ok (f.num x) && (find_builtin (f.num x)).isNone &&
      match (LfNum.strtod (f.num x) : Option N) with
      | some w => LfNum.eq w x
      | none => false
  | .str _ s =>
    s == lit_segs s.flatten && s.flatten.all (fun ch => ch != Char.ofNat 34 && ch != NUL)
  | .sym _ s =>
    s == cut_segs ((s.flatten.length + 14) / 15) s.flatten && word_ok s.flatten &&
      (find_builtin s.flatten).isNone && (LfNum.strtod s.flatten : Option N).isNone
  | _ => false

/-- The token that the trace of a cell is read as. -/
def cell_tok {N : Type} (f : lf_fmt N) : lf_obj N → tok
  | .num _ x => .word (f.num x)
  | .str _ s => .str s.flatten
  | .sym _ s => .word s.flatten
  | _ => .more

/-- The blocks that reading the trace of a cell and copying the cell read can
take. -/
def rt_blocks {N : Type} : lf_obj N → Nat
  | .str _ s => s.length + 4
  | .sym _ s => s.length + 4
  | _ => 4

/-- The item that the trace of a cell is read as. -/
def cell_item {N : Type} (f : lf_fmt N) : lf_obj N → item
  | .num _ x => .word (f.num x)
  | .str _ s => .str s.flatten
  | .sym _ s => .word s.flatten
  | _ => .lst []

/-- A context with an empty stack and no chunk, 100 free blocks, in which the
records 0 to 9 are in use elsewhere. -/
def c19_ctx : lf_ctx Sc := { ctx0 Sc 100 with brk := 10 }

/-- Write the value `v` with the trace formatter, read the bytes into a new
chunk and evaluate the chunk. -/
def trace_read_eval {N : Type} [LfNum N] (f : lf_fmt N) (fuel : Nat) (v : lf_obj N) :
    LF N Unit := do
  lf_read (trace_cell f v)
  let c ← getCtx
  lf_eval fuel c.chk

/-! ## Copies of shared records, the escape target of `lf_reset` -/

/-- A context whose stack holds two `LF_TNUM` cells that point at the same
record 0, of count 2 (as after `rf`, or after the evaluation of a chunk in
which the reader interned a literal). -/
def c21_ctx : lf_ctx Sc :=
  { ctx0 Sc 100 with
    stck := [.num 0 (.fin 1 1), .num 0 (.fin 1 1)],
    size := 2,
    free := 97,
    cnt := fun r => if r = 0 then 2 else 0,
    brk := 1 }

/-- The function `lf_dfl_hdl`: it writes the message and returns the signal it
was called with. -/
def lf_dfl_hdl (sig : lf_sig) : lf_sig := sig

/-- The functions that call `setjmp(ctx->sbuf)`. -/
inductive jmp_site where
  | lf_reset
  | lf_read
  | lf_eval
  deriving DecidableEq

/-- The jump buffer `ctx->sbuf` as far as a `longjmp` depends on it: the
function whose `setjmp` filled it last, and whether the invocation of that
function which filled it is still running. -/
structure lf_sbuf where
  site : jmp_site
  running : Bool
  deriving DecidableEq

/-- The two things a call `longjmp(ctx->sbuf, sig)` can do (ISO C, 7.13.2.1):
control resumes at the `setjmp` that filled the buffer, which returns `sig`; or,
when the function that called that `setjmp` has returned in the meantime, the
behaviour is undefined. -/
inductive lf_jump where
  | resumed (site : jmp_site) (sig : lf_sig)
  | undefined
  deriving DecidableEq

/-- The call `longjmp(ctx->sbuf, sig)`. -/
def longjmp (sbuf : lf_sbuf) (sig : lf_sig) : lf_jump :=
  if sbuf.running then .resumed sbuf.site sig else .undefined

/-- How a call of `lf_raise` ends: it returns to its caller, or it leaves
through `longjmp`. -/
inductive raise_end (N : Type) where
  | returned (c : lf_ctx N)
  | jumped (j : lf_jump) (c : lf_ctx N)

/-- The function `lf_raise` with the jump buffer, for a handler `hdl` that
reports and returns a signal without touching the context: when the handler
returns a signal other than `LF_SOK`, the hold list is released and
`longjmp(ctx->sbuf, sig)` is called with the signal returned. -/
def lf_raise_sbuf {N : Type} (hdl : lf_sig → lf_sig) (sbuf : lf_sbuf) (s : lf_sig)
    (c : lf_ctx N) : raise_end N :=
  if hdl s ≠ .LF_SOK then .jumped (longjmp sbuf (hdl s)) (free_hold c) else .returned c

/-- The function `lf_reset` as `lf_init` or the host calls it; the result is the
context and the jump buffer at the return.  The hold list is released; then
`setjmp(ctx->sbuf)` fills the buffer and, called directly, returns 0, which is
`LF_SOK`, so the branch that calls the handler of `LF_SINIERR` is skipped and
the function returns.  No statement between `setjmp` and the return raises a
signal, so no `longjmp` arrives while `lf_reset` runs, and with the return the
invocation that filled the buffer is over. -/
def lf_reset {N : Type} (c : lf_ctx N) : lf_ctx N × lf_sbuf :=
  (free_hold c, { site := .lf_reset, running := false })

/-- A context with one number on the stack and one cell on the hold list, as in
a native function of the host that has taken a cell off the stack. -/
def c27_ctx : lf_ctx Sc :=
  { ctx0 Sc 100 with
    stck := [.num 0 (.fin 1 1)],
    size := 1,
    hold := [.num 1 (.fin 2 1)],
    free := 96,
    cnt := fun r => if r < 2 then 1 else 0,
    brk := 2 }

/-! ## `apply` without the fast path -/

/-- The body of `apply` for a list that had no other reference, as the
description states it without the fast path: a native cell in the last place
is run through `native_call` like every other native cell. -/
def apply_unique_plain {N : Type} [LfNum N] (ap : lf_obj N → LF N Unit) :
    List (lf_obj N) → LF N Unit
  | [] => pure ()
  | [tmp] =>
    match tmp with
    | .sym _ s => do
      let obj ← find s
      modifyCtx (free_obj tmp)
      let obj ← make_ref obj
      ap obj
    | .ntv _ fn => do
      modifyCtx (free_obj tmp)
      native_call ap fn
    | _ => push_obj tmp
  | tmp :: next :: rest => do
    match tmp with
    | .sym _ s => do
      let obj ← find s
      modifyCtx (free_obj tmp)
      let obj ← make_ref obj
      ap obj
    | .ntv _ fn => do
      modifyCtx (free_obj tmp)
      native_call ap fn
    | _ => push_obj tmp
    apply_unique_plain ap (next :: rest)

/-- The body of `apply` for a list that other cells still point at, without the
fast path. -/
def apply_shared_plain {N : Type} [LfNum N] (ap : lf_obj N → LF N Unit) :
    List (lf_obj N) → LF N Unit
  | [] => pure ()
  | [tmp] =>
    match tmp with
    | .sym _ s => do
      let obj ← find s
      let obj ← make_ref obj
      ap obj
    | .ntv _ fn => native_call ap fn
    | _ => do
      let obj ← make_ref tmp
      push_obj obj
  | tmp :: next :: rest => do
    match tmp with
    | .sym _ s => do
      let obj ← find s
      let obj ← make_ref obj
      ap obj
    | .ntv _ fn => native_call ap fn
    | _ => do
      let obj ← make_ref tmp
      push_obj obj
    apply_shared_plain ap (next :: rest)

/-- The function `apply` on a list cell with the last cell of the list run
through the ordinary native call; everything the list calls is the `apply` of
the source. -/
def apply_plain {N : Type} [LfNum N] (fuel : Nat) (r : Nat) (tmp : List (lf_obj N)) :
    LF N Unit := do
  let c ← getCtx
  modifyCtx fun c => { c with cnt := set_cnt c.cnt r (cnt_dec (c.cnt r)) }
  if cnt_dec (c.cnt r) = 0 then do
    modifyCtx free_block
    modifyCtx free_block
    apply_unique_plain (apply fuel) tmp
  else do
    modifyCtx free_block
    apply_shared_plain (apply fuel) tmp

/-- The `switch` on one cell in the loop "apply without tail return" of a
list that had no other reference. -/
def unique_step {N : Type} [LfNum N] (ap : lf_obj N → LF N Unit) (tmp : lf_obj N) : LF N Unit :=
  match tmp with
  | .sym _ s => do
    let obj ← find s
    modifyCtx (free_obj tmp)
    let obj ← make_ref obj
    ap obj
  | .ntv _ fn => do
    modifyCtx (free_obj tmp)
    native_call ap fn
  | _ => push_obj tmp

/-- The `switch` on one cell in the loop "apply without tail return" of a
list that other cells still point at. -/
def shared_step {N : Type} [LfNum N] (ap : lf_obj N → LF N Unit) (tmp : lf_obj N) : LF N Unit :=
  match tmp with
  | .sym _ s => do
    let obj ← find s
    let obj ← make_ref obj
    ap obj
  | .ntv _ fn => native_call ap fn
  | _ => do
    let obj ← make_ref tmp
    push_obj obj

/-- Two outcomes that cannot be told apart by the stack, the stack size, the
dictionary and the signal raised. -/
def same_visible {N : Type} : Res N Unit → Res N Unit → Prop
  | .ok _ c1, .ok _ c2 => c1.stck = c2.stck ∧ c1.size = c2.size ∧ c1.dict = c2.dict
  | .sig s c1, .sig t c2 =>
    s = t ∧ c1.stck = c2.stck ∧ c1.size = c2.size ∧ c1.dict = c2.dict
  | .fault, .fault => True
  | .nofuel, .nofuel => True
  | _, _ => False

/-- A context with an empty stack in which the records 0 to 3 are in use with
count 1, for the cells of the list `[ [2] apl ]`. -/
def c26_ctx : lf_ctx Sc :=
  { ctx0 Sc 100 with
    free := 90,
    cnt := fun r => if r < 4 then 1 else 0,
    brk := 4 }

/-! ## The size counter of the stack -/

/-- The function `lf_push_lst`. -/
def lf_push_lst {N : Type} : LF N Unit := do
  let r ← make_obj
  push_obj (.lst r [])

/-- The function `lf_push_sym` (`len == 0` stands for `strlen(sym)`). -/
def lf_push_sym {N : Type} (s : List Char) (len : Nat) : LF N Unit := do
  let r ← make_obj
  let val ← build_string s (if len = 0 then (s.takeWhile (fun ch => ch != NUL)).length else len)
  push_obj (.sym r val)

/-- The function `lf_push_ntv`. -/
def lf_push_ntv {N : Type} (ntv : lf_ntv) : LF N Unit := do
  let r ← make_obj
  push_obj (.ntv r ntv)

/-- The address of the function `no_fin`. -/
def no_fin : Nat := 1

/-- The function `lf_push_usr`; the pointers are numbers and `NULL` is 0. -/
def lf_push_usr {N : Type} (dat fin : Nat) : LF N Unit := do
  let r ← make_obj
  push_obj (.usr r dat (if fin = 0 then no_fin else fin))

/-- The size counter of the stack is the length of the stack chain. -/
def size_inv {N : Type} (c : lf_ctx N) : Prop := c.size = c.stck.length

/-- The size counter is the length of the stack chain in the context an
outcome ends in, when the run returned or escaped with a signal. -/
def size_ok {N α : Type} : Res N α → Prop
  | .ok _ c => size_inv c
  | .sig _ c => size_inv c
  | .fault => True
  | .nofuel => True

/-- The run returned or escaped with a signal. -/
def Res.ended {N α : Type} : Res N α → Bool
  | .ok _ _ => true
  | .sig _ _ => true
  | .fault => false
  | .nofuel => false

/-- An outcome that ends in a context with the stack chain and the size counter
of `c`; with `t` set, the run must have returned or escaped. -/
def keeps_stack {N α : Type} (t : Bool) (c : lf_ctx N) : Res N α → Prop
  | .ok _ c1 => c1.stck = c.stck ∧ c1.size = c.size
  | .sig _ c1 => c1.stck = c.stck ∧ c1.size = c.size
  | .fault => t = false
  | .nofuel => t = false

/-- A piece of the interpreter that touches neither the stack chain nor the
size counter (and, with `t` set, always returns or escapes). -/
def frame {N α : Type} (t : Bool) (m : LF N α) : Prop := ∀ c, keeps_stack t c (m c)

/-- What holds of an outcome: `Q` of the value and the context when the run
returned, the invariant of the size counter when it escaped; with `t` set, the
run must have returned or escaped. -/
def hoare_post {N α : Type} (t : Bool) (Q : α → lf_ctx N → Prop) : Res N α → Prop
  | .ok a c1 => Q a c1
  | .sig _ c1 => size_inv c1
  | .fault => t = false
  | .nofuel => t = false

/-- From a context with `P`, the piece `m` returns with `Q` or escapes with the
invariant of the size counter (and, with `t` set, does one of the two). -/
def hoare {N α : Type} (t : Bool) (P : lf_ctx N → Prop) (m : LF N α)
    (Q : α → lf_ctx N → Prop) : Prop :=
  ∀ c, P c → hoare_post t Q (m c)

/-- A context with the stack `2 1 0` (top first), size 3. -/
def c25_ctx : lf_ctx Sc :=
  { ctx0 Sc 100 with
    stck := [.num 0 (.fin 2 1), .num 1 (.fin 1 1), .num 2 (.fin 0 1)],
    size := 3,
    free := 94,
    cnt := fun r => if r < 3 then 1 else 0,
    brk := 3 }

/-! ## What `lf_wipe` gives back -/

/-- The blocks that the record of a cell gives back when its count reaches
zero: the record and, for a string or a symbol, its segments.  The cells of a
list payload are released one by one. -/
def rec_blocks {N : Type} : lf_obj N → Nat
  | .sym _ s => 1 + s.length
  | .str _ s => 1 + s.length
  | _ => 1

/-- The counts and the length of the free list after the release of one cell
(`free_obj`), the payload cells of a list left to be released apart. -/
def release {N : Type} (st : (Nat → Nat) × Nat) (o : lf_obj N) : (Nat → Nat) × Nat :=
  (set_cnt st.1 o.ref (cnt_dec (st.1 o.ref)),
    st.2 + 1 + (if cnt_dec (st.1 o.ref) = 0 then rec_blocks o else 0))

mutual
/-- A cell followed by the cells below it: the cells of its payload, of the
payloads of these, and so on. -/
def flat_obj {N : Type} : lf_obj N → List (lf_obj N)
  | .lst r val => .lst r val :: flat_chain val
  | .sym r s => [.sym r s]
  | .str r s => [.str r s]
  | .ntv r f => [.ntv r f]
  | .num r v => [.num r v]
  | .usr r d f => [.usr r d f]
/-- The cells of a chain and the cells below them. -/
def flat_chain {N : Type} : List (lf_obj N) → List (lf_obj N)
  | [] => []
  | o :: rest => flat_obj o ++ flat_chain rest
end

/-- The cells of the open chunks and the cells below them, innermost chunk
first. -/
def flat_all {N : Type} : List (List (lf_obj N)) → List (lf_obj N)
  | [] => []
  | head :: next => flat_chain head ++ flat_all next

/-- Every list cell among `S` has a record of count 1 that no other cell of `S`
points at. -/
def lists_live {N : Type} (cnt : Nat → Nat) (S : List (lf_obj N)) : Prop :=
  ∀ o ∈ S, o.type = .LF_TLST → cnt o.ref = 1 ∧ (S.map lf_obj.ref).count o.ref = 1

/-- What holds of the cells `S` of the open chunks for the counts `cnt`, with
`free` blocks on the free list and the records below `brk` given out: the
record of a cell is in use with a count that is not zero and cannot wrap while
blocks are taken from the free list, cells that point at the same record are
equal, and every list cell has a record of its own with count 1. -/
def cells_inv {N : Type} (cnt : Nat → Nat) (free brk : Nat) (S : List (lf_obj N)) : Prop :=
  (∀ o ∈ S, o.ref < brk ∧ 0 < cnt o.ref ∧ cnt o.ref + free ≤ UINT_MAX) ∧
  (∀ o1 ∈ S, ∀ o2 ∈ S, o1.ref = o2.ref → o1 = o2) ∧
  lists_live cnt S

/-- The state of the chunk stack that `lf_read` keeps. -/
def chunk_inv {N : Type} (c : lf_ctx N) : Prop :=
  c.free ≤ UINT_MAX ∧ cells_inv c.cnt c.free c.brk (flat_all c.chk)

/-- The length the free list has once the cells of the open chunks, the cells
below them and the chunk blocks are released. -/
def wipe_gain {N : Type} (c : lf_ctx N) : Nat :=
  ((flat_all c.chk).foldl release (c.cnt, c.free)).2 + c.chk.length

/-! ## Running the monad -/

theorem bind_apply {N α β : Type} (m : LF N α) (f : α → LF N β) (c : lf_ctx N) :
    (m >>= f) c =
      match m c with
      | .ok a c1 => f a c1
      | .sig s c1 => .sig s c1
      | .fault => .fault
      | .nofuel => .nofuel := rfl

theorem bind_ok {N α β : Type} (m : LF N α) (f : α → LF N β) (c c1 : lf_ctx N) (a : α)
    (h : m c = .ok a c1) : (m >>= f) c = f a c1 := by
  rw [bind_apply, h]

theorem bind_sig {N α β : Type} (m : LF N α) (f : α → LF N β) (c c1 : lf_ctx N) (s : lf_sig)
    (h : m c = .sig s c1) : (m >>= f) c = .sig s c1 := by
  rw [bind_apply, h]

theorem pure_apply {N α : Type} (a : α) (c : lf_ctx N) : (pure a : LF N α) c = .ok a c := rfl

theorem getCtx_apply {N : Type} (c : lf_ctx N) : (getCtx : LF N _) c = .ok c c := rfl

theorem modifyCtx_apply {N : Type} (f : lf_ctx N → lf_ctx N) (c : lf_ctx N) :
    modifyCtx f c = .ok () (f c) := rfl

/-! ## Release keeps the chains -/

theorem same_chains_refl {N : Type} (c : lf_ctx N) : same_chains c c :=
  ⟨rfl, rfl, rfl, rfl, rfl⟩

theorem same_chains_trans {N : Type} {c c1 c2 : lf_ctx N} (h1 : same_chains c c1)
    (h2 : same_chains c1 c2) : same_chains c c2 :=
  ⟨h2.stck.trans h1.stck, h2.size.trans h1.size, h2.dict.trans h1.dict,
    h2.hold.trans h1.hold, h2.chk.trans h1.chk⟩

theorem free_block_chains {N : Type} (c : lf_ctx N) : same_chains c (free_block c) :=
  ⟨rfl, rfl, rfl, rfl, rfl⟩

mutual
theorem free_ref_chains {N : Type} : ∀ (o : lf_obj N) (c : lf_ctx N),
    same_chains c (free_ref o c) ∧ (free_ref o c).brk = c.brk ∧ c.free ≤ (free_ref o c).free
  | .lst r val, c => by
    have h := free_list_chains val { c with cnt := set_cnt c.cnt r (cnt_dec (c.cnt r)) }
    have hc : same_chains c { c with cnt := set_cnt c.cnt r (cnt_dec (c.cnt r)) } :=
      ⟨rfl, rfl, rfl, rfl, rfl⟩
    unfold free_ref
    by_cases h0 : cnt_dec (c.cnt r) = 0
    · rw [if_pos h0]
      refine ⟨same_chains_trans (same_chains_trans hc h.1) (free_block_chains _), h.2.1, ?_⟩
      have := h.2.2
      simp only [free_block] at this ⊢
      omega
    · rw [if_neg h0]
      exact ⟨⟨rfl, rfl, rfl, rfl, rfl⟩, rfl, le_refl _⟩
  | .sym r s, c => by
    unfold free_ref
    by_cases h0 : cnt_dec (c.cnt r) = 0
    · rw [if_pos h0]
      exact ⟨⟨rfl, rfl, rfl, rfl, rfl⟩, rfl, by simp only [free_block]; omega⟩
    · rw [if_neg h0]
      exact ⟨⟨rfl, rfl, rfl, rfl, rfl⟩, rfl, le_refl _⟩
  | .str r s, c => by
    unfold free_ref
    by_cases h0 : cnt_dec (c.cnt r) = 0
    · rw [if_pos h0]
      exact ⟨⟨rfl, rfl, rfl, rfl, rfl⟩, rfl, by simp only [free_block]; omega⟩
    · rw [if_neg h0]
      exact ⟨⟨rfl, rfl, rfl, rfl, rfl⟩, rfl, le_refl _⟩
  | .ntv r f, c => by
    unfold free_ref
    by_cases h0 : cnt_dec (c.cnt r) = 0
    · rw [if_pos h0]
      exact ⟨⟨rfl, rfl, rfl, rfl, rfl⟩, rfl, by simp only [free_block]; omega⟩
    · rw [if_neg h0]
      exact ⟨⟨rfl, rfl, rfl, rfl, rfl⟩, rfl, le_refl _⟩
  | .num r v, c => by
    unfold free_ref
    by_cases h0 : cnt_dec (c.cnt r) = 0
    · rw [if_pos h0]
      exact ⟨⟨rfl, rfl, rfl, rfl, rfl⟩, rfl, by simp only [free_block]; omega⟩
    · rw [if_neg h0]
      exact ⟨⟨rfl, rfl, rfl, rfl, rfl⟩, rfl, le_refl _⟩
  | .usr r d f, c => by
    unfold free_ref
    by_cases h0 : cnt_dec (c.cnt r) = 0
    · rw [if_pos h0]
      exact ⟨⟨rfl, rfl, rfl, rfl, rfl⟩, rfl, by simp only [free_block]; omega⟩
    · rw [if_neg h0]
      exact ⟨⟨rfl, rfl, rfl, rfl, rfl⟩, rfl, le_refl _⟩
theorem free_list_chains {N : Type} : ∀ (l : List (lf_obj N)) (c : lf_ctx N),
    same_chains c (free_list l c) ∧ (free_list l c).brk = c.brk ∧
      c.free + l.length ≤ (free_list l c).free
  | [], c => by
    unfold free_list
    exact ⟨same_chains_refl c, rfl, by simp⟩
  | o :: rest, c => by
    have h1 := free_ref_chains o c
    have h2 := free_list_chains rest (free_block (free_ref o c))
    unfold free_list
    refine ⟨same_chains_trans (same_chains_trans h1.1 (free_block_chains _)) h2.1, ?_, ?_⟩
    · rw [h2.2.1]; exact h1.2.1
    · have := h2.2.2
      simp [free_block] at this ⊢
      omega
end

/-! ## Allocation and the stack interface -/

theorem make_block_ok {N : Type} (c : lf_ctx N) (h : 0 < c.free) :
    make_block c = .ok () { c with free := c.free - 1 } := by
  unfold make_block
  rw [if_neg (by omega)]

theorem make_rec_ok {N : Type} (c : lf_ctx N) (h : 0 < c.free) :
    make_rec c = .ok c.brk
      { c with free := c.free - 1, cnt := set_cnt c.cnt c.brk 1, brk := c.brk + 1 } := by
  unfold make_rec
  rw [bind_ok _ _ _ _ _ (make_block_ok c h)]
  rfl

theorem make_obj_ok {N : Type} (c : lf_ctx N) (h : 2 ≤ c.free) :
    make_obj c = .ok c.brk
      { c with free := c.free - 2, cnt := set_cnt c.cnt c.brk 1, brk := c.brk + 1 } := by
  unfold make_obj
  rw [bind_ok _ _ _ _ _ (make_block_ok c (by omega))]
  rw [make_rec_ok _ (by simp only []; omega)]
  simp only [Res.ok.injEq, true_and]
  congr 1

theorem make_ref_ok {N : Type} (o : lf_obj N) (c : lf_ctx N) (h : 0 < c.free) :
    make_ref o c = .ok o
      { c with free := c.free - 1, cnt := set_cnt c.cnt o.ref (cnt_inc (c.cnt o.ref)) } := by
  unfold make_ref
  rw [bind_ok _ _ _ _ _ (make_block_ok c h)]
  rfl

theorem lf_peek_ok {N : Type} (c : lf_ctx N) (i : Nat) (x : lf_obj N)
    (hsz : c.size = c.stck.length) (hx : c.stck[i]? = some x) :
    lf_peek (i : Int) c = .ok x c := by
  have hi : i < c.stck.length := by
    rcases Nat.lt_or_ge i c.stck.length with h | h
    · exact h
    · rw [List.getElem?_eq_none h] at hx
      cases hx
  unfold lf_peek
  rw [if_neg (by omega), if_neg (by omega)]
  simp only [Int.toNat_ofNat, hx]

theorem lf_take_ok {N : Type} (c : lf_ctx N) (i : Nat) (x : lf_obj N)
    (hsz : c.size = c.stck.length) (hx : c.stck[i]? = some x) :
    lf_take (i : Int) c = .ok x
      { c with stck := c.stck.eraseIdx i, hold := x :: c.hold, size := c.size - 1 } := by
  have hi : i < c.stck.length := by
    rcases Nat.lt_or_ge i c.stck.length with h | h
    · exact h
    · rw [List.getElem?_eq_none h] at hx
      cases hx
  unfold lf_take
  rw [if_neg (by omega), if_neg (by omega)]
  simp only [Int.toNat_ofNat, hx]

theorem free_obj_chains {N : Type} (o : lf_obj N) (c : lf_ctx N) :
    same_chains c (free_obj o c) ∧ (free_obj o c).brk = c.brk ∧
      c.free + 1 ≤ (free_obj o c).free := by
  have h := free_ref_chains o c
  unfold free_obj
  exact ⟨same_chains_trans h.1 (free_block_chains _), h.2.1, by simp only [free_block]; omega⟩

@[simp] theorem free_obj_stck {N : Type} (o : lf_obj N) (c : lf_ctx N) :
    (free_obj o c).stck = c.stck := (free_obj_chains o c).1.stck

@[simp] theorem free_obj_size {N : Type} (o : lf_obj N) (c : lf_ctx N) :
    (free_obj o c).size = c.size := (free_obj_chains o c).1.size

@[simp] theorem free_obj_dict {N : Type} (o : lf_obj N) (c : lf_ctx N) :
    (free_obj o c).dict = c.dict := (free_obj_chains o c).1.dict

@[simp] theorem free_obj_hold {N : Type} (o : lf_obj N) (c : lf_ctx N) :
    (free_obj o c).hold = c.hold := (free_obj_chains o c).1.hold

@[simp] theorem free_obj_chk {N : Type} (o : lf_obj N) (c : lf_ctx N) :
    (free_obj o c).chk = c.chk := (free_obj_chains o c).1.chk

@[simp] theorem free_obj_brk {N : Type} (o : lf_obj N) (c : lf_ctx N) :
    (free_obj o c).brk = c.brk := (free_obj_chains o c).2.1

theorem free_obj_free {N : Type} (o : lf_obj N) (c : lf_ctx N) :
    c.free + 1 ≤ (free_obj o c).free := (free_obj_chains o c).2.2

theorem free_obj_free2 {N : Type} (x y : lf_obj N) (c : lf_ctx N) :
    2 ≤ (free_obj x (free_obj y c)).free := by
  have h1 := free_obj_free y c
  have h2 := free_obj_free x (free_obj y c)
  omega

theorem mathop_ok {N : Type} (op : N → N → N) (c : lf_ctx N) (ra rb : Nat) (a b : N)
    (rest : List (lf_obj N)) (hstk : c.stck = .num rb b :: .num ra a :: rest)
    (hsz : c.size = c.stck.length) : arith_post c rest (op a b) (mathop op c) := by
  have hp : lf_peek 1 c = .ok (.num ra a) c := by
    simpa using lf_peek_ok c 1 (.num ra a) hsz (by simp [hstk])
  unfold mathop
  rw [bind_ok _ _ _ _ _ hp, bind_ok _ _ _ _ _ (getCtx_apply c)]
  simp only [hstk, lf_to_num, bind_apply, pure_apply, modifyCtx_apply, lf_push_num, push_obj]
  rw [make_obj_ok _ (by exact free_obj_free2 _ _ _)]
  refine ⟨_, _, rfl, rfl, ?_, ?_, ?_, ?_⟩
  · simp
    omega
  · simp
  · simp
  · simp

/-! ## The claims -/

/-- C1: on a stack whose two top cells are NUMBERs, `b` on top and `a` directly
below, each of the primitives `+ - * /` returns, replaces the two cells by one
NUMBER `a op b` (the top cell is the right operand) and leaves every cell below
in place, so that the size decreases by one; and the program `1 2 +`, read and
evaluated on an empty stack, leaves the single NUMBER 3. -/
theorem C1_arith_pops_two_pushes_result {N : Type} [LfNum N] (ap : lf_obj N → LF N Unit)
    (c : lf_ctx N) (ra rb : Nat) (a b : N) (rest : List (lf_obj N))
    (hstk : c.stck = .num rb b :: .num ra a :: rest) (hsz : c.size = c.stck.length) :
    arith_post c rest (LfNum.add a b) (call_ntv ap .lf_add c) ∧
    arith_post c rest (LfNum.sub a b) (call_ntv ap .lf_sub c) ∧
    arith_post c rest (LfNum.mul a b) (call_ntv ap .lf_mul c) ∧
    arith_post c rest (LfNum.div a b) (call_ntv ap .lf_div c) ∧
    (run 10 "1 2 +" (ctx0 Sc 100)).stck = some [.num 5 (LfNum.ofInt 3)] :=
  ⟨mathop_ok _ c ra rb a b rest hstk hsz, mathop_ok _ c ra rb a b rest hstk hsz,
    mathop_ok _ c ra rb a b rest hstk hsz, mathop_ok _ c ra rb a b rest hstk hsz, by decide!⟩

/-- C1, at a concrete stack: `7 2 -` leaves 5 and `7 2 /` leaves 7/2. -/
theorem C1_arith_witness :
    c1_ctx.stck = [.num 1 (.fin 2 1), .num 0 (.fin 7 1)] ∧ c1_ctx.size = c1_ctx.stck.length ∧
      arith_post c1_ctx [] (.fin 5 1) (call_ntv (apply 1) .lf_sub c1_ctx) ∧
      arith_post c1_ctx [] (.fin 7 2) (call_ntv (apply 1) .lf_div c1_ctx) :=
  have h := C1_arith_pops_two_pushes_result (apply 1) c1_ctx 0 1 (.fin 7 1) (.fin 2 1) [] rfl rfl
  ⟨rfl, rfl, h.2.1, h.2.2.2.1⟩

theorem eq_select_ok {N : Type} [LfNum N] (c : lf_ctx N) (e t b a : lf_obj N)
    (rest : List (lf_obj N)) (hstk : c.stck = e :: t :: b :: a :: rest)
    (hsz : c.size = c.stck.length) :
    eq_select c = .ok (if objeq a b then t else e)
      (eq_ctx c a b (if objeq a b then e else t) rest) := by
  have hp : lf_peek 3 c = .ok a c := by
    simpa using lf_peek_ok c 3 a hsz (by simp [hstk])
  unfold eq_select
  rw [bind_ok _ _ _ _ _ hp, bind_ok _ _ _ _ _ (getCtx_apply c)]
  simp only [hstk]
  by_cases h : objeq a b = true
  · simp only [h, if_true, bind_apply, pure_apply, modifyCtx_apply, eq_ctx]
  · simp only [h, Bool.false_eq_true, if_false, bind_apply, pure_apply, modifyCtx_apply, eq_ctx]

/-- C2: on a stack `... A B T E` (E on top), `eq` takes the four cells off the
stack, releases A and B and the branch it does not select, and applies T when
`objeq A B` holds and E otherwise; its outcome is the outcome of `apply` on the
selected branch with the stack that lay below A.  The program
`"a" "a" [42] [0] eq`, read and evaluated on an empty stack, leaves the single
NUMBER 42. -/
theorem C2_eq_applies_selected_branch {N : Type} [LfNum N] (ap : lf_obj N → LF N Unit)
    (c : lf_ctx N) (e t b a : lf_obj N) (rest : List (lf_obj N))
    (hstk : c.stck = e :: t :: b :: a :: rest) (hsz : c.size = c.stck.length) :
    call_ntv ap .lf_eq c =
        ap (if objeq a b then t else e) (eq_ctx c a b (if objeq a b then e else t) rest) ∧
      (∀ disc, (eq_ctx c a b disc rest).stck = rest ∧
        (eq_ctx c a b disc rest).size = c.size - 4 ∧
        (eq_ctx c a b disc rest).dict = c.dict ∧ (eq_ctx c a b disc rest).hold = c.hold) ∧
      (run 10 "\"a\" \"a\" [42] [0] eq" (ctx0 Sc 100)).stck = some [.num 8 (LfNum.ofInt 42)] := by
  refine ⟨?_, ?_, by decide!⟩
  · show lf_eq ap c = _
    unfold lf_eq
    rw [bind_ok _ _ _ _ _ (eq_select_ok c e t b a rest hstk hsz)]
  · intro disc
    simp [eq_ctx]

/-- C2, at the stack `"a" "a" [42] [0]`: the two strings are equal, so `[42]`
is applied on the empty stack and leaves 42. -/
theorem C2_eq_witness :
    c2_ctx.stck = [.lst 3 [.num 4 (.fin 0 1)], .lst 1 [.num 2 (.fin 42 1)],
        .str 0 [['a']], .str 0 [['a']]] ∧
      c2_ctx.size = c2_ctx.stck.length ∧
      call_ntv (apply 5) .lf_eq c2_ctx =
        apply 5 (.lst 1 [.num 2 (.fin 42 1)])
          (eq_ctx c2_ctx (.str 0 [['a']]) (.str 0 [['a']]) (.lst 3 [.num 4 (.fin 0 1)]) []) ∧
      (call_ntv (apply 5) .lf_eq c2_ctx).stck = some [.num 2 (.fin 42 1)] :=
  ⟨rfl, rfl,
    (C2_eq_applies_selected_branch (apply 5) c2_ctx _ _ (.str 0 [['a']]) (.str 0 [['a']]) []
      rfl rfl).1,
    by decide!⟩

theorem streq_refl : ∀ (s : lf_str), streq s s = true
  | [] => by simp [streq]
  | a :: as => by simp [streq, streq_refl as]

theorem make_cpy_sym {N : Type} (r : Nat) (s : lf_str) (c : lf_ctx N) (h : 0 < c.free) :
    make_cpy (.sym r s) c = .ok (.sym r s)
      { c with free := c.free - 1, cnt := set_cnt c.cnt r (cnt_inc (c.cnt r)) } := by
  simp only [make_cpy]
  exact make_ref_ok _ c h

theorem make_cpy_str {N : Type} (r : Nat) (s : lf_str) (c : lf_ctx N) (h : 0 < c.free) :
    make_cpy (.str r s) c = .ok (.str r s)
      { c with free := c.free - 1, cnt := set_cnt c.cnt r (cnt_inc (c.cnt r)) } := by
  simp only [make_cpy]
  exact make_ref_ok _ c h

theorem make_cpy_usr {N : Type} (r d f : Nat) (c : lf_ctx N) (h : 0 < c.free) :
    make_cpy (.usr r d f) c = .ok (.usr r d f)
      { c with free := c.free - 1, cnt := set_cnt c.cnt r (cnt_inc (c.cnt r)) } := by
  simp only [make_cpy]
  exact make_ref_ok _ c h

theorem make_cpy_ntv {N : Type} (r : Nat) (f : lf_ntv) (c : lf_ctx N) (h : 2 ≤ c.free) :
    make_cpy (.ntv r f) c = .ok (.ntv c.brk f)
      { c with free := c.free - 2,
               cnt := set_cnt (set_cnt c.cnt c.brk 1) c.brk (set_cnt c.cnt c.brk 1 r),
               brk := c.brk + 1 } := by
  simp only [make_cpy]
  rw [bind_ok _ _ _ _ _ (make_obj_ok c h)]
  rfl

theorem make_cpy_num {N : Type} (r : Nat) (v : N) (c : lf_ctx N) (h : 2 ≤ c.free) :
    make_cpy (.num r v) c = .ok (.num c.brk v)
      { c with free := c.free - 2,
               cnt := set_cnt (set_cnt c.cnt c.brk 1) c.brk (set_cnt c.cnt c.brk 1 r),
               brk := c.brk + 1 } := by
  simp only [make_cpy]
  rw [bind_ok _ _ _ _ _ (make_obj_ok c h)]
  rfl

mutual
theorem make_cpy_ok {N : Type} [LfNum N] : ∀ (x : lf_obj N) (c : lf_ctx N),
    cpy_blocks x ≤ c.free →
    ∃ cpy c1, make_cpy x c = .ok cpy c1 ∧ same_chains c c1 ∧
      c1.free = c.free - cpy_blocks x ∧ cpy.type = x.type ∧
      (num_refl x = true → objeq cpy x = true ∧ objeq x cpy = true)
  | .lst r val, c, h => by
    simp only [cpy_blocks] at h
    have hobj := make_obj_ok c (by omega)
    obtain ⟨val1, c1, h1, h2, h3, h4⟩ := make_cpy_chain_ok val
      { c with free := c.free - 2, cnt := set_cnt c.cnt c.brk 1, brk := c.brk + 1 }
      (by simp only []; omega)
    refine ⟨.lst c.brk val1, c1, ?_, ?_, ?_, rfl, ?_⟩
    · simp only [make_cpy]
      rw [bind_ok _ _ _ _ _ hobj, bind_ok _ _ _ _ _ h1]
      rfl
    · exact ⟨h2.stck, h2.size, h2.dict, h2.hold, h2.chk⟩
    · rw [h3]
      simp only [cpy_blocks]
      omega
    · intro hn
      simp only [num_refl] at hn
      have := h4 hn
      simp only [objeq, this.1, this.2, ite_self, and_self]
  | .sym r s, c, h => by
    simp only [cpy_blocks] at h
    refine ⟨_, _, make_cpy_sym r s c (by omega), ⟨rfl, rfl, rfl, rfl, rfl⟩, rfl, rfl, ?_⟩
    intro _
    simp only [objeq, streq_refl, and_self]
  | .str r s, c, h => by
    simp only [cpy_blocks] at h
    refine ⟨_, _, make_cpy_str r s c (by omega), ⟨rfl, rfl, rfl, rfl, rfl⟩, rfl, rfl, ?_⟩
    intro _
    simp only [objeq, streq_refl, and_self]
  | .usr r d f, c, h => by
    simp only [cpy_blocks] at h
    refine ⟨_, _, make_cpy_usr r d f c (by omega), ⟨rfl, rfl, rfl, rfl, rfl⟩, rfl, rfl, ?_⟩
    intro _
    simp only [objeq, beq_self_eq_true, and_self]
  | .ntv r f, c, h => by
    simp only [cpy_blocks] at h
    refine ⟨_, _, make_cpy_ntv r f c h, ⟨rfl, rfl, rfl, rfl, rfl⟩, rfl, rfl, ?_⟩
    intro _
    simp only [objeq, beq_self_eq_true, and_self]
  | .num r v, c, h => by
    simp only [cpy_blocks] at h
    refine ⟨_, _, make_cpy_num r v c h, ⟨rfl, rfl, rfl, rfl, rfl⟩, rfl, rfl, ?_⟩
    intro hn
    simp only [num_refl] at hn
    simp only [objeq, hn, and_self]
theorem make_cpy_chain_ok {N : Type} [LfNum N] : ∀ (l : List (lf_obj N)) (c : lf_ctx N),
    cpy_blocks_chain l ≤ c.free →
    ∃ l1 c1, make_cpy_chain l c = .ok l1 c1 ∧ same_chains c c1 ∧
      c1.free = c.free - cpy_blocks_chain l ∧
      (num_refl_chain l = true → objeq_chain l1 l = true ∧ objeq_chain l l1 = true)
  | [], c, _ => by
    refine ⟨[], c, by simp only [make_cpy_chain]; rfl, same_chains_refl c, by simp [cpy_blocks_chain], ?_⟩
    intro _
    simp only [objeq_chain, and_self]
  | x :: rest, c, h => by
    simp only [cpy_blocks_chain] at h
    obtain ⟨cpy, c1, h1, h2, h3, _, h4⟩ := make_cpy_ok x c (by omega)
    obtain ⟨l1, c2, k1, k2, k3, k4⟩ := make_cpy_chain_ok rest c1 (by omega)
    refine ⟨cpy :: l1, c2, ?_, same_chains_trans h2 k2, ?_, ?_⟩
    · simp only [make_cpy_chain]
      rw [bind_ok _ _ _ _ _ h1, bind_ok _ _ _ _ _ k1]
      rfl
    · rw [k3, h3]
      simp only [cpy_blocks_chain]
      omega
    · intro hn
      simp only [num_refl_chain, Bool.and_eq_true] at hn
      have a1 := h4 hn.1
      have a2 := k4 hn.2
      simp only [objeq_chain, a1.1, a1.2, a2.1, a2.2, if_true, and_self]
end

theorem push_obj_apply {N : Type} (o : lf_obj N) (c : lf_ctx N) :
    push_obj o c = .ok () { c with stck := o :: c.stck, size := c.size + 1 } := rfl

theorem lf_take_top {N : Type} (c : lf_ctx N) (x : lf_obj N) (rest : List (lf_obj N))
    (hstk : c.stck = x :: rest) (hsz : c.size = c.stck.length) :
    lf_take 0 c = .ok x { c with stck := rest, hold := x :: c.hold, size := c.size - 1 } := by
  have h := lf_take_ok c 0 x hsz (by simp [hstk])
  simp only [hstk, List.eraseIdx_cons_zero] at h
  simpa using h

theorem lf_reg_ok {N : Type} (c : lf_ctx N) (r : Nat) (n : lf_str) (v : lf_obj N)
    (rest : List (lf_obj N)) (hstk : c.stck = .str r n :: v :: rest)
    (hsz : c.size = c.stck.length) :
    lf_reg c = .ok ()
      { c with stck := rest, dict := .str r n :: v :: c.dict, size := c.size - 2 } := by
  have hp : lf_peek 1 c = .ok v c := by
    simpa using lf_peek_ok c 1 v hsz (by simp [hstk])
  unfold lf_reg
  rw [bind_ok _ _ _ _ _ hp, bind_ok _ _ _ _ _ (getCtx_apply c)]
  simp only [hstk, lf_to_str, bind_apply, pure_apply, modifyCtx_apply]

theorem find_head {N : Type} (c : lf_ctx N) (r : Nat) (n : lf_str) (v : lf_obj N)
    (d : List (lf_obj N)) (hd : c.dict = .str r n :: v :: d) : find n c = .ok v c := by
  unfold find
  rw [hd]
  simp only [find_in, str_of, streq_refl, if_true, pure_apply]

theorem lf_fnd_ok {N : Type} [LfNum N] (c : lf_ctx N) (r r2 : Nat) (n : lf_str)
    (v : lf_obj N) (rest d : List (lf_obj N)) (hstk : c.stck = .str r n :: rest)
    (hsz : c.size = c.stck.length) (hd : c.dict = .str r2 n :: v :: d)
    (hmem : cpy_blocks v ≤ c.free) :
    ∃ cpy c1, lf_fnd c = .ok () c1 ∧ c1.stck = cpy :: rest ∧ c1.size = c.size ∧
      c1.dict = c.dict ∧ c1.hold = .str r n :: c.hold ∧ cpy.type = v.type ∧
      (num_refl v = true → objeq cpy v = true ∧ objeq v cpy = true) := by
  have ht := lf_take_top c (.str r n) rest hstk hsz
  obtain ⟨cpy, c1, h1, h2, _, h4, h5⟩ := make_cpy_ok v
    { c with stck := rest, hold := .str r n :: c.hold, size := c.size - 1 } hmem
  refine ⟨cpy, { c1 with stck := cpy :: c1.stck, size := c1.size + 1 }, ?_, ?_, ?_, ?_, ?_, h4, h5⟩
  · unfold lf_fnd
    rw [bind_ok _ _ _ _ _ ht]
    simp only [lf_to_str, bind_apply, pure_apply]
    rw [find_head _ r2 n v d (by exact hd)]
    simp only [h1, push_obj, modifyCtx_apply]
  · simp [h2.stck]
  · simp [h2.size]
  · simp [h2.dict]
  · simp [h2.hold]

/-- C3 (as amended): two `;` in a row on a stack `n v1 n v2` (top first)
register v1 and then v2 under the name `n`: they take exactly these four cells
off the stack and link the pairs at the head of the dictionary, the later pair
first.  After that the lookup `find` of a key with the segments of `n` returns
v2, the most recent value; executing a SYMBOL with these segments continues
with v2; and `?` with the STRING `n` on top replaces it by a copy of v2 which,
when no NUMBER in v2 is a NaN, is structurally equal to v2 (given the blocks
for the copy). -/
theorem C3_register_then_find {N : Type} [LfNum N] (c : lf_ctx N) (n : lf_str)
    (r1 r2 r3 : Nat) (v1 v2 : lf_obj N) (rest : List (lf_obj N))
    (hstk : c.stck = .str r1 n :: v1 :: .str r2 n :: v2 :: rest)
    (hsz : c.size = c.stck.length) (hmem : cpy_blocks v2 ≤ c.free)
    (hnan : num_refl v2 = true) :
    ∃ c2, (lf_reg >>= fun _ => lf_reg) c = .ok () c2 ∧ c2.stck = rest ∧ c2.size = c.size - 4 ∧
      c2.dict = .str r2 n :: v2 :: .str r1 n :: v1 :: c.dict ∧ c2.hold = c.hold ∧
      find n c2 = .ok v2 c2 ∧
      (∀ fuel r, execute (fuel + 1) (.sym r n) c2 =
        (match v2 with
          | .lst _ val => execute_chain (execute fuel) val
          | _ => execute fuel v2) c2) ∧
      ∃ cpy c3, (push_obj (.str r3 n) >>= fun _ => lf_fnd) c2 = .ok () c3 ∧
        c3.stck = cpy :: rest ∧ c3.size = c2.size + 1 ∧ c3.dict = c2.dict ∧
        objeq cpy v2 = true ∧ objeq v2 cpy = true := by
  have e1 := lf_reg_ok c r1 n v1 (.str r2 n :: v2 :: rest) hstk hsz
  have e2 := lf_reg_ok
    { c with stck := .str r2 n :: v2 :: rest, dict := .str r1 n :: v1 :: c.dict,
             size := c.size - 2 } r2 n v2 rest rfl
    (by simp only [hsz, hstk, List.length_cons]; push_cast; omega)
  have hf : ∀ c2 : lf_ctx N, c2.dict = .str r2 n :: v2 :: .str r1 n :: v1 :: c.dict →
      find n c2 = .ok v2 c2 := fun c2 h => find_head c2 r2 n v2 _ h
  refine ⟨{ c with stck := rest, dict := .str r2 n :: v2 :: .str r1 n :: v1 :: c.dict,
                    size := c.size - 2 - 2 }, ?_, rfl, ?_, rfl, rfl, hf _ rfl, ?_, ?_⟩
  · rw [bind_ok _ _ _ _ _ e1, e2]
  · simp only []
    omega
  · intro fuel r
    simp only [execute]
    rw [bind_ok _ _ _ _ _ (hf _ rfl)]
  · obtain ⟨cpy, c3, k1, k2, k3, k4, _, _, k7⟩ := lf_fnd_ok
      { c with stck := .str r3 n :: rest,
               dict := .str r2 n :: v2 :: .str r1 n :: v1 :: c.dict,
               size := c.size - 2 - 2 + 1 } r3 r2 n v2 rest _ rfl
      (by simp only [hsz, hstk, List.length_cons]; push_cast; omega) rfl hmem
    refine ⟨cpy, c3, ?_, k2, ?_, k4, (k7 hnan).1, (k7 hnan).2⟩
    · rw [bind_ok _ _ _ _ _ (push_obj_apply _ _)]
      exact k1
    · rw [k3]

/-- C3 (as amended), at a concrete stack: 1 and then 2 are registered under
`n`; the lookup returns 2 and `"n" ?` pushes a copy equal to 2. -/
theorem C3_register_witness :
    c3_ctx.stck = [.str 1 [['n']], .num 0 (.fin 1 1), .str 3 [['n']], .num 2 (.fin 2 1)] ∧
      c3_ctx.size = c3_ctx.stck.length ∧ cpy_blocks (lf_obj.num 2 (Sc.fin 2 1)) ≤ c3_ctx.free ∧
      num_refl (lf_obj.num 2 (Sc.fin 2 1)) = true ∧
      ∃ c2, (lf_reg >>= fun _ => lf_reg) c3_ctx = .ok () c2 ∧ c2.stck = [] ∧
        c2.dict = [.str 3 [['n']], .num 2 (.fin 2 1), .str 1 [['n']], .num 0 (.fin 1 1)] ∧
        find [['n']] c2 = .ok (.num 2 (.fin 2 1)) c2 :=
  have h := C3_register_then_find c3_ctx [['n']] 1 3 5 (.num 0 (.fin 1 1)) (.num 2 (.fin 2 1)) []
    rfl rfl (by decide) (by decide)
  ⟨rfl, rfl, by decide, by decide,
    h.elim fun c2 k => ⟨c2, k.1, k.2.1, k.2.2.2.1, k.2.2.2.2.2.1⟩⟩

/-- C3 as stated fails: after `1 "n" ; nan "n" ;` the program `"n" ?` pushes a
copy of the NUMBER registered last, a NaN, and `objeq` does not hold between
the copy and the registered value. -/
theorem C3_counterexample :
    (run 10 "1 \"n\" ; nan \"n\" ; \"n\" ?" (ctx0 Sc 100)).get (fun c => (c.stck, c.dict)) =
        some ([.num 10 .nan],
          [.str 1 [['n']], .num 9 .nan, .str 1 [['n']], .num 8 (.fin 1 1)]) ∧
      objeq (lf_obj.num 10 Sc.nan) (lf_obj.num 9 Sc.nan) = false ∧
      objeq (lf_obj.num 9 Sc.nan) (lf_obj.num 10 Sc.nan) = false := by
  decide!

/-- C4 (the code at the failing input): the program
`1 "abcdefghijklmno" ; abcdefghijklmno` registers 1 under a name of 15 bytes
and then evaluates the symbol with the same 15 bytes; the evaluation escapes
with RUNTIME_ERROR although the dictionary holds that name (its segments are
the 15 bytes and an empty segment).  With 14 bytes the symbol resolves to 1. -/
theorem C4_symbol_of_15_bytes_is_unknown :
    (run 10 "1 \"abcdefghijklmno\" ; abcdefghijklmno" (ctx0 Sc 100)).escaped (fun c => c.dict) =
        some (.LF_SRUNERR, [.str 1 ["abcdefghijklmno".toList, []], .num 4 (.fin 1 1)]) ∧
      (["abcdefghijklmno".toList, []] : lf_str).flatten = "abcdefghijklmno".toList ∧
      (run 10 "1 \"abcdefghijklmn\" ; abcdefghijklmn" (ctx0 Sc 100)).get (fun c => c.stck) =
        some [.num 5 (.fin 1 1)] := by
  decide!

/-- C5 (the code at the failing input): for the 15 bytes `abcdefghijklmno` the
string-literal reader builds the segments `abcdefghijklmno` and an empty one,
`build_string` builds the single segment `abcdefghijklmno`; the two chains hold
the same bytes and `streq` is false on them.  The same happens for the empty
string: the reader builds one empty segment, `build_string` none. -/
theorem C5_streq_false_on_equal_bytes :
    ((read_str_segs 20 "abcdefghijklmno\"".toList : LF Sc _) (ctx0 Sc 100)).val =
        some (["abcdefghijklmno".toList, []], []) ∧
      ((build_string "abcdefghijklmno".toList 15 : LF Sc _) (ctx0 Sc 100)).val =
        some ["abcdefghijklmno".toList] ∧
      (["abcdefghijklmno".toList, []] : lf_str).flatten = (["abcdefghijklmno".toList] : lf_str).flatten ∧
      streq ["abcdefghijklmno".toList, []] ["abcdefghijklmno".toList] = false ∧
      ((read_str_segs 20 "\"".toList : LF Sc _) (ctx0 Sc 100)).val = some ([[]], []) ∧
      ((build_string [] 0 : LF Sc _) (ctx0 Sc 100)).val = some [] ∧
      ([[]] : lf_str).flatten = ([] : lf_str).flatten ∧
      streq [[]] [] = false := by
  decide!

theorem lf_cpy_ok {N : Type} [LfNum N] (c : lf_ctx N) (r : Nat) (v : N)
    (rest : List (lf_obj N)) (i : Nat) (x : lf_obj N) (hstk : c.stck = .num r v :: rest)
    (hsz : c.size = c.stck.length) (hi : LfNum.toInt v = (i : Int)) (hx : rest[i]? = some x)
    (hmem : cpy_blocks x ≤ c.free) :
    ∃ cpy c1, lf_cpy c = .ok () c1 ∧ c1.stck = cpy :: rest ∧ c1.size = rest.length + 1 ∧
      c1.dict = c.dict ∧ c1.hold = .num r v :: c.hold ∧ cpy.type = x.type ∧
      (num_refl x = true → objeq cpy x = true ∧ objeq x cpy = true) := by
  have ht := lf_take_top c (.num r v) rest hstk hsz
  have hp := lf_peek_ok
    { c with stck := rest, hold := .num r v :: c.hold, size := c.size - 1 } i x
    (by simp only [hsz, hstk, List.length_cons]; push_cast; omega) hx
  obtain ⟨cpy, c1, h1, h2, _, h4, h5⟩ := make_cpy_ok x
    { c with stck := rest, hold := .num r v :: c.hold, size := c.size - 1 } hmem
  refine ⟨cpy, { c1 with stck := cpy :: c1.stck, size := c1.size + 1 }, ?_, ?_, ?_, ?_, ?_, h4, h5⟩
  · unfold lf_cpy
    rw [bind_ok _ _ _ _ _ ht]
    simp only [lf_to_num, bind_apply, pure_apply, hi, hp, h1, push_obj_apply]
  · simp [h2.stck]
  · simp only [h2.size, hsz, hstk, List.length_cons]
    push_cast
    omega
  · simp [h2.dict]
  · simp [h2.hold]

/-- C6 (as amended): with the index NUMBER `i` on top of a stack of `n` further
cells, `0 <= i < n`, `cpy` returns and pushes a new cell in place of the index;
the `n` cells stay in place and the size becomes `n + 1`.  The new cell has the
tag of the cell `x` at depth `i` and, when no NUMBER in `x` is a NaN, `objeq`
holds between the new cell and `x` (in both orders); the same holds for
`make_cpy x` itself.  The blocks for the copy are assumed to be free. -/
theorem C6_cpy_pushes_equal_copy {N : Type} [LfNum N] (c : lf_ctx N) (r : Nat) (v : N)
    (rest : List (lf_obj N)) (i : Nat) (x : lf_obj N) (hstk : c.stck = .num r v :: rest)
    (hsz : c.size = c.stck.length) (hi : LfNum.toInt v = (i : Int)) (hx : rest[i]? = some x)
    (hmem : cpy_blocks x ≤ c.free) (hnan : num_refl x = true) :
    (∃ cpy c1, lf_cpy c = .ok () c1 ∧ c1.stck = cpy :: rest ∧ c1.size = rest.length + 1 ∧
      cpy.type = x.type ∧ objeq cpy x = true ∧ objeq x cpy = true) ∧
    (∃ cpy c1, make_cpy x c = .ok cpy c1 ∧ cpy.type = x.type ∧
      objeq cpy x = true ∧ objeq x cpy = true) := by
  obtain ⟨cpy, c1, h1, h2, h3, _, _, h6, h7⟩ := lf_cpy_ok c r v rest i x hstk hsz hi hx hmem
  obtain ⟨cpy2, c2, k1, _, _, k4, k5⟩ := make_cpy_ok x c hmem
  exact ⟨⟨cpy, c1, h1, h2, h3, h6, (h7 hnan).1, (h7 hnan).2⟩,
    ⟨cpy2, c2, k1, k4, (k5 hnan).1, (k5 hnan).2⟩⟩

/-- C6 (as amended), at the stack `[1 2] "a" 1`: `cpy` pushes a copy of the
list at depth 1. -/
theorem C6_cpy_witness :
    c6_ctx.stck = .num 4 (.fin 1 1) ::
        [.str 3 [['a']], .lst 0 [.num 1 (.fin 1 1), .num 2 (.fin 2 1)]] ∧
      c6_ctx.size = c6_ctx.stck.length ∧ LfNum.toInt (Sc.fin 1 1) = ((1 : Nat) : Int) ∧
      [lf_obj.str 3 [['a']], .lst 0 [.num 1 (Sc.fin 1 1), .num 2 (.fin 2 1)]][1]? =
        some (.lst 0 [.num 1 (.fin 1 1), .num 2 (.fin 2 1)]) ∧
      cpy_blocks (lf_obj.lst 0 [.num 1 (Sc.fin 1 1), .num 2 (.fin 2 1)]) ≤ c6_ctx.free ∧
      num_refl (lf_obj.lst 0 [.num 1 (Sc.fin 1 1), .num 2 (.fin 2 1)]) = true ∧
      ∃ cpy c1, lf_cpy c6_ctx = .ok () c1 ∧
        c1.stck = cpy :: [.str 3 [['a']], .lst 0 [.num 1 (.fin 1 1), .num 2 (.fin 2 1)]] ∧
        objeq cpy (.lst 0 [.num 1 (.fin 1 1), .num 2 (.fin 2 1)]) = true :=
  have h := C6_cpy_pushes_equal_copy c6_ctx 4 (.fin 1 1)
    [.str 3 [['a']], .lst 0 [.num 1 (.fin 1 1), .num 2 (.fin 2 1)]] 1
    (.lst 0 [.num 1 (.fin 1 1), .num 2 (.fin 2 1)]) rfl rfl (by decide) rfl (by decide)
    (by decide)
  ⟨rfl, rfl, by decide, rfl, by decide, by decide,
    h.1.elim fun cpy k => k.elim fun c1 k1 => ⟨cpy, c1, k1.1, k1.2.1, k1.2.2.2.2.1⟩⟩

/-- C6 as stated fails: on a stack with the index 0 on top of a NUMBER that is
a NaN, `cpy` pushes a copy of that cell, and `objeq` holds in neither order
between the copy and the cell. -/
theorem C6_counterexample :
    (lf_cpy c6_nan_ctx).get (fun c => (c.stck, c.size)) =
        some ([.num 2 .nan, .num 0 .nan], 2) ∧
      objeq (lf_obj.num 2 Sc.nan) (lf_obj.num 0 Sc.nan) = false ∧
      objeq (lf_obj.num 0 Sc.nan) (lf_obj.num 2 Sc.nan) = false := by
  decide!

/-- C7 (as amended): the program `[1 2 3] 2 cpy`, read and evaluated on an
empty stack, escapes with STACK_UNDERFLOW (the index is counted after the
index NUMBER is popped and only one cell is left) and leaves the one list on
the stack.  With the index 0, `[1 2 3] 0 cpy` returns and leaves exactly two
cells, each structurally equal to the list `[1 2 3]`; a further `pul` leaves
the stack `[1 2 3] 1 2 3 3` (bottom first): the count 3 on top of aliases of
the three cells of the copy. -/
theorem C7_cpy_program :
    (run 10 "[1 2 3] 2 cpy" (ctx0 Sc 100)).escaped (fun c => (c.stck, c.size)) =
        some (.LF_SUNDFLW,
          [.lst 6 [.num 7 (.fin 1 1), .num 8 (.fin 2 1), .num 9 (.fin 3 1)]], 1) ∧
      (run 10 "[1 2 3] 0 cpy" (ctx0 Sc 100)).get (fun c => (c.stck, c.size)) =
        some ([.lst 11 [.num 12 (.fin 1 1), .num 13 (.fin 2 1), .num 14 (.fin 3 1)],
               .lst 6 [.num 7 (.fin 1 1), .num 8 (.fin 2 1), .num 9 (.fin 3 1)]], 2) ∧
      objeq (lf_obj.lst 11 [.num 12 (Sc.fin 1 1), .num 13 (.fin 2 1), .num 14 (.fin 3 1)])
        (.lst 6 [.num 7 (.fin 1 1), .num 8 (.fin 2 1), .num 9 (.fin 3 1)]) = true ∧
      (run 10 "[1 2 3] 0 cpy pul" (ctx0 Sc 100)).get (fun c => (c.stck.reverse, c.size)) =
        some ([.lst 7 [.num 8 (.fin 1 1), .num 9 (.fin 2 1), .num 10 (.fin 3 1)],
               .num 13 (.fin 1 1), .num 14 (.fin 2 1), .num 15 (.fin 3 1),
               .num 16 (LfNum.ofInt 3)], 5) := by
  decide!

/-- C7 as stated fails: `[1 2 3] 2 cpy` on an empty stack does not return OK
and does not leave two cells; it escapes with STACK_UNDERFLOW and leaves one
cell. -/
theorem C7_counterexample :
    (run 10 "[1 2 3] 2 cpy" (ctx0 Sc 100)).signal = some .LF_SUNDFLW ∧
      (run 10 "[1 2 3] 2 cpy" (ctx0 Sc 100)).escaped (fun c => c.stck.length) =
        some (.LF_SUNDFLW, 1) := by
  decide!

/-- C8 (as amended): with the index NUMBER `i` on top of the cells
`x0, x1, ..., x(n-1)` (`x0` first), `0 <= i < n`, `wrp` returns and replaces
the `i + 1` cells `x0 ... x_i` by one LIST cell with a new record of count 1
whose payload is exactly these cells in stack order: the former top `x0` is the
FIRST element and `x_i` the last.  The cells below depth `i` stay in place and
the size becomes `n - i`.  The two blocks of the list are assumed to be
free. -/
theorem C8_wrp_wraps_top_first {N : Type} [LfNum N] (c : lf_ctx N) (r : Nat) (v : N)
    (xs : List (lf_obj N)) (i : Nat) (hstk : c.stck = .num r v :: xs)
    (hsz : c.size = c.stck.length) (hi : LfNum.toInt v = (i : Int)) (hlt : i < xs.length)
    (hmem : 2 ≤ c.free) :
    ∃ c1, lf_wrp c = .ok () c1 ∧
      c1.stck = .lst c.brk (xs.take (i + 1)) :: xs.drop (i + 1) ∧
      c1.size = (xs.length : Int) - i ∧ c1.cnt c.brk = 1 ∧
      (xs.take (i + 1)).length = i + 1 ∧
      (xs.take (i + 1))[0]? = xs[0]? ∧ (xs.take (i + 1))[i]? = xs[i]? ∧
      c1.dict = c.dict := by
  have ht := lf_take_top c (.num r v) xs hstk hsz
  have hx : xs[i]? = some (xs.get ⟨i, hlt⟩) := by simp
  have hp := lf_peek_ok
    { c with stck := xs, hold := .num r v :: c.hold, size := c.size - 1 } i _
    (by simp only [hsz, hstk, List.length_cons]; push_cast; omega) hx
  have hobj := make_obj_ok
    { c with stck := xs, hold := .num r v :: c.hold, size := c.size - 1 } hmem
  refine ⟨{ c with stck := .lst c.brk (xs.take (i + 1)) :: xs.drop (i + 1),
                    hold := .num r v :: c.hold, size := c.size - 1 + 1 - (i + 1),
                    free := c.free - 2, cnt := set_cnt c.cnt c.brk 1, brk := c.brk + 1 },
    ?_, rfl, ?_, ?_, ?_, ?_, ?_, rfl⟩
  · unfold lf_wrp
    rw [bind_ok _ _ _ _ _ ht]
    simp only [lf_to_num, bind_apply, pure_apply, hi, hp, hobj, getCtx_apply,
      modifyCtx_apply, push_obj_apply, Int.toNat_ofNat]
  · simp only [hsz, hstk, List.length_cons]
    push_cast
    omega
  · simp [set_cnt]
  · simp only [List.length_take]
    omega
  · simp
  · simp

/-- C8 (as amended), at the stack `"c" "b" "a" 1`: `wrp` leaves the list
`["a" "b"]` on top of `"c"`. -/
theorem C8_wrp_witness :
    c8_ctx.stck = .num 3 (.fin 1 1) :: [.str 2 [['a']], .str 1 [['b']], .str 0 [['c']]] ∧
      c8_ctx.size = c8_ctx.stck.length ∧ LfNum.toInt (Sc.fin 1 1) = ((1 : Nat) : Int) ∧
      1 < [lf_obj.str (N := Sc) 2 [['a']], .str 1 [['b']], .str 0 [['c']]].length ∧
      2 ≤ c8_ctx.free ∧
      ∃ c1, lf_wrp c8_ctx = .ok () c1 ∧
        c1.stck = [.lst 4 [.str 2 [['a']], .str 1 [['b']]], .str 0 [['c']]] ∧ c1.size = 2 :=
  have h := C8_wrp_wraps_top_first c8_ctx 3 (.fin 1 1)
    [.str 2 [['a']], .str 1 [['b']], .str 0 [['c']]] 1 rfl rfl (by decide) (by decide)
    (by decide)
  ⟨rfl, rfl, by decide, by decide, by decide,
    h.elim fun c1 k => ⟨c1, k.1, k.2.1, k.2.2.1⟩⟩

/-- C8 as stated fails: on the stack `"c" "b" "a" 1` the payload of the list
that `wrp` builds is `"a" "b"`, so its last element is `"b"` and not the former
top `"a"`; the payload is not `x1, x0`. -/
theorem C8_counterexample :
    (lf_wrp c8_ctx).get (fun c => c.stck) =
        some [.lst 4 [.str 2 [['a']], .str 1 [['b']]], .str 0 [['c']]] ∧
      [lf_obj.str (N := Sc) 2 [['a']], .str 1 [['b']]].getLast? ≠ some (.str 2 [['a']]) ∧
      [lf_obj.str (N := Sc) 2 [['a']], .str 1 [['b']]] ≠ [.str 1 [['b']], .str 2 [['a']]] := by
  decide!

theorem pul_loop_ok {N : Type} : ∀ (es : List (lf_obj N)) (k : Int) (c : lf_ctx N),
    es.length ≤ c.free →
    pul_loop es k c = .ok (k + es.length)
      { c with stck := es.reverse ++ c.stck, size := c.size + es.length,
               free := c.free - es.length, cnt := alias_counts es c.cnt }
  | [], k, c, _ => by
    simp [pul_loop, pure_apply, alias_counts]
  | e :: rest, k, c, h => by
    simp only [List.length_cons] at h
    have h1 := make_ref_ok e c (by omega)
    have h2 := pul_loop_ok rest (k + 1)
      { c with free := c.free - 1, cnt := set_cnt c.cnt e.ref (cnt_inc (c.cnt e.ref)),
               stck := e :: c.stck, size := c.size + 1 } (by simp only []; omega)
    simp only [pul_loop]
    rw [bind_ok _ _ _ _ _ h1, bind_ok _ _ _ _ _ (push_obj_apply _ _)]
    rw [h2]
    simp only [List.length_cons, List.reverse_cons, List.append_assoc, List.singleton_append,
      alias_counts, Res.ok.injEq, Nat.cast_add, Nat.cast_one]
    refine ⟨by omega, ?_⟩
    congr 1
    · omega
    · omega

/-- C9: with a LIST cell with payload `e1 ... ek` on top, `pul` returns, takes
the list cell off the stack (onto the hold list) and pushes the `k` cells in
payload order, `e1` first and deepest, each a cell that shares the record of
its element (whose count goes up by one), and then a NUMBER `k` with a new
record on top; the cells below the list stay in place.  The `k + 2` blocks are
assumed to be free.  When the top cell is not a LIST, `pul` escapes with
RUNTIME_ERROR. -/
theorem C9_pul_pushes_payload_and_count {N : Type} [LfNum N] (c : lf_ctx N) (x : lf_obj N)
    (rest : List (lf_obj N)) (hstk : c.stck = x :: rest) (hsz : c.size = c.stck.length) :
    (∀ r es, x = .lst r es → es.length + 2 ≤ c.free →
      ∃ c1, lf_pul c = .ok () c1 ∧
        c1.stck = .num c.brk (LfNum.ofInt es.length) :: (es.reverse ++ rest) ∧
        c1.size = (rest.length : Int) + es.length + 1 ∧
        c1.cnt = set_cnt (alias_counts es c.cnt) c.brk 1 ∧
        c1.hold = x :: c.hold ∧ c1.dict = c.dict) ∧
    (x.type ≠ .LF_TLST →
      ∃ c1, lf_pul c = .sig .LF_SRUNERR c1 ∧ c1.stck = rest ∧ c1.size = rest.length) := by
  have ht := lf_take_top c x rest hstk hsz
  constructor
  · intro r es hx hmem
    subst hx
    have hl := pul_loop_ok es 0
      { c with stck := rest, hold := .lst r es :: c.hold, size := c.size - 1 }
      (by simp only []; omega)
    refine ⟨{ c with stck := .num c.brk (LfNum.ofInt es.length) :: (es.reverse ++ rest),
                      hold := .lst r es :: c.hold, size := c.size - 1 + es.length + 1,
                      free := c.free - es.length - 2,
                      cnt := set_cnt (alias_counts es c.cnt) c.brk 1, brk := c.brk + 1 },
      ?_, rfl, ?_, rfl, rfl, rfl⟩
    · unfold lf_pul
      rw [bind_ok _ _ _ _ _ ht]
      simp only []
      rw [bind_ok _ _ _ _ _ hl]
      unfold lf_push_num
      rw [bind_ok _ _ _ _ _ (make_obj_ok _ (by simp only []; omega))]
      simp only [push_obj_apply, zero_add]
    · simp only [hsz, hstk, List.length_cons]
      push_cast
      omega
  · intro hx
    have hl : lf_raise (α := Unit) .LF_SRUNERR
        { c with stck := rest, hold := x :: c.hold, size := c.size - 1 } =
        .sig .LF_SRUNERR
          (free_hold { c with stck := rest, hold := x :: c.hold, size := c.size - 1 }) := rfl
    refine ⟨free_hold { c with stck := rest, hold := x :: c.hold, size := c.size - 1 },
      ?_, ?_, ?_⟩
    · unfold lf_pul
      rw [bind_ok _ _ _ _ _ ht]
      cases x with
      | lst r es => exact absurd rfl hx
      | sym r s => exact hl
      | str r s => exact hl
      | ntv r f => exact hl
      | num r v => exact hl
      | usr r d f => exact hl
    · simp only [free_hold]
      exact (free_list_chains _ _).1.stck
    · simp only [free_hold]
      rw [(free_list_chains _ _).1.size]
      simp only [hsz, hstk, List.length_cons]
      push_cast
      omega

/-- C9, at the stack `7 ["a" "b"]`: `pul` leaves `7 "a" "b" 2` (bottom first),
and on the stack `7` alone it escapes with RUNTIME_ERROR. -/
theorem C9_pul_witness :
    c9_ctx.stck = .lst 3 [.str 1 [['a']], .str 2 [['b']]] :: [.num 0 (.fin 7 1)] ∧
      c9_ctx.size = c9_ctx.stck.length ∧
      [lf_obj.str (N := Sc) 1 [['a']], .str 2 [['b']]].length + 2 ≤ c9_ctx.free ∧
      (∃ c1, lf_pul c9_ctx = .ok () c1 ∧
        c1.stck = [.num 4 (.fin 2 1), .str 2 [['b']], .str 1 [['a']], .num 0 (.fin 7 1)] ∧
        c1.cnt 1 = 2 ∧ c1.cnt 2 = 2 ∧ c1.cnt 4 = 1) ∧
      (∃ c1, lf_pul c1_ctx = .sig .LF_SRUNERR c1 ∧ c1.stck = [.num 0 (.fin 7 1)]) :=
  have h := C9_pul_pushes_payload_and_count c9_ctx _ [.num 0 (.fin 7 1)] rfl rfl
  have k := C9_pul_pushes_payload_and_count c1_ctx (.num 1 (.fin 2 1)) [.num 0 (.fin 7 1)]
    rfl rfl
  ⟨rfl, rfl, by decide,
    (h.1 3 _ rfl (by decide)).elim fun c1 a =>
      ⟨c1, a.1, a.2.1, by rw [a.2.2.2.1]; decide, by rw [a.2.2.2.1]; decide,
        by rw [a.2.2.2.1]; decide⟩,
    (k.2 (by decide)).elim fun c1 a => ⟨c1, a.1, a.2.1⟩⟩

theorem rol_unlink_some {N : Type} : ∀ (k : Nat) (xs : List (lf_obj N)) (x : lf_obj N),
    xs[k + 1]? = some x →
    rol_unlink k xs = some (x, xs.take (k + 1) ++ xs.drop (k + 2))
  | 0, [], x, h => by simp at h
  | 0, [_], x, h => by simp at h
  | 0, p :: l :: rest, x, h => by
    simp at h
    simp [rol_unlink, h]
  | k + 1, [], x, h => by simp at h
  | k + 1, y :: rest, x, h => by
    have h1 : rest[k + 1]? = some x := by simpa using h
    simp [rol_unlink, rol_unlink_some k rest x h1]

theorem rol_unlink_none {N : Type} : ∀ (k : Nat) (xs : List (lf_obj N)),
    xs.length = k + 1 → rol_unlink k xs = none
  | 0, [], h => by simp at h
  | 0, [_], _ => by simp [rol_unlink]
  | 0, _ :: _ :: _, h => by simp at h
  | k + 1, [], h => by simp at h
  | k + 1, y :: rest, h => by
    have h1 : rest.length = k + 1 := by simpa using h
    simp [rol_unlink, rol_unlink_none k rest h1]

theorem rol_down_some {N : Type} : ∀ (m : Nat) (first : lf_obj N) (t : List (lf_obj N)),
    m + 1 ≤ t.length →
    rol_down (m + 1) (first :: t) = some (t.take (m + 1) ++ first :: t.drop (m + 1))
  | 0, first, [], h => by simp at h
  | 0, first, last :: rest, _ => by simp [rol_down]
  | m + 1, first, [], h => by simp at h
  | m + 1, first, x :: rest, h => by
    have h1 : m + 1 ≤ rest.length := by simpa using h
    simp [rol_down, rol_down_some m first rest h1]

theorem lf_peek_under {N : Type} (c : lf_ctx N) (i : Int) (h : i ≥ c.size ∨ c.size = 0) :
    lf_peek i c = .sig .LF_SUNDFLW (free_hold c) := by
  unfold lf_peek
  rw [if_pos h]
  rfl

theorem free_hold_stck {N : Type} (c : lf_ctx N) : (free_hold c).stck = c.stck := by
  simp only [free_hold]
  exact (free_list_chains _ _).1.stck

theorem free_hold_size {N : Type} (c : lf_ctx N) : (free_hold c).size = c.size := by
  simp only [free_hold]
  exact (free_list_chains _ _).1.size

theorem lf_rol_start {N : Type} [LfNum N] (c : lf_ctx N) (r : Nat) (v : N)
    (xs : List (lf_obj N)) (hstk : c.stck = .num r v :: xs) (hsz : c.size = c.stck.length) :
    lf_rol c = rol_step (LfNum.toInt v)
      { c with stck := xs, hold := .num r v :: c.hold, size := c.size - 1 } := by
  unfold lf_rol
  rw [bind_ok _ _ _ _ _ (lf_take_top c (.num r v) xs hstk hsz)]
  simp only [lf_to_num, bind_apply, pure_apply]

theorem lf_rol_up {N : Type} [LfNum N] (c : lf_ctx N) (r : Nat) (v : N)
    (xs : List (lf_obj N)) (k : Nat) (x : lf_obj N) (hstk : c.stck = .num r v :: xs)
    (hsz : c.size = c.stck.length) (hk : LfNum.toInt v = ((k + 1 : Nat) : Int))
    (hx : xs[k + 1]? = some x) :
    lf_rol c = .ok ()
      { c with stck := x :: (xs.take (k + 1) ++ xs.drop (k + 2)),
               hold := .num r v :: c.hold, size := c.size - 1 } := by
  have hlen : k + 1 < xs.length := by
    rcases Nat.lt_or_ge (k + 1) xs.length with h | h
    · exact h
    · rw [List.getElem?_eq_none h] at hx
      cases hx
  have hp := lf_peek_ok
    { c with stck := xs, hold := .num r v :: c.hold, size := c.size - 1 } k
    (xs.get ⟨k, by omega⟩)
    (by simp only [hsz, hstk, List.length_cons]; push_cast; omega) (by simp)
  rw [lf_rol_start c r v xs hstk hsz, hk]
  unfold rol_step
  rw [if_neg (by omega), if_pos (by omega)]
  have e : (((k + 1 : Nat) : Int) - 1) = (k : Int) := by push_cast; omega
  rw [e, bind_ok _ _ _ _ _ hp, bind_ok _ _ _ _ _ (getCtx_apply _)]
  simp only [Int.toNat_ofNat, rol_unlink_some k xs x hx, modifyCtx_apply]

theorem lf_rol_down {N : Type} [LfNum N] (c : lf_ctx N) (r : Nat) (v : N)
    (x0 : lf_obj N) (t : List (lf_obj N)) (m : Nat) (hstk : c.stck = .num r v :: x0 :: t)
    (hsz : c.size = c.stck.length) (hk : LfNum.toInt v = -((m + 1 : Nat) : Int))
    (hm : m + 1 ≤ t.length) :
    lf_rol c = .ok ()
      { c with stck := t.take (m + 1) ++ x0 :: t.drop (m + 1),
               hold := .num r v :: c.hold, size := c.size - 1 } := by
  have hp := lf_peek_ok
    { c with stck := x0 :: t, hold := .num r v :: c.hold, size := c.size - 1 } (m + 1)
    (t.get ⟨m, by omega⟩)
    (by simp only [hsz, hstk, List.length_cons]; push_cast; omega) (by simp)
  rw [lf_rol_start c r v (x0 :: t) hstk hsz, hk]
  unfold rol_step
  rw [if_pos (by omega)]
  rw [neg_neg, bind_ok _ _ _ _ _ hp, bind_ok _ _ _ _ _ (getCtx_apply _)]
  simp only [Int.toNat_ofNat, rol_down_some m x0 t hm, modifyCtx_apply]

theorem lf_rol_zero {N : Type} [LfNum N] (c : lf_ctx N) (r : Nat) (v : N)
    (xs : List (lf_obj N)) (hstk : c.stck = .num r v :: xs) (hsz : c.size = c.stck.length)
    (hk : LfNum.toInt v = 0) :
    lf_rol c = .ok () { c with stck := xs, hold := .num r v :: c.hold, size := c.size - 1 } := by
  rw [lf_rol_start c r v xs hstk hsz, hk]
  unfold rol_step
  rfl

theorem lf_rol_under {N : Type} [LfNum N] (c : lf_ctx N) (r : Nat) (v : N)
    (xs : List (lf_obj N)) (hstk : c.stck = .num r v :: xs) (hsz : c.size = c.stck.length)
    (h0 : LfNum.toInt v ≠ 0) (hk : (xs.length : Int) ≤ |LfNum.toInt v|) :
    lf_rol c = .sig .LF_SUNDFLW
      (free_hold { c with stck := xs, hold := .num r v :: c.hold, size := c.size - 1 }) := by
  have hs : ({ c with stck := xs, hold := .num r v :: c.hold, size := c.size - 1 } :
      lf_ctx N).size = xs.length := by
    simp only [hsz, hstk, List.length_cons]
    push_cast
    omega
  rw [lf_rol_start c r v xs hstk hsz]
  unfold rol_step
  rcases lt_or_gt_of_ne h0 with hneg | hpos
  · rw [if_pos hneg]
    rw [abs_of_neg hneg] at hk
    rw [bind_sig _ _ _ _ _ (lf_peek_under _ _ (Or.inl (by rw [hs]; omega)))]
  · rw [if_neg (by omega), if_pos hpos]
    rw [abs_of_pos hpos] at hk
    rcases lt_or_eq_of_le hk with hlt | heq
    · rw [bind_sig _ _ _ _ _ (lf_peek_under _ _ (Or.inl (by rw [hs]; omega)))]
    · have hn : xs.length = (LfNum.toInt v - 1).toNat + 1 := by omega
      obtain ⟨x, hx⟩ : ∃ x, xs[(LfNum.toInt v - 1).toNat]? = some x :=
        ⟨_, List.getElem?_eq_getElem (by omega)⟩
      have hp := lf_peek_ok
        { c with stck := xs, hold := .num r v :: c.hold, size := c.size - 1 }
        (LfNum.toInt v - 1).toNat x hs hx
      have e : (((LfNum.toInt v - 1).toNat : Nat) : Int) = LfNum.toInt v - 1 := by omega
      rw [e] at hp
      rw [bind_ok _ _ _ _ _ hp, bind_ok _ _ _ _ _ (getCtx_apply _)]
      simp only [rol_unlink_none _ xs hn]
      rfl

theorem take_drop_insert {α : Type} (xs : List α) (j : Nat) (x : α)
    (hx : xs[j + 1]? = some x) :
    (xs.take (j + 1) ++ xs.drop (j + 2)).take (j + 1) ++
      x :: (xs.take (j + 1) ++ xs.drop (j + 2)).drop (j + 1) = xs := by
  have hlen : j + 1 < xs.length := by
    rcases Nat.lt_or_ge (j + 1) xs.length with h | h
    · exact h
    · rw [List.getElem?_eq_none h] at hx
      cases hx
  have hl : (xs.take (j + 1)).length = j + 1 := by
    rw [List.length_take]
    omega
  rw [List.take_left' hl, List.drop_left' hl]
  rw [List.getElem?_eq_getElem hlen] at hx
  cases hx
  simp

theorem insert_take_drop {α : Type} (t : List α) (m : Nat) (x0 : α) (hm : m + 1 ≤ t.length) :
    (t.take (m + 1) ++ x0 :: t.drop (m + 1))[m + 1]? = some x0 ∧
      (t.take (m + 1) ++ x0 :: t.drop (m + 1)).take (m + 1) ++
        (t.take (m + 1) ++ x0 :: t.drop (m + 1)).drop (m + 2) = t := by
  have hl : (t.take (m + 1)).length = m + 1 := by
    rw [List.length_take]
    omega
  constructor
  · rw [List.getElem?_append_right (by omega), hl]
    simp
  · rw [List.take_left' hl]
    have e : (t.take (m + 1) ++ x0 :: t.drop (m + 1)).drop (m + 2) = t.drop (m + 1) := by
      have h2 : m + 2 = (t.take (m + 1)).length + 1 := by omega
      rw [h2, List.drop_append]
      rfl
    rw [e, List.take_append_drop]

/-- C11: let a stack hold the NUMBER `k` on top of `n` cells `xs`, with
`|k| < n`.  Then `rol` returns, leaving `n` cells, and on any context whose
stack is the NUMBER `-k` pushed on those cells a second `rol` returns and
leaves exactly `xs`: the same cells in the same order, and size `n`. -/
theorem C11_rol_then_rol_back {N : Type} [LfNum N] (c : lf_ctx N) (r : Nat) (v : N)
    (xs : List (lf_obj N)) (k : Int) (hstk : c.stck = .num r v :: xs)
    (hsz : c.size = c.stck.length) (hk : LfNum.toInt v = k) (hlt : |k| < xs.length) :
    ∃ c1, lf_rol c = .ok () c1 ∧ c1.size = xs.length ∧
      ∀ (c2 : lf_ctx N) (r2 : Nat) (v2 : N), c2.stck = .num r2 v2 :: c1.stck →
        c2.size = c2.stck.length → LfNum.toInt v2 = -k →
        ∃ c3, lf_rol c2 = .ok () c3 ∧ c3.stck = xs ∧ c3.size = xs.length := by
  have hs : c.size - 1 = (xs.length : Int) := by
    simp only [hsz, hstk, List.length_cons]
    push_cast
    omega
  rcases lt_trichotomy k 0 with hneg | h0 | hpos
  · rw [abs_of_neg hneg] at hlt
    obtain ⟨m, hm⟩ : ∃ m : Nat, k = -((m + 1 : Nat) : Int) := ⟨(-k - 1).toNat, by omega⟩
    cases xs with
    | nil => simp at hlt; omega
    | cons x0 t =>
      have hml : m + 1 ≤ t.length := by
        simp only [List.length_cons] at hlt
        omega
      refine ⟨_, lf_rol_down c r v x0 t m hstk hsz (hk.trans hm) hml, hs, ?_⟩
      intro c2 r2 v2 h2 hsz2 hk2
      have hi := insert_take_drop t m x0 hml
      have hsz3 : c2.size - 1 = ((x0 :: t).length : Int) := by
        rw [hsz2, h2]
        simp only [List.length_cons, List.length_append, List.length_take, List.length_drop]
        push_cast
        omega
      refine ⟨_, lf_rol_up c2 r2 v2 _ m x0 h2 hsz2 (by rw [hk2, hm, neg_neg]) hi.1, ?_, hsz3⟩
      show x0 :: _ = x0 :: t
      rw [hi.2]
  · refine ⟨_, lf_rol_zero c r v xs hstk hsz (hk.trans h0), hs, ?_⟩
    intro c2 r2 v2 h2 hsz2 hk2
    have hsz3 : c2.size - 1 = (xs.length : Int) := by
      rw [hsz2, h2]
      simp only [List.length_cons]
      push_cast
      omega
    exact ⟨_, lf_rol_zero c2 r2 v2 xs h2 hsz2 (by rw [hk2, h0]; rfl), rfl, hsz3⟩
  · rw [abs_of_pos hpos] at hlt
    obtain ⟨j, hj⟩ : ∃ j : Nat, k = ((j + 1 : Nat) : Int) := ⟨(k - 1).toNat, by omega⟩
    have hjl : j + 1 < xs.length := by omega
    have hx : xs[j + 1]? = some (xs.get ⟨j + 1, hjl⟩) := by simp
    refine ⟨_, lf_rol_up c r v xs j _ hstk hsz (hk.trans hj) hx, hs, ?_⟩
    intro c2 r2 v2 h2 hsz2 hk2
    have hl : j + 1 ≤ (xs.take (j + 1) ++ xs.drop (j + 2)).length := by
      simp only [List.length_append, List.length_take, List.length_drop]
      omega
    have hsz3 : c2.size - 1 = (xs.length : Int) := by
      rw [hsz2, h2]
      simp only [List.length_cons, List.length_append, List.length_take, List.length_drop]
      push_cast
      omega
    refine ⟨_, lf_rol_down c2 r2 v2 _ _ j h2 hsz2 (by rw [hk2, hj]) hl, ?_, hsz3⟩
    exact take_drop_insert xs j _ hx

/-- C11 at the stack `"d" "c" "b" "a" 2`: after `rol`, pushing `-2` and `rol`
again gives back `"a" "b" "c" "d"` (top first), and the program
`"d" "c" "b" "a" 2 rol -2 rol` leaves the same stack as `"d" "c" "b" "a"`. -/
theorem C11_rol_witness :
    c10_ctx.stck = .num 4 (.fin 2 1) ::
        [.str 3 [['a']], .str 2 [['b']], .str 1 [['c']], .str 0 [['d']]] ∧
      c10_ctx.size = c10_ctx.stck.length ∧ LfNum.toInt (Sc.fin 2 1) = 2 ∧
      |(2 : Int)| < ([.str 3 [['a']], .str 2 [['b']], .str 1 [['c']],
        (.str 0 [['d']] : lf_obj Sc)].length : Int) ∧
      (∃ c1, lf_rol c10_ctx = .ok () c1 ∧ c1.size = 4 ∧
        ∀ (c2 : lf_ctx Sc) (r2 : Nat) (v2 : Sc), c2.stck = .num r2 v2 :: c1.stck →
          c2.size = c2.stck.length → LfNum.toInt v2 = -2 →
          ∃ c3, lf_rol c2 = .ok () c3 ∧
            c3.stck = [.str 3 [['a']], .str 2 [['b']], .str 1 [['c']], .str 0 [['d']]] ∧
            c3.size = 4) ∧
      (run 10 "\"d\" \"c\" \"b\" \"a\" 2 rol -2 rol" (ctx0 Sc 100)).stck =
        (run 10 "\"d\" \"c\" \"b\" \"a\"" (ctx0 Sc 100)).stck :=
  ⟨rfl, rfl, by decide, by decide,
    C11_rol_then_rol_back c10_ctx 4 (.fin 2 1)
      [.str 3 [['a']], .str 2 [['b']], .str 1 [['c']], .str 0 [['d']]] 2 rfl rfl
      (by decide) (by decide),
    by decide!⟩

theorem lf_peek_over {N : Type} (c : lf_ctx N) (i : Int) (h : i < 0) (hs : 0 < c.size) :
    lf_peek i c = .sig .LF_SOVRFLW (free_hold c) := by
  unfold lf_peek
  rw [if_neg (by omega), if_pos h]
  rfl

theorem lf_take_under {N : Type} (c : lf_ctx N) (i : Int) (h : i ≥ c.size ∨ c.size = 0) :
    lf_take i c = lf_raise .LF_SUNDFLW c := by
  unfold lf_take
  rw [if_pos h]

theorem lf_take_over {N : Type} (c : lf_ctx N) (i : Int) (h : i < 0) (hs : 0 < c.size) :
    lf_take i c = lf_raise .LF_SOVRFLW c := by
  unfold lf_take
  rw [if_neg (by omega), if_pos h]

/-- C12 (as amended): on a stack of `n` cells, `lf_peek(i)` raises
STACK_UNDERFLOW if the stack is empty or `i >= n`; it raises STACK_OVERFLOW if
`i < 0` and the stack is not empty; otherwise (`0 <= i < n`) it returns the
cell `i` links below the top (0 = top) and leaves the context, so the stack,
the size and the hold list, unchanged. -/
theorem C12_peek_cases {N : Type} (c : lf_ctx N) (i : Int) (hsz : c.size = c.stck.length) :
    (c.stck = [] ∨ (c.stck.length : Int) ≤ i →
        lf_peek i c = .sig .LF_SUNDFLW (free_hold c)) ∧
      (c.stck ≠ [] → i < 0 → lf_peek i c = .sig .LF_SOVRFLW (free_hold c)) ∧
      (0 ≤ i → i < c.stck.length →
        ∃ x, c.stck[i.toNat]? = some x ∧ lf_peek i c = .ok x c) := by
  refine ⟨?_, ?_, ?_⟩
  · intro h
    refine lf_peek_under c i ?_
    rcases h with h | h
    · right
      rw [hsz, h]
      rfl
    · left
      rw [hsz]
      exact h
  · intro hne hi
    refine lf_peek_over c i hi ?_
    rw [hsz]
    cases hs : c.stck with
    | nil => exact absurd hs hne
    | cons a l =>
      simp only [List.length_cons]
      push_cast
      omega
  · intro h0 h1
    have hlt : i.toNat < c.stck.length := by omega
    refine ⟨c.stck.get ⟨i.toNat, hlt⟩, by simp, ?_⟩
    have h := lf_peek_ok c i.toNat (c.stck.get ⟨i.toNat, hlt⟩) hsz (by simp)
    rw [Int.toNat_of_nonneg h0] at h
    exact h

/-- C12 (as amended) at the stack `"d" "c" "b" "a" 2` (5 cells, `2` on top):
`lf_peek(5)` raises STACK_UNDERFLOW, `lf_peek(-1)` raises STACK_OVERFLOW and
`lf_peek(1)` returns the cell `"a"`. -/
theorem C12_peek_witness :
    c10_ctx.size = c10_ctx.stck.length ∧
      (lf_peek 5 c10_ctx).signal = some .LF_SUNDFLW ∧
      (lf_peek (-1) c10_ctx).signal = some .LF_SOVRFLW ∧
      lf_peek 1 c10_ctx = .ok (.str 3 [['a']]) c10_ctx :=
  have h5 := (C12_peek_cases c10_ctx 5 rfl).1 (Or.inr (by decide))
  have hn := (C12_peek_cases c10_ctx (-1) rfl).2.1 (by decide) (by decide)
  have h1 := (C12_peek_cases c10_ctx 1 rfl).2.2 (by decide) (by decide)
  ⟨rfl, by rw [h5]; rfl, by rw [hn]; rfl,
    h1.elim fun x a => by
      have e : x = .str 3 [['a']] := by
        have b := a.1
        simp [c10_ctx] at b
        exact b.symm
      rw [← e]
      exact a.2⟩

/-- C12 as stated fails: on the empty stack `lf_peek(-1)` has `i < 0` but
raises STACK_UNDERFLOW, not STACK_OVERFLOW. -/
theorem C12_counterexample :
    (ctx0 Sc 10).stck = [] ∧ (ctx0 Sc 10).size = 0 ∧ (-1 : Int) < 0 ∧
      (lf_peek (-1) (ctx0 Sc 10)).signal = some .LF_SUNDFLW ∧
      (lf_peek (-1) (ctx0 Sc 10)).signal ≠ some .LF_SOVRFLW := by
  decide!

/-- C13: on a stack of `n` cells, `lf_take(i)` with `0 <= i < n` returns the
cell at depth `i`, leaves the other cells in their order (the cells above
depth `i` followed by the cells below it), decrements the size by one and puts
the returned cell at the head of the hold list, in front of the previous hold
list.  For `i` out of range `lf_take` hands the context as it found it to
`lf_raise`: the escape carries the same stack and the same size, and
`lf_raise` is what releases the hold list. -/
theorem C13_take_unlinks_cell {N : Type} (c : lf_ctx N) (i : Int)
    (hsz : c.size = c.stck.length) :
    (0 ≤ i → i < c.stck.length →
        ∃ x, c.stck[i.toNat]? = some x ∧
          lf_take i c = .ok x
            { c with stck := c.stck.take i.toNat ++ c.stck.drop (i.toNat + 1),
                     hold := x :: c.hold, size := c.stck.length - 1 }) ∧
      (i < 0 ∨ (c.stck.length : Int) ≤ i →
        ∃ s c1, (s = .LF_SUNDFLW ∨ s = .LF_SOVRFLW) ∧ lf_take i c = lf_raise s c ∧
          lf_take i c = .sig s c1 ∧ c1.stck = c.stck ∧ c1.size = c.size) := by
  refine ⟨?_, ?_⟩
  · intro h0 h1
    have hlt : i.toNat < c.stck.length := by omega
    refine ⟨c.stck.get ⟨i.toNat, hlt⟩, by simp, ?_⟩
    have h := lf_take_ok c i.toNat (c.stck.get ⟨i.toNat, hlt⟩) hsz (by simp)
    rw [Int.toNat_of_nonneg h0] at h
    rw [h, List.eraseIdx_eq_take_drop_succ, hsz]
  · intro h
    by_cases hu : i ≥ c.size ∨ c.size = 0
    · exact ⟨.LF_SUNDFLW, free_hold c, Or.inl rfl, lf_take_under c i hu,
        by rw [lf_take_under c i hu]; rfl, free_hold_stck c, free_hold_size c⟩
    · have hi : i < 0 := by
        rw [hsz] at hu
        omega
      have hp : 0 < c.size := by omega
      exact ⟨.LF_SOVRFLW, free_hold c, Or.inr rfl, lf_take_over c i hi hp,
        by rw [lf_take_over c i hi hp]; rfl, free_hold_stck c, free_hold_size c⟩

/-- C13 at the stack `"d" "c" "b" "a" 2` (`2` on top): `lf_take(1)` returns
`"a"`, leaves `"d" "c" "b" 2` with size 4 and `"a"` on the hold list;
`lf_take(5)` escapes and the stack still has its five cells. -/
theorem C13_take_witness :
    c10_ctx.size = c10_ctx.stck.length ∧
      (lf_take 1 c10_ctx).val = some (.str 3 [['a']]) ∧
      (lf_take 1 c10_ctx).get (fun c => (c.stck, c.size, c.hold)) =
        some ([.num 4 (.fin 2 1), .str 2 [['b']], .str 1 [['c']], .str 0 [['d']]], 4,
          [.str 3 [['a']]]) ∧
      (lf_take 5 c10_ctx).escaped (fun c => (c.stck, c.size)) =
        some (.LF_SUNDFLW, c10_ctx.stck, 5) :=
  have h1 := (C13_take_unlinks_cell c10_ctx 1 rfl).1 (by decide) (by decide)
  have h5 := (C13_take_unlinks_cell c10_ctx 5 rfl).2 (Or.inr (by decide))
  ⟨rfl,
    h1.elim (fun x a => by
      have e : x = .str 3 [['a']] := by
        have b := a.1
        simp [c10_ctx] at b
        exact b.symm
      rw [a.2, e]
      rfl),
    h1.elim (fun x a => by
      have e : x = .str 3 [['a']] := by
        have b := a.1
        simp [c10_ctx] at b
        exact b.symm
      rw [a.2, e]
      rfl),
    by decide!⟩

theorem eval_chain_ok {N : Type} (ex : lf_obj N → LF N Unit) :
    ∀ (head : List (lf_obj N)) (c : lf_ctx N),
      (∀ o ∈ head, ∀ c1, ∃ c2, ex o c1 = .ok () c2) → ∃ c2, eval_chain ex head c = .ok () c2
  | [], c, _ => ⟨c, rfl⟩
  | o :: next, c, h => by
    obtain ⟨c1, h1⟩ := h o (List.mem_cons_self _ _) c
    obtain ⟨c2, h2⟩ := eval_chain_ok ex next c1
      (fun o1 ho1 => h o1 (List.mem_cons_of_mem _ ho1))
    refine ⟨c2, ?_⟩
    simp only [eval_chain]
    rw [bind_ok _ _ _ _ _ h1]
    exact h2

/-- C17: for a chunk that has an enclosing parent, `lf_eval` runs no cell: its
result is that of raising UNFINISHED_CHUNK on the context as it is, whatever
the cells of the chunk are.  It returns the value the handler returned (`.ok`
for `LF_SOK`, and UNFINISHED_CHUNK with the default handler, for which this is
the function `lf_eval`), and the stack, its size, the dictionary and the chunk
stack are as before.  For a chunk without parent `lf_eval` executes the cells
of the chain in order, the next cell on the context the previous one left,
stops at the first escape, and returns OK if every cell returns. -/
theorem C17_eval_unfinished_or_in_order {N : Type} [LfNum N] (hdl : lf_sig → lf_sig)
    (fuel : Nat) (head parent : List (lf_obj N)) (rest : List (List (lf_obj N)))
    (c : lf_ctx N) :
    lf_eval_hdl hdl fuel (head :: parent :: rest) c = lf_raise_hdl hdl .LF_SUNFCHK c ∧
      (lf_eval_hdl hdl fuel (head :: parent :: rest) c).signal = some (hdl .LF_SUNFCHK) ∧
      (∃ c1, (lf_eval_hdl hdl fuel (head :: parent :: rest) c = .ok () c1 ∨
          lf_eval_hdl hdl fuel (head :: parent :: rest) c = .sig (hdl .LF_SUNFCHK) c1) ∧
        c1.stck = c.stck ∧ c1.size = c.size ∧ c1.dict = c.dict ∧ c1.chk = c.chk) ∧
      lf_eval_hdl (fun s => s) fuel (head :: parent :: rest) c =
        lf_eval fuel (head :: parent :: rest) c ∧
      (lf_eval fuel (head :: parent :: rest) c).signal = some .LF_SUNFCHK ∧
      lf_eval_hdl hdl fuel [head] c = lf_eval fuel [head] c ∧
      lf_eval fuel [[]] c = .ok () c ∧
      (∀ (o : lf_obj N) (next : List (lf_obj N)),
        lf_eval fuel [o :: next] c =
          match execute fuel o c with
          | .ok _ c1 => lf_eval fuel [next] c1
          | .sig s c1 => .sig s c1
          | .fault => .fault
          | .nofuel => .nofuel) ∧
      ((∀ o ∈ head, ∀ c1, ∃ c2, execute fuel o c1 = .ok () c2) →
        ∃ c2, lf_eval fuel [head] c = .ok () c2) := by
  have hch := free_list_chains c.hold c
  refine ⟨rfl, ?_, ?_, rfl, rfl, rfl, rfl, ?_, ?_⟩
  · show (lf_raise_hdl hdl .LF_SUNFCHK c).signal = _
    unfold lf_raise_hdl
    by_cases h : hdl .LF_SUNFCHK = .LF_SOK
    · rw [if_pos h, h]
      rfl
    · rw [if_neg h]
      rfl
  · show ∃ c1, (lf_raise_hdl hdl .LF_SUNFCHK c = _ ∨ lf_raise_hdl hdl .LF_SUNFCHK c = _) ∧ _
    unfold lf_raise_hdl
    by_cases h : hdl .LF_SUNFCHK = .LF_SOK
    · rw [if_pos h]
      exact ⟨c, Or.inl rfl, rfl, rfl, rfl, rfl⟩
    · rw [if_neg h]
      exact ⟨free_hold c, Or.inr rfl, hch.1.stck, hch.1.size, hch.1.dict, hch.1.chk⟩
  · intro o next
    show (execute fuel o >>= fun _ => eval_chain (execute fuel) next) c = _
    rw [bind_apply]
    cases execute fuel o c <;> rfl
  · intro h
    exact eval_chain_ok (execute fuel) head c h

/-- C17 on the context left by reading `1 [ 2 drp`: with a handler that
returns `LF_SOK` the evaluation of the open chunk returns `LF_SOK`, with the
default handler it returns UNFINISHED_CHUNK, and in both cases the stack stays
empty and the two chunks stay as they are; the finished chunk `1 2` is
executed in order and returns OK with `2` on top of `1`. -/
theorem C17_eval_witness :
    (lf_eval_hdl (fun _ => .LF_SOK) 10 c17_ctx.chk c17_ctx).signal = some .LF_SOK ∧
      (lf_eval 10 c17_ctx.chk c17_ctx).signal = some .LF_SUNFCHK ∧
      (lf_eval 10 c17_ctx.chk c17_ctx).escaped (fun c => (c.stck, c.size)) =
        some (.LF_SUNFCHK, [], 0) ∧
      (lf_eval 10 c17_ctx.chk c17_ctx).escaped (fun c => (c.dict, c.chk)) =
        some (.LF_SUNFCHK, [], c17_ctx.chk) ∧
      (∃ c2, lf_eval 10 [[]] c17_ctx = .ok () c2) ∧
      (run 10 "1 [ 2 drp" (ctx0 Sc 100)).escaped (fun c => (c.stck, c.chk)) =
        some (.LF_SUNFCHK, [], c17_ctx.chk) ∧
      (run 10 "1 2" (ctx0 Sc 100)).get (fun c => (c.stck, c.size)) =
        some ([.num 3 (.fin 2 1), .num 2 (.fin 1 1)], 2) :=
  have h := C17_eval_unfinished_or_in_order (fun _ => .LF_SOK) 10
    [.num 1 (.fin 2 1), .ntv 2 .lf_drp] [.num 0 (.fin 1 1)] [] c17_ctx
  have k := C17_eval_unfinished_or_in_order (fun s => s) 10
    [] [.num 0 (.fin 1 1)] [] c17_ctx
  ⟨h.2.1, h.2.2.2.2.1, by decide!, by decide!,
    k.2.2.2.2.2.2.2.2 (fun o ho => absurd ho (List.not_mem_nil o)), by decide!, by decide!⟩

theorem trace_obj_intercalate {N : Type} (f : lf_fmt N) : ∀ (l : List (lf_obj N)),
    trace_obj f l = List.intercalate [' '] (l.map (trace_cell f))
  | [] => by simp [trace_obj, List.intercalate]
  | [x] => by simp [trace_obj, List.intercalate]
  | x :: y :: rest => by
    have ih := trace_obj_intercalate f (y :: rest)
    rw [trace_obj, ih]
    simp [List.intercalate]

/-- C18 (as amended): for the empty stack `lf_trace` writes `-empty-` and a
newline.  For a non-empty stack it writes the cells from the TOP of the stack
down to the bottom, separated by single spaces and followed by one newline:
the cell pushed last is printed first, in front of what the trace of the
stack below it prints. -/
theorem C18_trace_top_first {N : Type} (f : lf_fmt N) (c : lf_ctx N) :
    (c.stck = [] → lf_trace f c = "-empty-".toList ++ ['\n']) ∧
      (c.stck ≠ [] →
        lf_trace f c = List.intercalate [' '] (c.stck.map (trace_cell f)) ++ ['\n']) ∧
      (c.stck ≠ [] → ∀ (x : lf_obj N), ∃ c1, push_obj x c = .ok () c1 ∧
        lf_trace f c1 = trace_cell f x ++ ' ' :: lf_trace f c) := by
  refine ⟨?_, ?_, ?_⟩
  · intro h
    unfold lf_trace
    rw [h]
  · intro h
    unfold lf_trace
    cases hs : c.stck with
    | nil => exact absurd hs h
    | cons a l => simp only [trace_obj_intercalate]
  · intro h x
    refine ⟨_, push_obj_apply x c, ?_⟩
    unfold lf_trace
    cases hs : c.stck with
    | nil => exact absurd hs h
    | cons a l =>
      show trace_obj f (x :: a :: l) ++ ['\n'] = _
      rw [trace_obj]
      simp

/-- C18 (as amended) after the program `"a" "b"`: the stack has `"b"` on top
of `"a"`, and `lf_trace` writes `"b" "a"` and a newline; on the empty stack it
writes `-empty-` and a newline. -/
theorem C18_trace_witness :
    c18_ctx.stck ≠ [] ∧ (ctx0 Sc 10).stck = [] ∧
      (run 10 "\"a\" \"b\"" (ctx0 Sc 100)).stck = some c18_ctx.stck ∧
      lf_trace Sc.fmt c18_ctx = "\"b\" \"a\"\n".toList ∧
      lf_trace Sc.fmt (ctx0 Sc 10) = "-empty-\n".toList :=
  ⟨by decide, rfl, by decide!,
    ((C18_trace_top_first Sc.fmt c18_ctx).2.1 (by decide)).trans (by decide!),
    ((C18_trace_top_first Sc.fmt (ctx0 Sc 10)).1 rfl).trans (by decide!)⟩

/-- C18 as stated fails: after evaluating `"a" "b"` on an empty stack,
`lf_trace` writes `"b" "a"` and a newline, not `"a" "b"`: the cell pushed last
is printed first. -/
theorem C18_counterexample :
    (run 10 "\"a\" \"b\"" (ctx0 Sc 100)).get (lf_trace Sc.fmt) =
        some "\"b\" \"a\"\n".toList ∧
      (run 10 "\"a\" \"b\"" (ctx0 Sc 100)).get (lf_trace Sc.fmt) ≠
        some "\"a\" \"b\"\n".toList := by
  decide!

/-- C20 fails for the program `1 1 +`: read, evaluated and wiped with 100
donated blocks, every call returns OK, the hold list and the chunk stack are
empty and the stack holds the one cell `2`, from which 2 blocks are
reachable; but the free list has 96 blocks, so 2 blocks are lost.  The second
literal `1` shares the record of the first, whose count is 2; `make_cpy` copies
that count into the record of each copy, and `free_ref` then never releases
these records.  The program `1 2 +` leaves 98 free blocks. -/
theorem C20_number_twice_leaks :
    (run_wipe 10 "1 1 +" (ctx0 Sc 100)).get (fun c => (c.stck, c.hold)) =
        some ([.num 5 (.fin 2 1)], []) ∧
      (run_wipe 10 "1 1 +" (ctx0 Sc 100)).get (fun c => (c.dict, c.chk)) = some ([], []) ∧
      (run_wipe 10 "1 1 +" (ctx0 Sc 100)).get (fun c => (c.free, blocks_used c)) =
        some (96, 2) ∧
      96 + 2 ≠ 100 ∧
      (run_wipe 10 "1 2 +" (ctx0 Sc 100)).get (fun c => (c.stck, c.hold)) =
        some ([.num 5 (.fin 3 1)], []) ∧
      (run_wipe 10 "1 2 +" (ctx0 Sc 100)).get (fun c => (c.free, blocks_used c)) =
        some (98, 2) ∧
      (run_wipe 10 "1 1" (ctx0 Sc 100)).get (fun c => (c.stck.map (fun o => c.cnt o.ref))) =
        some [2, 2] := by
  decide!

theorem LF_bind_assoc {N α β γ : Type} (m : LF N α) (f : α → LF N β) (g : β → LF N γ) :
    (m >>= f) >>= g = m >>= fun a => f a >>= g := by
  funext c
  simp only [bind_apply]
  cases m c <;> rfl

theorem LF_pure_bind {N α β : Type} (a : α) (f : α → LF N β) : pure a >>= f = f a := rfl

theorem LF_bind_pure {N α : Type} (m : LF N α) : m >>= pure = m := by
  funext c
  simp only [bind_apply]
  cases m c <;> rfl

theorem rdfn_cons (ch : Char) (rest : List Char) : rdfn (ch :: rest) = (ch, rest) := rfl

theorem rdfn_nil : rdfn [] = (NUL, []) := rfl

theorem skip_space_rdfn : ∀ (txt : List Char),
    skip_space (rdfn txt).1 (rdfn txt).2 = rdfn (txt.dropWhile isspace)
  | [] => by simp [rdfn, skip_space, isspace, NUL]
  | [ch] => by
    by_cases h : isspace ch = true
    · simp [rdfn, skip_space, h]
    · simp [rdfn, skip_space, h]
  | ch :: d :: rest => by
    have ih := skip_space_rdfn (d :: rest)
    by_cases h : isspace ch = true
    · simp only [rdfn, skip_space, h, if_true, List.dropWhile_cons_of_pos] at ih ⊢
      exact ih
    · simp [rdfn, skip_space, h]

theorem skip_comment_rdfn : ∀ (inp : List Char), NUL ∉ inp →
    skip_comment inp = rdfn (inp.dropWhile (fun d => d != '\n'))
  | [], _ => rfl
  | d :: rest, h => by
    have hd : d ≠ NUL := fun e => h (e ▸ List.mem_cons_self _ _)
    have hr : NUL ∉ rest := fun e => h (List.mem_cons_of_mem _ e)
    by_cases hn : d = '\n'
    · simp [skip_comment, hn, rdfn]
    · simp [skip_comment, hn, hd, skip_comment_rdfn rest hr]

theorem read_token_buf_rdfn : ∀ (txt : List Char) (k : Nat), NUL ∉ txt →
    read_token_buf k (rdfn txt).1 (rdfn txt).2 =
      if (txt.takeWhile (fun d => !isdelim d)).length ≤ k then
        some (txt.takeWhile (fun d => !isdelim d),
          (rdfn (txt.dropWhile (fun d => !isdelim d))).1,
          (rdfn (txt.dropWhile (fun d => !isdelim d))).2)
      else none
  | [], k, _ => by
    unfold read_token_buf
    simp [rdfn]
  | ch :: inp, k, h => by
    have hd : ch ≠ NUL := fun e => h (e ▸ List.mem_cons_self _ _)
    have hr : NUL ∉ inp := fun e => h (List.mem_cons_of_mem _ e)
    unfold read_token_buf
    by_cases hdel : isdelim ch = true
    · simp [rdfn_cons, hdel]
    · cases k with
      | zero => simp [rdfn_cons, hdel, hd]
      | succ k1 =>
        have ih := read_token_buf_rdfn inp k1 hr
        simp only [rdfn_cons, hdel, hd, Bool.false_eq_true, decide_False, Bool.or_self,
          if_false]
        rw [ih]
        by_cases hl : (inp.takeWhile (fun d => !isdelim d)).length ≤ k1
        · simp [hl, hdel]
        · simp [hl, hdel]

theorem read_strbuf_quote : ∀ (n : Nat) (bytes rest : List Char),
    bytes.length < n → NUL ∉ bytes → Char.ofNat 34 ∉ bytes →
    read_strbuf n (bytes ++ Char.ofNat 34 :: rest) = (bytes, .quote, rest)
  | 0, _, _, h, _, _ => by simp at h
  | n + 1, [], rest, _, _, _ => by simp [read_strbuf, rdfn]
  | n + 1, b :: bs, rest, h, h0, hq => by
    have hb0 : b ≠ NUL := fun e => h0 (e ▸ List.mem_cons_self _ _)
    have hbq : b ≠ Char.ofNat 34 := fun e => hq (e ▸ List.mem_cons_self _ _)
    have ih := read_strbuf_quote n bs rest (by simpa using h)
      (fun e => h0 (List.mem_cons_of_mem _ e)) (fun e => hq (List.mem_cons_of_mem _ e))
    simp only [List.cons_append, read_strbuf, rdfn, hb0, hbq, if_false, ih]

theorem read_strbuf_eof : ∀ (n : Nat) (bytes : List Char),
    bytes.length < n → NUL ∉ bytes → Char.ofNat 34 ∉ bytes →
    ∃ seg rest, read_strbuf n bytes = (seg, .eof, rest)
  | 0, _, h, _, _ => by simp at h
  | n + 1, [], _, _, _ => ⟨[], [], by simp [read_strbuf, rdfn, NUL]⟩
  | n + 1, b :: bs, h, h0, hq => by
    have hb0 : b ≠ NUL := fun e => h0 (e ▸ List.mem_cons_self _ _)
    have hbq : b ≠ Char.ofNat 34 := fun e => hq (e ▸ List.mem_cons_self _ _)
    obtain ⟨seg, rest, ih⟩ := read_strbuf_eof n bs (by simpa using h)
      (fun e => h0 (List.mem_cons_of_mem _ e)) (fun e => hq (List.mem_cons_of_mem _ e))
    exact ⟨b :: seg, rest, by simp only [read_strbuf, rdfn, hb0, hbq, if_false, ih]⟩

theorem read_strbuf_full : ∀ (n : Nat) (bytes : List Char),
    n ≤ bytes.length → NUL ∉ bytes.take n → Char.ofNat 34 ∉ bytes.take n →
    read_strbuf n bytes = (bytes.take n, .full, bytes.drop n)
  | 0, _, _, _, _ => by simp [read_strbuf]
  | n + 1, [], h, _, _ => by simp at h
  | n + 1, b :: bs, h, h0, hq => by
    have hb0 : b ≠ NUL := fun e => h0 (e ▸ List.mem_cons_self _ _)
    have hbq : b ≠ Char.ofNat 34 := fun e => hq (e ▸ List.mem_cons_self _ _)
    have ih := read_strbuf_full n bs (by simpa using h)
      (fun e => h0 (List.mem_cons_of_mem _ e)) (fun e => hq (List.mem_cons_of_mem _ e))
    simp only [read_strbuf, rdfn, hb0, hbq, if_false, ih, List.take_succ_cons,
      List.drop_succ_cons]

theorem strbuf_15 : LF_STRBUF_SIZE - 1 = 15 := rfl

theorem take_blocks_succ {N : Type} (n : Nat) :
    (take_blocks (n + 1) : LF N Unit) = make_block >>= fun _ => take_blocks n := rfl

theorem take_blocks_zero {N : Type} : (take_blocks 0 : LF N Unit) = pure () := rfl

theorem lit_segs_short (bytes : List Char) (h : bytes.length < 15) :
    lit_segs bytes = [bytes] := by
  unfold lit_segs
  rw [strbuf_15, Nat.div_eq_of_lt h]
  simp only [cut_segs, strbuf_15]
  rw [List.take_of_length_le (by omega)]

theorem lit_segs_long (bytes : List Char) (h : 15 ≤ bytes.length) :
    bytes.length / 15 = (bytes.drop 15).length / 15 + 1 ∧
      lit_segs bytes = bytes.take 15 :: lit_segs (bytes.drop 15) := by
  have e : bytes.length / 15 = (bytes.drop 15).length / 15 + 1 := by
    rw [List.length_drop]
    omega
  refine ⟨e, ?_⟩
  unfold lit_segs
  rw [strbuf_15, e]
  rfl

theorem read_str_segs_closed {N : Type} : ∀ (fuel : Nat) (bytes rest : List Char),
    bytes.length / 15 < fuel → NUL ∉ bytes → Char.ofNat 34 ∉ bytes →
    (read_str_segs fuel (bytes ++ Char.ofNat 34 :: rest) : LF N _) =
      take_blocks (bytes.length / 15 + 1) >>= fun _ => pure (lit_segs bytes, rest)
  | 0, _, _, h, _, _ => by simp at h
  | fuel + 1, bytes, rest, h, h0, hq => by
    unfold read_str_segs
    rw [strbuf_15]
    by_cases hlt : bytes.length < 15
    · rw [read_strbuf_quote 15 bytes rest hlt h0 hq, Nat.div_eq_of_lt hlt,
        lit_segs_short bytes hlt]
      simp only [take_blocks_succ, take_blocks_zero, LF_bind_assoc, LF_pure_bind]
    · have hge : 15 ≤ bytes.length := by omega
      have hl := lit_segs_long bytes hge
      have hf := read_strbuf_full 15 (bytes ++ Char.ofNat 34 :: rest)
        (by simp only [List.length_append]; omega)
        (by rw [List.take_append_of_le_length hge]
            exact fun e => h0 (List.mem_of_mem_take e))
        (by rw [List.take_append_of_le_length hge]
            exact fun e => hq (List.mem_of_mem_take e))
      rw [List.take_append_of_le_length hge, List.drop_append_of_le_length hge] at hf
      have ih := read_str_segs_closed (N := N) fuel (bytes.drop 15) rest (by omega)
        (fun e => h0 (List.mem_of_mem_drop e)) (fun e => hq (List.mem_of_mem_drop e))
      rw [hf, hl.1, hl.2]
      simp only [ih, take_blocks_succ, LF_bind_assoc, LF_pure_bind]

theorem read_str_segs_eof {N : Type} : ∀ (fuel : Nat) (bytes : List Char),
    bytes.length / 15 < fuel → NUL ∉ bytes → Char.ofNat 34 ∉ bytes →
    (read_str_segs fuel bytes : LF N _) =
      take_blocks (bytes.length / 15 + 1) >>= fun _ => lf_raise .LF_SPRSERR
  | 0, _, h, _, _ => by simp at h
  | fuel + 1, bytes, h, h0, hq => by
    unfold read_str_segs
    rw [strbuf_15]
    by_cases hlt : bytes.length < 15
    · obtain ⟨seg, rest, e⟩ := read_strbuf_eof 15 bytes hlt h0 hq
      rw [e, Nat.div_eq_of_lt hlt]
      simp only [take_blocks_succ, take_blocks_zero, LF_bind_assoc, LF_pure_bind]
    · have hge : 15 ≤ bytes.length := by omega
      have hl := lit_segs_long bytes hge
      have hf := read_strbuf_full 15 bytes hge
        (fun e => h0 (List.mem_of_mem_take e)) (fun e => hq (List.mem_of_mem_take e))
      have ih := read_str_segs_eof (N := N) fuel (bytes.drop 15) (by omega)
        (fun e => h0 (List.mem_of_mem_drop e)) (fun e => hq (List.mem_of_mem_drop e))
      rw [hf, hl.1]
      simp only [ih, take_blocks_succ, LF_bind_assoc]
      rfl

theorem cut_segs_length : ∀ (n : Nat) (bytes : List Char), (cut_segs n bytes).length = n
  | 0, _ => rfl
  | n + 1, bytes => by simp [cut_segs, cut_segs_length n]

theorem lit_segs_length (bytes : List Char) :
    (lit_segs bytes).length = bytes.length / 15 + 1 := by
  unfold lit_segs
  rw [cut_segs_length, strbuf_15]

theorem lf_raise_bind {N α β : Type} (s : lf_sig) (f : α → LF N β) :
    (lf_raise s : LF N α) >>= f = lf_raise s := rfl

theorem split_at_quote : ∀ (rest : List Char), Char.ofNat 34 ∈ rest →
    rest = rest.takeWhile (fun d => d != Char.ofNat 34) ++
      Char.ofNat 34 :: (rest.dropWhile (fun d => d != Char.ofNat 34)).drop 1
  | [], h => by simp at h
  | d :: rest, h => by
    by_cases hd : d = Char.ofNat 34
    · simp [hd]
    · have hr : Char.ofNat 34 ∈ rest := by
        rcases List.mem_cons.1 h with e | e
        · exact absurd e.symm hd
        · exact e
      have ih := split_at_quote rest hr
      simp only [List.takeWhile_cons, List.dropWhile_cons, bne_iff_ne, ne_eq, hd,
        not_false_eq_true, decide_True, if_true, List.cons_append]
      simp only [bne_iff_ne, ne_eq] at ih
      rw [← ih]

theorem not_mem_takeWhile_quote (rest : List Char) :
    Char.ofNat 34 ∉ rest.takeWhile (fun d => d != Char.ofNat 34) := by
  intro h
  have := List.mem_takeWhile_imp h
  simp at this

theorem read_text_tokens {N : Type} [LfNum N] : ∀ (fuel : Nat) (txt : List Char), NUL ∉ txt →
    (read_text fuel (rdfn txt).1 (rdfn txt).2 : LF N Unit) = run_toks (tokens_from fuel txt)
  | 0, _, _ => by
    funext c
    rfl
  | fuel + 1, txt, h => by
    unfold read_text tokens_from
    rw [skip_space_rdfn]
    cases hdw : txt.dropWhile isspace with
    | nil => rfl
    | cons ch rest =>
      have hsuf : ∀ x, x ∈ ch :: rest → x ∈ txt := fun x hx =>
        (List.dropWhile_suffix isspace).subset (hdw ▸ hx)
      have hch : ch ≠ NUL := fun e => h (hsuf _ (e ▸ List.mem_cons_self _ _))
      have hrest : NUL ∉ rest := fun e => h (hsuf _ (List.mem_cons_of_mem _ e))
      simp only [rdfn_cons, if_neg hch]
      by_cases h1 : ch = '#'
      · simp only [if_pos h1]
        rw [skip_comment_rdfn rest hrest]
        exact read_text_tokens fuel _
          (fun e => hrest ((List.dropWhile_suffix _).subset e))
      · simp only [if_neg h1]
        by_cases h2 : ch = '['
        · simp only [if_pos h2]
          rw [read_text_tokens fuel rest hrest]
          rfl
        · simp only [if_neg h2]
          by_cases h3 : ch = ']'
          · simp only [if_pos h3]
            rw [read_text_tokens fuel rest hrest]
            funext c
            simp only [run_toks, act, read_end, bind_apply, getCtx_apply]
            rcases c.chk with _ | ⟨a, _ | ⟨b, l⟩⟩ <;> rfl
          · simp only [if_neg h3]
            by_cases h4 : ch = Char.ofNat 34
            · simp only [if_pos h4]
              by_cases hq : Char.ofNat 34 ∈ rest
              · have hs := split_at_quote rest hq
                have key := read_str_segs_closed (N := N) (rest.length + 1)
                  (rest.takeWhile (fun d => d != Char.ofNat 34))
                  ((rest.dropWhile (fun d => d != Char.ofNat 34)).drop 1)
                  (by
                    have := (List.takeWhile_prefix (fun d => d != Char.ofNat 34)
                      (l := rest)).length_le
                    omega)
                  (fun e => hrest ((List.takeWhile_prefix _).subset e))
                  (not_mem_takeWhile_quote rest)
                rw [← hs] at key
                rw [if_pos hq, key]
                simp only [LF_bind_assoc, LF_pure_bind]
                rw [read_text_tokens fuel _
                  (fun e => hrest ((List.dropWhile_suffix _).subset (List.mem_of_mem_drop e)))]
                simp only [run_toks, act, LF_bind_assoc, LF_pure_bind, lit_segs_length]
              · have key := read_str_segs_eof (N := N) (rest.length + 1) rest (by omega)
                  hrest hq
                rw [if_neg hq, key]
                simp only [run_toks, act, LF_bind_assoc, LF_pure_bind, lit_segs_length,
                  lf_raise_bind]
            · simp only [if_neg h4]
              have key := read_token_buf_rdfn (ch :: rest) (LF_SYM_MAX_LEN - 1)
                (fun e => h (hsuf _ e))
              rw [rdfn_cons] at key
              rw [key]
              by_cases hl : ((ch :: rest).takeWhile (fun d => !isdelim d)).length ≤
                  LF_SYM_MAX_LEN - 1
              · simp only [if_pos hl]
                rw [read_text_tokens fuel _
                  (fun e => h (hsuf _ ((List.dropWhile_suffix _).subset e)))]
                simp only [run_toks, act, read_word, LF_bind_assoc]
                congr 1
                funext r
                cases find_builtin ((ch :: rest).takeWhile (fun d => !isdelim d)) with
                | some fn => rfl
                | none =>
                  cases (LfNum.strtod ((ch :: rest).takeWhile (fun d => !isdelim d)) :
                      Option N) with
                  | some num => rfl
                  | none => simp only [LF_bind_assoc]
              · simp only [if_neg hl]
                simp only [run_toks, act, LF_bind_assoc]
                rfl

theorem lf_read_tokens {N : Type} [LfNum N] (inp : List Char) (h : NUL ∉ inp) (c : lf_ctx N) :
    lf_read inp c =
      match c.chk with
      | [] => run_toks (.lst_begin :: tokens inp) c
      | _ :: _ => run_toks (tokens inp) c := by
  have key := read_text_tokens (N := N) (inp.length + 1) inp h
  unfold lf_read tokens
  simp only [bind_apply, getCtx_apply]
  cases c.chk with
  | nil =>
    show (make_chk >>= fun _ => read_text (inp.length + 1) (rdfn inp).1 (rdfn inp).2) c = _
    rw [key]
    rfl
  | cons a l =>
    show read_text (inp.length + 1) (rdfn inp).1 (rdfn inp).2 c = _
    rw [key]

theorem bind_ok_inv {N α β : Type} {m : LF N α} {f : α → LF N β} {c c2 : lf_ctx N} {b : β}
    (h : (m >>= f) c = .ok b c2) : ∃ a c1, m c = .ok a c1 ∧ f a c1 = .ok b c2 := by
  rw [bind_apply] at h
  cases hm : m c with
  | ok a c1 =>
    rw [hm] at h
    exact ⟨a, c1, rfl, h⟩
  | sig s c1 =>
    rw [hm] at h
    cases h
  | fault =>
    rw [hm] at h
    cases h
  | nofuel =>
    rw [hm] at h
    cases h

theorem make_block_inv {N : Type} {c c1 : lf_ctx N} (h : make_block c = .ok () c1) :
    0 < c.free ∧ c1 = { c with free := c.free - 1 } := by
  unfold make_block at h
  by_cases h0 : c.free = 0
  · rw [if_pos h0] at h
    cases h
  · rw [if_neg h0] at h
    cases h
    exact ⟨by omega, rfl⟩

theorem make_obj_inv {N : Type} {c c1 : lf_ctx N} {r : Nat} (h : make_obj c = .ok r c1) :
    2 ≤ c.free ∧ r = c.brk ∧
      c1 = { c with free := c.free - 2, cnt := set_cnt c.cnt c.brk 1, brk := c.brk + 1 } := by
  have h2 : 2 ≤ c.free := by
    unfold make_obj at h
    obtain ⟨_, c2, hb, h1⟩ := bind_ok_inv h
    obtain ⟨hf, e⟩ := make_block_inv hb
    unfold make_rec at h1
    obtain ⟨_, c3, hb2, _⟩ := bind_ok_inv h1
    obtain ⟨hf2, _⟩ := make_block_inv hb2
    rw [e] at hf2
    simp only at hf2
    omega
  rw [make_obj_ok c h2] at h
  cases h
  exact ⟨h2, rfl, rfl⟩

theorem take_blocks_inv {N : Type} : ∀ (n : Nat) {c c1 : lf_ctx N},
    take_blocks n c = .ok () c1 → n ≤ c.free ∧ c1 = { c with free := c.free - n }
  | 0, c, c1, h => by
    cases h
    exact ⟨Nat.zero_le _, rfl⟩
  | n + 1, c, c1, h => by
    rw [take_blocks_succ] at h
    obtain ⟨_, c2, hb, h1⟩ := bind_ok_inv h
    obtain ⟨hf, e⟩ := make_block_inv hb
    obtain ⟨hn, e1⟩ := take_blocks_inv n h1
    rw [e] at hn e1
    simp only at hn e1
    refine ⟨by omega, ?_⟩
    rw [e1]
    simp only [lf_ctx.mk.injEq, and_true, true_and]
    omega

theorem copy_seg_eq : ∀ (n : Nat) (txt : List Char), NUL ∉ txt →
    copy_seg n txt = (txt.take n, txt.drop n)
  | 0, txt, _ => by simp [copy_seg]
  | n + 1, [], _ => by simp [copy_seg]
  | n + 1, ch :: rest, h => by
    have hd : ch ≠ NUL := fun e => h (e ▸ List.mem_cons_self _ _)
    have hr : NUL ∉ rest := fun e => h (List.mem_cons_of_mem _ e)
    simp [copy_seg, hd, copy_seg_eq n rest hr]

theorem build_string_loop_inv {N : Type} : ∀ (fuel : Nat) (txt : List Char) (len : Nat)
    {c c1 : lf_ctx N} {s : lf_str}, NUL ∉ txt → len ≤ txt.length →
    build_string_loop fuel txt len c = .ok s c1 →
    s.length ≤ c.free ∧ c1 = { c with free := c.free - s.length } ∧
      s.flatten = txt.take len ∧ s.length = (len + 14) / 15
  | 0, _, _, _, _, _, _, _, h => by cases h
  | fuel + 1, txt, len, c, c1, s, h0, hl, h => by
    unfold build_string_loop at h
    by_cases hz : len = 0
    · rw [if_pos hz] at h
      cases h
      subst hz
      simp
    · rw [if_neg hz, strbuf_15] at h
      obtain ⟨_, c2, hb, h1⟩ := bind_ok_inv h
      obtain ⟨hf, e⟩ := make_block_inv hb
      rw [copy_seg_eq _ txt h0] at h1
      obtain ⟨rest, c3, hr, h2⟩ := bind_ok_inv h1
      cases h2
      have hlen : (txt.take (if len < 15 then len else 15)).length =
          (if len < 15 then len else 15) := by
        rw [List.length_take]
        split <;> omega
      rw [hlen] at hr
      obtain ⟨a1, a2, a3, a4⟩ := build_string_loop_inv fuel
        (txt.drop (if len < 15 then len else 15)) (len - (if len < 15 then len else 15))
        (fun e => h0 (List.mem_of_mem_drop e))
        (by rw [List.length_drop]; split <;> omega) hr
      rw [e] at a1 a2
      simp only at a1 a2
      refine ⟨by simp only [List.length_cons]; omega, ?_, ?_, ?_⟩
      · rw [a2]
        simp only [List.length_cons, lf_ctx.mk.injEq, and_true, true_and]
        omega
      · rw [List.flatten_cons, a3, ← List.take_add]
        congr 1
        split <;> omega
      · rw [List.length_cons, a4]
        split <;> omega

theorem build_string_loop_segs {N : Type} : ∀ (fuel : Nat) (txt : List Char) (len : Nat)
    {c c1 : lf_ctx N} {s : lf_str}, NUL ∉ txt → len ≤ txt.length →
    build_string_loop fuel txt len c = .ok s c1 →
    s = cut_segs ((len + 14) / 15) (txt.take len)
  | 0, _, _, _, _, _, _, _, h => by cases h
  | fuel + 1, txt, len, c, c1, s, h0, hl, h => by
    unfold build_string_loop at h
    by_cases hz : len = 0
    · rw [if_pos hz] at h
      cases h
      subst hz
      rfl
    · rw [if_neg hz, strbuf_15] at h
      obtain ⟨_, c2, hb, h1⟩ := bind_ok_inv h
      rw [copy_seg_eq _ txt h0] at h1
      obtain ⟨rest, c3, hr, h2⟩ := bind_ok_inv h1
      cases h2
      have hlen : (txt.take (if len < 15 then len else 15)).length =
          (if len < 15 then len else 15) := by
        rw [List.length_take]
        split <;> omega
      rw [hlen] at hr
      have ih := build_string_loop_segs fuel
        (txt.drop (if len < 15 then len else 15)) (len - (if len < 15 then len else 15))
        (fun e => h0 (List.mem_of_mem_drop e))
        (by rw [List.length_drop]; split <;> omega) hr
      have hk : (len + 14) / 15 = (len - (if len < 15 then len else 15) + 14) / 15 + 1 := by
        split <;> omega
      rw [hk, ih]
      simp only [cut_segs, strbuf_15]
      congr 1
      · rw [List.take_take]
        congr 1
        split <;> omega
      · congr 1
        by_cases hlt : len < 15
        · simp only [if_pos hlt, Nat.sub_self, List.take_zero]
          rw [List.drop_eq_nil_of_le (by rw [List.length_take]; omega)]
        · simp only [if_neg hlt]
          rw [List.drop_take]

theorem search_chain_some {N : Type} [LfNum N] (obj : lf_obj N) :
    ∀ (l : List (lf_obj N)) (x : lf_obj N), search_chain obj l = some x →
      x ∈ l ∧ objeq x obj = true
  | [], x, h => by cases h
  | it :: rest, x, h => by
    unfold search_chain at h
    by_cases he : objeq it obj = true
    · rw [if_pos he] at h
      cases h
      exact ⟨List.mem_cons_self _ _, he⟩
    · rw [if_neg he] at h
      obtain ⟨a, b⟩ := search_chain_some obj rest x h
      exact ⟨List.mem_cons_of_mem _ a, b⟩

theorem search_chain_none {N : Type} [LfNum N] (obj : lf_obj N) :
    ∀ (l : List (lf_obj N)), search_chain obj l = none → ∀ y ∈ l, objeq y obj = false
  | [], _, y, hy => by cases hy
  | it :: rest, h, y, hy => by
    unfold search_chain at h
    by_cases he : objeq it obj = true
    · rw [if_pos he] at h
      cases h
    · rw [if_neg he] at h
      rcases List.mem_cons.1 hy with e | e
      · rw [e]
        simpa using he
      · exact search_chain_none obj rest h y e

theorem search_entry_some {N : Type} [LfNum N] (obj : lf_obj N) :
    ∀ (chk : List (List (lf_obj N))) (x : lf_obj N), search_entry obj chk = some x →
      x ∈ chk.flatten ∧ objeq x obj = true
  | [], x, h => by cases h
  | head :: next, x, h => by
    unfold search_entry at h
    cases hs : search_chain obj head with
    | some it =>
      rw [hs] at h
      cases h
      obtain ⟨a, b⟩ := search_chain_some obj head x hs
      exact ⟨by simp [a], b⟩
    | none =>
      rw [hs] at h
      obtain ⟨a, b⟩ := search_entry_some obj next x h
      exact ⟨by simp [a], b⟩

theorem search_entry_none {N : Type} [LfNum N] (obj : lf_obj N) :
    ∀ (chk : List (List (lf_obj N))), search_entry obj chk = none →
      ∀ y ∈ chk.flatten, objeq y obj = false
  | [], _, y, hy => by simp at hy
  | head :: next, h, y, hy => by
    unfold search_entry at h
    cases hs : search_chain obj head with
    | some it =>
      rw [hs] at h
      cases h
    | none =>
      rw [hs] at h
      rw [List.flatten_cons, List.mem_append] at hy
      rcases hy with e | e
      · exact search_chain_none obj head hs y e
      · exact search_entry_none obj next h y e

theorem append_obj_eq {N : Type} [LfNum N] (obj : lf_obj N) (c : lf_ctx N) :
    append_obj obj c =
      match c.chk with
      | [] => .fault
      | head :: next =>
        match search_entry obj c.chk with
        | none => .ok () { c with chk := (head ++ [obj]) :: next }
        | some it =>
          .ok () { free_ref obj c with
            cnt := set_cnt (free_ref obj c).cnt it.ref (cnt_inc ((free_ref obj c).cnt it.ref)),
            chk := (head ++ [it]) :: next } := by
  unfold append_obj
  simp only [bind_apply, getCtx_apply]
  cases hc : c.chk with
  | nil => cases search_entry obj [] <;> rfl
  | cons head next => cases search_entry obj (head :: next) <;> rfl

theorem append_obj_inv {N : Type} [LfNum N] {obj : lf_obj N} {c c1 : lf_ctx N}
    (h : append_obj obj c = .ok () c1) :
    ∃ head next x, c.chk = head :: next ∧ c1.chk = (head ++ [x]) :: next ∧
      ((search_entry obj c.chk = none ∧ x = obj) ∨ search_entry obj c.chk = some x) := by
  rw [append_obj_eq] at h
  cases hc : c.chk with
  | nil =>
    rw [hc] at h
    cases h
  | cons head next =>
    rw [hc] at h
    cases hs : search_entry obj (head :: next) with
    | none =>
      rw [hs] at h
      cases h
      exact ⟨head, next, obj, rfl, rfl, Or.inl ⟨rfl, rfl⟩⟩
    | some it =>
      rw [hs] at h
      cases h
      exact ⟨head, next, it, rfl, rfl, Or.inr rfl⟩

theorem streq_eq : ∀ (a b : lf_str), streq a b = true → a = b
  | [], [], _ => rfl
  | [], _ :: _, h => by simp [streq] at h
  | _ :: _, [], h => by simp [streq] at h
  | x :: xs, y :: ys, h => by
    unfold streq at h
    by_cases e : x = y
    · simp only [e, bne_self_eq_false, Bool.false_eq_true, if_false] at h
      rw [e, streq_eq xs ys h]
    · simp [e] at h

theorem cut_segs_flatten : ∀ (n : Nat) (bytes : List Char), bytes.length ≤ n * 15 →
    (cut_segs n bytes).flatten = bytes
  | 0, bytes, h => by
    have : bytes = [] := List.length_eq_zero.1 (by omega)
    simp [cut_segs, this]
  | n + 1, bytes, h => by
    have ih := cut_segs_flatten n (bytes.drop 15) (by rw [List.length_drop]; omega)
    simp only [cut_segs, strbuf_15, List.flatten_cons, ih, List.take_append_drop]

theorem lit_segs_flatten (bytes : List Char) : (lit_segs bytes).flatten = bytes := by
  unfold lit_segs
  rw [strbuf_15]
  exact cut_segs_flatten _ bytes (by omega)

theorem mirrors_chain_append {N : Type} [LfNum N] [DecidableEq N] (x : lf_obj N) (t : item) :
    ∀ (h : List (lf_obj N)) (p : List item), mirrors_chain h p = true → mirrors x t = true →
      mirrors_chain (h ++ [x]) (p ++ [t]) = true
  | [], [], _, hx => by simp [mirrors_chain, hx]
  | [], _ :: _, hm, _ => by simp [mirrors_chain] at hm
  | _ :: _, [], hm, _ => by simp [mirrors_chain] at hm
  | a :: as, b :: bs, hm, hx => by
    simp only [mirrors_chain, Bool.and_eq_true] at hm
    simp only [List.cons_append, mirrors_chain, Bool.and_eq_true]
    exact ⟨hm.1, mirrors_chain_append x t as bs hm.2 hx⟩

theorem mirrors_stack_length {N : Type} [LfNum N] [DecidableEq N] :
    ∀ (chk : List (List (lf_obj N))) (st : List (List item)),
      mirrors_stack chk st = true → chk.length = st.length
  | [], [], _ => rfl
  | [], _ :: _, h => by simp [mirrors_stack] at h
  | _ :: _, [], h => by simp [mirrors_stack] at h
  | a :: as, b :: bs, h => by
    simp only [mirrors_stack, Bool.and_eq_true] at h
    simp [mirrors_stack_length as bs h.2]

theorem make_chk_inv {N : Type} {c c1 : lf_ctx N} (h : make_chk c = .ok () c1) :
    0 < c.free ∧ c1 = { c with free := c.free - 1, chk := [] :: c.chk } := by
  unfold make_chk at h
  obtain ⟨_, c2, hb, h1⟩ := bind_ok_inv h
  obtain ⟨hf, e⟩ := make_block_inv hb
  cases h1
  rw [e]
  exact ⟨hf, rfl⟩

theorem read_end_inv {N : Type} {c c1 : lf_ctx N} (h : read_end c = .ok () c1) :
    ∃ head next rest, c.chk = head :: next :: rest ∧ 0 < c.free ∧
      c1 = { c with free := c.free - 1, cnt := set_cnt c.cnt c.brk 1, brk := c.brk + 1,
                    chk := (next ++ [.lst c.brk head]) :: rest } := by
  unfold read_end at h
  simp only [bind_apply, getCtx_apply] at h
  rcases hc : c.chk with _ | ⟨head, _ | ⟨next, rest⟩⟩
  · rw [hc] at h
    cases h
  · rw [hc] at h
    cases h
  · rw [hc] at h
    simp only at h
    unfold finish_chk at h
    simp only [bind_apply, getCtx_apply, hc] at h
    by_cases hf : 0 < c.free
    · rw [make_rec_ok c hf] at h
      cases h
      exact ⟨head, next, rest, rfl, hf, rfl⟩
    · have h0 : c.free = 0 := by omega
      simp only [make_rec, make_block, h0, if_true, bind_apply] at h
      cases h

theorem objeq_str_inv {N : Type} [LfNum N] (x : lf_obj N) (r : Nat) (s : lf_str)
    (h : objeq x (.str r s) = true) : ∃ r1, x = .str r1 s := by
  cases x with
  | str r1 s1 =>
    simp only [objeq] at h
    exact ⟨r1, by rw [streq_eq s1 s h]⟩
  | _ => simp [objeq] at h

theorem objeq_sym_inv {N : Type} [LfNum N] (x : lf_obj N) (r : Nat) (s : lf_str)
    (h : objeq x (.sym r s) = true) : ∃ r1, x = .sym r1 s := by
  cases x with
  | sym r1 s1 =>
    simp only [objeq] at h
    exact ⟨r1, by rw [streq_eq s1 s h]⟩
  | _ => simp [objeq] at h

theorem objeq_ntv_inv {N : Type} [LfNum N] (x : lf_obj N) (r : Nat) (fn : lf_ntv)
    (h : objeq x (.ntv r fn) = true) : ∃ r1, x = .ntv r1 fn := by
  cases x with
  | ntv r1 g =>
    simp only [objeq, beq_iff_eq] at h
    exact ⟨r1, by rw [h]⟩
  | _ => simp [objeq] at h

theorem objeq_num_inv {N : Type} [LfNum N] (x : lf_obj N) (r : Nat) (w : N)
    (h : objeq x (.num r w) = true) : ∃ r1 v, x = .num r1 v ∧ LfNum.eq v w = true := by
  cases x with
  | num r1 v =>
    simp only [objeq] at h
    exact ⟨r1, v, rfl, h⟩
  | _ => simp [objeq] at h

theorem append_mirrors {N : Type} [LfNum N] [DecidableEq N] {obj : lf_obj N}
    {c c1 : lf_ctx N} (t : item) (st : List (List item))
    (h : append_obj obj c = .ok () c1) (hm : mirrors_stack c.chk st = true)
    (hobj : mirrors obj t = true) (hx : ∀ x, objeq x obj = true → mirrors x t = true) :
    ∃ ph pn, st = ph :: pn ∧ mirrors_stack c1.chk ((ph ++ [t]) :: pn) = true := by
  obtain ⟨head, next, x, hc, hc1, hs⟩ := append_obj_inv h
  rw [hc] at hm
  cases st with
  | nil => simp [mirrors_stack] at hm
  | cons ph pn =>
    simp only [mirrors_stack, Bool.and_eq_true] at hm
    have hxt : mirrors x t = true := by
      rcases hs with ⟨_, e⟩ | e
      · rw [e]
        exact hobj
      · exact hx x (search_entry_some obj _ x e).2
    refine ⟨ph, pn, rfl, ?_⟩
    rw [hc1]
    simp only [mirrors_stack, Bool.and_eq_true]
    exact ⟨mirrors_chain_append x t head ph hm.1 hxt, hm.2⟩

theorem act_mirrors {N : Type} [LfNum N] [DecidableEq N] (t : tok) {c c1 : lf_ctx N}
    (st : List (List item)) (h : act t c = .ok () c1) (hm : mirrors_stack c.chk st = true)
    (hn : NUL ∉ t.bytes) :
    ∃ st1, parse_tok t st = some st1 ∧ mirrors_stack c1.chk st1 = true := by
  cases t with
  | lst_begin =>
    obtain ⟨_, e⟩ := make_chk_inv h
    refine ⟨[] :: st, rfl, ?_⟩
    rw [e]
    simp only [mirrors_stack, mirrors_chain, Bool.true_and]
    exact hm
  | lst_end =>
    obtain ⟨head, next, rest, hc, _, e⟩ := read_end_inv h
    rw [hc] at hm
    rcases st with _ | ⟨ph, _ | ⟨pn, pr⟩⟩
    · simp [mirrors_stack] at hm
    · simp [mirrors_stack] at hm
    · simp only [mirrors_stack, Bool.and_eq_true] at hm
      refine ⟨(pn ++ [item.lst ph]) :: pr, rfl, ?_⟩
      rw [e]
      simp only [mirrors_stack, Bool.and_eq_true]
      exact ⟨mirrors_chain_append _ _ next pn hm.2.1 (by simp only [mirrors]; exact hm.1),
        hm.2.2⟩
  | str bytes =>
    simp only [act] at h
    obtain ⟨r, c2, h1, h2⟩ := bind_ok_inv h
    obtain ⟨_, c3, h3, h4⟩ := bind_ok_inv h2
    obtain ⟨_, _, e2⟩ := make_obj_inv h1
    obtain ⟨_, e3⟩ := take_blocks_inv _ h3
    have hm3 : mirrors_stack c3.chk st = true := by
      rw [e3, e2]
      exact hm
    obtain ⟨ph, pn, e, hr⟩ := append_mirrors (.str bytes) st h4 hm3
      (by simp [mirrors, lit_segs_flatten])
      (fun x hx => by
        obtain ⟨r1, e1⟩ := objeq_str_inv x _ _ hx
        rw [e1]
        simp [mirrors, lit_segs_flatten])
    exact ⟨_, by rw [e]; rfl, hr⟩
  | word buf =>
    simp only [act, read_word] at h
    obtain ⟨r, c2, h1, h2⟩ := bind_ok_inv h
    obtain ⟨_, _, e2⟩ := make_obj_inv h1
    have hm2 : mirrors_stack c2.chk st = true := by
      rw [e2]
      exact hm
    cases hfb : find_builtin buf with
    | some fn =>
      rw [hfb] at h2
      obtain ⟨ph, pn, e, hr⟩ := append_mirrors (.word buf) st h2 hm2
        (by simp [mirrors, hfb])
        (fun x hx => by
          obtain ⟨r1, e1⟩ := objeq_ntv_inv x _ _ hx
          rw [e1]
          simp [mirrors, hfb])
      exact ⟨_, by rw [e]; rfl, hr⟩
    | none =>
      rw [hfb] at h2
      cases hst : (LfNum.strtod buf : Option N) with
      | some w =>
        rw [hst] at h2
        obtain ⟨ph, pn, e, hr⟩ := append_mirrors (.word buf) st h2 hm2
          (by simp [mirrors, hfb, hst])
          (fun x hx => by
            obtain ⟨r1, v, e1, hv⟩ := objeq_num_inv x _ _ hx
            rw [e1]
            simp [mirrors, hfb, hst, hv])
        exact ⟨_, by rw [e]; rfl, hr⟩
      | none =>
        rw [hst] at h2
        obtain ⟨s, c3, h3, h4⟩ := bind_ok_inv h2
        obtain ⟨_, e3, _, _⟩ := build_string_loop_inv _ buf buf.length hn (le_refl _) h3
        have hfl := build_string_loop_segs _ buf buf.length hn (le_refl _) h3
        rw [List.take_length] at hfl
        have hm3 : mirrors_stack c3.chk st = true := by
          rw [e3]
          exact hm2
        obtain ⟨ph, pn, e, hr⟩ := append_mirrors (.word buf) st h4 hm3
          (by simp [mirrors, hfb, hst, hfl])
          (fun x hx => by
            obtain ⟨r1, e1⟩ := objeq_sym_inv x _ _ hx
            rw [e1]
            simp [mirrors, hfb, hst, hfl])
        exact ⟨_, by rw [e]; rfl, hr⟩
  | bad_str bytes =>
    simp only [act] at h
    obtain ⟨r, c2, h1, h2⟩ := bind_ok_inv h
    obtain ⟨_, c3, h3, h4⟩ := bind_ok_inv h2
    cases h4
  | bad_word =>
    simp only [act] at h
    obtain ⟨r, c2, h1, h2⟩ := bind_ok_inv h
    cases h2
  | more => cases h

theorem tokens_from_bytes : ∀ (fuel : Nat) (txt : List Char) (t : tok),
    t ∈ tokens_from fuel txt → ∀ b ∈ t.bytes, b ∈ txt
  | 0, _, t, ht, b, hb => by
    simp only [tokens_from, List.mem_singleton] at ht
    rw [ht] at hb
    simp [tok.bytes] at hb
  | fuel + 1, txt, t, ht, b, hb => by
    unfold tokens_from at ht
    cases hdw : txt.dropWhile isspace with
    | nil =>
      rw [hdw] at ht
      simp at ht
    | cons ch rest =>
      have hsuf : ∀ x, x ∈ ch :: rest → x ∈ txt := fun x hx =>
        (List.dropWhile_suffix isspace).subset (hdw ▸ hx)
      have hrest : ∀ x, x ∈ rest → x ∈ txt := fun x hx => hsuf x (List.mem_cons_of_mem _ hx)
      rw [hdw] at ht
      simp only at ht
      split at ht
      · exact hrest b ((List.dropWhile_suffix _).subset
          (tokens_from_bytes fuel _ t ht b hb))
      · split at ht
        · rcases List.mem_cons.1 ht with e | e
          · rw [e] at hb
            simp [tok.bytes] at hb
          · exact hrest b (tokens_from_bytes fuel _ t e b hb)
        · split at ht
          · rcases List.mem_cons.1 ht with e | e
            · rw [e] at hb
              simp [tok.bytes] at hb
            · exact hrest b (tokens_from_bytes fuel _ t e b hb)
          · split at ht
            · split at ht
              · rcases List.mem_cons.1 ht with e | e
                · rw [e] at hb
                  exact hrest b ((List.takeWhile_prefix _).subset hb)
                · exact hrest b ((List.dropWhile_suffix _).subset
                    (List.mem_of_mem_drop (tokens_from_bytes fuel _ t e b hb)))
              · rw [List.mem_singleton] at ht
                rw [ht] at hb
                exact hrest b hb
            · split at ht
              · rcases List.mem_cons.1 ht with e | e
                · rw [e] at hb
                  exact hsuf b ((List.takeWhile_prefix (fun d => !isdelim d)).subset hb)
                · exact hsuf b ((List.dropWhile_suffix _).subset
                    (tokens_from_bytes fuel _ t e b hb))
              · rw [List.mem_singleton] at ht
                rw [ht] at hb
                simp [tok.bytes] at hb

theorem run_toks_mirrors {N : Type} [LfNum N] [DecidableEq N] :
    ∀ (ts : List tok) {c c1 : lf_ctx N} (st : List (List item)),
      run_toks ts c = .ok () c1 → mirrors_stack c.chk st = true →
      (∀ t ∈ ts, NUL ∉ t.bytes) →
      ∃ st1, parse_toks ts st = some st1 ∧ mirrors_stack c1.chk st1 = true
  | [], c, c1, st, h, hm, _ => by
    cases h
    exact ⟨st, rfl, hm⟩
  | t :: ts, c, c1, st, h, hm, hn => by
    simp only [run_toks] at h
    obtain ⟨_, c2, h1, h2⟩ := bind_ok_inv h
    obtain ⟨st1, e1, hm1⟩ := act_mirrors t st h1 hm (hn t (List.mem_cons_self _ _))
    obtain ⟨st2, e2, hm2⟩ := run_toks_mirrors ts st1 h2 hm1
      (fun t1 ht1 => hn t1 (List.mem_cons_of_mem _ ht1))
    exact ⟨st2, by simp only [parse_toks, e1, e2], hm2⟩

theorem parse_toks_length : ∀ (ts : List tok) (st st1 : List (List item)),
    parse_toks ts st = some st1 →
      st1.length + ts.count .lst_end = st.length + ts.count .lst_begin
  | [], st, st1, h => by
    cases h
    simp
  | t :: ts, st, st1, h => by
    simp only [parse_toks] at h
    cases hp : parse_tok t st with
    | none =>
      rw [hp] at h
      cases h
    | some st2 =>
      rw [hp] at h
      have ih := parse_toks_length ts st2 st1 h
      cases t with
      | lst_begin =>
        cases hp
        simp only [List.length_cons] at ih
        rw [List.count_cons_self, List.count_cons_of_ne (by simp)]
        omega
      | lst_end =>
        rcases st with _ | ⟨ph, _ | ⟨pn, pr⟩⟩
        · cases hp
        · cases hp
        · cases hp
          simp only [List.length_cons] at ih ⊢
          rw [List.count_cons_self, List.count_cons_of_ne (by simp)]
          omega
      | str b =>
        rcases st with _ | ⟨ph, pn⟩
        · cases hp
        · cases hp
          simp only [List.length_cons] at ih ⊢
          rw [List.count_cons_of_ne (by simp), List.count_cons_of_ne (by simp)]
          omega
      | word b =>
        rcases st with _ | ⟨ph, pn⟩
        · cases hp
        · cases hp
          simp only [List.length_cons] at ih ⊢
          rw [List.count_cons_of_ne (by simp), List.count_cons_of_ne (by simp)]
          omega
      | bad_str b => cases st <;> cases hp
      | bad_word => cases st <;> cases hp
      | more => cases st <;> cases hp

theorem dropWhile_head_false {α : Type} (p : α → Bool) :
    ∀ (l : List α) (a : α) (rest : List α), l.dropWhile p = a :: rest → p a = false
  | [], _, _, h => by simp at h
  | b :: l, a, rest, h => by
    by_cases hb : p b = true
    · rw [List.dropWhile_cons_of_pos hb] at h
      exact dropWhile_head_false p l a rest h
    · rw [List.dropWhile_cons_of_neg hb] at h
      cases h
      simpa using hb

theorem dropWhile_length_le {α : Type} (p : α → Bool) (l : List α) :
    (l.dropWhile p).length ≤ l.length :=
  (List.dropWhile_suffix p).length_le

theorem isdelim_of_word_start (ch : Char) (hs : isspace ch = false) (h2 : ¬ch = '[')
    (h3 : ¬ch = ']') (h4 : ¬ch = Char.ofNat 34) : isdelim ch = false := by
  simp [isdelim, hs, h2, h3, h4]

theorem tokens_from_stable : ∀ (f1 f2 : Nat) (txt : List Char),
    txt.length < f1 → txt.length < f2 → tokens_from f1 txt = tokens_from f2 txt
  | 0, _, _, h, _ => by simp at h
  | _ + 1, 0, _, _, h => by simp at h
  | a + 1, b + 1, txt, ha, hb => by
    unfold tokens_from
    cases hdw : txt.dropWhile isspace with
    | nil => rfl
    | cons ch rest =>
      have hlen : rest.length + 1 ≤ txt.length := by
        have := dropWhile_length_le isspace txt
        rw [hdw] at this
        exact this
      have hsp := dropWhile_head_false isspace txt ch rest hdw
      simp only
      split
      · have := dropWhile_length_le (fun d => d != '\n') rest
        exact tokens_from_stable a b _ (by omega) (by omega)
      · split
        · rw [tokens_from_stable a b rest (by omega) (by omega)]
        · split
          · rw [tokens_from_stable a b rest (by omega) (by omega)]
          · split
            · split
              · have := dropWhile_length_le (fun d => d != Char.ofNat 34) rest
                have hd := List.length_drop 1 (rest.dropWhile (fun d => d != Char.ofNat 34))
                rw [tokens_from_stable a b _ (by omega) (by omega)]
              · rfl
            · split
              · rename_i h2 h3 h4 _
                have hdel : isdelim ch = false := isdelim_of_word_start ch hsp h2 h3 h4
                have hdr : (ch :: rest).dropWhile (fun d => !isdelim d) =
                    rest.dropWhile (fun d => !isdelim d) := by
                  rw [List.dropWhile_cons_of_pos (by simp [hdel])]
                have := dropWhile_length_le (fun d => !isdelim d) rest
                rw [hdr, tokens_from_stable a b _ (by omega) (by omega)]
              · rfl

theorem tokens_eq (fuel : Nat) (txt : List Char) (h : txt.length < fuel) :
    tokens_from fuel txt = tokens txt :=
  tokens_from_stable fuel (txt.length + 1) txt h (Nat.lt_succ_self _)

theorem tokens_unfold (txt : List Char) :
    tokens txt =
      match txt.dropWhile isspace with
      | [] => []
      | ch :: rest =>
        if ch = '#' then tokens (rest.dropWhile (fun d => d != '\n'))
        else if ch = '[' then .lst_begin :: tokens rest
        else if ch = ']' then .lst_end :: tokens rest
        else if ch = Char.ofNat 34 then
          if Char.ofNat 34 ∈ rest then
            .str (rest.takeWhile (fun d => d != Char.ofNat 34)) ::
              tokens ((rest.dropWhile (fun d => d != Char.ofNat 34)).drop 1)
          else [.bad_str rest]
        else
          if ((ch :: rest).takeWhile (fun d => !isdelim d)).length ≤ LF_SYM_MAX_LEN - 1 then
            .word ((ch :: rest).takeWhile (fun d => !isdelim d)) ::
              tokens ((ch :: rest).dropWhile (fun d => !isdelim d))
          else [.bad_word] := by
  show tokens_from (txt.length + 1) txt = _
  unfold tokens_from
  cases hdw : txt.dropWhile isspace with
  | nil => rfl
  | cons ch rest =>
    have hlen : rest.length + 1 ≤ txt.length := by
      have := dropWhile_length_le isspace txt
      rw [hdw] at this
      exact this
    have hsp := dropWhile_head_false isspace txt ch rest hdw
    simp only
    split
    · have := dropWhile_length_le (fun d => d != '\n') rest
      exact tokens_eq _ _ (by omega)
    · split
      · rw [tokens_eq _ rest (by omega)]
      · split
        · rw [tokens_eq _ rest (by omega)]
        · split
          · split
            · have := dropWhile_length_le (fun d => d != Char.ofNat 34) rest
              have hd := List.length_drop 1 (rest.dropWhile (fun d => d != Char.ofNat 34))
              rw [tokens_eq _ _ (by omega)]
            · rfl
          · split
            · rename_i h2 h3 h4 _
              have hdel : isdelim ch = false := isdelim_of_word_start ch hsp h2 h3 h4
              have hdr : (ch :: rest).dropWhile (fun d => !isdelim d) =
                  rest.dropWhile (fun d => !isdelim d) := by
                rw [List.dropWhile_cons_of_pos (by simp [hdel])]
              have := dropWhile_length_le (fun d => !isdelim d) rest
              rw [hdr, tokens_eq _ _ (by omega)]
            · rfl

theorem dropWhile_append_all {α : Type} (p : α → Bool) :
    ∀ (ws l : List α), (∀ a ∈ ws, p a = true) → (ws ++ l).dropWhile p = l.dropWhile p
  | [], _, _ => rfl
  | w :: ws, l, h => by
    rw [List.cons_append, List.dropWhile_cons_of_pos (h w (List.mem_cons_self _ _))]
    exact dropWhile_append_all p ws l (fun a ha => h a (List.mem_cons_of_mem _ ha))

theorem tokens_space (ws txt : List Char) (h : ∀ ch ∈ ws, isspace ch = true) :
    tokens (ws ++ txt) = tokens txt := by
  rw [tokens_unfold (ws ++ txt), tokens_unfold txt, dropWhile_append_all isspace ws txt h]

theorem tokens_comment (line txt : List Char) (h : '\n' ∉ line) :
    tokens ('#' :: (line ++ '\n' :: txt)) = tokens txt := by
  have e : (line ++ '\n' :: txt).dropWhile (fun d => d != '\n') = '\n' :: txt := by
    rw [dropWhile_append_all _ line _ (fun a ha => by
      simp only [bne_iff_ne, ne_eq]
      exact fun e => h (e ▸ ha))]
    simp
  rw [tokens_unfold]
  have hs : ('#' :: (line ++ '\n' :: txt)).dropWhile isspace = '#' :: (line ++ '\n' :: txt) := by
    rw [List.dropWhile_cons_of_neg (by decide)]
  rw [hs]
  simp only [if_true, e]
  exact tokens_space ['\n'] txt (by decide)

theorem lf_read_mirrors {N : Type} [LfNum N] [DecidableEq N] (inp : List Char)
    {c c1 : lf_ctx N} (hnul : NUL ∉ inp) (hc : c.chk = []) (h : lf_read inp c = .ok () c1) :
    ∃ c0 st, make_chk c = .ok () c0 ∧ run_toks (tokens inp) c0 = .ok () c1 ∧
      parse_toks (tokens inp) [[]] = some st ∧ mirrors_stack c1.chk st = true := by
  rw [lf_read_tokens inp hnul c, hc] at h
  simp only [run_toks] at h
  obtain ⟨_, c0, h1, h2⟩ := bind_ok_inv h
  have h1' : make_chk c = .ok () c0 := h1
  obtain ⟨_, e⟩ := make_chk_inv h1'
  have hm : mirrors_stack c0.chk [[]] = true := by
    rw [e]
    simp only [hc]
    rfl
  obtain ⟨st, e1, hm1⟩ := run_toks_mirrors (tokens inp) [[]] h2 hm
    (fun t ht hb => hnul (tokens_from_bytes _ inp t ht NUL hb))
  exact ⟨c0, st, h1', h2, e1, hm1⟩

/-- C14: if `lf_read` on a text (a C string: no NUL byte inside) into a NULL
chunk returns OK, then the open chunks it leaves stand for the open lists of
the text, chunk by chunk and cell by cell in the order of the tokens: every
balanced bracket pair is one LIST cell at the place of the pair in the list
around it, with the cells of the enclosed tokens as payload, every string
literal and every word is one cell, and the number of open chunks plus the
number of `]` is one plus the number of `[`.  White space in front of a text
and a comment line add no token, so no cell. -/
theorem C14_read_mirrors_text {N : Type} [LfNum N] [DecidableEq N] (inp : List Char)
    (c c1 : lf_ctx N) (hnul : NUL ∉ inp) (hc : c.chk = [])
    (h : lf_read inp c = .ok () c1) :
    (∃ st, parse_toks (tokens inp) [[]] = some st ∧ mirrors_stack c1.chk st = true) ∧
      c1.chk.length + (tokens inp).count .lst_end = 1 + (tokens inp).count .lst_begin ∧
      (∀ ws txt : List Char, (∀ ch ∈ ws, isspace ch = true) →
        tokens (ws ++ txt) = tokens txt) ∧
      (∀ line txt : List Char, '\n' ∉ line →
        tokens ('#' :: (line ++ '\n' :: txt)) = tokens txt) := by
  obtain ⟨c0, st, _, _, e1, hm1⟩ := lf_read_mirrors inp hnul hc h
  refine ⟨⟨st, e1, hm1⟩, ?_, tokens_space, tokens_comment⟩
  have hl := parse_toks_length _ _ _ e1
  rw [mirrors_stack_length _ _ hm1]
  simp only [List.length_singleton] at hl
  omega

theorem ok_of_get {N α β : Type} {r : Res N α} {f : lf_ctx N → β} {b : β}
    (h : r.get f = some b) : ∃ a c1, r = .ok a c1 ∧ f c1 = b := by
  cases r with
  | ok a c1 =>
    simp only [Res.get, Option.some.injEq] at h
    exact ⟨a, c1, rfl, h⟩
  | sig s c1 => cases h
  | fault => cases h
  | nofuel => cases h

/-- C14 on the text `1 [a "b c" # note`, newline, ` [rol]] a [ 1.0` read into
a NULL chunk: the tokens are `1 [ a "b c" [ rol ] ] a [ 1.0`, the read returns
with two open chunks, the inner one with the cell of `1.0`, the outer one with
the cells of `1`, of the list `[a "b c" [rol]]` and of `a`. -/
theorem C14_read_witness :
    NUL ∉ "1 [a \"b c\" # note\n [rol]] a [ 1.0".toList ∧ (ctx0 Sc 100).chk = [] ∧
      tokens "1 [a \"b c\" # note\n [rol]] a [ 1.0".toList =
        [.word ['1'], .lst_begin, .word ['a'], .str ['b', ' ', 'c'], .lst_begin,
          .word ['r', 'o', 'l'], .lst_end, .lst_end, .word ['a'], .lst_begin,
          .word ['1', '.', '0']] ∧
      ∃ c1, lf_read "1 [a \"b c\" # note\n [rol]] a [ 1.0".toList (ctx0 Sc 100) = .ok () c1 ∧
        c1.chk = [[.num 0 (.fin 1 1)],
          [.num 0 (.fin 1 1),
            .lst 5 [.sym 1 [['a']], .str 2 [['b', ' ', 'c']], .lst 4 [.ntv 3 .lf_rol]],
            .sym 6 [['a']]]] ∧
        (∃ st, parse_toks (tokens "1 [a \"b c\" # note\n [rol]] a [ 1.0".toList) [[]] =
            some st ∧ mirrors_stack c1.chk st = true) ∧
        c1.chk.length = 2 :=
  have hg : (lf_read "1 [a \"b c\" # note\n [rol]] a [ 1.0".toList (ctx0 Sc 100)).get
      (fun c => c.chk) = some [[.num 0 (.fin 1 1)],
          [.num 0 (.fin 1 1),
            .lst 5 [.sym 1 [['a']], .str 2 [['b', ' ', 'c']], .lst 4 [.ntv 3 .lf_rol]],
            .sym 6 [['a']]]] := by decide!
  ⟨by decide!, rfl, by decide!,
    (ok_of_get hg).elim fun _ a => a.elim fun c1 b =>
      ⟨c1, b.1, b.2,
        (C14_read_mirrors_text "1 [a \"b c\" # note\n [rol]] a [ 1.0".toList (ctx0 Sc 100) c1
          (by decide!) rfl b.1).1,
        by rw [b.2]; rfl⟩⟩

theorem build_string_loop_ok {N : Type} : ∀ (fuel : Nat) (txt : List Char) (len : Nat)
    (c : lf_ctx N), NUL ∉ txt → len ≤ txt.length → (len + 14) / 15 ≤ c.free →
    (len + 14) / 15 < fuel →
    ∃ s, build_string_loop fuel txt len c = .ok s { c with free := c.free - (len + 14) / 15 } ∧
      s.flatten = txt.take len
  | 0, _, _, _, _, _, _, h => by simp at h
  | fuel + 1, txt, len, c, h0, hl, hf, hfu => by
    unfold build_string_loop
    by_cases hz : len = 0
    · subst hz
      exact ⟨[], rfl, by simp⟩
    · rw [if_neg hz, strbuf_15]
      have hpos : 0 < c.free := by omega
      rw [bind_ok _ _ _ _ _ (make_block_ok c hpos), copy_seg_eq _ txt h0]
      have hlen : (txt.take (if len < 15 then len else 15)).length =
          (if len < 15 then len else 15) := by
        rw [List.length_take]
        split <;> omega
      obtain ⟨s, hs, hfl⟩ := build_string_loop_ok fuel
        (txt.drop (if len < 15 then len else 15)) (len - (if len < 15 then len else 15))
        { c with free := c.free - 1 }
        (fun e => h0 (List.mem_of_mem_drop e))
        (by rw [List.length_drop]; split <;> omega)
        (by simp only; split <;> omega)
        (by split <;> omega)
      refine ⟨txt.take (if len < 15 then len else 15) :: s, ?_, ?_⟩
      · simp only [hlen]
        rw [bind_ok _ _ _ _ _ hs]
        simp only [pure_apply, Res.ok.injEq, lf_ctx.mk.injEq, and_true, true_and]
        split <;> omega
      · rw [List.flatten_cons, hfl, ← List.take_add]
        congr 1
        split <;> omega

theorem free_hold_chk {N : Type} (c : lf_ctx N) : (free_hold c).chk = c.chk := by
  simp only [free_hold]
  exact (free_list_chains _ _).1.chk

theorem takeWhile_append_stop {α : Type} (p : α → Bool) :
    ∀ (w after : List α), (∀ a ∈ w, p a = true) → (∀ a, after.head? = some a → p a = false) →
      (w ++ after).takeWhile p = w ∧ (w ++ after).dropWhile p = after
  | [], [], _, _ => ⟨rfl, rfl⟩
  | [], a :: after, _, h => by
    have := h a rfl
    simp [this]
  | b :: w, after, hw, h => by
    have hb := hw b (List.mem_cons_self _ _)
    obtain ⟨e1, e2⟩ := takeWhile_append_stop p w after
      (fun a ha => hw a (List.mem_cons_of_mem _ ha)) h
    simp only [List.cons_append, List.takeWhile_cons, List.dropWhile_cons, hb, if_true, e1, e2,
      and_self]

theorem tokens_word (ch : Char) (t after : List Char)
    (hnd : ∀ a ∈ ch :: t, isdelim a = false) (hcom : ch ≠ '#')
    (hafter : ∀ a, after.head? = some a → isdelim a = true) :
    tokens (ch :: t ++ after) =
      if (ch :: t).length ≤ LF_SYM_MAX_LEN - 1 then .word (ch :: t) :: tokens after
      else [.bad_word] := by
  have hch := hnd ch (List.mem_cons_self _ _)
  have hsp : isspace ch = false := by
    simp only [isdelim, Bool.or_eq_false_iff] at hch
    exact hch.1.1.1
  have h2 : ch ≠ '[' := by
    intro e
    rw [e] at hch
    simp [isdelim] at hch
  have h3 : ch ≠ ']' := by
    intro e
    rw [e] at hch
    simp [isdelim] at hch
  have h4 : ch ≠ Char.ofNat 34 := by
    intro e
    rw [e] at hch
    simp [isdelim] at hch
  obtain ⟨e1, e2⟩ := takeWhile_append_stop (fun d => !isdelim d) (ch :: t) after
    (fun a ha => by simp [hnd a ha]) (fun a ha => by simp [hafter a ha])
  rw [tokens_unfold]
  have hs : (ch :: t ++ after).dropWhile isspace = ch :: (t ++ after) := by
    rw [List.cons_append, List.dropWhile_cons_of_neg (by simp [hsp])]
  rw [hs]
  simp only [if_neg hcom, if_neg h2, if_neg h3, if_neg h4]
  rw [← List.cons_append, e1, e2]

theorem append_obj_ok {N : Type} [LfNum N] (obj : lf_obj N) (c : lf_ctx N)
    (head : List (lf_obj N)) (next : List (List (lf_obj N))) (hc : c.chk = head :: next) :
    ∃ c1, append_obj obj c = .ok () c1 := by
  rw [append_obj_eq, hc]
  cases search_entry obj (head :: next) with
  | none => exact ⟨_, rfl⟩
  | some it => exact ⟨_, rfl⟩

theorem read_word_ok {N : Type} [LfNum N] (buf : List Char) (c : lf_ctx N)
    (head : List (lf_obj N)) (next : List (List (lf_obj N))) (hc : c.chk = head :: next)
    (h0 : NUL ∉ buf) (hl : buf.length ≤ 63) (hf : 7 ≤ c.free) :
    ∃ c1, read_word buf c = .ok () c1 := by
  unfold read_word
  rw [bind_ok _ _ _ _ _ (make_obj_ok c (by omega))]
  cases find_builtin buf with
  | some fn => exact append_obj_ok _ _ head next hc
  | none =>
    cases (LfNum.strtod buf : Option N) with
    | some w => exact append_obj_ok _ _ head next hc
    | none =>
      obtain ⟨s, hs, _⟩ := build_string_loop_ok
        (({ c with free := c.free - 2, cnt := set_cnt c.cnt c.brk 1, brk := c.brk + 1 } :
          lf_ctx N).free + 1) buf buf.length
        { c with free := c.free - 2, cnt := set_cnt c.cnt c.brk 1, brk := c.brk + 1 }
        h0 (le_refl _) (by simp only; omega) (by simp only; omega)
      simp only
      rw [bind_ok _ _ _ _ _ (show build_string buf buf.length _ = _ from hs)]
      exact append_obj_ok _ _ head next hc

theorem read_word_inv {N : Type} [LfNum N] [DecidableEq N] {buf : List Char}
    {c c1 : lf_ctx N} (h : read_word buf c = .ok () c1) (hn : NUL ∉ buf) :
    ∃ head next x, c.chk = head :: next ∧ c1.chk = (head ++ [x]) :: next ∧
      mirrors x (.word buf) = true := by
  unfold read_word at h
  obtain ⟨r, c2, h1, h2⟩ := bind_ok_inv h
  obtain ⟨_, _, e2⟩ := make_obj_inv h1
  have hc2 : c2.chk = c.chk := by rw [e2]
  cases hfb : find_builtin buf with
  | some fn =>
    rw [hfb] at h2
    obtain ⟨head, next, x, a, b, d⟩ := append_obj_inv h2
    refine ⟨head, next, x, by rw [← hc2, a], b, ?_⟩
    rcases d with ⟨_, e⟩ | e
    · rw [e]
      simp [mirrors, hfb]
    · obtain ⟨r1, e1⟩ := objeq_ntv_inv x _ _ (search_entry_some _ _ x e).2
      rw [e1]
      simp [mirrors, hfb]
  | none =>
    rw [hfb] at h2
    cases hst : (LfNum.strtod buf : Option N) with
    | some w =>
      rw [hst] at h2
      obtain ⟨head, next, x, a, b, d⟩ := append_obj_inv h2
      refine ⟨head, next, x, by rw [← hc2, a], b, ?_⟩
      rcases d with ⟨_, e⟩ | e
      · rw [e]
        simp [mirrors, hfb, hst]
      · obtain ⟨r1, v, e1, hv⟩ := objeq_num_inv x _ _ (search_entry_some _ _ x e).2
        rw [e1]
        simp [mirrors, hfb, hst, hv]
    | none =>
      rw [hst] at h2
      obtain ⟨s, c3, h3, h4⟩ := bind_ok_inv h2
      obtain ⟨_, e3, _, _⟩ := build_string_loop_inv _ buf buf.length hn (le_refl _) h3
      have hfl := build_string_loop_segs _ buf buf.length hn (le_refl _) h3
      rw [List.take_length] at hfl
      have hc3 : c3.chk = c.chk := by rw [e3, ← hc2]
      obtain ⟨head, next, x, a, b, d⟩ := append_obj_inv h4
      refine ⟨head, next, x, by rw [← hc3, a], b, ?_⟩
      rcases d with ⟨_, e⟩ | e
      · rw [e]
        simp [mirrors, hfb, hst, hfl]
      · obtain ⟨r1, e1⟩ := objeq_sym_inv x _ _ (search_entry_some _ _ x e).2
        rw [e1]
        simp [mirrors, hfb, hst, hfl]

theorem make_chk_ok {N : Type} (c : lf_ctx N) (h : 0 < c.free) :
    make_chk c = .ok () { c with free := c.free - 1, chk := [] :: c.chk } := by
  unfold make_chk
  rw [bind_ok _ _ _ _ _ (make_block_ok c h)]
  rfl

theorem sym_max_64 : LF_SYM_MAX_LEN = 64 := rfl

/-- C15: let a text start with a word, a run of bytes that are no delimiters
(and not NUL) and do not start a comment, followed by the end of the text or
by a delimiter, and let it be read into a NULL chunk with 8 free blocks.  If
the word has at most `LF_SYM_MAX_LEN - 1` = 63 bytes, `lf_read` appends exactly
one cell that stands for the whole word (the native whose key the word is, the
number `strtod` makes of all its bytes, or else a SYMBOL whose segments hold
all the bytes) and goes on with the rest of the text; if the text ends there
it returns OK.  If the word has `LF_SYM_MAX_LEN` = 64 bytes or more, `lf_read`
escapes with PARSE_ERROR and the chunk has no cell. -/
theorem C15_token_length_limit {N : Type} [LfNum N] [DecidableEq N] (ch : Char)
    (t after : List Char) (c : lf_ctx N)
    (hnd : ∀ a ∈ ch :: t, isdelim a = false ∧ a ≠ NUL) (hcom : ch ≠ '#')
    (hafter : ∀ a, after.head? = some a → isdelim a = true) (hnul : NUL ∉ after)
    (hc : c.chk = []) (hf : 8 ≤ c.free) :
    ((ch :: t).length ≤ LF_SYM_MAX_LEN - 1 →
        ∃ c1 x, c1.chk = [[x]] ∧ mirrors x (.word (ch :: t)) = true ∧
          (find_builtin (ch :: t) = none → (LfNum.strtod (ch :: t) : Option N) = none →
            ∃ r s, x = .sym r s ∧ s.flatten = ch :: t) ∧
          lf_read (ch :: t ++ after) c = lf_read after c1 ∧
          (after = [] → lf_read (ch :: t) c = .ok () c1)) ∧
      (LF_SYM_MAX_LEN ≤ (ch :: t).length →
        ∃ c1, lf_read (ch :: t ++ after) c = .sig .LF_SPRSERR c1 ∧ c1.chk = [[]]) := by
  have hn0 : NUL ∉ ch :: t := fun e => (hnd _ e).2 rfl
  have hn1 : NUL ∉ ch :: t ++ after := by
    intro e
    rcases List.mem_append.1 e with e | e
    · exact hn0 e
    · exact hnul e
  have htok := tokens_word ch t after (fun a ha => (hnd a ha).1) hcom hafter
  have hrd := lf_read_tokens (N := N) (ch :: t ++ after) hn1 c
  rw [hc] at hrd
  simp only [run_toks] at hrd
  have hmk := make_chk_ok c (by omega)
  rw [hc] at hmk
  rw [bind_ok _ _ _ _ _ (show act .lst_begin c = _ from hmk), htok] at hrd
  constructor
  · intro hlen
    rw [if_pos hlen] at hrd
    obtain ⟨c1, h1⟩ := read_word_ok (ch :: t)
      ({ c with free := c.free - 1, chk := [[]] } : lf_ctx N) [] [] rfl hn0
      (by rw [sym_max_64] at hlen; omega) (by simp only; omega)
    obtain ⟨head, next, x, a, b, d⟩ := read_word_inv h1 hn0
    cases a
    have hrd1 : lf_read (ch :: t ++ after) c = run_toks (tokens after) c1 := by
      rw [hrd]
      simp only [run_toks]
      rw [bind_ok _ _ _ _ _ (show act (.word (ch :: t)) _ = _ from h1)]
    have hrd2 : lf_read after c1 = run_toks (tokens after) c1 := by
      rw [lf_read_tokens after hnul c1, b]
    refine ⟨c1, x, b, d, ?_, hrd1.trans hrd2.symm, ?_⟩
    · intro hfb hst
      cases x with
      | sym r s =>
        simp only [mirrors, Bool.and_eq_true, beq_iff_eq] at d
        refine ⟨r, s, rfl, ?_⟩
        rw [d.2]
        exact cut_segs_flatten _ _ (by omega)
      | ntv r fn => simp [mirrors, hfb] at d
      | num r v => simp [mirrors, hfb, hst] at d
      | lst r v => simp [mirrors] at d
      | str r v => simp [mirrors] at d
      | usr r v w => simp [mirrors] at d
    · intro ha
      rw [ha, List.append_nil] at hrd1
      rw [hrd1]
      rfl
  · intro hlen
    rw [if_neg (by rw [sym_max_64] at hlen ⊢; omega)] at hrd
    have hmo := make_obj_ok ({ c with free := c.free - 1, chk := [[]] } : lf_ctx N)
      (by simp only; omega)
    refine ⟨free_hold
      ({ c with free := c.free - 1 - 2, cnt := set_cnt c.cnt c.brk 1, brk := c.brk + 1,
                chk := [[]] } : lf_ctx N), ?_, ?_⟩
    · rw [hrd]
      simp only [run_toks, act]
      rw [bind_apply, bind_ok _ _ _ _ _ hmo]
      rfl
    · rw [free_hold_chk]

/-- C15 for words of the byte `a`: the word of 63 bytes, alone in the text, is
read as one cell that stands for the word and the read returns OK; the word of
64 bytes, followed by ` b`, makes the read escape with PARSE_ERROR and leaves
the chunk without a cell. -/
theorem C15_token_witness :
    (∀ a ∈ 'a' :: List.replicate 62 'a', isdelim a = false ∧ a ≠ NUL) ∧
      (∀ a ∈ 'a' :: List.replicate 63 'a', isdelim a = false ∧ a ≠ NUL) ∧
      'a' ≠ '#' ∧ (∀ a, [' ', 'b'].head? = some a → isdelim a = true) ∧
      NUL ∉ [' ', 'b'] ∧ (ctx0 Sc 100).chk = [] ∧ 8 ≤ (ctx0 Sc 100).free ∧
      ('a' :: List.replicate 62 'a').length ≤ LF_SYM_MAX_LEN - 1 ∧
      LF_SYM_MAX_LEN ≤ ('a' :: List.replicate 63 'a').length ∧
      (∃ c1 x, c1.chk = [[x]] ∧ mirrors x (.word ('a' :: List.replicate 62 'a')) = true ∧
        lf_read ('a' :: List.replicate 62 'a') (ctx0 Sc 100) = .ok () c1) ∧
      (∃ c1, lf_read ('a' :: List.replicate 63 'a' ++ [' ', 'b']) (ctx0 Sc 100) =
        .sig .LF_SPRSERR c1 ∧ c1.chk = [[]]) :=
  have h63 := C15_token_length_limit 'a' (List.replicate 62 'a') [] (ctx0 Sc 100)
    (by decide!) (by decide) (by simp) (by simp) rfl (by decide)
  have h64 := C15_token_length_limit 'a' (List.replicate 63 'a') [' ', 'b'] (ctx0 Sc 100)
    (by decide!) (by decide) (by decide!) (by decide!) rfl (by decide)
  ⟨by decide!, by decide!, by decide, by decide!, by decide!, rfl, by decide, by decide,
    by decide,
    (h63.1 (by decide)).elim fun c1 a => a.elim fun x b =>
      ⟨c1, x, b.1, b.2.1, b.2.2.2.2 rfl⟩,
    h64.2 (by decide)⟩

theorem act_leaf_inv {N : Type} [LfNum N] [DecidableEq N] {t : tok} {it : item}
    {c c1 : lf_ctx N} (hit : t.item = some it) (h : act t c = .ok () c1)
    (hn : NUL ∉ t.bytes) :
    ∃ obj head next x, c.chk = head :: next ∧ c1.chk = (head ++ [x]) :: next ∧
      ((search_entry obj c.chk = none ∧ x = obj) ∨ search_entry obj c.chk = some x) ∧
      mirrors obj it = true ∧ (∀ y, objeq y obj = true → mirrors y it = true) := by
  cases t with
  | str bytes =>
    cases hit
    simp only [act] at h
    obtain ⟨r, c2, h1, h2⟩ := bind_ok_inv h
    obtain ⟨_, c3, h3, h4⟩ := bind_ok_inv h2
    obtain ⟨_, _, e2⟩ := make_obj_inv h1
    obtain ⟨_, e3⟩ := take_blocks_inv _ h3
    have hc3 : c3.chk = c.chk := by rw [e3, e2]
    obtain ⟨head, next, x, a, b, d⟩ := append_obj_inv h4
    rw [hc3] at a d
    exact ⟨_, head, next, x, a, b, d, by simp [mirrors], fun y hy => by
      obtain ⟨r1, e1⟩ := objeq_str_inv y _ _ hy
      rw [e1]
      simp [mirrors]⟩
  | word buf =>
    cases hit
    simp only [act, read_word] at h
    obtain ⟨r, c2, h1, h2⟩ := bind_ok_inv h
    obtain ⟨_, _, e2⟩ := make_obj_inv h1
    have hc2 : c2.chk = c.chk := by rw [e2]
    cases hfb : find_builtin buf with
    | some fn =>
      rw [hfb] at h2
      obtain ⟨head, next, x, a, b, d⟩ := append_obj_inv h2
      rw [hc2] at a d
      exact ⟨_, head, next, x, a, b, d, by simp [mirrors, hfb], fun y hy => by
        obtain ⟨r1, e1⟩ := objeq_ntv_inv y _ _ hy
        rw [e1]
        simp [mirrors, hfb]⟩
    | none =>
      rw [hfb] at h2
      cases hst : (LfNum.strtod buf : Option N) with
      | some w =>
        rw [hst] at h2
        obtain ⟨head, next, x, a, b, d⟩ := append_obj_inv h2
        rw [hc2] at a d
        exact ⟨_, head, next, x, a, b, d, by simp [mirrors, hfb, hst], fun y hy => by
          obtain ⟨r1, v, e1, hv⟩ := objeq_num_inv y _ _ hy
          rw [e1]
          simp [mirrors, hfb, hst, hv]⟩
      | none =>
        rw [hst] at h2
        obtain ⟨s, c3, h3, h4⟩ := bind_ok_inv h2
        obtain ⟨_, e3, _, _⟩ := build_string_loop_inv _ buf buf.length hn (le_refl _) h3
        have hfl := build_string_loop_segs _ buf buf.length hn (le_refl _) h3
        rw [List.take_length] at hfl
        have hc3 : c3.chk = c.chk := by rw [e3, ← hc2]
        obtain ⟨head, next, x, a, b, d⟩ := append_obj_inv h4
        rw [hc3] at a d
        exact ⟨_, head, next, x, a, b, d, by simp [mirrors, hfb, hst, hfl], fun y hy => by
          obtain ⟨r1, e1⟩ := objeq_sym_inv y _ _ hy
          rw [e1]
          simp [mirrors, hfb, hst, hfl]⟩
  | lst_begin => cases hit
  | lst_end => cases hit
  | bad_str b => cases hit
  | bad_word => cases hit
  | more => cases hit

theorem streq_symm : ∀ (a b : lf_str), streq a b = streq b a
  | [], [] => rfl
  | [], _ :: _ => rfl
  | _ :: _, [] => rfl
  | x :: xs, y :: ys => by
    unfold streq
    by_cases e : x = y
    · simp [e, streq_symm xs ys]
    · have e1 : ¬y = x := fun h => e h.symm
      simp [e, e1]

theorem objeq_symm_nonlist {N : Type} [LfNum N] (hsym : ∀ a b : N, LfNum.eq a b = LfNum.eq b a)
    (y z : lf_obj N) (hz : z.type ≠ .LF_TLST) : objeq y z = objeq z y := by
  cases z with
  | lst r v => exact absurd rfl hz
  | sym r s => cases y <;> simp [objeq, streq_symm]
  | str r s => cases y <;> simp [objeq, streq_symm]
  | ntv r f => cases y <;> simp [objeq, eq_comm]
  | num r v => cases y <;> simp [objeq, hsym v]
  | usr r d f => cases y <;> simp [objeq, eq_comm]

theorem mirrors_leaf_objeq {N : Type} [LfNum N] [DecidableEq N]
    (hsym : ∀ a b : N, LfNum.eq a b = LfNum.eq b a)
    (htrans : ∀ a b d : N, LfNum.eq a b = true → LfNum.eq b d = true → LfNum.eq a d = true)
    {t : tok} {it : item} (hit : t.item = some it)
    (hnan : ∀ b w, t = .word b → (LfNum.strtod b : Option N) = some w → LfNum.eq w w = true)
    (x y : lf_obj N) (hx : mirrors x it = true) (hy : mirrors y it = true) :
    objeq x y = true ∧ y.type ≠ .LF_TLST := by
  cases t with
  | str b =>
    cases hit
    cases x <;> cases y <;> simp [mirrors] at hx hy
    simp [objeq, hx, hy, streq_refl, lf_obj.type]
  | word b =>
    cases hit
    cases hfb : find_builtin b with
    | some fn =>
      cases x <;> cases y <;> simp [mirrors, hfb] at hx hy
      simp [objeq, ← hx, ← hy, lf_obj.type]
    | none =>
      cases hst : (LfNum.strtod b : Option N) with
      | some w =>
        have hw := hnan b w rfl hst
        cases x <;> cases y <;> simp [mirrors, hfb, hst] at hx hy
        rename_i r u r1 v
        refine ⟨?_, by simp [lf_obj.type]⟩
        simp only [objeq]
        have hu : LfNum.eq u w = true := by
          rcases hx with e | e
          · rw [e]
            exact hw
          · exact e
        have hv : LfNum.eq w v = true := by
          rcases hy with e | e
          · rw [e]
            exact hw
          · rw [hsym]
            exact e
        exact htrans u w v hu hv
      | none =>
        cases x <;> cases y <;> simp [mirrors, hfb, hst] at hx hy
        simp [objeq, hx, hy, streq_refl, lf_obj.type]
  | lst_begin => cases hit
  | lst_end => cases hit
  | bad_str b => cases hit
  | bad_word => cases hit
  | more => cases hit

theorem act_cases {N : Type} [LfNum N] {t : tok} {c c1 : lf_ctx N}
    (h : act t c = .ok () c1) :
    (t = .lst_begin ∧ c1.chk = [] :: c.chk) ∨
      (t = .lst_end ∧ ∃ head next rest rid, c.chk = head :: next :: rest ∧
        c1.chk = (next ++ [.lst rid head]) :: rest) ∨
      (∃ it, t.item = some it) := by
  cases t with
  | lst_begin =>
    obtain ⟨_, e⟩ := make_chk_inv h
    exact Or.inl ⟨rfl, by rw [e]⟩
  | lst_end =>
    obtain ⟨head, next, rest, hc, _, e⟩ := read_end_inv h
    exact Or.inr (Or.inl ⟨rfl, head, next, rest, c.brk, hc, by rw [e]⟩)
  | str b => exact Or.inr (Or.inr ⟨_, rfl⟩)
  | word b => exact Or.inr (Or.inr ⟨_, rfl⟩)
  | bad_str bytes =>
    simp only [act] at h
    obtain ⟨r, c2, h1, h2⟩ := bind_ok_inv h
    obtain ⟨_, c3, h3, h4⟩ := bind_ok_inv h2
    cases h4
  | bad_word =>
    simp only [act] at h
    obtain ⟨r, c2, h1, h2⟩ := bind_ok_inv h
    cases h2
  | more => cases h

theorem objeq_lst_nonlist {N : Type} [LfNum N] (r : Nat) (v : List (lf_obj N)) (z : lf_obj N)
    (hz : z.type ≠ .LF_TLST) : objeq (.lst r v) z = false := by
  cases z with
  | lst r1 v1 => exact absurd rfl hz
  | _ => simp [objeq]

theorem act_shared {N : Type} [LfNum N] [DecidableEq N]
    (hsym : ∀ a b : N, LfNum.eq a b = LfNum.eq b a) {t : tok} {c c1 : lf_ctx N}
    (h : act t c = .ok () c1) (hn : NUL ∉ t.bytes) (hs : shared c.chk) : shared c1.chk := by
  rcases act_cases h with ⟨_, e⟩ | ⟨_, head, next, rest, rid, hc, e⟩ | ⟨it, hit⟩
  · rw [e]
    exact hs
  · rw [hc] at hs
    rw [e]
    intro y hy z hz hzt hyz
    simp only [List.flatten_cons, List.mem_append, List.mem_singleton] at hy hz
    have hz' : z ∈ (head :: next :: rest).flatten := by
      rcases hz with (hz | hz) | hz
      · simp [hz]
      · rw [hz] at hzt
        exact absurd rfl hzt
      · simp [hz]
    rcases hy with (hy | hy) | hy
    · exact hs y (by simp [hy]) z hz' hzt hyz
    · rw [hy, objeq_lst_nonlist _ _ z hzt] at hyz
      cases hyz
    · exact hs y (by simp [hy]) z hz' hzt hyz
  · obtain ⟨obj, head, next, x, hc, e, hsr, _, _⟩ := act_leaf_inv hit h hn
    rw [e]
    rcases hsr with ⟨hnone, hx⟩ | hsome
    · have hno := search_entry_none obj _ hnone
      rw [hc] at hs hno
      intro y hy z hz hzt hyz
      simp only [List.flatten_cons, List.mem_append, List.mem_singleton] at hy hz
      have old : ∀ w, (w ∈ head ∨ w ∈ next.flatten) → w ∈ (head :: next).flatten := by
        intro w hw
        simp only [List.flatten_cons, List.mem_append]
        exact hw
      rcases hz with (hz | hz) | hz
      · rcases hy with (hy | hy) | hy
        · exact hs y (old y (Or.inl hy)) z (old z (Or.inl hz)) hzt hyz
        · rw [hy, hx, objeq_symm_nonlist hsym obj z hzt, hno z (old z (Or.inl hz))] at hyz
          cases hyz
        · exact hs y (old y (Or.inr hy)) z (old z (Or.inl hz)) hzt hyz
      · rcases hy with (hy | hy) | hy
        · rw [hz, hx, hno y (old y (Or.inl hy))] at hyz
          cases hyz
        · rw [hy, hz]
        · rw [hz, hx, hno y (old y (Or.inr hy))] at hyz
          cases hyz
      · rcases hy with (hy | hy) | hy
        · exact hs y (old y (Or.inl hy)) z (old z (Or.inr hz)) hzt hyz
        · rw [hy, hx, objeq_symm_nonlist hsym obj z hzt, hno z (old z (Or.inr hz))] at hyz
          cases hyz
        · exact hs y (old y (Or.inr hy)) z (old z (Or.inr hz)) hzt hyz
    · have hmem := (search_entry_some obj _ x hsome).1
      rw [hc] at hs hmem
      have old : ∀ w, w ∈ ((head ++ [x]) :: next).flatten → w ∈ (head :: next).flatten := by
        intro w hw
        simp only [List.flatten_cons, List.mem_append, List.mem_singleton] at hw ⊢
        rcases hw with (hw | hw) | hw
        · exact Or.inl hw
        · rw [hw]
          simpa only [List.flatten_cons, List.mem_append] using hmem
        · exact Or.inr hw
      intro y hy z hz hzt hyz
      exact hs y (old y hy) z (old z hz) hzt hyz

theorem run_toks_shared {N : Type} [LfNum N] [DecidableEq N]
    (hsym : ∀ a b : N, LfNum.eq a b = LfNum.eq b a) :
    ∀ (ts : List tok) {c c1 : lf_ctx N}, run_toks ts c = .ok () c1 →
      (∀ t ∈ ts, NUL ∉ t.bytes) → shared c.chk → shared c1.chk
  | [], c, c1, h, _, hs => by
    cases h
    exact hs
  | t :: ts, c, c1, h, hn, hs => by
    simp only [run_toks] at h
    obtain ⟨_, c2, h1, h2⟩ := bind_ok_inv h
    exact run_toks_shared hsym ts h2 (fun t1 ht1 => hn t1 (List.mem_cons_of_mem _ ht1))
      (act_shared hsym h1 (hn t (List.mem_cons_self _ _)) hs)

theorem mem_flatten_of_drop {α : Type} (d : Nat) (l : List (List α)) (x : α)
    (h : x ∈ (l.drop d).flatten) : x ∈ l.flatten := by
  obtain ⟨ch, hch, hx⟩ := List.mem_flatten.1 h
  exact List.mem_flatten.2 ⟨ch, List.mem_of_mem_drop hch, hx⟩

theorem mem_drop_grow {α : Type} (d : Nat) (h : List α) (y : α) (n : List (List α)) (x : α)
    (hx : x ∈ ((h :: n).drop d).flatten) : x ∈ (((h ++ [y]) :: n).drop d).flatten := by
  cases d with
  | zero =>
    simp only [List.drop_zero, List.flatten_cons, List.mem_append, List.mem_singleton] at hx ⊢
    rcases hx with hx | hx
    · exact Or.inl (Or.inl hx)
    · exact Or.inr hx
  | succ k => exact hx

theorem run_toks_keeps {N : Type} [LfNum N] [DecidableEq N] :
    ∀ (mid : List tok) (d : Nat) {c c1 : lf_ctx N} (x : lf_obj N),
      run_toks mid c = .ok () c1 → (∀ t ∈ mid, NUL ∉ t.bytes) → keeps d mid = true →
      x ∈ (c.chk.drop d).flatten → x ∈ c1.chk.flatten
  | [], d, c, c1, x, h, _, _, hx => by
    cases h
    exact mem_flatten_of_drop d _ x hx
  | t :: ts, d, c, c1, x, h, hn, hk, hx => by
    simp only [run_toks] at h
    obtain ⟨_, c2, h1, h2⟩ := bind_ok_inv h
    have hn2 : ∀ t1 ∈ ts, NUL ∉ t1.bytes := fun t1 ht1 => hn t1 (List.mem_cons_of_mem _ ht1)
    rcases act_cases h1 with ⟨e0, e⟩ | ⟨e0, head, next, rest, rid, hc, e⟩ | ⟨it, hit⟩
    · subst e0
      simp only [keeps] at hk
      exact run_toks_keeps ts (d + 1) x h2 hn2 hk (by rw [e]; exact hx)
    · subst e0
      cases d with
      | zero => simp [keeps] at hk
      | succ k =>
        simp only [keeps] at hk
        refine run_toks_keeps ts k x h2 hn2 hk ?_
        rw [e]
        rw [hc] at hx
        exact mem_drop_grow k next _ rest x hx
    · obtain ⟨obj, head, next, y, hc, e, _, _, _⟩ := act_leaf_inv hit h1
        (hn t (List.mem_cons_self _ _))
      have hk2 : keeps d ts = true := by
        cases t with
        | str b => cases d <;> simpa [keeps] using hk
        | word b => cases d <;> simpa [keeps] using hk
        | lst_begin => cases hit
        | lst_end => cases hit
        | bad_str b => cases hit
        | bad_word => cases hit
        | more => cases hit
      refine run_toks_keeps ts d x h2 hn2 hk2 ?_
      rw [e]
      rw [hc] at hx
      exact mem_drop_grow d head y next x hx

theorem run_toks_append_inv {N : Type} [LfNum N] :
    ∀ (a b : List tok) {c c1 : lf_ctx N}, run_toks (a ++ b) c = .ok () c1 →
      ∃ c2, run_toks a c = .ok () c2 ∧ run_toks b c2 = .ok () c1
  | [], b, c, c1, h => ⟨c, rfl, h⟩
  | t :: a, b, c, c1, h => by
    simp only [List.cons_append, run_toks] at h
    obtain ⟨_, c2, h1, h2⟩ := bind_ok_inv h
    obtain ⟨c3, h3, h4⟩ := run_toks_append_inv a b h2
    refine ⟨c3, ?_, h4⟩
    simp only [run_toks]
    rw [bind_ok _ _ _ _ _ h1]
    exact h3

theorem run_toks_single_inv {N : Type} [LfNum N] {t : tok} {c c1 : lf_ctx N}
    (h : run_toks [t] c = .ok () c1) : act t c = .ok () c1 := by
  simp only [run_toks] at h
  obtain ⟨_, c2, h1, h2⟩ := bind_ok_inv h
  cases h2
  exact h1

/-- C16 (as amended): let `==` on numbers be symmetric and transitive, and let
a text read into a NULL chunk with result OK have a string literal or word
`t` (if a number, not a NaN) twice among its tokens, `pre t mid t post`, such
that the tokens `mid` between the two occurrences never close a list they did
not open: the second occurrence is in the chunk of the first or in a chunk
inside it.  Then the cell `x1` appended for the first occurrence and the cell
`x2` appended for the second point at the same record. -/
theorem C16_interned_in_enclosing_chunks {N : Type} [LfNum N] [DecidableEq N]
    (hsym : ∀ a b : N, LfNum.eq a b = LfNum.eq b a)
    (htrans : ∀ a b d : N, LfNum.eq a b = true → LfNum.eq b d = true → LfNum.eq a d = true)
    (inp : List Char) (pre mid post : List tok) (t : tok) (it : item) (c c1 : lf_ctx N)
    (hnul : NUL ∉ inp) (hc : c.chk = [])
    (htoks : tokens inp = pre ++ t :: (mid ++ t :: post)) (hit : t.item = some it)
    (hnan : ∀ b w, t = .word b → (LfNum.strtod b : Option N) = some w → LfNum.eq w w = true)
    (hmid : keeps 0 mid = true) (h : lf_read inp c = .ok () c1) :
    ∃ ca cb cc cd h1 n1 x1 h2 n2 x2,
      run_toks (.lst_begin :: pre) c = .ok () ca ∧ ca.chk = h1 :: n1 ∧
      act t ca = .ok () cb ∧ cb.chk = (h1 ++ [x1]) :: n1 ∧
      run_toks mid cb = .ok () cc ∧ cc.chk = h2 :: n2 ∧
      act t cc = .ok () cd ∧ cd.chk = (h2 ++ [x2]) :: n2 ∧
      run_toks post cd = .ok () c1 ∧
      mirrors x1 it = true ∧ mirrors x2 it = true ∧ x1.ref = x2.ref := by
  have hrd := lf_read_tokens (N := N) inp hnul c
  rw [hc] at hrd
  simp only at hrd
  rw [hrd, htoks] at h
  have hnt : ∀ t1 ∈ tokens inp, NUL ∉ t1.bytes :=
    fun t1 ht1 hb => hnul (tokens_from_bytes _ inp t1 ht1 NUL hb)
  rw [htoks] at hnt
  have e : tok.lst_begin :: (pre ++ t :: (mid ++ t :: post)) =
      (tok.lst_begin :: pre) ++ ([t] ++ (mid ++ ([t] ++ post))) := by simp
  rw [e] at h
  obtain ⟨ca, ha, h⟩ := run_toks_append_inv _ _ h
  obtain ⟨cb, hb, h⟩ := run_toks_append_inv _ _ h
  obtain ⟨cc, hcc, h⟩ := run_toks_append_inv _ _ h
  obtain ⟨cd, hd, h⟩ := run_toks_append_inv _ _ h
  have hb := run_toks_single_inv hb
  have hd := run_toks_single_inv hd
  have hnt_t : NUL ∉ t.bytes := hnt t (by simp)
  have hnt_pre : ∀ t1 ∈ tok.lst_begin :: pre, NUL ∉ t1.bytes := by
    intro t1 ht1
    rcases List.mem_cons.1 ht1 with e1 | e1
    · rw [e1]
      simp [tok.bytes]
    · exact hnt t1 (by simp [e1])
  have hnt_mid : ∀ t1 ∈ mid, NUL ∉ t1.bytes := fun t1 ht1 => hnt t1 (by simp [ht1])
  have hs0 : shared c.chk := by
    rw [hc]
    intro y hy
    simp at hy
  have hsa := run_toks_shared hsym _ ha hnt_pre hs0
  have hsb := act_shared hsym hb hnt_t hsa
  have hsc := run_toks_shared hsym _ hcc hnt_mid hsb
  obtain ⟨obj1, h1, n1, x1, hca, hcb, hsr1, hm1, hx1⟩ := act_leaf_inv hit hb hnt_t
  obtain ⟨obj2, h2, n2, x2, hcc2, hcd, hsr2, hm2, hx2⟩ := act_leaf_inv hit hd hnt_t
  have hmx1 : mirrors x1 it = true := by
    rcases hsr1 with ⟨_, e1⟩ | e1
    · rw [e1]
      exact hm1
    · exact hx1 x1 (search_entry_some obj1 _ x1 e1).2
  have hvis : x1 ∈ cc.chk.flatten := by
    refine run_toks_keeps mid 0 x1 hcc hnt_mid hmid ?_
    rw [hcb]
    simp
  have hq := (mirrors_leaf_objeq hsym htrans hit hnan x1 obj2 hmx1 hm2).1
  rcases hsr2 with ⟨hnone, _⟩ | hsome
  · have := search_entry_none obj2 _ hnone x1 hvis
    rw [hq] at this
    cases this
  · obtain ⟨hmem, hob⟩ := search_entry_some obj2 _ x2 hsome
    have hmx2 := hx2 x2 hob
    obtain ⟨hq2, hty⟩ := mirrors_leaf_objeq hsym htrans hit hnan x2 x1 hmx2 hmx1
    exact ⟨ca, cb, cc, cd, h1, n1, x1, h2, n2, x2, ha, hca, hb, hcb, hcc, hcc2, hd, hcd, h,
      hmx1, hmx2, (hsc x2 hmem x1 hvis hty hq2).symm⟩

theorem Sc_eq_symm (a b : Sc) : LfNum.eq a b = LfNum.eq b a := by
  show Sc.eq a b = Sc.eq b a
  cases a <;> cases b <;> simp only [Sc.eq]
  · rw [Bool.eq_iff_iff]
    simp only [Bool.and_eq_true, bne_iff_ne, ne_eq, beq_iff_eq]
    constructor <;> rintro ⟨⟨h1, h2⟩, h3⟩ <;> exact ⟨⟨h2, h1⟩, h3.symm⟩
  · rw [Bool.eq_iff_iff]
    simp only [beq_iff_eq]
    exact eq_comm

theorem Sc_eq_trans (a b d : Sc) (h1 : LfNum.eq a b = true) (h2 : LfNum.eq b d = true) :
    LfNum.eq a d = true := by
  change Sc.eq a b = true at h1
  change Sc.eq b d = true at h2
  show Sc.eq a d = true
  cases a <;> cases b <;> cases d <;> simp only [Sc.eq] at h1 h2 ⊢ <;>
    first | cases h1 | cases h2 | skip
  · rename_i a b c d e f
    simp only [Bool.and_eq_true, bne_iff_ne, ne_eq, beq_iff_eq] at h1 h2 ⊢
    obtain ⟨⟨hb, hd⟩, e1⟩ := h1
    obtain ⟨⟨_, hf⟩, e2⟩ := h2
    refine ⟨⟨hb, hf⟩, ?_⟩
    have hd' : (d : Int) ≠ 0 := by exact_mod_cast hd
    have key : (d : Int) * (a * f) = d * (e * b) := by linear_combination f * e1 + b * e2
    exact mul_left_cancel₀ hd' key
  · rename_i s t u
    simp only [beq_iff_eq] at h1 h2 ⊢
    rw [h1, h2]

/-- C16 (as amended) on the text `a [b a]` read into a NULL chunk: the
tokens are `a [ b a ]`, the second `a` is in a chunk inside the chunk of the
first, and both cells point at record 0. -/
theorem C16_interned_witness :
    NUL ∉ "a [b a]".toList ∧ (ctx0 Sc 100).chk = [] ∧
      tokens "a [b a]".toList =
        [] ++ tok.word ['a'] :: ([.lst_begin, .word ['b']] ++ tok.word ['a'] :: [.lst_end]) ∧
      keeps 0 [.lst_begin, .word ['b']] = true ∧
      (∃ c1, lf_read "a [b a]".toList (ctx0 Sc 100) = .ok () c1 ∧
        c1.chk = [[.sym 0 [['a']], .lst 3 [.sym 1 [['b']], .sym 0 [['a']]]]] ∧
        ∃ ca cb cc cd h1 n1 x1 h2 n2 x2,
          run_toks (.lst_begin :: []) (ctx0 Sc 100) = .ok () ca ∧ ca.chk = h1 :: n1 ∧
          act (.word ['a']) ca = .ok () cb ∧ cb.chk = (h1 ++ [x1]) :: n1 ∧
          run_toks [.lst_begin, .word ['b']] cb = .ok () cc ∧ cc.chk = h2 :: n2 ∧
          act (.word ['a']) cc = .ok () cd ∧ cd.chk = (h2 ++ [x2]) :: n2 ∧
          run_toks [.lst_end] cd = .ok () c1 ∧
          mirrors x1 (.word ['a']) = true ∧ mirrors x2 (.word ['a']) = true ∧
          x1.ref = x2.ref) :=
  have hg : (lf_read "a [b a]".toList (ctx0 Sc 100)).get (fun c => c.chk) =
      some [[.sym 0 [['a']], .lst 3 [.sym 1 [['b']], .sym 0 [['a']]]]] := by decide!
  have hst : (LfNum.strtod ['a'] : Option Sc) = none := by decide!
  ⟨by decide!, rfl, by decide!, by decide,
    (ok_of_get hg).elim fun _ a => a.elim fun c1 b =>
      ⟨c1, b.1, b.2,
        C16_interned_in_enclosing_chunks Sc_eq_symm Sc_eq_trans "a [b a]".toList []
          [.lst_begin, .word ['b']] [.lst_end] (.word ['a']) (.word ['a']) (ctx0 Sc 100) c1
          (by decide!) rfl (by decide!) rfl
          (fun b w e hw => by
            cases e
            rw [hst] at hw
            cases hw)
          (by decide) b.1⟩⟩

/-- C16 as stated fails: in the text `[a] a` the two tokens `a` are
byte-equal, the first inside a closed sibling list, and the two cells point
at different records (0 and 2); the same holds for `[a] [a]` (records 0 and
2).  The token `]` between them closes the list of the first. -/
theorem C16_counterexample :
    (lf_read "[a] a".toList (ctx0 Sc 100)).get (fun c => c.chk) =
        some [[.lst 1 [.sym 0 [['a']]], .sym 2 [['a']]]] ∧
      (lf_read "[a] [a]".toList (ctx0 Sc 100)).get (fun c => c.chk) =
        some [[.lst 1 [.sym 0 [['a']]], .lst 3 [.sym 2 [['a']]]]] ∧
      (lf_obj.sym 0 [['a']] : lf_obj Sc).ref ≠ (lf_obj.sym 2 [['a']] : lf_obj Sc).ref ∧
      tokens "[a] a".toList = [.lst_begin, .word ['a'], .lst_end, .word ['a']] ∧
      keeps 0 [.lst_end] = false := by
  decide!

theorem writestr_id (b : List Char) (h : NUL ∉ b) : writestr b = b := by
  unfold writestr
  rw [List.takeWhile_eq_self_iff]
  intro a ha
  simp only [bne_iff_ne, ne_eq]
  exact fun e => h (e ▸ ha)

theorem write_segs_flatten : ∀ (s : lf_str), NUL ∉ s.flatten → write_segs s = s.flatten
  | [], _ => rfl
  | seg :: next, h => by
    simp only [List.flatten_cons, List.mem_append, not_or] at h
    simp only [write_segs, List.flatten_cons, writestr_id seg h.1, write_segs_flatten next h.2]

theorem tokens_str (bytes after : List Char) (hq : Char.ofNat 34 ∉ bytes) :
    tokens (Char.ofNat 34 :: (bytes ++ Char.ofNat 34 :: after)) =
      .str bytes :: tokens after := by
  obtain ⟨e1, e2⟩ := takeWhile_append_stop (fun d => d != Char.ofNat 34) bytes
    (Char.ofNat 34 :: after)
    (fun a ha => by
      simp only [bne_iff_ne, ne_eq]
      exact fun e => hq (e ▸ ha))
    (fun a ha => by
      simp only [List.head?_cons, Option.some.injEq] at ha
      simp [← ha])
  rw [tokens_unfold]
  have hs : (Char.ofNat 34 :: (bytes ++ Char.ofNat 34 :: after)).dropWhile isspace =
      Char.ofNat 34 :: (bytes ++ Char.ofNat 34 :: after) := by
    rw [List.dropWhile_cons_of_neg (by decide)]
  rw [hs]
  have h1 : ¬(Char.ofNat 34 = '#') := by decide
  have h2 : ¬(Char.ofNat 34 = '[') := by decide
  have h3 : ¬(Char.ofNat 34 = ']') := by decide
  simp only [if_neg h1, if_neg h2, if_neg h3, if_true]
  rw [if_pos (by simp), e1, e2]
  rfl

theorem word_ok_inv (b : List Char) (h : word_ok b = true) :
    ∃ ch t, b = ch :: t ∧ (∀ a ∈ ch :: t, isdelim a = false) ∧ NUL ∉ b ∧ ch ≠ '#' ∧
      b.length ≤ LF_SYM_MAX_LEN - 1 := by
  unfold word_ok at h
  simp only [Bool.and_eq_true, Bool.not_eq_true', List.all_eq_true, bne_iff_ne, ne_eq,
    decide_eq_true_eq] at h
  obtain ⟨⟨⟨h1, h2⟩, h3⟩, h4⟩ := h
  cases b with
  | nil => simp at h1
  | cons ch t =>
    refine ⟨ch, t, rfl, fun a ha => (h2 a ha).1, fun e => (h2 _ e).2 rfl, ?_, h4⟩
    intro e
    rw [e] at h3
    simp at h3

theorem tokens_word_ok (b after : List Char) (h : word_ok b = true)
    (hafter : ∀ a, after.head? = some a → isdelim a = true) :
    tokens (b ++ after) = .word b :: tokens after := by
  obtain ⟨ch, t, e, hnd, _, hcom, hl⟩ := word_ok_inv b h
  subst e
  rw [tokens_word ch t after hnd hcom hafter, if_pos hl]

theorem trace_cell_tokens {N : Type} [LfNum N] (f : lf_fmt N) (cell : lf_obj N)
    (after : List Char) (hr : readable f cell = true)
    (hafter : ∀ a, after.head? = some a → isdelim a = true) :
    tokens (trace_cell f cell ++ after) = cell_tok f cell :: tokens after ∧
      NUL ∉ trace_cell f cell := by
  cases cell with
  | num r x =>
    simp only [readable, Bool.and_eq_true] at hr
    obtain ⟨_, _, _, _, h0, _, _⟩ := word_ok_inv _ hr.1.1
    simp only [trace_cell, cell_tok, writestr_id _ h0]
    exact ⟨tokens_word_ok _ after hr.1.1 hafter, h0⟩
  | str r s =>
    simp only [readable, Bool.and_eq_true, List.all_eq_true, bne_iff_ne, ne_eq] at hr
    have h0 : NUL ∉ s.flatten := fun e => (hr.2 _ e).2 rfl
    have hq : Char.ofNat 34 ∉ s.flatten := fun e => (hr.2 _ e).1 rfl
    simp only [trace_cell, cell_tok, write_segs_flatten s h0, List.cons_append,
      List.append_assoc, List.singleton_append]
    refine ⟨tokens_str _ after hq, ?_⟩
    intro e
    rcases List.mem_cons.1 e with e | e
    · revert e
      decide
    · rcases List.mem_append.1 e with e | e
      · exact h0 e
      · rw [List.mem_singleton] at e
        revert e
        decide
  | sym r s =>
    simp only [readable, Bool.and_eq_true] at hr
    obtain ⟨_, _, _, _, h0, _, _⟩ := word_ok_inv _ hr.1.1.2
    simp only [trace_cell, cell_tok, write_segs_flatten s h0]
    exact ⟨tokens_word_ok _ after hr.1.1.2 hafter, h0⟩
  | lst r v => simp [readable] at hr
  | ntv r v => simp [readable] at hr
  | usr r v w => simp [readable] at hr

theorem trace_obj_tokens {N : Type} [LfNum N] (f : lf_fmt N) (tail : List Char) :
    ∀ (cells : List (lf_obj N)), (∀ cell ∈ cells, readable f cell = true) →
      tokens (trace_obj f cells ++ ']' :: tail) =
        cells.map (cell_tok f) ++ tokens (']' :: tail) ∧
      NUL ∉ trace_obj f cells
  | [], _ => ⟨rfl, by simp [trace_obj]⟩
  | cell :: next, h => by
    obtain ⟨ih, ih0⟩ := trace_obj_tokens f tail next
      (fun x hx => h x (List.mem_cons_of_mem _ hx))
    have hr := h cell (List.mem_cons_self _ _)
    rw [trace_obj]
    cases next with
    | nil =>
      simp only [List.isEmpty_nil, if_true, List.append_nil, List.map_cons, List.map_nil,
        List.cons_append, List.nil_append]
      obtain ⟨e, e0⟩ := trace_cell_tokens f cell (']' :: tail) hr
        (fun a ha => by
          simp only [List.head?_cons, Option.some.injEq] at ha
          rw [← ha]
          decide)
      exact ⟨e, e0⟩
    | cons y rest =>
      simp only [List.isEmpty_cons, Bool.false_eq_true, if_false, List.append_assoc,
        List.cons_append, List.map_cons]
      obtain ⟨e, e0⟩ := trace_cell_tokens f cell
        (' ' :: (trace_obj f (y :: rest) ++ ']' :: tail)) hr
        (fun a ha => by
          simp only [List.head?_cons, Option.some.injEq] at ha
          rw [← ha]
          decide)
      refine ⟨?_, ?_⟩
      · rw [e]
        have hsp := tokens_space [' '] (trace_obj f (y :: rest) ++ ']' :: tail) (by decide)
        simp only [List.singleton_append] at hsp
        rw [hsp, ih]
        rfl
      · intro hm
        rcases List.mem_append.1 hm with hm | hm
        · exact e0 hm
        · rcases List.mem_cons.1 hm with hm | hm
          · revert hm
            decide
          · exact ih0 hm

theorem trace_lst_tokens {N : Type} [LfNum N] (f : lf_fmt N) (r : Nat)
    (cells : List (lf_obj N)) (h : ∀ cell ∈ cells, readable f cell = true) :
    tokens (trace_cell f (.lst r cells)) =
        .lst_begin :: (cells.map (cell_tok f) ++ [.lst_end]) ∧
      NUL ∉ trace_cell f (.lst r cells) := by
  obtain ⟨e, e0⟩ := trace_obj_tokens f [] cells h
  have hend : tokens [']'] = [.lst_end] := by
    rw [tokens_unfold]
    rfl
  rw [hend] at e
  refine ⟨?_, ?_⟩
  · simp only [trace_cell]
    rw [tokens_unfold]
    have hs : ('[' :: (trace_obj f cells ++ [']'])).dropWhile isspace =
        '[' :: (trace_obj f cells ++ [']']) := by
      rw [List.dropWhile_cons_of_neg (by decide)]
    rw [hs]
    have h1 : ¬('[' = '#') := by decide
    simp only [if_neg h1, if_true]
    rw [e]
  · simp only [trace_cell]
    intro hm
    rcases List.mem_cons.1 hm with hm | hm
    · revert hm
      decide
    · rcases List.mem_append.1 hm with hm | hm
      · exact e0 hm
      · rw [List.mem_singleton] at hm
        revert hm
        decide

theorem take_blocks_ok {N : Type} : ∀ (n : Nat) (c : lf_ctx N), n ≤ c.free →
    take_blocks n c = .ok () { c with free := c.free - n }
  | 0, c, _ => rfl
  | n + 1, c, h => by
    rw [take_blocks_succ, bind_ok _ _ _ _ _ (make_block_ok c (by omega)),
      take_blocks_ok n _ (by simp only; omega)]
    simp only [Res.ok.injEq, lf_ctx.mk.injEq, and_true, true_and]
    omega

theorem append_obj_free {N : Type} [LfNum N] (obj : lf_obj N) (c : lf_ctx N)
    (head : List (lf_obj N)) (next : List (List (lf_obj N))) (hc : c.chk = head :: next) :
    ∃ c1 x, append_obj obj c = .ok () c1 ∧ c1.chk = (head ++ [x]) :: next ∧
      c.free ≤ c1.free ∧ c1.stck = c.stck := by
  rw [append_obj_eq, hc]
  cases search_entry obj (head :: next) with
  | none => exact ⟨_, obj, rfl, rfl, le_refl _, rfl⟩
  | some it =>
    exact ⟨_, it, rfl, rfl, (free_ref_chains obj c).2.2, (free_ref_chains obj c).1.stck⟩

theorem read_end_ok {N : Type} (c : lf_ctx N) (head next : List (lf_obj N))
    (rest : List (List (lf_obj N))) (hc : c.chk = head :: next :: rest) (hf : 0 < c.free) :
    read_end c = .ok ()
      { c with free := c.free - 1, cnt := set_cnt c.cnt c.brk 1, brk := c.brk + 1,
               chk := (next ++ [.lst c.brk head]) :: rest } := by
  unfold read_end
  simp only [bind_apply, getCtx_apply, hc]
  unfold finish_chk
  simp only [bind_apply, getCtx_apply, hc]
  rw [make_rec_ok c hf]
  rfl

theorem act_cell_ok {N : Type} [LfNum N] (f : lf_fmt N) (cell : lf_obj N) (c : lf_ctx N)
    (head : List (lf_obj N)) (next : List (List (lf_obj N)))
    (hr : readable f cell = true) (hc : c.chk = head :: next)
    (hf : rt_blocks cell - 2 ≤ c.free) :
    ∃ c1 x, act (cell_tok f cell) c = .ok () c1 ∧ c1.chk = (head ++ [x]) :: next ∧
      c.free ≤ c1.free + (rt_blocks cell - 2) ∧ c1.stck = c.stck := by
  cases cell with
  | num r x =>
    simp only [readable, Bool.and_eq_true, Option.isNone_iff_eq_none] at hr
    simp only [rt_blocks] at hf ⊢
    simp only [cell_tok, act, read_word]
    rw [bind_ok _ _ _ _ _ (make_obj_ok c (by omega)), hr.1.2]
    cases hst : (LfNum.strtod (f.num x) : Option N) with
    | none =>
      rw [hst] at hr
      simp at hr
    | some w =>
      obtain ⟨c1, y, h1, h2, h3, h4⟩ := append_obj_free (.num c.brk w)
        { c with free := c.free - 2, cnt := set_cnt c.cnt c.brk 1, brk := c.brk + 1 }
        head next hc
      refine ⟨c1, y, h1, h2, ?_, h4⟩
      simp only at h3
      omega
  | str r s =>
    simp only [readable, Bool.and_eq_true, beq_iff_eq] at hr
    have hl : (lit_segs s.flatten).length = s.length := by rw [← hr.1]
    simp only [rt_blocks] at hf ⊢
    simp only [cell_tok, act]
    rw [bind_ok _ _ _ _ _ (make_obj_ok c (by omega)), hl,
      bind_ok _ _ _ _ _ (take_blocks_ok s.length _ (by simp only; omega))]
    obtain ⟨c1, y, h1, h2, h3, h4⟩ := append_obj_free (.str c.brk (lit_segs s.flatten))
      { c with free := c.free - 2 - s.length, cnt := set_cnt c.cnt c.brk 1,
               brk := c.brk + 1 }
      head next hc
    refine ⟨c1, y, h1, h2, ?_, h4⟩
    simp only at h3
    omega
  | sym r s =>
    simp only [readable, Bool.and_eq_true, beq_iff_eq, Option.isNone_iff_eq_none] at hr
    obtain ⟨⟨⟨hs, hw⟩, hfb⟩, hst⟩ := hr
    obtain ⟨_, _, _, _, h0, _, _⟩ := word_ok_inv _ hw
    have hl : (s.flatten.length + 14) / 15 = s.length := by
      conv_rhs => rw [hs]
      rw [cut_segs_length]
    simp only [rt_blocks] at hf ⊢
    simp only [cell_tok, act, read_word]
    rw [bind_ok _ _ _ _ _ (make_obj_ok c (by omega)), hfb, hst]
    simp only
    obtain ⟨s1, hs1, _⟩ := build_string_loop_ok
      (({ c with free := c.free - 2, cnt := set_cnt c.cnt c.brk 1, brk := c.brk + 1 } :
        lf_ctx N).free + 1) s.flatten s.flatten.length
      { c with free := c.free - 2, cnt := set_cnt c.cnt c.brk 1, brk := c.brk + 1 }
      h0 (le_refl _) (by simp only; omega) (by simp only; omega)
    rw [bind_ok _ _ _ _ _ (show build_string s.flatten s.flatten.length _ = _ from hs1)]
    obtain ⟨c1, y, h1, h2, h3, h4⟩ := append_obj_free (.sym c.brk s1)
      { c with free := c.free - 2 - (s.flatten.length + 14) / 15,
               cnt := set_cnt c.cnt c.brk 1, brk := c.brk + 1 }
      head next hc
    refine ⟨c1, y, h1, h2, ?_, h4⟩
    simp only at h3
    omega
  | lst r v => simp [readable] at hr
  | ntv r v => simp [readable] at hr
  | usr r v w => simp [readable] at hr

theorem run_toks_append_ok {N : Type} [LfNum N] :
    ∀ (a b : List tok) {c c2 : lf_ctx N}, run_toks a c = .ok () c2 →
      run_toks (a ++ b) c = run_toks b c2
  | [], b, c, c2, h => by
    cases h
    rfl
  | t :: a, b, c, c2, h => by
    simp only [run_toks] at h
    obtain ⟨_, c3, h1, h2⟩ := bind_ok_inv h
    simp only [List.cons_append, run_toks]
    rw [bind_ok _ _ _ _ _ h1]
    exact run_toks_append_ok a b h2

theorem run_cells_ok {N : Type} [LfNum N] (f : lf_fmt N) :
    ∀ (cells : List (lf_obj N)) (c : lf_ctx N) (head : List (lf_obj N))
      (next : List (List (lf_obj N))), (∀ cell ∈ cells, readable f cell = true) →
      c.chk = head :: next → (cells.map (fun x => rt_blocks x - 2)).sum ≤ c.free →
      ∃ c1 xs, run_toks (cells.map (cell_tok f)) c = .ok () c1 ∧
        c1.chk = (head ++ xs) :: next ∧
        c.free ≤ c1.free + (cells.map (fun x => rt_blocks x - 2)).sum ∧ c1.stck = c.stck
  | [], c, head, next, _, hc, _ => ⟨c, [], rfl, by simp [hc], by simp, rfl⟩
  | cell :: rest, c, head, next, hr, hc, hf => by
    simp only [List.map_cons, List.sum_cons] at hf
    obtain ⟨c1, x, h1, h2, h3, h4⟩ := act_cell_ok f cell c head next
      (hr cell (List.mem_cons_self _ _)) hc (by omega)
    obtain ⟨c2, xs, k1, k2, k3, k4⟩ := run_cells_ok f rest c1 (head ++ [x]) next
      (fun y hy => hr y (List.mem_cons_of_mem _ hy)) h2 (by omega)
    refine ⟨c2, x :: xs, ?_, ?_, ?_, k4.trans h4⟩
    · simp only [List.map_cons, run_toks]
      rw [bind_ok _ _ _ _ _ h1]
      exact k1
    · rw [k2]
      simp
    · simp only [List.map_cons, List.sum_cons]
      omega

theorem cell_tok_item {N : Type} [LfNum N] (f : lf_fmt N) (cell : lf_obj N)
    (hr : readable f cell = true) : (cell_tok f cell).item = some (cell_item f cell) := by
  cases cell <;> first | rfl | simp [readable] at hr

theorem parse_cells {N : Type} [LfNum N] (f : lf_fmt N) (rest : List tok)
    (n : List (List item)) :
    ∀ (cells : List (lf_obj N)) (h : List item), (∀ cell ∈ cells, readable f cell = true) →
      parse_toks (cells.map (cell_tok f) ++ rest) (h :: n) =
        parse_toks rest ((h ++ cells.map (cell_item f)) :: n)
  | [], h, _ => by simp
  | cell :: more, h, hr => by
    have hi := cell_tok_item f cell (hr cell (List.mem_cons_self _ _))
    have ih := parse_cells f rest n more (h ++ [cell_item f cell])
      (fun y hy => hr y (List.mem_cons_of_mem _ hy))
    simp only [List.map_cons, List.cons_append, parse_toks]
    have hrc := hr cell (List.mem_cons_self _ _)
    have hp : parse_tok (cell_tok f cell) (h :: n) = some ((h ++ [cell_item f cell]) :: n) := by
      cases cell <;> first | rfl | simp [readable] at hrc
    rw [hp]
    simp only [List.append_eq]
    rw [ih, List.append_assoc]
    rfl

theorem sum_rt_split {N : Type} : ∀ (cells : List (lf_obj N)),
    (cells.map rt_blocks).sum = (cells.map (fun x => rt_blocks x - 2)).sum + 2 * cells.length
  | [] => rfl
  | cell :: rest => by
    have h4 : 4 ≤ rt_blocks cell := by cases cell <;> simp [rt_blocks]
    simp only [List.map_cons, List.sum_cons, List.length_cons, sum_rt_split rest]
    omega

theorem cell_info {N : Type} [LfNum N] [DecidableEq N]
    (hsym : ∀ a b : N, LfNum.eq a b = LfNum.eq b a)
    (htrans : ∀ a b d : N, LfNum.eq a b = true → LfNum.eq b d = true → LfNum.eq a d = true)
    (f : lf_fmt N) (b v : lf_obj N)
    (hm : mirrors b (cell_item f v) = true) (hr : readable f v = true) :
    num_refl b = true ∧ cpy_blocks b ≤ 2 ∧ ∀ a, objeq a b = true → objeq a v = true := by
  cases v with
  | num r x =>
    simp only [readable, Bool.and_eq_true, Option.isNone_iff_eq_none] at hr
    cases hst : (LfNum.strtod (f.num x) : Option N) with
    | none =>
      rw [hst] at hr
      simp at hr
    | some w =>
      rw [hst] at hr
      have hwx : LfNum.eq w x = true := hr.2
      have hxw : LfNum.eq x w = true := by rw [hsym]; exact hwx
      have hww : LfNum.eq w w = true := htrans w x w hwx hxw
      cases b <;> simp [cell_item, mirrors, hr.1.2, hst] at hm
      rename_i rb u
      have huw : LfNum.eq u w = true := by
        rcases hm with e | e
        · rw [e]
          exact hww
        · exact e
      have hwu : LfNum.eq w u = true := by rw [hsym]; exact huw
      refine ⟨?_, by simp [cpy_blocks], ?_⟩
      · simp only [num_refl]
        exact htrans u w u huw hwu
      · intro a hab
        obtain ⟨ra, a1, ea, ha⟩ := objeq_num_inv a _ _ hab
        rw [ea]
        simp only [objeq]
        exact htrans a1 u x ha (htrans u w x huw hwx)
  | str r s =>
    simp only [readable, Bool.and_eq_true, beq_iff_eq] at hr
    cases b <;> simp [cell_item, mirrors] at hm
    rename_i rb sb
    refine ⟨by simp [num_refl], by simp [cpy_blocks], ?_⟩
    intro a hab
    rw [hm, ← hr.1] at hab
    obtain ⟨ra, ea⟩ := objeq_str_inv a _ _ hab
    rw [ea]
    simp [objeq, streq_refl]
  | sym r s =>
    simp only [readable, Bool.and_eq_true, beq_iff_eq, Option.isNone_iff_eq_none] at hr
    obtain ⟨⟨⟨hs, _⟩, hfb⟩, hst⟩ := hr
    cases b <;> simp [cell_item, mirrors, hfb, hst, -List.length_flatten] at hm
    rename_i rb sb
    refine ⟨by simp [num_refl], by simp [cpy_blocks], ?_⟩
    intro a hab
    rw [hm, ← hs] at hab
    obtain ⟨ra, ea⟩ := objeq_sym_inv a _ _ hab
    rw [ea]
    simp [objeq, streq_refl]
  | lst r v => simp [readable] at hr
  | ntv r v => simp [readable] at hr
  | usr r v w => simp [readable] at hr

theorem chain_info {N : Type} [LfNum N] [DecidableEq N]
    (hsym : ∀ a b : N, LfNum.eq a b = LfNum.eq b a)
    (htrans : ∀ a b d : N, LfNum.eq a b = true → LfNum.eq b d = true → LfNum.eq a d = true)
    (f : lf_fmt N) :
    ∀ (vs bs : List (lf_obj N)), (∀ v ∈ vs, readable f v = true) →
      mirrors_chain bs (vs.map (cell_item f)) = true →
      num_refl_chain bs = true ∧ cpy_blocks_chain bs ≤ 2 * vs.length ∧
        ∀ as, objeq_chain as bs = true → objeq_chain as vs = true
  | [], [], _, _ => ⟨rfl, by simp [cpy_blocks_chain], fun _ h => h⟩
  | [], _ :: _, _, hm => by simp [mirrors_chain] at hm
  | _ :: _, [], _, hm => by simp [mirrors_chain] at hm
  | v :: vs, b :: bs, hr, hm => by
    simp only [List.map_cons, mirrors_chain, Bool.and_eq_true] at hm
    obtain ⟨i1, i2, i3⟩ := cell_info hsym htrans f b v hm.1 (hr v (List.mem_cons_self _ _))
    obtain ⟨j1, j2, j3⟩ := chain_info hsym htrans f vs bs
      (fun y hy => hr y (List.mem_cons_of_mem _ hy)) hm.2
    refine ⟨by simp [num_refl_chain, i1, j1], ?_, ?_⟩
    · simp only [cpy_blocks_chain, List.length_cons]
      omega
    · intro as h
      cases as with
      | nil => simp [objeq_chain] at h
      | cons a as =>
        simp only [objeq_chain] at h ⊢
        by_cases hab : objeq a b = true
        · rw [if_pos hab] at h
          rw [if_pos (i3 a hab)]
          exact j3 as h
        · rw [if_neg hab] at h
          cases h

theorem read_traced_list {N : Type} [LfNum N] [DecidableEq N] (f : lf_fmt N) (r : Nat)
    (cells : List (lf_obj N)) (c : lf_ctx N)
    (hr : ∀ cell ∈ cells, readable f cell = true) (hc : c.chk = [])
    (hf : 3 + (cells.map (fun x => rt_blocks x - 2)).sum ≤ c.free) :
    ∃ c1 rb xs, lf_read (trace_cell f (.lst r cells)) c = .ok () c1 ∧
      c1.chk = [[.lst rb xs]] ∧ mirrors_chain xs (cells.map (cell_item f)) = true ∧
      c.free ≤ c1.free + (3 + (cells.map (fun x => rt_blocks x - 2)).sum) ∧
      c1.stck = c.stck := by
  obtain ⟨htk, hnul⟩ := trace_lst_tokens f r cells hr
  have hrd := lf_read_tokens (N := N) (trace_cell f (.lst r cells)) hnul c
  rw [hc, htk] at hrd
  simp only [run_toks] at hrd
  have hm0 := make_chk_ok c (by omega)
  rw [hc] at hm0
  have hm1 := make_chk_ok ({ c with free := c.free - 1, chk := [[]] } : lf_ctx N)
    (by simp only; omega)
  obtain ⟨c2, xs, h1, h2, h3, h4⟩ := run_cells_ok f cells
    ({ c with free := c.free - 1 - 1, chk := [[], []] } : lf_ctx N) [] [[]] hr rfl
    (by simp only; omega)
  simp only [List.nil_append] at h2
  have he := read_end_ok c2 xs [] [] h2 (by simp only at h3; omega)
  have hall : lf_read (trace_cell f (.lst r cells)) c = .ok ()
      { c2 with free := c2.free - 1, cnt := set_cnt c2.cnt c2.brk 1, brk := c2.brk + 1,
                chk := [[.lst c2.brk xs]] } := by
    rw [hrd, bind_ok _ _ _ _ _ (show act .lst_begin c = _ from hm0),
      bind_ok _ _ _ _ _ (show act .lst_begin _ = _ from hm1),
      run_toks_append_ok _ _ h1]
    simp only [run_toks]
    rw [bind_ok _ _ _ _ _ (show act .lst_end c2 = _ from he)]
    rfl
  obtain ⟨c0, st, _, _, hp, hms⟩ := lf_read_mirrors _ hnul hc hall
  rw [htk] at hp
  have hp2 : parse_toks (tok.lst_begin :: (cells.map (cell_tok f) ++ [.lst_end])) [[]] =
      some [[.lst (cells.map (cell_item f))]] := by
    simp only [parse_toks, parse_tok]
    rw [parse_cells f [.lst_end] [[]] cells [] hr]
    rfl
  rw [hp2] at hp
  cases hp
  simp only [mirrors_stack, mirrors_chain, mirrors, Bool.and_true] at hms
  refine ⟨_, c2.brk, xs, hall, rfl, hms, ?_, h4⟩
  simp only at h3 ⊢
  omega

/-- C19 (as amended): let `==` on numbers be symmetric and transitive, and let
`v` be a LIST whose cells come back from their trace: NUMBER cells whose
`%.5g` form is read by `strtod` as an equal number (so no NaN and no number
that needs more than the digits printed), STRING cells without quote and NUL
whose segments are laid out as the reader lays them out, and SYMBOL cells
whose bytes the reader takes for a symbol.  Then the bytes the trace formatter
writes for `v`, read with `lf_read` into a NULL chunk (with enough free
blocks) and evaluated, give OK twice and leave on top of the stack a cell that
is structurally equal (`objeq`) to `v`. -/
theorem C19_trace_read_roundtrip {N : Type} [LfNum N] [DecidableEq N]
    (hsym : ∀ a b : N, LfNum.eq a b = LfNum.eq b a)
    (htrans : ∀ a b d : N, LfNum.eq a b = true → LfNum.eq b d = true → LfNum.eq a d = true)
    (f : lf_fmt N) (r : Nat) (cells : List (lf_obj N)) (c : lf_ctx N) (fuel : Nat)
    (hr : ∀ cell ∈ cells, readable f cell = true) (hc : c.chk = [])
    (hf : 5 + (cells.map rt_blocks).sum ≤ c.free) :
    ∃ c1 c2 top, lf_read (trace_cell f (.lst r cells)) c = .ok () c1 ∧
      lf_eval (fuel + 1) c1.chk c1 = .ok () c2 ∧ c2.stck = top :: c.stck ∧
      objeq top (.lst r cells) = true := by
  have hsum := sum_rt_split cells
  obtain ⟨c1, rb, xs, h1, h2, h3, h4, h5⟩ := read_traced_list f r cells c hr hc (by omega)
  obtain ⟨i1, i2, i3⟩ := chain_info hsym htrans f cells xs hr h3
  have hobj := make_obj_ok c1 (by omega)
  obtain ⟨val1, c3, k1, k2, k3, k4⟩ := make_cpy_chain_ok xs
    { c1 with free := c1.free - 2, cnt := set_cnt c1.cnt c1.brk 1, brk := c1.brk + 1 }
    (by simp only []; omega)
  have hcpy : make_cpy (.lst rb xs) c1 = .ok (.lst c1.brk val1) c3 := by
    simp only [make_cpy]
    rw [bind_ok _ _ _ _ _ hobj, bind_ok _ _ _ _ _ k1]
    rfl
  refine ⟨c1, { c3 with stck := .lst c1.brk val1 :: c3.stck, size := c3.size + 1 },
    .lst c1.brk val1, h1, ?_, ?_, ?_⟩
  · rw [h2]
    simp only [lf_eval, eval_chain, execute]
    rw [bind_apply, bind_ok _ _ _ _ _ hcpy]
    rfl
  · show lf_obj.lst c1.brk val1 :: c3.stck = _
    rw [k2.stck, ← h5]
  · simp only [objeq]
    rw [i3 val1 (k4 i1).1]
    simp

/-- C19 (as amended) for the list `[2.5 "a b" x]`: its cells come back from
their trace, the trace is `[2.5 "a b" x]`, and reading and evaluating it on an
empty stack leaves one list that `objeq` takes for equal to the original. -/
theorem C19_roundtrip_witness :
    (∀ cell ∈ [.num 1 (.fin 5 2), .str 2 [['a', ' ', 'b']], (.sym 3 [['x']] : lf_obj Sc)],
        readable Sc.fmt cell = true) ∧
      c19_ctx.chk = [] ∧
      5 + ([.num 1 (.fin 5 2), .str 2 [['a', ' ', 'b']],
        (.sym 3 [['x']] : lf_obj Sc)].map rt_blocks).sum ≤ c19_ctx.free ∧
      trace_cell Sc.fmt (.lst 9 [.num 1 (.fin 5 2), .str 2 [['a', ' ', 'b']], .sym 3 [['x']]]) =
        "[2.5 \"a b\" x]".toList ∧
      (∃ c1 c2 top,
        lf_read (trace_cell Sc.fmt
          (.lst 9 [.num 1 (.fin 5 2), .str 2 [['a', ' ', 'b']], .sym 3 [['x']]])) c19_ctx =
          .ok () c1 ∧
        lf_eval (9 + 1) c1.chk c1 = .ok () c2 ∧ c2.stck = top :: c19_ctx.stck ∧
        objeq top (.lst 9 [.num 1 (.fin 5 2), .str 2 [['a', ' ', 'b']], .sym 3 [['x']]]) =
          true) ∧
      (trace_read_eval Sc.fmt 10
        (.lst 9 [.num 1 (.fin 5 2), .str 2 [['a', ' ', 'b']], .sym 3 [['x']]]) c19_ctx).stck =
        some [.lst 14 [.num 15 (.fin 25 10), .str 11 [['a', ' ', 'b']], .sym 12 [['x']]]] :=
  ⟨by decide!, rfl, by decide!, by decide!,
    C19_trace_read_roundtrip Sc_eq_symm Sc_eq_trans Sc.fmt 9
      [.num 1 (.fin 5 2), .str 2 [['a', ' ', 'b']], .sym 3 [['x']]] c19_ctx 9
      (by decide!) rfl (by decide!),
    by decide!⟩

/-- C19 as stated fails: the list `[1.234567]`, a LIST of one NUMBER cell as
the program `[1.234567]` leaves it, is written as `[1.2346]` (`%.5g` keeps five
digits); read and evaluated on an empty stack this gives OK and leaves the
list `[1.2346]`, which `objeq` does not take for equal to the original. -/
theorem C19_counterexample :
    (run 10 "[1.234567]" (ctx0 Sc 100)).stck =
        some [.lst 2 [.num 3 (.fin 1234567 1000000)]] ∧
      trace_cell Sc.fmt (.lst 2 [.num 3 (.fin 1234567 1000000)]) = "[1.2346]".toList ∧
      c19_ctx.stck = [] ∧
      (trace_read_eval Sc.fmt 10 (.lst 2 [.num 3 (.fin 1234567 1000000)]) c19_ctx).signal =
        some .LF_SOK ∧
      (trace_read_eval Sc.fmt 10 (.lst 2 [.num 3 (.fin 1234567 1000000)]) c19_ctx).stck =
        some [.lst 12 [.num 13 (.fin 12346 10000)]] ∧
      objeq (lf_obj.lst 12 [.num 13 (Sc.fin 12346 10000)])
        (.lst 2 [.num 3 (.fin 1234567 1000000)]) = false := by
  decide!

/-! ## Copies, reset, failing arithmetic -/

/-- C21 (the code departs from the property): `make_cpy` of a `LF_TNUM` or
`LF_TNTV` cell whose record is `r` returns a cell with the same payload and the
new record `c.brk`, and leaves the count of `r` as it was; but the count stored
in the new record is the count of `r`, not 1.  For a record shared by two
cells the copy therefore has count 2 although one cell points at it. -/
theorem C21_copy_stores_count_of_source {N : Type} (r : Nat) (v : N) (f : lf_ntv)
    (c : lf_ctx N) (h : 2 ≤ c.free) (hr : r < c.brk) :
    (∃ c1, make_cpy (.num r v) c = .ok (.num c.brk v) c1 ∧
      c1.cnt c.brk = c.cnt r ∧ c1.cnt r = c.cnt r ∧ c1.brk = c.brk + 1) ∧
    (∃ c1, make_cpy (.ntv r f) c = .ok (.ntv c.brk f) c1 ∧
      c1.cnt c.brk = c.cnt r ∧ c1.cnt r = c.cnt r ∧ c1.brk = c.brk + 1) := by
  have hne : r ≠ c.brk := by omega
  constructor
  · refine ⟨_, make_cpy_num r v c h, ?_, ?_, rfl⟩
    · simp [set_cnt, hne]
    · simp [set_cnt, hne]
  · refine ⟨_, make_cpy_ntv r f c h, ?_, ?_, rfl⟩
    · simp [set_cnt, hne]
    · simp [set_cnt, hne]

theorem C21_copy_witness :
    2 ≤ c21_ctx.free ∧ 0 < c21_ctx.brk ∧ c21_ctx.cnt 0 = 2 ∧
    ((∃ c1, make_cpy (.num 0 (Sc.fin 1 1)) c21_ctx = .ok (.num c21_ctx.brk (Sc.fin 1 1)) c1 ∧
      c1.cnt c21_ctx.brk = c21_ctx.cnt 0 ∧ c1.cnt 0 = c21_ctx.cnt 0 ∧
      c1.brk = c21_ctx.brk + 1) ∧
    (∃ c1, make_cpy (.ntv 0 lf_ntv.lf_rol) c21_ctx = .ok (.ntv c21_ctx.brk lf_ntv.lf_rol) c1 ∧
      c1.cnt c21_ctx.brk = c21_ctx.cnt 0 ∧ c1.cnt 0 = c21_ctx.cnt 0 ∧
      c1.brk = c21_ctx.brk + 1)) :=
  ⟨by decide, by decide, by decide,
    C21_copy_stores_count_of_source 0 (Sc.fin 1 1) lf_ntv.lf_rol c21_ctx (by decide) (by decide)⟩

/-- C27 (amended): on a stack whose size counter is its length, each of `+ - *
/ mod` raises `LF_SUNDFLW` when the stack has fewer than two cells and
`LF_SRUNERR` when one of the two top cells is not a number; in both cases the
context at the escape is the one before the call with the hold list released
by `lf_raise`: the stack chain and the size are as before and the hold list is
empty. -/
theorem C27_arith_failure_keeps_operands {N : Type} [LfNum N] (ap : lf_obj N → LF N Unit)
    (fn : lf_ntv) (c : lf_ctx N)
    (hfn : fn ∈ [lf_ntv.lf_add, .lf_sub, .lf_mul, .lf_div, .lf_mod])
    (hsz : c.size = c.stck.length) :
    (c.stck.length < 2 → call_ntv ap fn c = .sig .LF_SUNDFLW (free_hold c)) ∧
    (∀ top below rest, c.stck = top :: below :: rest →
      ¬ (top.type = .LF_TNUM ∧ below.type = .LF_TNUM) →
      call_ntv ap fn c = .sig .LF_SRUNERR (free_hold c)) ∧
    (free_hold c).stck = c.stck ∧ (free_hold c).size = c.size ∧ (free_hold c).hold = [] := by
  have key : ∀ op : N → N → N,
      (c.stck.length < 2 → mathop op c = .sig .LF_SUNDFLW (free_hold c)) ∧
      (∀ top below rest, c.stck = top :: below :: rest →
        ¬ (top.type = .LF_TNUM ∧ below.type = .LF_TNUM) →
        mathop op c = .sig .LF_SRUNERR (free_hold c)) := by
    intro op
    constructor
    · intro hlen
      unfold mathop
      rw [bind_sig _ _ _ _ _ (lf_peek_under c 1 (by omega))]
    · intro top below rest hst hty
      have hp : lf_peek (1 : Int) c = .ok below c :=
        lf_peek_ok c 1 below hsz (by rw [hst]; simp)
      unfold mathop
      rw [bind_ok _ _ _ _ _ hp]
      simp only [bind_apply, getCtx_apply, hst]
      cases below <;> cases top <;>
        first
        | (exfalso; exact hty ⟨rfl, rfl⟩)
        | rfl
  refine ⟨?_, ?_, free_hold_stck c, free_hold_size c, rfl⟩
  · simp only [List.mem_cons, List.mem_singleton, List.not_mem_nil, or_false] at hfn
    rcases hfn with h | h | h | h | h <;> subst h <;> exact (key _).1
  · simp only [List.mem_cons, List.mem_singleton, List.not_mem_nil, or_false] at hfn
    rcases hfn with h | h | h | h | h <;> subst h <;> exact (key _).2

theorem C27_arith_witness :
    lf_ntv.lf_add ∈ [lf_ntv.lf_add, .lf_sub, .lf_mul, .lf_div, .lf_mod] ∧
    c27_ctx.size = c27_ctx.stck.length ∧
    ((c27_ctx.stck.length < 2 →
      call_ntv (apply 1) .lf_add c27_ctx = .sig .LF_SUNDFLW (free_hold c27_ctx)) ∧
    (∀ top below rest, c27_ctx.stck = top :: below :: rest →
      ¬ (top.type = .LF_TNUM ∧ below.type = .LF_TNUM) →
      call_ntv (apply 1) .lf_add c27_ctx = .sig .LF_SRUNERR (free_hold c27_ctx)) ∧
    (free_hold c27_ctx).stck = c27_ctx.stck ∧ (free_hold c27_ctx).size = c27_ctx.size ∧
    (free_hold c27_ctx).hold = []) :=
  ⟨by decide, by decide,
    C27_arith_failure_keeps_operands (apply 1) .lf_add c27_ctx (by decide) (by decide)⟩

/-- C27, as stated, fails for the hold list: with one number on the stack and
one cell on the hold list, `+` raises `LF_SUNDFLW` with the stack and the size
as before, but the hold list is empty at the escape and its two blocks are back
on the free list. -/
theorem C27_counterexample :
    c27_ctx.hold = [.num 1 (.fin 2 1)] ∧
    (call_ntv (apply 1) .lf_add c27_ctx).escaped (fun c => (c.stck, c.size)) =
      some (.LF_SUNDFLW, ([.num 0 (.fin 1 1)], 1)) ∧
    (call_ntv (apply 1) .lf_add c27_ctx).escaped (fun c => (c.hold, c.free)) =
      some (.LF_SUNDFLW, ([], 98)) := by
  decide!

/-! ## The exits of the reader that raise -/

/-- C24 (the code departs from the property): the text `"abc`, which ends
inside a string literal, read into a `NULL` chunk with 100 free blocks, makes
`lf_read` return `LF_SPRSERR` with the chunk stack holding one empty chunk,
the stack, the dictionary and the hold list empty and 96 blocks free: the
cell, its record and the segment taken for the literal are on no chain, and
`lf_wipe` leaves 97 free blocks.  A token of 64 bytes makes `lf_read` return
`LF_SPRSERR` with the cell and the record taken for it lost: `lf_wipe` leaves
98 free blocks.  The closed literal `"abc"` and a token of 63 bytes are read
and wiped with all 100 blocks free again. -/
theorem C24_failed_read_loses_blocks :
    (lf_read "\"abc".toList (ctx0 Sc 100)).escaped (fun c => (c.chk, c.free)) =
        some (.LF_SPRSERR, ([[]], 96)) ∧
      (lf_read "\"abc".toList (ctx0 Sc 100)).escaped (fun c => (c.stck, c.dict)) =
        some (.LF_SPRSERR, ([], [])) ∧
      (lf_read "\"abc".toList (ctx0 Sc 100)).escaped (fun c => (c.hold, blocks_used c)) =
        some (.LF_SPRSERR, ([], 1)) ∧
      (lf_read "\"abc".toList (ctx0 Sc 100)).escaped
          (fun c => ((lf_wipe c).chk, (lf_wipe c).free)) =
        some (.LF_SPRSERR, ([], 97)) ∧
      (lf_read (List.replicate 64 'a') (ctx0 Sc 100)).escaped (fun c => (c.chk, c.free)) =
        some (.LF_SPRSERR, ([[]], 97)) ∧
      (lf_read (List.replicate 64 'a') (ctx0 Sc 100)).escaped
          (fun c => ((lf_wipe c).chk, (lf_wipe c).free)) =
        some (.LF_SPRSERR, ([], 98)) ∧
      (lf_read "\"abc\"".toList (ctx0 Sc 100)).get
          (fun c => ((lf_wipe c).chk, (lf_wipe c).free)) = some ([], 100) ∧
      (lf_read (List.replicate 63 'a') (ctx0 Sc 100)).get
          (fun c => ((lf_wipe c).chk, (lf_wipe c).free)) = some ([], 100) := by
  refine ⟨?_, ?_, ?_, ?_, ?_, ?_, ?_, ?_⟩ <;> decide!

/-! ## The fast path of `apply` -/

theorem native_call_tail {N : Type} [LfNum N] (ap : lf_obj N → LF N Unit) (fn : lf_ntv)
    (h : fn = .lf_apl ∨ fn = .lf_eq) :
    native_call ap fn = native_tail_call ap fn >>= fun _ => modifyCtx free_hold := by
  rcases h with h | h <;> subst h <;> rfl

theorem apply_unique_cons {N : Type} [LfNum N] (ap : lf_obj N → LF N Unit)
    (a b : lf_obj N) (l : List (lf_obj N)) :
    apply_unique ap (a :: b :: l) = unique_step ap a >>= fun _ => apply_unique ap (b :: l) := by
  cases a <;> simp only [apply_unique, unique_step, LF_bind_assoc]

theorem apply_unique_plain_cons {N : Type} [LfNum N] (ap : lf_obj N → LF N Unit)
    (a b : lf_obj N) (l : List (lf_obj N)) :
    apply_unique_plain ap (a :: b :: l) =
      unique_step ap a >>= fun _ => apply_unique_plain ap (b :: l) := by
  cases a <;> simp only [apply_unique_plain, unique_step, LF_bind_assoc]

theorem apply_shared_cons {N : Type} [LfNum N] (ap : lf_obj N → LF N Unit)
    (a b : lf_obj N) (l : List (lf_obj N)) :
    apply_shared ap (a :: b :: l) = shared_step ap a >>= fun _ => apply_shared ap (b :: l) := by
  cases a <;> simp only [apply_shared, shared_step, LF_bind_assoc]

theorem apply_shared_plain_cons {N : Type} [LfNum N] (ap : lf_obj N → LF N Unit)
    (a b : lf_obj N) (l : List (lf_obj N)) :
    apply_shared_plain ap (a :: b :: l) =
      shared_step ap a >>= fun _ => apply_shared_plain ap (b :: l) := by
  cases a <;> simp only [apply_shared_plain, shared_step, LF_bind_assoc]

theorem append_single_cons {α : Type} (pre : List α) (x : α) :
    ∃ y l, pre ++ [x] = y :: l := by
  cases pre with
  | nil => exact ⟨x, [], rfl⟩
  | cons a t => exact ⟨a, t ++ [x], rfl⟩

theorem apply_unique_plain_eq {N : Type} [LfNum N] (ap : lf_obj N → LF N Unit) (rl : Nat)
    (fn : lf_ntv) (h : fn = .lf_apl ∨ fn = .lf_eq) :
    ∀ pre : List (lf_obj N),
      apply_unique_plain ap (pre ++ [.ntv rl fn]) =
        apply_unique ap (pre ++ [.ntv rl fn]) >>= fun _ => modifyCtx free_hold
  | [] => by
    show (modifyCtx (free_obj (.ntv rl fn)) >>= fun _ => native_call ap fn) = _
    rw [native_call_tail ap fn h]
    show _ = (modifyCtx (free_obj (.ntv rl fn)) >>= fun _ => native_tail_call ap fn) >>= _
    rw [LF_bind_assoc]
  | a :: pre => by
    have ih := apply_unique_plain_eq ap rl fn h pre
    obtain ⟨y, l, hl⟩ := append_single_cons pre (lf_obj.ntv rl fn)
    rw [List.cons_append, hl, apply_unique_plain_cons, apply_unique_cons, ← hl, ih,
      LF_bind_assoc]

theorem apply_shared_plain_eq {N : Type} [LfNum N] (ap : lf_obj N → LF N Unit) (rl : Nat)
    (fn : lf_ntv) (h : fn = .lf_apl ∨ fn = .lf_eq) :
    ∀ pre : List (lf_obj N),
      apply_shared_plain ap (pre ++ [.ntv rl fn]) =
        apply_shared ap (pre ++ [.ntv rl fn]) >>= fun _ => modifyCtx free_hold
  | [] => by
    show native_call ap fn = _
    rw [native_call_tail ap fn h]
    rfl
  | a :: pre => by
    have ih := apply_shared_plain_eq ap rl fn h pre
    obtain ⟨y, l, hl⟩ := append_single_cons pre (lf_obj.ntv rl fn)
    rw [List.cons_append, hl, apply_shared_plain_cons, apply_shared_cons, ← hl, ih,
      LF_bind_assoc]

theorem same_visible_free_hold {N : Type} (m : LF N Unit) (c : lf_ctx N) :
    same_visible (m c) ((m >>= fun _ => modifyCtx free_hold) c) := by
  simp only [bind_apply]
  cases hm : m c with
  | ok a c1 =>
    simp only [modifyCtx_apply, same_visible]
    exact ⟨(free_hold_stck c1).symm, (free_hold_size c1).symm,
      ((free_list_chains c1.hold c1).1.dict).symm⟩
  | sig s c1 => exact ⟨rfl, rfl, rfl, rfl⟩
  | fault => trivial
  | nofuel => trivial

/-- C26: for a list, unique or shared, whose last cell is the native `apl` or
`eq`, `apply` with the fast path yields what `apply` with an ordinary
`native_call` of that last cell yields before the `free_hold` that ends
`native_call`: the two outcomes have the same stack, stack size and
dictionary, raise the same signal, and need more fuel or fault together. -/
theorem C26_tail_call_invisible {N : Type} [LfNum N] (fuel r rl : Nat) (fn : lf_ntv)
    (pre : List (lf_obj N)) (c : lf_ctx N) (h : fn = .lf_apl ∨ fn = .lf_eq) :
    apply_plain fuel r (pre ++ [.ntv rl fn]) c =
        (apply (fuel + 1) (.lst r (pre ++ [.ntv rl fn])) >>= fun _ => modifyCtx free_hold) c ∧
      same_visible (apply (fuel + 1) (.lst r (pre ++ [.ntv rl fn])) c)
        (apply_plain fuel r (pre ++ [.ntv rl fn]) c) := by
  have key : apply_plain fuel r (pre ++ [.ntv rl fn]) c =
      (apply (fuel + 1) (.lst r (pre ++ [.ntv rl fn])) >>= fun _ => modifyCtx free_hold) c := by
    simp only [apply_plain, apply, bind_apply, getCtx_apply, modifyCtx_apply]
    by_cases hc : cnt_dec (c.cnt r) = 0
    · simp only [hc, if_true, bind_apply, modifyCtx_apply]
      rw [apply_unique_plain_eq (apply fuel) rl fn h pre]
      rfl
    · simp only [hc, if_false, bind_apply, modifyCtx_apply]
      rw [apply_shared_plain_eq (apply fuel) rl fn h pre]
      rfl
  refine ⟨key, ?_⟩
  rw [key]
  exact same_visible_free_hold _ c

theorem C26_tail_call_witness :
    (lf_ntv.lf_apl = .lf_apl ∨ lf_ntv.lf_apl = .lf_eq) ∧
    (apply_plain 5 3 ([.lst 1 [.num 0 (Sc.fin 2 1)]] ++ [.ntv 2 .lf_apl]) c26_ctx =
        (apply (5 + 1) (.lst 3 ([.lst 1 [.num 0 (Sc.fin 2 1)]] ++ [.ntv 2 .lf_apl])) >>=
          fun _ => modifyCtx free_hold) c26_ctx ∧
      same_visible
        (apply (5 + 1) (.lst 3 ([.lst 1 [.num 0 (Sc.fin 2 1)]] ++ [.ntv 2 .lf_apl])) c26_ctx)
        (apply_plain 5 3 ([.lst 1 [.num 0 (Sc.fin 2 1)]] ++ [.ntv 2 .lf_apl]) c26_ctx)) :=
  ⟨by decide,
    C26_tail_call_invisible 5 3 2 .lf_apl [.lst 1 [.num 0 (Sc.fin 2 1)]] c26_ctx (by decide)⟩

/-! ## The size counter is the length of the stack -/

theorem hoare_bind {N α β : Type} {t : Bool} {P : lf_ctx N → Prop} {m : LF N α}
    {Q : α → lf_ctx N → Prop} {f : α → LF N β} {R : β → lf_ctx N → Prop}
    (hm : hoare t P m Q) (hf : ∀ a, hoare t (Q a) (f a) R) : hoare t P (m >>= f) R := by
  intro c hp
  have h1 := hm c hp
  rw [bind_apply]
  cases hmc : m c with
  | ok a c1 =>
    rw [hmc] at h1
    exact hf a c1 h1
  | sig s c1 =>
    rw [hmc] at h1
    exact h1
  | fault =>
    rw [hmc] at h1
    exact h1
  | nofuel =>
    rw [hmc] at h1
    exact h1

theorem hoare_weaken {N α : Type} {t : Bool} {P P1 : lf_ctx N → Prop} {m : LF N α}
    {Q Q1 : α → lf_ctx N → Prop} (hm : hoare t P m Q) (hp : ∀ c, P1 c → P c)
    (hq : ∀ a c, Q a c → Q1 a c) : hoare t P1 m Q1 := by
  intro c h
  have h1 := hm c (hp c h)
  cases hmc : m c with
  | ok a c1 =>
    rw [hmc] at h1
    exact hq a c1 h1
  | sig s c1 =>
    rw [hmc] at h1
    exact h1
  | fault =>
    rw [hmc] at h1
    exact h1
  | nofuel =>
    rw [hmc] at h1
    exact h1

theorem hoare_partial {N α : Type} {t : Bool} {P : lf_ctx N → Prop} {m : LF N α}
    {Q : α → lf_ctx N → Prop} (hm : hoare t P m Q) : hoare false P m Q := by
  intro c h
  have h1 := hm c h
  cases hmc : m c with
  | ok a c1 =>
    rw [hmc] at h1
    exact h1
  | sig s c1 =>
    rw [hmc] at h1
    exact h1
  | fault => rfl
  | nofuel => rfl

theorem hoare_pure {N α : Type} (t : Bool) (P : lf_ctx N → Prop) (a : α) :
    hoare t P (pure a) (fun _ c => P c) := fun _ h => h

theorem hoare_get {N β : Type} {t : Bool} {P : lf_ctx N → Prop} {f : lf_ctx N → LF N β}
    {R : β → lf_ctx N → Prop} (hf : ∀ c0, P c0 → hoare t (fun c => c = c0) (f c0) R) :
    hoare t P (getCtx >>= f) R := by
  intro c hp
  exact hf c hp c rfl

theorem hoare_modify {N : Type} (t : Bool) (P : lf_ctx N → Prop) (g : lf_ctx N → lf_ctx N)
    (Q : Unit → lf_ctx N → Prop) (h : ∀ c, P c → Q () (g c)) : hoare t P (modifyCtx g) Q :=
  fun c hp => h c hp

theorem hoare_fault {N α : Type} (P : lf_ctx N → Prop) (Q : α → lf_ctx N → Prop) :
    hoare false P (fault : LF N α) Q := fun _ _ => rfl

theorem hoare_absurd {N α : Type} (t : Bool) (P : lf_ctx N → Prop) (m : LF N α)
    (Q : α → lf_ctx N → Prop) (h : ∀ c, ¬ P c) : hoare t P m Q :=
  fun c hp => absurd hp (h c)

theorem size_inv_free_hold {N : Type} {c : lf_ctx N} (h : size_inv c) :
    size_inv (free_hold c) := by
  unfold size_inv at *
  rw [free_hold_stck, free_hold_size, h]

theorem hoare_raise {N α : Type} (t : Bool) (P : lf_ctx N → Prop) (Q : α → lf_ctx N → Prop)
    (s : lf_sig) (h : ∀ c, P c → size_inv c) : hoare t P (lf_raise s : LF N α) Q :=
  fun c hp => size_inv_free_hold (h c hp)

theorem frame_bind {N α β : Type} {t : Bool} {m : LF N α} {f : α → LF N β}
    (hm : frame t m) (hf : ∀ a, frame t (f a)) : frame t (m >>= f) := by
  intro c
  have h1 := hm c
  rw [bind_apply]
  cases hmc : m c with
  | ok a c1 =>
    rw [hmc] at h1
    have h2 := hf a c1
    show keeps_stack t c (f a c1)
    cases hfc : f a c1 with
    | ok b c2 =>
      rw [hfc] at h2
      exact ⟨h2.1.trans h1.1, h2.2.trans h1.2⟩
    | sig s c2 =>
      rw [hfc] at h2
      exact ⟨h2.1.trans h1.1, h2.2.trans h1.2⟩
    | fault =>
      rw [hfc] at h2
      exact h2
    | nofuel =>
      rw [hfc] at h2
      exact h2
  | sig s c1 =>
    rw [hmc] at h1
    exact h1
  | fault =>
    rw [hmc] at h1
    exact h1
  | nofuel =>
    rw [hmc] at h1
    exact h1

theorem frame_pure {N α : Type} (t : Bool) (a : α) : frame t (pure a : LF N α) :=
  fun _ => ⟨rfl, rfl⟩

theorem frame_get {N : Type} (t : Bool) : frame t (getCtx : LF N (lf_ctx N)) :=
  fun _ => ⟨rfl, rfl⟩

theorem frame_modify {N : Type} (t : Bool) (g : lf_ctx N → lf_ctx N)
    (h : ∀ c, (g c).stck = c.stck ∧ (g c).size = c.size) : frame t (modifyCtx g) :=
  fun c => h c

theorem frame_raise {N α : Type} (t : Bool) (s : lf_sig) : frame t (lf_raise s : LF N α) :=
  fun c => ⟨free_hold_stck c, free_hold_size c⟩

theorem frame_fault {N α : Type} : frame false (fault : LF N α) := fun _ => rfl

theorem frame_free_obj {N : Type} (t : Bool) (o : lf_obj N) :
    frame t (modifyCtx (free_obj o)) :=
  frame_modify t _ fun c => ⟨free_obj_stck o c, free_obj_size o c⟩

theorem frame_make_block {N : Type} (t : Bool) : frame t (make_block : LF N Unit) := by
  intro c
  unfold make_block
  by_cases h : c.free = 0
  · rw [if_pos h]
    exact frame_raise t _ c
  · rw [if_neg h]
    exact ⟨rfl, rfl⟩

theorem frame_make_rec {N : Type} (t : Bool) : frame t (make_rec : LF N Nat) :=
  frame_bind (frame_make_block t) fun _ => frame_bind (frame_get t) fun _ =>
    frame_bind (frame_modify t _ fun _ => ⟨rfl, rfl⟩) fun _ => frame_pure t _

theorem frame_make_obj {N : Type} (t : Bool) : frame t (make_obj : LF N Nat) :=
  frame_bind (frame_make_block t) fun _ => frame_make_rec t

theorem frame_make_ref {N : Type} (t : Bool) (obj : lf_obj N) : frame t (make_ref obj) :=
  frame_bind (frame_make_block t) fun _ =>
    frame_bind (frame_modify t _ fun _ => ⟨rfl, rfl⟩) fun _ => frame_pure t _

theorem keeps_stack_loop {N : Type} (t : Bool) : ∀ (fuel : Nat) (txt : List Char) (len : Nat)
    (c : lf_ctx N), c.free < fuel →
    keeps_stack t c (build_string_loop fuel txt len c : Res N lf_str)
  | 0, _, _, _, h => by omega
  | fuel + 1, txt, len, c, h => by
    unfold build_string_loop
    by_cases hz : len = 0
    · rw [if_pos hz]
      exact ⟨rfl, rfl⟩
    · rw [if_neg hz, bind_apply]
      unfold make_block
      by_cases hf : c.free = 0
      · rw [if_pos hf]
        exact ⟨free_hold_stck c, free_hold_size c⟩
      · rw [if_neg hf]
        have ih := keeps_stack_loop t fuel
          (copy_seg (if len < LF_STRBUF_SIZE - 1 then len else LF_STRBUF_SIZE - 1) txt).2
          (len - (copy_seg (if len < LF_STRBUF_SIZE - 1 then len
            else LF_STRBUF_SIZE - 1) txt).1.length)
          { c with free := c.free - 1 } (by show c.free - 1 < fuel; omega)
        show keeps_stack t c
          ((build_string_loop fuel _ _ >>= fun rest => pure (_ :: rest))
            { c with free := c.free - 1 })
        rw [bind_apply]
        cases hl : build_string_loop fuel
            (copy_seg (if len < LF_STRBUF_SIZE - 1 then len else LF_STRBUF_SIZE - 1) txt).2
            (len - (copy_seg (if len < LF_STRBUF_SIZE - 1 then len
              else LF_STRBUF_SIZE - 1) txt).1.length)
            { c with free := c.free - 1 } with
        | ok s c1 =>
          rw [hl] at ih
          exact ih
        | sig s c1 =>
          rw [hl] at ih
          exact ih
        | fault =>
          rw [hl] at ih
          exact ih
        | nofuel =>
          rw [hl] at ih
          exact ih

theorem frame_build_string {N : Type} (t : Bool) (txt : List Char) (len : Nat) :
    frame t (build_string txt len : LF N lf_str) :=
  fun c => keeps_stack_loop t (c.free + 1) txt len c (by omega)

mutual
theorem frame_make_cpy {N : Type} (t : Bool) : ∀ x : lf_obj N, frame t (make_cpy x)
  | .lst _ val => by
    simp only [make_cpy]
    exact frame_bind (frame_make_obj t) fun _ =>
      frame_bind (frame_make_cpy_chain t val) fun _ => frame_pure t _
  | .str r s => by
    simp only [make_cpy]
    exact frame_make_ref t _
  | .sym r s => by
    simp only [make_cpy]
    exact frame_make_ref t _
  | .usr r d f => by
    simp only [make_cpy]
    exact frame_make_ref t _
  | .ntv r f => by
    simp only [make_cpy]
    exact frame_bind (frame_make_obj t) fun _ =>
      frame_bind (frame_modify t _ fun _ => ⟨rfl, rfl⟩) fun _ => frame_pure t _
  | .num r v => by
    simp only [make_cpy]
    exact frame_bind (frame_make_obj t) fun _ =>
      frame_bind (frame_modify t _ fun _ => ⟨rfl, rfl⟩) fun _ => frame_pure t _
theorem frame_make_cpy_chain {N : Type} (t : Bool) :
    ∀ l : List (lf_obj N), frame t (make_cpy_chain l)
  | [] => by
    simp only [make_cpy_chain]
    exact frame_pure t _
  | it :: rest => by
    simp only [make_cpy_chain]
    exact frame_bind (frame_make_cpy t it) fun _ =>
      frame_bind (frame_make_cpy_chain t rest) fun _ => frame_pure t _
end

theorem frame_find_in {N : Type} (key : lf_str) :
    ∀ d : List (lf_obj N), frame false (find_in key d)
  | [] => by
    simp only [find_in]
    exact frame_raise false _
  | [_] => by
    simp only [find_in]
    exact frame_fault
  | name :: value :: rest => by
    simp only [find_in]
    cases str_of name with
    | none => exact frame_fault
    | some s =>
      show frame false (if streq s key then pure value else find_in key rest)
      by_cases hs : streq s key
      · rw [if_pos hs]
        exact frame_pure false _
      · rw [if_neg hs]
        exact frame_find_in key rest

theorem frame_find {N : Type} (key : lf_str) : frame false (find key : LF N (lf_obj N)) :=
  fun c => frame_find_in key c.dict c

theorem frame_to_num {N : Type} (t : Bool) (o : lf_obj N) : frame t (lf_to_num o) := by
  cases o <;> first | exact frame_pure t _ | exact frame_raise t _

theorem frame_to_str {N : Type} (t : Bool) (o : lf_obj N) : frame t (lf_to_str o) := by
  cases o <;> first | exact frame_pure t _ | exact frame_raise t _

theorem frame_rem_loop {N : Type} (key : lf_str) :
    ∀ d : List (lf_obj N), frame false (rem_loop key d)
  | [] => by
    simp only [rem_loop]
    exact frame_pure false _
  | [_] => by
    simp only [rem_loop]
    exact frame_fault
  | name :: value :: rest => by
    simp only [rem_loop]
    cases str_of name with
    | none => exact frame_fault
    | some s =>
      show frame false (if streq s key then _ else _)
      by_cases hs : streq s key
      · rw [if_pos hs]
        exact frame_bind (frame_free_obj false _) fun _ =>
          frame_bind (frame_free_obj false _) fun _ => frame_pure false _
      · rw [if_neg hs]
        exact frame_bind (frame_rem_loop key rest) fun _ => frame_pure false _

/-- A piece that touches neither the stack chain nor the size counter keeps
every property of the two. -/
theorem hoare_frame {N α : Type} {t : Bool} {m : LF N α} (hm : frame t m)
    (P : lf_ctx N → Prop)
    (hP : ∀ c c1, c1.stck = c.stck → c1.size = c.size → P c → P c1)
    (hinv : ∀ c, P c → size_inv c) : hoare t P m (fun _ c => P c) := by
  intro c hp
  have h1 := hm c
  cases hmc : m c with
  | ok a c1 =>
    rw [hmc] at h1
    exact hP c c1 h1.1 h1.2 hp
  | sig s c1 =>
    rw [hmc] at h1
    exact hinv c1 (hP c c1 h1.1 h1.2 hp)
  | fault =>
    rw [hmc] at h1
    exact h1
  | nofuel =>
    rw [hmc] at h1
    exact h1

theorem size_inv_stable {N : Type} (c c1 : lf_ctx N) (h1 : c1.stck = c.stck)
    (h2 : c1.size = c.size) (h : size_inv c) : size_inv c1 := by
  unfold size_inv at *
  rw [h1, h2, h]

theorem hoare_frame_inv {N α : Type} {t : Bool} {m : LF N α} (hm : frame t m) :
    hoare t size_inv m (fun _ c => size_inv c) :=
  hoare_frame hm size_inv size_inv_stable fun _ h => h

/-- The stack chain and the size counter are `s` and `z`. -/
theorem hoare_frame_at {N α : Type} {t : Bool} {m : LF N α} (hm : frame t m)
    (s : List (lf_obj N)) (z : Int) (hz : z = s.length) :
    hoare t (fun c => c.stck = s ∧ c.size = z) m (fun _ c => c.stck = s ∧ c.size = z) :=
  hoare_frame hm _ (fun c c1 h1 h2 h => ⟨h1.trans h.1, h2.trans h.2⟩)
    fun c h => by unfold size_inv; rw [h.1, h.2, hz]

theorem hoare_seq_inv {N α β : Type} {t : Bool} {m : LF N α} {f : α → LF N β}
    (hm : hoare t size_inv m (fun _ c => size_inv c))
    (hf : ∀ a, hoare t size_inv (f a) (fun _ c => size_inv c)) :
    hoare t size_inv (m >>= f) (fun _ c => size_inv c) :=
  hoare_bind hm hf

theorem hoare_peek {N : Type} (t : Bool) (i : Int) :
    hoare t size_inv (lf_peek i : LF N (lf_obj N))
      (fun _ c => size_inv c ∧ 0 ≤ i ∧ i < c.size) := by
  intro c hc
  unfold lf_peek
  by_cases h1 : i ≥ c.size ∨ c.size = 0
  · rw [if_pos h1]
    exact size_inv_free_hold hc
  · rw [if_neg h1]
    by_cases h2 : i < 0
    · rw [if_pos h2]
      exact size_inv_free_hold hc
    · rw [if_neg h2]
      have hlt : i.toNat < c.stck.length := by
        unfold size_inv at hc
        omega
      rw [List.getElem?_eq_getElem hlt]
      exact ⟨hc, by omega, by omega⟩

theorem hoare_peek_inv {N : Type} (t : Bool) (i : Int) :
    hoare t size_inv (lf_peek i : LF N (lf_obj N)) (fun _ c => size_inv c) :=
  hoare_weaken (hoare_peek t i) (fun _ h => h) fun _ _ h => h.1

theorem hoare_take {N : Type} (t : Bool) (i : Int) :
    hoare t size_inv (lf_take i : LF N (lf_obj N)) (fun _ c => size_inv c) := by
  intro c hc
  unfold lf_take
  by_cases h1 : i ≥ c.size ∨ c.size = 0
  · rw [if_pos h1]
    exact size_inv_free_hold hc
  · rw [if_neg h1]
    by_cases h2 : i < 0
    · rw [if_pos h2]
      exact size_inv_free_hold hc
    · rw [if_neg h2]
      have hlt : i.toNat < c.stck.length := by
        unfold size_inv at hc
        omega
      rw [List.getElem?_eq_getElem hlt]
      show size_inv _
      unfold size_inv at *
      simp only [List.length_eraseIdx_of_lt hlt]
      omega

theorem hoare_push {N : Type} (t : Bool) (o : lf_obj N) :
    hoare t size_inv (push_obj o) (fun _ c => size_inv c) := by
  intro c hc
  show size_inv _
  unfold size_inv at *
  simp only [List.length_cons]
  omega

theorem hoare_push_num {N : Type} (t : Bool) (v : N) :
    hoare t size_inv (lf_push_num v) (fun _ c => size_inv c) :=
  hoare_seq_inv (hoare_frame_inv (frame_make_obj t)) fun _ => hoare_push t _

theorem hoare_push_str {N : Type} (t : Bool) (s : List Char) (len : Nat) :
    hoare t size_inv (lf_push_str s len : LF N Unit) (fun _ c => size_inv c) :=
  hoare_seq_inv (hoare_frame_inv (frame_make_obj t)) fun _ =>
    hoare_seq_inv (hoare_frame_inv (frame_build_string t _ _)) fun _ => hoare_push t _

theorem hoare_push_sym {N : Type} (t : Bool) (s : List Char) (len : Nat) :
    hoare t size_inv (lf_push_sym s len : LF N Unit) (fun _ c => size_inv c) :=
  hoare_seq_inv (hoare_frame_inv (frame_make_obj t)) fun _ =>
    hoare_seq_inv (hoare_frame_inv (frame_build_string t _ _)) fun _ => hoare_push t _

theorem hoare_push_lst {N : Type} (t : Bool) :
    hoare t size_inv (lf_push_lst : LF N Unit) (fun _ c => size_inv c) :=
  hoare_seq_inv (hoare_frame_inv (frame_make_obj t)) fun _ => hoare_push t _

theorem hoare_push_ntv {N : Type} (t : Bool) (f : lf_ntv) :
    hoare t size_inv (lf_push_ntv f : LF N Unit) (fun _ c => size_inv c) :=
  hoare_seq_inv (hoare_frame_inv (frame_make_obj t)) fun _ => hoare_push t _

theorem hoare_push_usr {N : Type} (t : Bool) (d f : Nat) :
    hoare t size_inv (lf_push_usr d f : LF N Unit) (fun _ c => size_inv c) :=
  hoare_seq_inv (hoare_frame_inv (frame_make_obj t)) fun _ => hoare_push t _

theorem rol_down_length {N : Type} : ∀ (k : Nat) (l l1 : List (lf_obj N)),
    rol_down k l = some l1 → l1.length = l.length
  | _, [], _, h => by simp [rol_down] at h
  | 0, first :: rest, l1, h => by
    simp only [rol_down, Option.some.injEq] at h
    rw [← h]
  | _ + 1, [first], l1, h => by simp [rol_down] at h
  | 1, first :: last :: rest1, l1, h => by
    simp only [rol_down, Option.some.injEq] at h
    rw [← h]
    rfl
  | j + 2, first :: x :: rest1, l1, h => by
    simp only [rol_down] at h
    cases hr : rol_down (j + 1) (first :: rest1) with
    | none => simp [hr] at h
    | some l2 =>
      rw [hr] at h
      simp only [Option.map_some', Option.some.injEq] at h
      rw [← h, List.length_cons, rol_down_length (j + 1) _ _ hr]
      rfl

theorem rol_unlink_length {N : Type} : ∀ (k : Nat) (l l1 : List (lf_obj N)) (last : lf_obj N),
    rol_unlink k l = some (last, l1) → l1.length + 1 = l.length
  | _, [], _, _, h => by simp [rol_unlink] at h
  | 0, [_], _, _, h => by simp [rol_unlink] at h
  | 0, prev :: x :: rest, l1, last, h => by
    simp only [rol_unlink, Option.some.injEq, Prod.mk.injEq] at h
    rw [← h.2]
    rfl
  | k + 1, x :: rest, l1, last, h => by
    simp only [rol_unlink] at h
    cases hr : rol_unlink k rest with
    | none => simp [hr] at h
    | some p =>
      obtain ⟨p1, p2⟩ := p
      rw [hr] at h
      simp only [Option.map_some', Option.some.injEq, Prod.mk.injEq] at h
      rw [← h.2, List.length_cons, List.length_cons, rol_unlink_length k rest p2 p1 hr]

theorem rol_down_total {N : Type} (k : Nat) (l : List (lf_obj N)) (hk : 0 < k)
    (h : k < l.length) : rol_down k l ≠ none := by
  cases l with
  | nil => simp at h
  | cons first t =>
    obtain ⟨m, rfl⟩ : ∃ m, k = m + 1 := ⟨k - 1, by omega⟩
    rw [rol_down_some m first t (by simpa using h)]
    exact Option.some_ne_none _

theorem hoare_rol_step {N : Type} (t : Bool) (step : Int) :
    hoare t size_inv (rol_step step : LF N Unit) (fun _ c => size_inv c) := by
  unfold rol_step
  by_cases h1 : step < 0
  · rw [if_pos h1]
    refine hoare_bind (hoare_peek t _) fun _ => hoare_get fun c0 h0 => ?_
    obtain ⟨h01, h02, h03⟩ := h0
    cases hr : rol_down (-step).toNat c0.stck with
    | none =>
      exfalso
      refine rol_down_total (-step).toNat c0.stck (by omega) ?_ hr
      unfold size_inv at h01
      omega
    | some l =>
      refine hoare_modify t _ _ _ ?_
      rintro c rfl
      show size_inv _
      unfold size_inv at *
      simp only [rol_down_length _ _ _ hr]
      exact h01
  · rw [if_neg h1]
    by_cases h2 : step > 0
    · rw [if_pos h2]
      refine hoare_bind (hoare_peek_inv t _) fun _ => hoare_get fun c0 h0 => ?_
      cases hr : rol_unlink (step - 1).toNat c0.stck with
      | none => exact hoare_raise t _ _ _ (by rintro c rfl; exact h0)
      | some p =>
        obtain ⟨last, l⟩ := p
        refine hoare_modify t _ _ _ ?_
        rintro c rfl
        show size_inv _
        unfold size_inv at *
        simp only [List.length_cons, rol_unlink_length _ _ _ _ hr]
        exact h0
    · rw [if_neg h2]
      exact hoare_pure t _ _

theorem hoare_rol {N : Type} [LfNum N] (t : Bool) :
    hoare t size_inv (lf_rol : LF N Unit) (fun _ c => size_inv c) :=
  hoare_seq_inv (hoare_take t _) fun o =>
    hoare_seq_inv (hoare_frame_inv (frame_to_num t o)) fun _ => hoare_rol_step t _

theorem hoare_cpy {N : Type} [LfNum N] (t : Bool) :
    hoare t size_inv (lf_cpy : LF N Unit) (fun _ c => size_inv c) :=
  hoare_seq_inv (hoare_take t _) fun o =>
    hoare_seq_inv (hoare_frame_inv (frame_to_num t o)) fun _ =>
      hoare_seq_inv (hoare_peek_inv t _) fun x =>
        hoare_seq_inv (hoare_frame_inv (frame_make_cpy t x)) fun _ => hoare_push t _

theorem hoare_drp {N : Type} [LfNum N] (t : Bool) :
    hoare t size_inv (lf_drp : LF N Unit) (fun _ c => size_inv c) :=
  hoare_seq_inv (hoare_take t _) fun o =>
    hoare_seq_inv (hoare_frame_inv (frame_to_num t o)) fun _ =>
      hoare_seq_inv (hoare_take t _) fun _ => hoare_pure t _ _

theorem hoare_wrp {N : Type} [LfNum N] (t : Bool) :
    hoare t size_inv (lf_wrp : LF N Unit) (fun _ c => size_inv c) := by
  unfold lf_wrp
  refine hoare_seq_inv (hoare_take t _) fun o =>
    hoare_seq_inv (hoare_frame_inv (frame_to_num t o)) fun n => ?_
  refine hoare_bind (hoare_peek t (LfNum.toInt n)) fun _ => ?_
  refine hoare_bind
    (hoare_frame (frame_make_obj t)
      (fun c => size_inv c ∧ 0 ≤ LfNum.toInt n ∧ LfNum.toInt n < c.size) ?_ (fun _ h => h.1))
    fun r => ?_
  · intro c c1 h1 h2 h
    exact ⟨size_inv_stable c c1 h1 h2 h.1, h.2.1, by rw [h2]; exact h.2.2⟩
  · refine hoare_get fun c0 h0 => ?_
    rintro c rfl
    show size_inv _
    unfold size_inv at *
    obtain ⟨h1, h2, h3⟩ := h0
    simp only [List.length_cons, List.length_drop]
    omega

theorem hoare_pul_loop {N : Type} (t : Bool) : ∀ (l : List (lf_obj N)) (cnt : Int),
    hoare t size_inv (pul_loop l cnt) (fun _ c => size_inv c)
  | [], cnt => by
    simp only [pul_loop]
    exact hoare_pure t _ _
  | obj :: next, cnt => by
    simp only [pul_loop]
    exact hoare_seq_inv (hoare_frame_inv (frame_make_ref t obj)) fun _ =>
      hoare_seq_inv (hoare_push t _) fun _ => hoare_pul_loop t next _

theorem hoare_pul {N : Type} [LfNum N] (t : Bool) :
    hoare t size_inv (lf_pul : LF N Unit) (fun _ c => size_inv c) := by
  unfold lf_pul
  refine hoare_seq_inv (hoare_take t _) fun obj => ?_
  cases obj with
  | lst r val => exact hoare_seq_inv (hoare_pul_loop t val 0) fun _ => hoare_push_num t _
  | sym r s => exact hoare_raise t _ _ _ fun _ h => h
  | str r s => exact hoare_raise t _ _ _ fun _ h => h
  | ntv r f => exact hoare_raise t _ _ _ fun _ h => h
  | num r v => exact hoare_raise t _ _ _ fun _ h => h
  | usr r d f => exact hoare_raise t _ _ _ fun _ h => h

theorem hoare_reg {N : Type} (t : Bool) :
    hoare t size_inv (lf_reg : LF N Unit) (fun _ c => size_inv c) := by
  unfold lf_reg
  refine hoare_bind (hoare_peek t 1) fun _ => hoare_get fun c0 h0 => ?_
  obtain ⟨h01, _, h03⟩ := h0
  unfold size_inv at h01
  rcases hs : c0.stck with _ | ⟨name, _ | ⟨value, rest⟩⟩
  · rw [hs] at h01
    simp only [List.length_nil] at h01
    omega
  · rw [hs] at h01
    simp only [List.length_singleton] at h01
    omega
  · have hz : c0.size = ((name :: value :: rest).length : Nat) := by
      rw [← hs]
      exact h01
    refine hoare_bind (hoare_weaken (hoare_frame_at (frame_to_str t name) _ _ hz)
      (by rintro c rfl; exact ⟨hs, rfl⟩) fun _ _ h => h) fun _ => ?_
    refine hoare_modify t _ _ _ ?_
    rintro c ⟨h1, h2⟩
    show size_inv _
    unfold size_inv
    simp only [h2, hz, List.length_cons]
    omega

theorem hoare_rem {N : Type} :
    hoare false size_inv (lf_rem : LF N Unit) (fun _ c => size_inv c) := by
  unfold lf_rem
  refine hoare_seq_inv (hoare_take false _) fun obj => ?_
  cases obj with
  | str r key =>
    refine hoare_get fun c0 h0 => ?_
    refine hoare_bind (hoare_weaken (hoare_frame_inv (frame_rem_loop key c0.dict))
      (by rintro c rfl; exact h0) fun _ _ h => h) fun _ => ?_
    exact hoare_modify false _ _ _ fun c h => h
  | lst r val => exact hoare_raise false _ _ _ fun _ h => h
  | sym r s => exact hoare_raise false _ _ _ fun _ h => h
  | ntv r f => exact hoare_raise false _ _ _ fun _ h => h
  | num r v => exact hoare_raise false _ _ _ fun _ h => h
  | usr r d f => exact hoare_raise false _ _ _ fun _ h => h

theorem hoare_fnd {N : Type} :
    hoare false size_inv (lf_fnd : LF N Unit) (fun _ c => size_inv c) :=
  hoare_seq_inv (hoare_take false _) fun o =>
    hoare_seq_inv (hoare_frame_inv (frame_to_str false o)) fun key =>
      hoare_seq_inv (hoare_frame_inv (frame_find key)) fun v =>
        hoare_seq_inv (hoare_frame_inv (frame_make_cpy false v)) fun _ => hoare_push false _

theorem hoare_is {N : Type} (t : Bool) :
    hoare t size_inv (lf_is : LF N Unit) (fun _ c => size_inv c) :=
  hoare_seq_inv (hoare_take t _) fun _ => hoare_push_str t _ _

theorem hoare_rf {N : Type} [LfNum N] (t : Bool) :
    hoare t size_inv (lf_rf : LF N Unit) (fun _ c => size_inv c) :=
  hoare_seq_inv (hoare_take t _) fun o =>
    hoare_seq_inv (hoare_frame_inv (frame_to_num t o)) fun _ =>
      hoare_seq_inv (hoare_peek_inv t _) fun x =>
        hoare_seq_inv (hoare_frame_inv (frame_make_ref t x)) fun _ => hoare_push t _

theorem hoare_sz {N : Type} [LfNum N] (t : Bool) :
    hoare t size_inv (lf_sz : LF N Unit) (fun _ c => size_inv c) :=
  hoare_get fun _ h0 =>
    hoare_weaken (hoare_push_num t _) (by rintro c rfl; exact h0) fun _ _ h => h

theorem hoare_sgn {N : Type} [LfNum N] (t : Bool) :
    hoare t size_inv (lf_sgn : LF N Unit) (fun _ c => size_inv c) :=
  hoare_seq_inv (hoare_take t _) fun o =>
    hoare_seq_inv (hoare_frame_inv (frame_to_num t o)) fun _ => hoare_push_num t _

theorem hoare_mathop {N : Type} (t : Bool) (op : N → N → N) :
    hoare t size_inv (mathop op) (fun _ c => size_inv c) := by
  unfold mathop
  refine hoare_bind (hoare_peek t 1) fun _ => hoare_get fun c0 h0 => ?_
  obtain ⟨h01, _, h03⟩ := h0
  unfold size_inv at h01
  rcases hs : c0.stck with _ | ⟨top, _ | ⟨below, rest⟩⟩
  · rw [hs] at h01
    simp only [List.length_nil] at h01
    omega
  · rw [hs] at h01
    simp only [List.length_singleton] at h01
    omega
  · have hz : c0.size = ((top :: below :: rest).length : Nat) := by
      rw [← hs]
      exact h01
    refine hoare_bind (hoare_weaken (hoare_frame_at (frame_to_num t below) _ _ hz)
      (by rintro c rfl; exact ⟨hs, rfl⟩) fun _ _ h => h) fun a => ?_
    refine hoare_bind (hoare_frame_at (frame_to_num t top) _ _ hz) fun b => ?_
    refine hoare_bind (hoare_modify t _ _
      (fun _ c => c.stck = top :: below :: rest ∧ c.size = c0.size - 2) ?_) fun _ => ?_
    · rintro c ⟨h1, h2⟩
      exact ⟨h1, by show c.size - 2 = _; rw [h2]⟩
    refine hoare_bind (hoare_modify t _ _
      (fun _ c => c.stck = top :: below :: rest ∧ c.size = c0.size - 2) ?_) fun _ => ?_
    · rintro c ⟨h1, h2⟩
      exact ⟨by rw [free_obj_stck, h1], by rw [free_obj_size, h2]⟩
    refine hoare_bind (hoare_modify t _ _
      (fun _ c => c.stck = top :: below :: rest ∧ c.size = c0.size - 2) ?_) fun _ => ?_
    · rintro c ⟨h1, h2⟩
      exact ⟨by rw [free_obj_stck, h1], by rw [free_obj_size, h2]⟩
    refine hoare_bind (hoare_modify t _ _ (fun _ c => size_inv c) ?_) fun _ =>
      hoare_push_num t _
    rintro c ⟨h1, h2⟩
    show size_inv _
    unfold size_inv
    simp only [h2, hz, List.length_cons]
    omega

theorem hoare_eq_select {N : Type} [LfNum N] (t : Bool) :
    hoare t size_inv (eq_select : LF N (lf_obj N)) (fun _ c => size_inv c) := by
  unfold eq_select
  refine hoare_bind (hoare_peek t 3) fun a => hoare_get fun c0 h0 => ?_
  obtain ⟨h01, _, h03⟩ := h0
  unfold size_inv at h01
  rcases hs : c0.stck with _ | ⟨e, _ | ⟨t1, _ | ⟨b, _ | ⟨a1, rest⟩⟩⟩⟩
  · rw [hs] at h01
    simp only [List.length_nil] at h01
    omega
  · rw [hs] at h01
    simp only [List.length_cons, List.length_nil] at h01
    omega
  · rw [hs] at h01
    simp only [List.length_cons, List.length_nil] at h01
    omega
  · rw [hs] at h01
    simp only [List.length_cons, List.length_nil] at h01
    omega
  · have hz : c0.size = ((e :: t1 :: b :: a1 :: rest).length : Nat) := by
      rw [← hs]
      exact h01
    refine hoare_bind (hoare_modify t _ _
      (fun _ c => c.size = c0.size) ?_) fun _ => ?_
    · rintro c rfl
      exact free_obj_size _ _
    refine hoare_bind (hoare_modify t _ _
      (fun _ c => c.size = c0.size) ?_) fun _ => ?_
    · intro c h
      show (free_obj a c).size = _
      rw [free_obj_size, h]
    refine hoare_bind (hoare_modify t _ _
      (fun _ c => c.size = c0.size ∧ c.stck = rest) ?_) fun _ => ?_
    · intro c h
      exact ⟨h, rfl⟩
    refine hoare_bind (hoare_modify t _ _ (fun _ c => size_inv c) ?_) fun _ => ?_
    · rintro c ⟨h1, h2⟩
      show size_inv _
      unfold size_inv
      simp only [h1, h2, hz, List.length_cons]
      omega
    by_cases hr : objeq a b
    · rw [if_pos hr]
      exact hoare_seq_inv (hoare_frame_inv (frame_free_obj t e)) fun _ => hoare_pure t _ _
    · rw [if_neg hr]
      exact hoare_seq_inv (hoare_frame_inv (frame_free_obj t t1)) fun _ => hoare_pure t _ _

theorem hoare_apl_pop {N : Type} (t : Bool) :
    hoare t size_inv (apl_pop : LF N (lf_obj N)) (fun _ c => size_inv c) := by
  unfold apl_pop
  refine hoare_bind (hoare_peek t 0) fun obj => ?_
  refine hoare_bind (hoare_modify t _ _ (fun _ c => size_inv c) ?_) fun _ => hoare_pure t _ _
  rintro c ⟨h1, _, h3⟩
  show size_inv _
  unfold size_inv at *
  simp only [List.length_tail]
  omega

theorem hoare_call_ntv {N : Type} [LfNum N] (ap : lf_obj N → LF N Unit)
    (hap : ∀ obj, hoare false size_inv (ap obj) (fun _ c => size_inv c)) (fn : lf_ntv) :
    hoare false size_inv (call_ntv ap fn) (fun _ c => size_inv c) := by
  cases fn
  · exact hoare_rol false
  · exact hoare_cpy false
  · exact hoare_drp false
  · exact hoare_wrp false
  · exact hoare_pul false
  · exact hoare_seq_inv (hoare_apl_pop false) hap
  · exact hoare_reg false
  · exact hoare_rem
  · exact hoare_fnd
  · exact hoare_seq_inv (hoare_eq_select false) hap
  · exact hoare_is false
  · exact hoare_rf false
  · exact hoare_sz false
  · exact hoare_mathop false _
  · exact hoare_mathop false _
  · exact hoare_mathop false _
  · exact hoare_mathop false _
  · exact hoare_mathop false _
  · exact hoare_sgn false

theorem hoare_call_ntv_total {N : Type} [LfNum N] (ap : lf_obj N → LF N Unit) (fn : lf_ntv)
    (hfn : fn ∉ [lf_ntv.lf_apl, .lf_eq, .lf_rem, .lf_fnd]) :
    hoare true size_inv (call_ntv ap fn) (fun _ c => size_inv c) := by
  cases fn
  · exact hoare_rol true
  · exact hoare_cpy true
  · exact hoare_drp true
  · exact hoare_wrp true
  · exact hoare_pul true
  · exact absurd (by decide) hfn
  · exact hoare_reg true
  · exact absurd (by decide) hfn
  · exact absurd (by decide) hfn
  · exact absurd (by decide) hfn
  · exact hoare_is true
  · exact hoare_rf true
  · exact hoare_sz true
  · exact hoare_mathop true _
  · exact hoare_mathop true _
  · exact hoare_mathop true _
  · exact hoare_mathop true _
  · exact hoare_mathop true _
  · exact hoare_sgn true

theorem hoare_free_hold {N : Type} (t : Bool) :
    hoare t size_inv (modifyCtx free_hold : LF N Unit) (fun _ c => size_inv c) :=
  hoare_modify t _ _ _ fun _ h => size_inv_free_hold h

theorem hoare_native_call {N : Type} [LfNum N] (ap : lf_obj N → LF N Unit)
    (hap : ∀ obj, hoare false size_inv (ap obj) (fun _ c => size_inv c)) (fn : lf_ntv) :
    hoare false size_inv (native_call ap fn) (fun _ c => size_inv c) :=
  hoare_seq_inv (hoare_call_ntv ap hap fn) fun _ => hoare_free_hold false

theorem hoare_native_tail_call {N : Type} [LfNum N] (ap : lf_obj N → LF N Unit)
    (hap : ∀ obj, hoare false size_inv (ap obj) (fun _ c => size_inv c)) (fn : lf_ntv) :
    hoare false size_inv (native_tail_call ap fn) (fun _ c => size_inv c) := by
  unfold native_tail_call
  by_cases h1 : fn = .lf_apl
  · rw [if_pos h1]
    exact hoare_seq_inv (hoare_apl_pop false) hap
  · rw [if_neg h1]
    by_cases h2 : fn = .lf_eq
    · rw [if_pos h2]
      exact hoare_seq_inv (hoare_eq_select false) hap
    · rw [if_neg h2]
      exact hoare_native_call ap hap fn

theorem hoare_unique_step {N : Type} [LfNum N] (ap : lf_obj N → LF N Unit)
    (hap : ∀ obj, hoare false size_inv (ap obj) (fun _ c => size_inv c)) (tmp : lf_obj N) :
    hoare false size_inv (unique_step ap tmp) (fun _ c => size_inv c) := by
  cases tmp with
  | sym r s =>
    exact hoare_seq_inv (hoare_frame_inv (frame_find s)) fun obj =>
      hoare_seq_inv (hoare_frame_inv (frame_free_obj false _)) fun _ =>
        hoare_seq_inv (hoare_frame_inv (frame_make_ref false obj)) hap
  | ntv r fn =>
    exact hoare_seq_inv (hoare_frame_inv (frame_free_obj false _)) fun _ =>
      hoare_native_call ap hap fn
  | lst r val => exact hoare_push false _
  | str r s => exact hoare_push false _
  | num r v => exact hoare_push false _
  | usr r d f => exact hoare_push false _

theorem hoare_shared_step {N : Type} [LfNum N] (ap : lf_obj N → LF N Unit)
    (hap : ∀ obj, hoare false size_inv (ap obj) (fun _ c => size_inv c)) (tmp : lf_obj N) :
    hoare false size_inv (shared_step ap tmp) (fun _ c => size_inv c) := by
  cases tmp with
  | sym r s =>
    exact hoare_seq_inv (hoare_frame_inv (frame_find s)) fun obj =>
      hoare_seq_inv (hoare_frame_inv (frame_make_ref false obj)) hap
  | ntv r fn => exact hoare_native_call ap hap fn
  | lst r val =>
    exact hoare_seq_inv (hoare_frame_inv (frame_make_ref false _)) fun _ => hoare_push false _
  | str r s =>
    exact hoare_seq_inv (hoare_frame_inv (frame_make_ref false _)) fun _ => hoare_push false _
  | num r v =>
    exact hoare_seq_inv (hoare_frame_inv (frame_make_ref false _)) fun _ => hoare_push false _
  | usr r d f =>
    exact hoare_seq_inv (hoare_frame_inv (frame_make_ref false _)) fun _ => hoare_push false _

theorem hoare_apply_unique {N : Type} [LfNum N] (ap : lf_obj N → LF N Unit)
    (hap : ∀ obj, hoare false size_inv (ap obj) (fun _ c => size_inv c)) :
    ∀ l : List (lf_obj N), hoare false size_inv (apply_unique ap l) (fun _ c => size_inv c)
  | [] => hoare_pure false _ _
  | [tmp] => by
    cases tmp with
    | sym r s =>
      exact hoare_seq_inv (hoare_frame_inv (frame_find s)) fun obj =>
        hoare_seq_inv (hoare_frame_inv (frame_free_obj false _)) fun _ =>
          hoare_seq_inv (hoare_frame_inv (frame_make_ref false obj)) hap
    | ntv r fn =>
      exact hoare_seq_inv (hoare_frame_inv (frame_free_obj false _)) fun _ =>
        hoare_native_tail_call ap hap fn
    | lst r val => exact hoare_push false _
    | str r s => exact hoare_push false _
    | num r v => exact hoare_push false _
    | usr r d f => exact hoare_push false _
  | a :: b :: l => by
    rw [apply_unique_cons]
    exact hoare_seq_inv (hoare_unique_step ap hap a) fun _ => hoare_apply_unique ap hap (b :: l)

theorem hoare_apply_shared {N : Type} [LfNum N] (ap : lf_obj N → LF N Unit)
    (hap : ∀ obj, hoare false size_inv (ap obj) (fun _ c => size_inv c)) :
    ∀ l : List (lf_obj N), hoare false size_inv (apply_shared ap l) (fun _ c => size_inv c)
  | [] => hoare_pure false _ _
  | [tmp] => by
    cases tmp with
    | sym r s =>
      exact hoare_seq_inv (hoare_frame_inv (frame_find s)) fun obj =>
        hoare_seq_inv (hoare_frame_inv (frame_make_ref false obj)) hap
    | ntv r fn => exact hoare_native_tail_call ap hap fn
    | lst r val =>
      exact hoare_seq_inv (hoare_frame_inv (frame_make_ref false _)) fun _ => hoare_push false _
    | str r s =>
      exact hoare_seq_inv (hoare_frame_inv (frame_make_ref false _)) fun _ => hoare_push false _
    | num r v =>
      exact hoare_seq_inv (hoare_frame_inv (frame_make_ref false _)) fun _ => hoare_push false _
    | usr r d f =>
      exact hoare_seq_inv (hoare_frame_inv (frame_make_ref false _)) fun _ => hoare_push false _
  | a :: b :: l => by
    rw [apply_shared_cons]
    exact hoare_seq_inv (hoare_shared_step ap hap a) fun _ => hoare_apply_shared ap hap (b :: l)

theorem hoare_apply {N : Type} [LfNum N] : ∀ (fuel : Nat) (obj : lf_obj N),
    hoare false size_inv (apply fuel obj) (fun _ c => size_inv c)
  | 0, _ => fun _ _ => rfl
  | fuel + 1, .lst r tmp => by
    unfold apply
    refine hoare_get fun c0 h0 => ?_
    refine hoare_bind (hoare_modify false _ _ (fun _ c => size_inv c) ?_) fun _ => ?_
    · rintro c rfl
      exact h0
    by_cases hc : cnt_dec (c0.cnt r) = 0
    · rw [if_pos hc]
      exact hoare_seq_inv (hoare_modify false _ _ _ fun _ h => h) fun _ =>
        hoare_seq_inv (hoare_modify false _ _ _ fun _ h => h) fun _ =>
          hoare_apply_unique _ (hoare_apply fuel) tmp
    · rw [if_neg hc]
      exact hoare_seq_inv (hoare_modify false _ _ _ fun _ h => h) fun _ =>
        hoare_apply_shared _ (hoare_apply fuel) tmp
  | fuel + 1, .sym r s => by
    unfold apply
    exact hoare_seq_inv (hoare_frame_inv (frame_find s)) fun tmp =>
      hoare_seq_inv (hoare_frame_inv (frame_free_obj false _)) fun _ =>
        hoare_seq_inv (hoare_frame_inv (frame_make_ref false tmp)) (hoare_apply fuel)
  | fuel + 1, .ntv r fn => by
    unfold apply
    exact hoare_seq_inv (hoare_frame_inv (frame_free_obj false _)) fun _ =>
      hoare_native_tail_call _ (hoare_apply fuel) fn
  | fuel + 1, .str r s => by
    unfold apply
    exact hoare_push false _
  | fuel + 1, .num r v => by
    unfold apply
    exact hoare_push false _
  | fuel + 1, .usr r d f => by
    unfold apply
    exact hoare_push false _

theorem size_ok_of_hoare {N α : Type} {t : Bool} {m : LF N α}
    (h : hoare t size_inv m (fun _ c => size_inv c)) (c : lf_ctx N) (hc : size_inv c) :
    size_ok (m c) := by
  have h1 := h c hc
  cases hm : m c with
  | ok a c1 =>
    rw [hm] at h1
    exact h1
  | sig s c1 =>
    rw [hm] at h1
    exact h1
  | fault => trivial
  | nofuel => trivial

theorem ended_of_hoare {N α : Type} {m : LF N α}
    (h : hoare true size_inv m (fun _ c => size_inv c)) (c : lf_ctx N) (hc : size_inv c) :
    (m c).ended = true := by
  have h1 := h c hc
  cases hm : m c with
  | ok a c1 => rfl
  | sig s c1 => rfl
  | fault =>
    rw [hm] at h1
    cases h1
  | nofuel =>
    rw [hm] at h1
    cases h1

theorem set_cnt_same (f : Nat → Nat) (r v : Nat) : set_cnt f r v r = v := by
  simp [set_cnt]

theorem set_cnt_other (f : Nat → Nat) (r v i : Nat) (h : i ≠ r) : set_cnt f r v i = f i := by
  simp [set_cnt, h]

theorem set_cnt_comm (f : Nat → Nat) (r q v w : Nat) (h : r ≠ q) :
    set_cnt (set_cnt f r v) q w = set_cnt (set_cnt f q w) r v := by
  funext i
  simp only [set_cnt]
  by_cases h1 : i = q
  · subst h1
    have h2 : i ≠ r := fun e => h e.symm
    simp [h2]
  · simp [h1]

theorem cnt_dec_inc (n : Nat) : cnt_dec (cnt_inc n) = n := by
  by_cases h : n = UINT_MAX
  · simp [cnt_inc, cnt_dec, h]
  · simp [cnt_inc, cnt_dec, h]

theorem release_fst {N : Type} (st : (Nat → Nat) × Nat) (o : lf_obj N) :
    (release st o).1 = set_cnt st.1 o.ref (cnt_dec (st.1 o.ref)) := rfl

theorem release_snd {N : Type} (st : (Nat → Nat) × Nat) (o : lf_obj N) :
    (release st o).2 = st.2 + 1 + (if cnt_dec (st.1 o.ref) = 0 then rec_blocks o else 0) := rfl

theorem release_comm {N : Type} (z : (Nat → Nat) × Nat) (x y : lf_obj N)
    (h : x.ref ≠ y.ref) : release (release z x) y = release (release z y) x := by
  refine Prod.ext ?_ ?_
  · simp only [release_fst, set_cnt_other _ _ _ _ h, set_cnt_other _ _ _ _ (Ne.symm h)]
    exact (set_cnt_comm _ _ _ _ _ h)
  · simp only [release_snd, release_fst, set_cnt_other _ _ _ _ h,
      set_cnt_other _ _ _ _ (Ne.symm h)]
    omega

theorem fold_release_perm {N : Type} {S1 S2 : List (lf_obj N)} (p : S1.Perm S2)
    (h : ∀ x ∈ S1, ∀ y ∈ S1, x.ref = y.ref → x = y) (z : (Nat → Nat) × Nat) :
    S1.foldl release z = S2.foldl release z := by
  refine List.Perm.foldl_eq' p ?_ z
  intro x hx y hy z1
  by_cases hxy : x.ref = y.ref
  · rw [h x hx y hy hxy]
  · exact release_comm z1 x y hxy

theorem fold_release_free {N : Type} : ∀ (S : List (lf_obj N)) (cnt : Nat → Nat) (f k : Nat),
    S.foldl release (cnt, f + k) =
      ((S.foldl release (cnt, f)).1, (S.foldl release (cnt, f)).2 + k)
  | [], _, _, _ => rfl
  | o :: S, cnt, f, k => by
    simp only [List.foldl_cons]
    have h : release (cnt, f + k) o = ((release (cnt, f) o).1, (release (cnt, f) o).2 + k) := by
      refine Prod.ext rfl ?_
      simp only [release_snd]
      omega
    rw [h, fold_release_free S]

theorem fold_release_cnt {N : Type} : ∀ (S : List (lf_obj N)) (st : (Nat → Nat) × Nat)
    (r : Nat), r ∉ S.map lf_obj.ref → (S.foldl release st).1 r = st.1 r
  | [], _, _, _ => rfl
  | o :: S, st, r, h => by
    simp only [List.map_cons, List.mem_cons, not_or] at h
    simp only [List.foldl_cons]
    rw [fold_release_cnt S _ r h.2, release_fst, set_cnt_other _ _ _ _ h.1]

theorem fold_release_set {N : Type} : ∀ (S : List (lf_obj N)) (cnt : Nat → Nat) (f r v : Nat),
    r ∉ S.map lf_obj.ref →
    S.foldl release (set_cnt cnt r v, f) =
      (set_cnt (S.foldl release (cnt, f)).1 r v, (S.foldl release (cnt, f)).2)
  | [], _, _, _, _, _ => rfl
  | o :: S, cnt, f, r, v, h => by
    simp only [List.map_cons, List.mem_cons, not_or] at h
    simp only [List.foldl_cons]
    have h1 : release (set_cnt cnt r v, f) o =
        (set_cnt (release (cnt, f) o).1 r v, (release (cnt, f) o).2) := by
      refine Prod.ext ?_ ?_
      · simp only [release_fst, set_cnt_other _ _ _ _ (Ne.symm h.1)]
        exact set_cnt_comm _ _ _ _ _ h.1
      · simp only [release_snd, set_cnt_other _ _ _ _ (Ne.symm h.1)]
    rw [h1]
    exact fold_release_set S _ _ r v h.2

theorem fold_release_append {N : Type} (S1 S2 : List (lf_obj N)) (z : (Nat → Nat) × Nat) :
    (S1 ++ S2).foldl release z = S2.foldl release (S1.foldl release z) :=
  List.foldl_append _ _ _ _

theorem mem_flat_obj_self {N : Type} (o : lf_obj N) : o ∈ flat_obj o := by
  cases o <;> simp [flat_obj]

theorem mem_flat_chain_of_mem {N : Type} : ∀ (l : List (lf_obj N)) (o : lf_obj N),
    o ∈ l → o ∈ flat_chain l
  | [], _, h => by cases h
  | a :: l, o, h => by
    simp only [flat_chain, List.mem_append]
    rcases List.mem_cons.1 h with h | h
    · left
      rw [h]
      exact mem_flat_obj_self a
    · right
      exact mem_flat_chain_of_mem l o h

theorem flat_chain_append {N : Type} : ∀ (l1 l2 : List (lf_obj N)),
    flat_chain (l1 ++ l2) = flat_chain l1 ++ flat_chain l2
  | [], _ => rfl
  | a :: l1, l2 => by
    rw [List.cons_append]
    simp only [flat_chain]
    rw [flat_chain_append l1 l2, List.append_assoc]

theorem mem_flat_all_of_mem {N : Type} : ∀ (chk : List (List (lf_obj N))) (o : lf_obj N),
    o ∈ chk.flatten → o ∈ flat_all chk
  | [], _, h => by simp at h
  | head :: next, o, h => by
    simp only [List.flatten_cons, List.mem_append] at h
    simp only [flat_all, List.mem_append]
    rcases h with h | h
    · exact Or.inl (mem_flat_chain_of_mem head o h)
    · exact Or.inr (mem_flat_all_of_mem next o h)

theorem count_pos_of_mem {N : Type} (S : List (lf_obj N)) (o : lf_obj N) (h : o ∈ S) :
    0 < (S.map lf_obj.ref).count o.ref :=
  List.count_pos_iff.2 (List.mem_map_of_mem _ h)

theorem lists_live_left {N : Type} {cnt : Nat → Nat} {S1 S2 : List (lf_obj N)}
    (h : lists_live cnt (S1 ++ S2)) : lists_live cnt S1 := by
  intro o ho ht
  obtain ⟨h1, h2⟩ := h o (List.mem_append_left _ ho) ht
  refine ⟨h1, ?_⟩
  rw [List.map_append, List.count_append] at h2
  have := count_pos_of_mem S1 o ho
  omega

theorem lists_live_right {N : Type} {cnt : Nat → Nat} {S1 S2 : List (lf_obj N)}
    (h : lists_live cnt (S1 ++ S2)) : lists_live cnt S2 := by
  intro o ho ht
  obtain ⟨h1, h2⟩ := h o (List.mem_append_right _ ho) ht
  refine ⟨h1, ?_⟩
  rw [List.map_append, List.count_append] at h2
  have := count_pos_of_mem S2 o ho
  omega

theorem lists_live_not_left {N : Type} {cnt : Nat → Nat} {S1 S2 : List (lf_obj N)}
    (h : lists_live cnt (S1 ++ S2)) (o : lf_obj N) (ho : o ∈ S2) (ht : o.type = .LF_TLST) :
    o.ref ∉ S1.map lf_obj.ref := by
  obtain ⟨_, h2⟩ := h o (List.mem_append_right _ ho) ht
  rw [List.map_append, List.count_append] at h2
  have := count_pos_of_mem S2 o ho
  intro hm
  have := List.count_pos_iff.2 hm
  omega

theorem lists_live_congr {N : Type} {cnt cnt1 : Nat → Nat} {S : List (lf_obj N)}
    (h : lists_live cnt S) (he : ∀ o ∈ S, o.type = .LF_TLST → cnt1 o.ref = cnt o.ref) :
    lists_live cnt1 S := by
  intro o ho ht
  obtain ⟨h1, h2⟩ := h o ho ht
  exact ⟨(he o ho ht).trans h1, h2⟩

theorem lists_live_after {N : Type} {cnt : Nat → Nat} {S1 S2 : List (lf_obj N)}
    (h : lists_live cnt (S1 ++ S2)) (f : Nat) :
    lists_live (S1.foldl release (cnt, f)).1 S2 :=
  lists_live_congr (lists_live_right h) fun o ho ht =>
    fold_release_cnt S1 _ _ (lists_live_not_left h o ho ht)

mutual
theorem free_obj_flat {N : Type} : ∀ (o : lf_obj N) (c : lf_ctx N),
    lists_live c.cnt (flat_obj o) →
    ((free_obj o c).cnt, (free_obj o c).free) = (flat_obj o).foldl release (c.cnt, c.free)
  | .lst r val, c, hl => by
    simp only [flat_obj] at hl
    obtain ⟨h1, h2⟩ := hl (.lst r val) (List.mem_cons_self _ _) rfl
    have hr : r ∉ (flat_chain val).map lf_obj.ref := by
      intro hm
      have := List.count_pos_iff.2 hm
      simp only [List.map_cons, lf_obj.ref, List.count_cons_self] at h2
      omega
    have hd : cnt_dec (c.cnt r) = 0 := by
      show cnt_dec (c.cnt r) = 0
      have h1' : c.cnt r = 1 := h1
      rw [h1']
      rfl
    have hl1 : lists_live (set_cnt c.cnt r 0) (flat_chain val) := by
      refine lists_live_congr (@lists_live_right N c.cnt [lf_obj.lst r val] (flat_chain val) hl) ?_
      intro o ho ht
      refine set_cnt_other _ _ _ _ ?_
      intro he
      exact hr (he ▸ List.mem_map_of_mem _ ho)
    have ih := free_list_flat val { c with cnt := set_cnt c.cnt r 0 } hl1
    simp only [flat_obj, List.foldl_cons]
    have hrel : release (c.cnt, c.free) (lf_obj.lst r val) = (set_cnt c.cnt r 0, c.free + 2) := by
      refine Prod.ext ?_ ?_
      · show set_cnt c.cnt r (cnt_dec (c.cnt r)) = _
        rw [hd]
      · show c.free + 1 + (if cnt_dec (c.cnt r) = 0 then 1 else 0) = c.free + 2
        rw [if_pos hd]
    rw [hrel, fold_release_free, ← ih]
    simp only [free_obj, free_ref, hd, if_true, free_block]
  | .sym r s, c, _ => by
    simp only [flat_obj, List.foldl_cons, List.foldl_nil, free_obj, free_ref, free_block]
    by_cases hd : cnt_dec (c.cnt r) = 0
    · simp only [hd, if_true, release, lf_obj.ref, rec_blocks]
      refine Prod.ext rfl ?_
      show c.free + s.length + 1 + 1 = _
      omega
    · simp only [hd, if_false, release, lf_obj.ref]
  | .str r s, c, _ => by
    simp only [flat_obj, List.foldl_cons, List.foldl_nil, free_obj, free_ref, free_block]
    by_cases hd : cnt_dec (c.cnt r) = 0
    · simp only [hd, if_true, release, lf_obj.ref, rec_blocks]
      refine Prod.ext rfl ?_
      show c.free + s.length + 1 + 1 = _
      omega
    · simp only [hd, if_false, release, lf_obj.ref]
  | .ntv r f, c, _ => by
    simp only [flat_obj, List.foldl_cons, List.foldl_nil, free_obj, free_ref, free_block]
    by_cases hd : cnt_dec (c.cnt r) = 0
    · simp only [hd, if_true, release, lf_obj.ref, rec_blocks]
    · simp only [hd, if_false, release, lf_obj.ref]
  | .num r v, c, _ => by
    simp only [flat_obj, List.foldl_cons, List.foldl_nil, free_obj, free_ref, free_block]
    by_cases hd : cnt_dec (c.cnt r) = 0
    · simp only [hd, if_true, release, lf_obj.ref, rec_blocks]
    · simp only [hd, if_false, release, lf_obj.ref]
  | .usr r d f, c, _ => by
    simp only [flat_obj, List.foldl_cons, List.foldl_nil, free_obj, free_ref, free_block]
    by_cases hd : cnt_dec (c.cnt r) = 0
    · simp only [hd, if_true, release, lf_obj.ref, rec_blocks]
    · simp only [hd, if_false, release, lf_obj.ref]
theorem free_list_flat {N : Type} : ∀ (l : List (lf_obj N)) (c : lf_ctx N),
    lists_live c.cnt (flat_chain l) →
    ((free_list l c).cnt, (free_list l c).free) = (flat_chain l).foldl release (c.cnt, c.free)
  | [], c, _ => rfl
  | o :: rest, c, hl => by
    simp only [flat_chain] at hl
    have ih1 := free_obj_flat o c (lists_live_left hl)
    have hl2 : lists_live (free_obj o c).cnt (flat_chain rest) := by
      have := lists_live_after hl c.free
      rw [← ih1] at this
      exact this
    have ih2 := free_list_flat rest (free_obj o c) hl2
    simp only [flat_chain, fold_release_append]
    rw [← ih1, ← ih2]
    rfl
end

theorem wipe_loop_flat {N : Type} : ∀ (chk : List (List (lf_obj N))) (c : lf_ctx N),
    lists_live c.cnt (flat_all chk) →
    ((wipe_loop chk c).cnt, (wipe_loop chk c).free) =
      (((flat_all chk).foldl release (c.cnt, c.free)).1,
        ((flat_all chk).foldl release (c.cnt, c.free)).2 + chk.length)
  | [], c, _ => rfl
  | head :: next, c, hl => by
    simp only [flat_all] at hl
    have ih1 := free_list_flat head c (lists_live_left hl)
    have hl2 : lists_live (free_block (free_list head c)).cnt (flat_all next) := by
      have := lists_live_after hl c.free
      rw [← ih1] at this
      exact this
    have ih2 := wipe_loop_flat next (free_block (free_list head c)) hl2
    simp only [wipe_loop, flat_all, fold_release_append, List.length_cons]
    rw [ih2, ← ih1]
    show (_, _) = (_, _)
    simp only [free_block]
    rw [fold_release_free]
    refine Prod.ext rfl ?_
    simp only
    omega

theorem lf_wipe_gain {N : Type} (c : lf_ctx N) (h : lists_live c.cnt (flat_all c.chk)) :
    (lf_wipe c).free = wipe_gain c ∧ (lf_wipe c).chk = [] := by
  refine ⟨?_, rfl⟩
  have := congrArg Prod.snd (wipe_loop_flat c.chk c h)
  exact this

theorem fold_release_congr {N : Type} : ∀ (S : List (lf_obj N)) (cnt1 cnt2 : Nat → Nat)
    (f : Nat), (∀ o ∈ S, cnt1 o.ref = cnt2 o.ref) →
    (S.foldl release (cnt1, f)).2 = (S.foldl release (cnt2, f)).2
  | [], _, _, _, _ => rfl
  | o :: S, cnt1, cnt2, f, h => by
    have ho := h o (List.mem_cons_self _ _)
    have e2 : (release (cnt1, f) o).2 = (release (cnt2, f) o).2 := by
      simp only [release_snd, ho]
    show (S.foldl release ((release (cnt1, f) o).1, (release (cnt1, f) o).2)).2 =
      (S.foldl release ((release (cnt2, f) o).1, (release (cnt2, f) o).2)).2
    rw [e2]
    refine fold_release_congr S _ _ _ ?_
    intro p hp
    simp only [release_fst, set_cnt, ho]
    rw [h p (List.mem_cons_of_mem _ hp)]

theorem fold_release_cons_perm {N : Type} {S1 S : List (lf_obj N)} {x : lf_obj N}
    (p : S1.Perm (x :: S)) (h : ∀ a ∈ S1, ∀ b ∈ S1, a.ref = b.ref → a = b)
    (cnt1 cnt : Nat → Nat) (f1 : Nat)
    (he : ∀ o ∈ S, (release (cnt1, f1) x).1 o.ref = cnt o.ref) :
    (S1.foldl release (cnt1, f1)).2 = (S.foldl release (cnt, (release (cnt1, f1) x).2)).2 := by
  rw [fold_release_perm p h, List.foldl_cons]
  show (S.foldl release ((release (cnt1, f1) x).1, (release (cnt1, f1) x).2)).2 = _
  exact fold_release_congr S _ _ _ he

theorem flat_obj_nonlist {N : Type} (x : lf_obj N) (h : x.type ≠ .LF_TLST) :
    flat_obj x = [x] := by
  cases x with
  | lst r v => exact absurd rfl h
  | _ => simp only [flat_obj]

theorem flat_all_snoc_perm {N : Type} (head : List (lf_obj N)) (x : lf_obj N)
    (next : List (List (lf_obj N))) :
    (flat_all ((head ++ [x]) :: next)).Perm (flat_obj x ++ flat_all (head :: next)) := by
  simp only [flat_all, flat_chain_append, flat_chain, List.append_nil]
  rw [← List.append_assoc]
  exact List.Perm.append_right _ List.perm_append_comm

theorem objeq_nonlist {N : Type} [LfNum N] (x obj : lf_obj N) (h : objeq x obj = true)
    (ht : obj.type ≠ .LF_TLST) : x.type ≠ .LF_TLST := by
  intro hx
  cases x with
  | lst r v =>
    rw [objeq_lst_nonlist r v obj ht] at h
    cases h
  | _ => cases hx

theorem free_ref_nonlist {N : Type} (obj : lf_obj N) (c : lf_ctx N)
    (ht : obj.type ≠ .LF_TLST) :
    (free_ref obj c).cnt = set_cnt c.cnt obj.ref (cnt_dec (c.cnt obj.ref)) ∧
      (free_ref obj c).free =
        c.free + (if cnt_dec (c.cnt obj.ref) = 0 then rec_blocks obj else 0) ∧
      (free_ref obj c).brk = c.brk ∧ (free_ref obj c).chk = c.chk := by
  cases obj with
  | lst r v => exact absurd rfl ht
  | sym r s =>
    simp only [free_ref, lf_obj.ref, rec_blocks, free_block]
    by_cases hd : cnt_dec (c.cnt r) = 0
    · simp only [hd, if_true, and_true, true_and]
      omega
    · simp only [hd, if_false, and_true, true_and, Nat.add_zero]
  | str r s =>
    simp only [free_ref, lf_obj.ref, rec_blocks, free_block]
    by_cases hd : cnt_dec (c.cnt r) = 0
    · simp only [hd, if_true, and_true, true_and]
      omega
    · simp only [hd, if_false, and_true, true_and, Nat.add_zero]
  | ntv r f =>
    simp only [free_ref, lf_obj.ref, rec_blocks, free_block]
    by_cases hd : cnt_dec (c.cnt r) = 0
    · simp only [hd, if_true, and_true, true_and]
    · simp only [hd, if_false, and_true, true_and, Nat.add_zero]
  | num r v =>
    simp only [free_ref, lf_obj.ref, rec_blocks, free_block]
    by_cases hd : cnt_dec (c.cnt r) = 0
    · simp only [hd, if_true, and_true, true_and]
    · simp only [hd, if_false, and_true, true_and, Nat.add_zero]
  | usr r d f =>
    simp only [free_ref, lf_obj.ref, rec_blocks, free_block]
    by_cases hd : cnt_dec (c.cnt r) = 0
    · simp only [hd, if_true, and_true, true_and]
    · simp only [hd, if_false, and_true, true_and, Nat.add_zero]

theorem build_string_loop_free {N : Type} : ∀ (fuel : Nat) (txt : List Char) (len : Nat)
    {c c1 : lf_ctx N} {s : lf_str},
    build_string_loop fuel txt len c = .ok s c1 →
    s.length ≤ c.free ∧ c1 = { c with free := c.free - s.length }
  | 0, _, _, _, _, _, h => by cases h
  | fuel + 1, txt, len, c, c1, s, h => by
    unfold build_string_loop at h
    by_cases hz : len = 0
    · rw [if_pos hz] at h
      cases h
      exact ⟨Nat.zero_le _, rfl⟩
    · rw [if_neg hz] at h
      obtain ⟨_, c2, hb, h1⟩ := bind_ok_inv h
      obtain ⟨hf, e⟩ := make_block_inv hb
      generalize copy_seg (if len < LF_STRBUF_SIZE - 1 then len else LF_STRBUF_SIZE - 1) txt = p
        at h1
      obtain ⟨seg, txt1⟩ := p
      obtain ⟨rest, c3, hr, h2⟩ := bind_ok_inv h1
      cases h2
      obtain ⟨a1, a2⟩ := build_string_loop_free fuel txt1 _ hr
      rw [e] at a1 a2
      simp only at a1 a2
      refine ⟨by simp only [List.length_cons]; omega, ?_⟩
      rw [a2]
      simp only [List.length_cons, lf_ctx.mk.injEq, and_true, true_and]
      omega

theorem cells_inv_perm {N : Type} {cnt : Nat → Nat} {free brk : Nat} {S1 S2 : List (lf_obj N)}
    (p : S1.Perm S2) (h : cells_inv cnt free brk S1) : cells_inv cnt free brk S2 := by
  obtain ⟨h1, h2, h3⟩ := h
  refine ⟨fun o ho => h1 o (p.mem_iff.2 ho),
    fun a ha b hb => h2 a (p.mem_iff.2 ha) b (p.mem_iff.2 hb), ?_⟩
  intro o ho ht
  obtain ⟨a, b⟩ := h3 o (p.mem_iff.2 ho) ht
  refine ⟨a, ?_⟩
  rw [← (p.map lf_obj.ref).count_eq]
  exact b

theorem ref_not_mem_of_lt {N : Type} {cnt : Nat → Nat} {free brk : Nat} {S : List (lf_obj N)}
    (h : cells_inv cnt free brk S) : brk ∉ S.map lf_obj.ref := by
  intro hm
  obtain ⟨o, ho, e⟩ := List.mem_map.1 hm
  have := (h.1 o ho).1
  omega

theorem cells_inv_fresh {N : Type} {cnt cnt1 : Nat → Nat} {free free1 brk : Nat}
    {S : List (lf_obj N)} (x : lf_obj N) (h : cells_inv cnt free brk S) (hx : x.ref = brk)
    (hf : free1 < free) (hfu : free ≤ UINT_MAX) (h1 : cnt1 brk = 1)
    (he : ∀ o ∈ S, cnt1 o.ref = cnt o.ref) : cells_inv cnt1 free1 (brk + 1) (x :: S) := by
  have hnm := ref_not_mem_of_lt h
  obtain ⟨a1, a2, a3⟩ := h
  refine ⟨?_, ?_, ?_⟩
  · intro o ho
    rcases List.mem_cons.1 ho with e | ho
    · rw [e, hx, h1]
      exact ⟨by omega, by omega, by omega⟩
    · obtain ⟨b1, b2, b3⟩ := a1 o ho
      rw [he o ho]
      exact ⟨by omega, b2, by omega⟩
  · intro a ha b hb hab
    rcases List.mem_cons.1 ha with e | ha
    · rcases List.mem_cons.1 hb with e1 | hb
      · rw [e, e1]
      · have := (a1 b hb).1
        rw [e, hx] at hab
        omega
    · rcases List.mem_cons.1 hb with e1 | hb
      · have := (a1 a ha).1
        rw [e1, hx] at hab
        omega
      · exact a2 a ha b hb hab
  · intro o ho ht
    rcases List.mem_cons.1 ho with e | ho
    · rw [e, hx, h1]
      refine ⟨rfl, ?_⟩
      rw [List.map_cons, hx, List.count_cons_self, List.count_eq_zero_of_not_mem hnm]
    · obtain ⟨b1, b2⟩ := a3 o ho ht
      have hne : x.ref ≠ o.ref := by
        have := (a1 o ho).1
        omega
      rw [he o ho, List.map_cons, List.count_cons_of_ne (Ne.symm hne)]
      exact ⟨b1, b2⟩

theorem cells_inv_alias {N : Type} {cnt cnt1 : Nat → Nat} {free brk : Nat}
    {S : List (lf_obj N)} (x : lf_obj N) (h : cells_inv cnt free brk S) (hx : x ∈ S)
    (ht : x.type ≠ .LF_TLST) (hf : 0 < free) (h1 : cnt1 x.ref = cnt_inc (cnt x.ref))
    (he : ∀ o ∈ S, o.ref ≠ x.ref → cnt1 o.ref = cnt o.ref) :
    cells_inv cnt1 (free - 1) (brk + 1) (x :: S) := by
  obtain ⟨a1, a2, a3⟩ := h
  have hmem : ∀ o ∈ x :: S, o ∈ S := by
    intro o ho
    rcases List.mem_cons.1 ho with e | ho
    · rw [e]
      exact hx
    · exact ho
  have hinc : cnt_inc (cnt x.ref) = cnt x.ref + 1 := by
    have := (a1 x hx).2.2
    have hne : cnt x.ref ≠ UINT_MAX := by omega
    simp only [cnt_inc, hne, if_false]
  refine ⟨?_, fun a ha b hb => a2 a (hmem a ha) b (hmem b hb), ?_⟩
  · intro o ho
    obtain ⟨b1, b2, b3⟩ := a1 o (hmem o ho)
    by_cases e : o.ref = x.ref
    · rw [e, h1, hinc]
      rw [e] at b3
      exact ⟨by omega, by omega, by omega⟩
    · rw [he o (hmem o ho) e]
      exact ⟨by omega, b2, by omega⟩
  · intro o ho hto
    have hne : o.ref ≠ x.ref := by
      intro e
      have := a2 o (hmem o ho) x hx e
      rw [this] at hto
      exact ht hto
    obtain ⟨b1, b2⟩ := a3 o (hmem o ho) hto
    rw [he o (hmem o ho) hne, List.map_cons, List.count_cons_of_ne hne]
    exact ⟨b1, b2⟩

theorem act_leaf_state {N : Type} [LfNum N] {t : tok} {it : item} {c c1 : lf_ctx N}
    (hit : t.item = some it) (h : act t c = .ok () c1) :
    ∃ obj c2, obj.type ≠ .LF_TLST ∧ obj.ref = c.brk ∧
      c2.free + 1 + rec_blocks obj = c.free ∧ c2.cnt = set_cnt c.cnt c.brk 1 ∧
      c2.brk = c.brk + 1 ∧ c2.chk = c.chk ∧ append_obj obj c2 = .ok () c1 := by
  cases t with
  | str bytes =>
    simp only [act] at h
    obtain ⟨r, c2, h1, h2⟩ := bind_ok_inv h
    obtain ⟨_, c3, h3, h4⟩ := bind_ok_inv h2
    obtain ⟨hf, er, e2⟩ := make_obj_inv h1
    obtain ⟨hk, e3⟩ := take_blocks_inv _ h3
    rw [e2] at hk e3
    simp only at hk e3
    refine ⟨.str r (lit_segs bytes), c3, by simp [lf_obj.type], er, ?_, ?_, ?_, ?_, h4⟩
    · rw [e3]
      simp only [rec_blocks]
      omega
    · rw [e3]
    · rw [e3]
    · rw [e3]
  | word buf =>
    simp only [act, read_word] at h
    obtain ⟨r, c2, h1, h2⟩ := bind_ok_inv h
    obtain ⟨hf, er, e2⟩ := make_obj_inv h1
    cases hb : find_builtin buf with
    | some fn =>
      rw [hb] at h2
      refine ⟨.ntv r fn, c2, by simp [lf_obj.type], er, ?_, ?_, ?_, ?_, h2⟩
      · rw [e2]
        simp only [rec_blocks]
        omega
      · rw [e2]
      · rw [e2]
      · rw [e2]
    | none =>
      rw [hb] at h2
      cases hs : (LfNum.strtod buf : Option N) with
      | some num =>
        rw [hs] at h2
        refine ⟨.num r num, c2, by simp [lf_obj.type], er, ?_, ?_, ?_, ?_, h2⟩
        · rw [e2]
          simp only [rec_blocks]
          omega
        · rw [e2]
        · rw [e2]
        · rw [e2]
      | none =>
        rw [hs] at h2
        obtain ⟨s, c3, h3, h4⟩ := bind_ok_inv h2
        obtain ⟨hk, e3⟩ := build_string_loop_free _ _ _ h3
        rw [e2] at hk e3
        simp only at hk e3
        refine ⟨.sym r s, c3, by simp [lf_obj.type], er, ?_, ?_, ?_, ?_, h4⟩
        · rw [e3]
          simp only [rec_blocks]
          omega
        · rw [e3]
        · rw [e3]
        · rw [e3]
  | lst_begin => cases hit
  | lst_end => cases hit
  | bad_str b => cases hit
  | bad_word => cases hit
  | more => cases hit

theorem append_obj_state {N : Type} [LfNum N] {obj : lf_obj N} {c2 c1 : lf_ctx N}
    (ht : obj.type ≠ .LF_TLST) (h : append_obj obj c2 = .ok () c1) :
    ∃ head next, c2.chk = head :: next ∧ c1.brk = c2.brk ∧
      ((c1.chk = (head ++ [obj]) :: next ∧ c1.free = c2.free ∧ c1.cnt = c2.cnt) ∨
       (∃ x, x ∈ c2.chk.flatten ∧ x.type ≠ .LF_TLST ∧ c1.chk = (head ++ [x]) :: next ∧
          c1.free = c2.free + (if cnt_dec (c2.cnt obj.ref) = 0 then rec_blocks obj else 0) ∧
          c1.cnt = set_cnt (set_cnt c2.cnt obj.ref (cnt_dec (c2.cnt obj.ref))) x.ref
            (cnt_inc (set_cnt c2.cnt obj.ref (cnt_dec (c2.cnt obj.ref)) x.ref)))) := by
  rw [append_obj_eq] at h
  cases hc : c2.chk with
  | nil =>
    rw [hc] at h
    cases h
  | cons head next =>
    rw [hc] at h
    cases hs : search_entry obj (head :: next) with
    | none =>
      rw [hs] at h
      cases h
      exact ⟨head, next, rfl, rfl, Or.inl ⟨rfl, rfl, rfl⟩⟩
    | some x =>
      rw [hs] at h
      cases h
      obtain ⟨hm, hq⟩ := search_entry_some obj _ x hs
      obtain ⟨f1, f2, f3, f4⟩ := free_ref_nonlist obj c2 ht
      refine ⟨head, next, rfl, f3, Or.inr ⟨x, hm, objeq_nonlist x obj hq ht, rfl, f2, ?_⟩⟩
      show set_cnt (free_ref obj c2).cnt x.ref (cnt_inc ((free_ref obj c2).cnt x.ref)) = _
      rw [f1]

theorem gain_open {N : Type} {c c1 : lf_ctx N} (e1 : c1.free + 1 = c.free)
    (e2 : c1.cnt = c.cnt) (e3 : c1.brk = c.brk) (e4 : c1.chk = [] :: c.chk)
    (hi : chunk_inv c) : chunk_inv c1 ∧ wipe_gain c1 = wipe_gain c := by
  obtain ⟨hu, h1, h2, h3⟩ := hi
  have hS : flat_all c1.chk = flat_all c.chk := by
    rw [e4]
    simp only [flat_all, flat_chain, List.nil_append]
  refine ⟨⟨by omega, ?_, ?_, ?_⟩, ?_⟩
  · intro o ho
    rw [hS] at ho
    obtain ⟨a, b, d⟩ := h1 o ho
    rw [e2, e3]
    exact ⟨a, b, by omega⟩
  · rw [hS]
    exact h2
  · rw [hS, e2]
    exact h3
  · unfold wipe_gain
    rw [hS, e2, e4, ← e1, fold_release_free, List.length_cons]
    simp only
    omega

theorem gain_cons {N : Type} {c c1 : lf_ctx N} (x : lf_obj N) (k : Nat)
    (hu : c1.free ≤ UINT_MAX) (p : (flat_all c1.chk).Perm (x :: flat_all c.chk))
    (hinv : cells_inv c1.cnt c1.free c1.brk (x :: flat_all c.chk))
    (he : ∀ o ∈ flat_all c.chk, (release (c1.cnt, c1.free) x).1 o.ref = c.cnt o.ref)
    (hf : (release (c1.cnt, c1.free) x).2 = c.free + k)
    (hl : c1.chk.length + k = c.chk.length) :
    chunk_inv c1 ∧ wipe_gain c1 = wipe_gain c := by
  have hinv1 := cells_inv_perm p.symm hinv
  refine ⟨⟨hu, hinv1⟩, ?_⟩
  unfold wipe_gain
  rw [fold_release_cons_perm p hinv1.2.1 c1.cnt c.cnt c1.free he, hf, fold_release_free]
  simp only
  omega

theorem cnt_dec_one : cnt_dec 1 = 0 := rfl

theorem gain_fresh {N : Type} {c c1 : lf_ctx N} (x : lf_obj N) (k : Nat) (hi : chunk_inv c)
    (p : (flat_all c1.chk).Perm (x :: flat_all c.chk)) (hx : x.ref = c.brk)
    (e1 : c1.free + rec_blocks x + 1 = c.free + k) (hk : k < rec_blocks x + 1)
    (e2 : c1.cnt = set_cnt c.cnt c.brk 1) (e3 : c1.brk = c.brk + 1)
    (hl : c1.chk.length + k = c.chk.length) :
    chunk_inv c1 ∧ wipe_gain c1 = wipe_gain c := by
  obtain ⟨hu, hc⟩ := hi
  have hne : ∀ o ∈ flat_all c.chk, o.ref ≠ c.brk := by
    intro o ho
    have := (hc.1 o ho).1
    omega
  have hb : c1.cnt c.brk = 1 := by rw [e2, set_cnt_same]
  have ho : ∀ o ∈ flat_all c.chk, c1.cnt o.ref = c.cnt o.ref := by
    intro o ho
    rw [e2, set_cnt_other _ _ _ _ (hne o ho)]
  refine gain_cons x k (by omega) p ?_ ?_ ?_ hl
  · rw [e3]
    exact cells_inv_fresh x hc hx (by omega) hu hb ho
  · intro o hm
    rw [release_fst, hx, set_cnt_other _ _ _ _ (hne o hm)]
    exact ho o hm
  · rw [release_snd]
    show c1.free + 1 + (if cnt_dec (c1.cnt x.ref) = 0 then rec_blocks x else 0) = c.free + k
    rw [hx, hb, cnt_dec_one, if_pos rfl]
    omega

theorem gain_alias {N : Type} {c c1 : lf_ctx N} (x : lf_obj N) (hi : chunk_inv c)
    (p : (flat_all c1.chk).Perm (x :: flat_all c.chk)) (hx : x ∈ flat_all c.chk)
    (ht : x.type ≠ .LF_TLST) (e1 : c1.free + 1 = c.free)
    (e2 : c1.cnt x.ref = cnt_inc (c.cnt x.ref))
    (e2o : ∀ o ∈ flat_all c.chk, o.ref ≠ x.ref → c1.cnt o.ref = c.cnt o.ref)
    (e3 : c1.brk = c.brk + 1) (hl : c1.chk.length = c.chk.length) :
    chunk_inv c1 ∧ wipe_gain c1 = wipe_gain c := by
  obtain ⟨hu, hc⟩ := hi
  have hf1 : c1.free = c.free - 1 := by omega
  have hpos := (hc.1 x hx).2.1
  refine gain_cons x 0 (by omega) p ?_ ?_ ?_ (by omega)
  · rw [e3, hf1]
    exact cells_inv_alias x hc hx ht (by omega) e2 e2o
  · intro o hm
    rw [release_fst]
    by_cases e : o.ref = x.ref
    · rw [e, set_cnt_same]
      show cnt_dec (c1.cnt x.ref) = c.cnt x.ref
      rw [e2, cnt_dec_inc]
    · rw [set_cnt_other _ _ _ _ e]
      exact e2o o hm e
  · rw [release_snd]
    show c1.free + 1 + (if cnt_dec (c1.cnt x.ref) = 0 then rec_blocks x else 0) = c.free + 0
    rw [e2, cnt_dec_inc, if_neg (by omega)]
    omega

theorem act_gain_leaf {N : Type} [LfNum N] {t : tok} {it : item} {c c1 : lf_ctx N}
    (hit : t.item = some it) (h : act t c = .ok () c1) (hi : chunk_inv c) :
    chunk_inv c1 ∧ wipe_gain c1 = wipe_gain c := by
  obtain ⟨obj, c2, ht, hr, f2, n2, b2, k2, ha⟩ := act_leaf_state hit h
  obtain ⟨head, next, hc, hb, hs⟩ := append_obj_state ht ha
  rw [k2] at hc
  have hp : ∀ x : lf_obj N, x.type ≠ .LF_TLST → c1.chk = (head ++ [x]) :: next →
      (flat_all c1.chk).Perm (x :: flat_all c.chk) := by
    intro x hx e
    rw [e, hc]
    have := flat_all_snoc_perm head x next
    rw [flat_obj_nonlist x hx] at this
    exact this
  have hlen : ∀ x : lf_obj N, c1.chk = (head ++ [x]) :: next →
      c1.chk.length = c.chk.length := by
    intro x e
    rw [e, hc]
    rfl
  rcases hs with ⟨e4, e1, e2⟩ | ⟨x, hm, hx, e4, e1, e2⟩
  · refine gain_fresh obj 0 hi (hp obj ht e4) hr ?_ (by omega) ?_ ?_ ?_
    · rw [e1]
      omega
    · rw [e2, n2]
    · rw [hb, b2]
    · rw [hlen obj e4]
      rfl
  · rw [k2] at hm
    have hxm := mem_flat_all_of_mem c.chk x hm
    have hxb : x.ref ≠ c.brk := by
      have := (hi.2.1 x hxm).1
      omega
    have hd : cnt_dec (c2.cnt obj.ref) = 0 := by
      rw [n2, hr, set_cnt_same]
      rfl
    rw [hd, if_pos rfl] at e1
    rw [hd] at e2
    refine gain_alias x hi (hp x hx e4) hxm hx (by omega) ?_ ?_ (by rw [hb, b2]) (hlen x e4)
    · rw [e2, set_cnt_same, hr, set_cnt_other _ _ _ _ hxb, n2, set_cnt_other _ _ _ _ hxb]
    · intro o ho hne
      have hob : o.ref ≠ c.brk := by
        have := (hi.2.1 o ho).1
        omega
      rw [e2, set_cnt_other _ _ _ _ hne, hr, set_cnt_other _ _ _ _ hob, n2,
        set_cnt_other _ _ _ _ hob]

theorem act_gain {N : Type} [LfNum N] {t : tok} {c c1 : lf_ctx N}
    (h : act t c = .ok () c1) (hi : chunk_inv c) :
    chunk_inv c1 ∧ wipe_gain c1 = wipe_gain c := by
  cases t with
  | lst_begin =>
    obtain ⟨hf, e⟩ := make_chk_inv h
    subst e
    exact gain_open (Nat.sub_add_cancel hf) rfl rfl rfl hi
  | lst_end =>
    obtain ⟨head, next, rest, hc, hf, e⟩ := read_end_inv h
    subst e
    refine gain_fresh (.lst c.brk head) 1 hi ?_ rfl ?_ (by simp only [rec_blocks]; omega)
      rfl rfl ?_
    · show (flat_all ((next ++ [.lst c.brk head]) :: rest)).Perm _
      rw [hc]
      refine (flat_all_snoc_perm next _ rest).trans ?_
      simp only [flat_obj, flat_all, List.cons_append]
      exact List.Perm.refl _
    · show c.free - 1 + rec_blocks (lf_obj.lst c.brk head) + 1 = c.free + 1
      simp only [rec_blocks]
      omega
    · show ((next ++ [.lst c.brk head]) :: rest).length + 1 = c.chk.length
      rw [hc]
      simp only [List.length_cons]
  | str bytes =>
    have hit : (tok.str bytes).item = some (.str bytes) := rfl
    exact act_gain_leaf hit h hi
  | word buf =>
    have hit : (tok.word buf).item = some (.word buf) := rfl
    exact act_gain_leaf hit h hi
  | bad_str bytes =>
    simp only [act] at h
    obtain ⟨r, c2, h1, h2⟩ := bind_ok_inv h
    obtain ⟨_, c3, h3, h4⟩ := bind_ok_inv h2
    cases h4
  | bad_word =>
    simp only [act] at h
    obtain ⟨r, c2, h1, h2⟩ := bind_ok_inv h
    cases h2
  | more => cases h

theorem run_toks_gain {N : Type} [LfNum N] : ∀ (ts : List tok) {c c1 : lf_ctx N},
    run_toks ts c = .ok () c1 → chunk_inv c → chunk_inv c1 ∧ wipe_gain c1 = wipe_gain c
  | [], c, c1, h, hi => by
    cases h
    exact ⟨hi, rfl⟩
  | t :: ts, c, c1, h, hi => by
    simp only [run_toks] at h
    obtain ⟨_, c2, h1, h2⟩ := bind_ok_inv h
    obtain ⟨a, b⟩ := act_gain h1 hi
    obtain ⟨a1, b1⟩ := run_toks_gain ts h2 a
    exact ⟨a1, b1.trans b⟩

theorem chunk_inv_start {N : Type} (c : lf_ctx N) (hc : c.chk = []) (hf : c.free ≤ UINT_MAX) :
    chunk_inv c ∧ wipe_gain c = c.free := by
  unfold chunk_inv cells_inv lists_live wipe_gain
  rw [hc]
  have hm : ∀ o : lf_obj N, o ∉ flat_all ([] : List (List (lf_obj N))) := by
    intro o ho
    cases ho
  exact ⟨⟨hf, fun o ho => absurd ho (hm o), fun a ha => absurd ha (hm a),
    fun o ho => absurd ho (hm o)⟩, rfl⟩

/-- C23: let a text (the bytes before the NUL that ends it) be read by
`lf_read` into a `NULL` chunk from a context whose free list holds at most
`UINT_MAX` blocks, so that no count of references can wrap around, and let
`lf_read` return `LF_SOK`.  Then `lf_wipe` leaves the free list with exactly the
length it had before the read and the chunk pointer `NULL`: the blocks of the
chunks, of the cells, of the records (also those that interning released and
replaced by an alias) and of the string segments are all given back, each
once. -/
theorem C23_wipe_restores_free_list {N : Type} [LfNum N] (inp : List Char) (c c1 : lf_ctx N)
    (hnul : NUL ∉ inp) (hc : c.chk = []) (hf : c.free ≤ UINT_MAX)
    (h : lf_read inp c = .ok () c1) :
    (lf_wipe c1).free = c.free ∧ (lf_wipe c1).chk = [] := by
  rw [lf_read_tokens inp hnul c, hc] at h
  obtain ⟨hi, hg⟩ := chunk_inv_start c hc hf
  obtain ⟨a, b⟩ := run_toks_gain _ h hi
  obtain ⟨w1, w2⟩ := lf_wipe_gain c1 a.2.2.2
  exact ⟨w1.trans (b.trans hg), w2⟩

/-- C23 on the text `1 [a "bc" 1 [a]] a 1 "bc"` read into a `NULL` chunk with
100 free blocks: the read returns with 78 free blocks and one open chunk in
which the three cells of `1` share the record 0 and the two cells of `a` inside
the list share the record 1, and `lf_wipe` leaves 100 free blocks and no
chunk. -/
theorem C23_wipe_witness :
    NUL ∉ "1 [a \"bc\" 1 [a]] a 1 \"bc\"".toList ∧ (ctx0 Sc 100).chk = [] ∧
      (ctx0 Sc 100).free ≤ UINT_MAX ∧
      ∃ c1, lf_read "1 [a \"bc\" 1 [a]] a 1 \"bc\"".toList (ctx0 Sc 100) = .ok () c1 ∧
        (c1.chk, c1.free) =
          ([[.num 0 (.fin 1 1),
             .lst 6 [.sym 1 [['a']], .str 2 [['b', 'c']], .num 0 (.fin 1 1),
               .lst 5 [.sym 1 [['a']]]],
             .sym 7 [['a']], .num 0 (.fin 1 1), .str 9 [['b', 'c']]]], 78) ∧
        (lf_wipe c1).free = (ctx0 Sc 100).free ∧ (lf_wipe c1).chk = [] :=
  have hg : (lf_read "1 [a \"bc\" 1 [a]] a 1 \"bc\"".toList (ctx0 Sc 100)).get
      (fun c => (c.chk, c.free)) =
      some ([[.num 0 (.fin 1 1),
             .lst 6 [.sym 1 [['a']], .str 2 [['b', 'c']], .num 0 (.fin 1 1),
               .lst 5 [.sym 1 [['a']]]],
             .sym 7 [['a']], .num 0 (.fin 1 1), .str 9 [['b', 'c']]]], 78) := by decide!
  ⟨by decide!, rfl, by decide,
    (ok_of_get hg).elim fun _ a => a.elim fun c1 b =>
      ⟨c1, b.1, b.2,
        C23_wipe_restores_free_list "1 [a \"bc\" 1 [a]] a 1 \"bc\"".toList (ctx0 Sc 100) c1
          (by decide!) rfl (by decide) b.1⟩⟩

end Lifo
